import Mathlib

/-!
# Small-object allocator: Chunk, FixedAllocator, SmallObjAllocator

A shallow embedding of `src/xx-allocator/src/allocator` and the properties
the specification states about it.

Conventions of the embedding
* Memory is a map from addresses to bytes; a pointer is an address, the
  null pointer is address `0`, and a function that returns `nullptr` by a
  literal `return nullptr;` returns `none`.
* `unsigned char` fields are natural numbers; every assignment that narrows
  to `unsigned char` is written with `% 256`.
* A `Chunk*` into `chunks_` is the index of the element it points to.
* A failed `assert`, and a step that leaves the embedded state space, is the
  result `none` of the operation.
-/

namespace SmallObj

/-! ## Memory -/

/-- Byte-addressed memory: the byte stored at each address. -/
abbrev Mem := Nat → Nat

/-- Read of one byte. -/
def Mem.load (mem : Mem) (a : Nat) : Nat := mem a % 256

/-- Store of one byte. -/
def Mem.store (mem : Mem) (a v : Nat) : Mem := fun x => if x = a then v % 256 else mem x

/-! ## Chunk (chunk.hpp, chunk.cpp) -/

/-- The struct `Chunk`: buffer address, index of the first free block and
number of free blocks. -/
structure Chunk where
  pData_ : Nat
  firstAvailableBlock_ : Nat
  nAvailableBlocks_ : Nat
  deriving DecidableEq

/-- The loop of `Chunk::init`:
`for (blockIdx = 0; blockIdx != numBlocks; pBlock += blockSize) *pBlock = ++blockIdx;`
with the number of iterations still to run as first argument. -/
def Chunk.seed (blockSize : Nat) : Nat → Nat → Nat → Mem → Mem
  | 0, _, _, mem => mem
  | k + 1, blockIdx, pBlock, mem =>
      Chunk.seed blockSize k (blockIdx + 1) (pBlock + blockSize) (mem.store pBlock (blockIdx + 1))

/-- `Chunk::init(blockSize, numBlocks)`. `newData` is the address the
expression `new Byte_t[blockSize * numBlocks]` evaluates to. The result is
the returned flag, the Chunk and the memory. -/
def Chunk.init (c : Chunk) (mem : Mem) (newData blockSize numBlocks : Nat) : Bool × Chunk × Mem :=
  if newData = 0 then (false, { c with pData_ := 0 }, mem)
  else
    (true,
     { pData_ := newData, firstAvailableBlock_ := 0, nAvailableBlocks_ := numBlocks % 256 },
     Chunk.seed blockSize (numBlocks % 256) 0 newData mem)

/-- `Chunk::allocate(blockSize)`: the returned pointer and the Chunk. -/
def Chunk.allocate (c : Chunk) (mem : Mem) (blockSize : Nat) : Option Nat × Chunk :=
  if c.nAvailableBlocks_ = 0 then (none, c)
  else
    let pAllocatedBlock := c.pData_ + c.firstAvailableBlock_ * blockSize
    (some pAllocatedBlock,
     { c with firstAvailableBlock_ := mem.load pAllocatedBlock,
              nAvailableBlocks_ := c.nAvailableBlocks_ - 1 })

/-- `Chunk::deallocate(p, blockSize)`; `none` when one of its three
assertions fails. -/
def Chunk.deallocate (c : Chunk) (mem : Mem) (p blockSize : Nat) : Option (Chunk × Mem) :=
  if ¬ c.pData_ ≤ p then none
  else if (p - c.pData_) % blockSize ≠ 0 then none
  else
    let mem1 := mem.store p c.firstAvailableBlock_
    let first := ((p - c.pData_) / blockSize) % 256
    if first ≠ (p - c.pData_) / blockSize then none
    else some ({ c with firstAvailableBlock_ := first,
                        nAvailableBlocks_ := (c.nAvailableBlocks_ + 1) % 256 }, mem1)

/-- `Chunk::release()`. -/
def Chunk.release (_c : Chunk) : Chunk :=
  { pData_ := 0, firstAvailableBlock_ := 0, nAvailableBlocks_ := 0 }

/-- The block indices met when following the links of the free list for `n`
steps from block `first`: the first byte of a free block is the index of the
next free block. -/
def Chunk.links (mem : Mem) (pData blockSize : Nat) : Nat → Nat → List Nat
  | _, 0 => []
  | first, n + 1 =>
      first :: Chunk.links mem pData blockSize (mem.load (pData + first * blockSize)) n

/-- The free list of a Chunk: the links followed from `firstAvailableBlock_`
for `nAvailableBlocks_` steps. -/
def Chunk.freeList (c : Chunk) (mem : Mem) (blockSize : Nat) : List Nat :=
  Chunk.links mem c.pData_ blockSize c.firstAvailableBlock_ c.nAvailableBlocks_

/-- The test `c.pData_ <= p && p < c.pData_ + chunkLength` of `vicinityFind`. -/
def Chunk.covers (c : Chunk) (chunkLength p : Nat) : Bool :=
  decide (c.pData_ ≤ p) && decide (p < c.pData_ + chunkLength)

/-! ## FixedAllocator (fixed_allocator.hpp, fixed_allocator.cpp) -/

/-- The macro `DEFAULT_CHUNK_SIZE`. -/
def DEFAULT_CHUNK_SIZE : Nat := 4096

/-- The data members of `FixedAllocator` other than the ring links. -/
structure FixedAllocator where
  blockSize_ : Nat
  numBlocks_ : Nat
  chunks_ : List Chunk
  allocChunk_ : Option Nat
  deallocChunk_ : Option Nat
  deriving DecidableEq

/-- The local `numBlocks` of the constructor `FixedAllocator(blockSize)`
before it is narrowed to `BlockNumber_t`. -/
def FixedAllocator.numBlocksFor (blockSize : Nat) : Nat :=
  let numBlocks := DEFAULT_CHUNK_SIZE / blockSize
  if 255 < numBlocks then 255
  else if numBlocks = 0 then (8 * blockSize) % 2 ^ 64
  else numBlocks

/-- The constructor `FixedAllocator(blockSize)`; `none` when one of its two
assertions fails. -/
def FixedAllocator.construct (blockSize : Nat) : Option FixedAllocator :=
  if blockSize = 0 then none
  else
    let numBlocks := FixedAllocator.numBlocksFor blockSize
    if numBlocks % 256 ≠ numBlocks then none
    else some { blockSize_ := blockSize, numBlocks_ := numBlocks % 256, chunks_ := [],
                allocChunk_ := none, deallocChunk_ := none }

/-- What one call of `FixedAllocator::allocate` takes from outside the
allocator: the value the scan reads as `nAvailableBlocks_` at the position
`chunks_.end()`, the address `new Byte_t[...]` evaluates to, and the
indeterminate fields of the local `Chunk newChunk;`. -/
structure AllocEnv where
  pastEnd : Nat
  newData : Nat
  uninit : Chunk

/-- Outcome of the scan loop of `FixedAllocator::allocate`. -/
inductive ScanResult where
  | found (i : Nat)
  | beyond
  | create

/-- The scan loop of `FixedAllocator::allocate` from position `i`, on the
Chunks from position `i` on. Each turn first tests `0 < chunkItr->nAvailableBlocks_`
and only then `chunkItr == chunks_.end()`; at `end()` the first test reads
`pastEnd`. `beyond`: that read was nonzero, `allocChunk_` is set to `end()`. -/
def FixedAllocator.scan (pastEnd : Nat) : List Chunk → Nat → ScanResult
  | [], _ => if 0 < pastEnd then ScanResult.beyond else ScanResult.create
  | c :: rest, i =>
      if 0 < c.nAvailableBlocks_ then ScanResult.found i
      else FixedAllocator.scan pastEnd rest (i + 1)

/-- The body of `if (nullptr == allocChunk_ || 0 == allocChunk_->nAvailableBlocks_)`
in `FixedAllocator::allocate`. `none`: `allocChunk_` has been set to `end()`,
outside the vector. -/
def FixedAllocator.refill (fa : FixedAllocator) (mem : Mem) (env : AllocEnv) :
    Option (FixedAllocator × Mem) :=
  match FixedAllocator.scan env.pastEnd fa.chunks_ 0 with
  | ScanResult.found i => some ({ fa with allocChunk_ := some i }, mem)
  | ScanResult.beyond => none
  | ScanResult.create =>
      let r := env.uninit.init mem env.newData fa.blockSize_ fa.numBlocks_
      some ({ fa with chunks_ := fa.chunks_ ++ [r.2.1],
                      allocChunk_ := some fa.chunks_.length,
                      deallocChunk_ := some 0 }, r.2.2)

/-- The statement
`if (nullptr == allocChunk_ || 0 == allocChunk_->nAvailableBlocks_) { ... }`
that opens `FixedAllocator::allocate`. -/
def FixedAllocator.choose (fa : FixedAllocator) (mem : Mem) (env : AllocEnv) :
    Option (FixedAllocator × Mem) :=
  match fa.allocChunk_ with
  | none => fa.refill mem env
  | some a =>
      match fa.chunks_[a]? with
      | none => none
      | some c => if c.nAvailableBlocks_ = 0 then fa.refill mem env else some (fa, mem)

/-- `FixedAllocator::allocate()`: the returned pointer, the allocator and the
memory; `none` when an assertion fails or `allocChunk_` points outside the
vector. -/
def FixedAllocator.allocate (fa : FixedAllocator) (mem : Mem) (env : AllocEnv) :
    Option (Option Nat × FixedAllocator × Mem) :=
  match fa.choose mem env with
  | none => none
  | some (fa1, mem1) =>
      match fa1.allocChunk_ with
      | none => none
      | some a =>
          match fa1.chunks_[a]? with
          | none => none
          | some c =>
              if c.nAvailableBlocks_ = 0 then none
              else
                let r := c.allocate mem1 fa1.blockSize_
                some (r.1, { fa1 with chunks_ := fa1.chunks_.set a r.2 }, mem1)

/-- Whether the Chunk at position `i` covers `p`. -/
def FixedAllocator.hit (chunks : List Chunk) (chunkLength p i : Nat) : Bool :=
  match chunks[i]? with
  | some c => c.covers chunkLength p
  | none => false

/-- The statement `if (lo == loBound) lo = nullptr; else --lo;`. -/
def FixedAllocator.lower (l : Nat) : Option Nat := if l = 0 then none else some (l - 1)

/-- The statement `if (++hi == hiBound) hi = nullptr;`. -/
def FixedAllocator.upper (size h : Nat) : Option Nat :=
  if h + 1 = size then none else some (h + 1)

/-- The loop `while (lo || hi)` of `FixedAllocator::vicinityFind`, with the
number of turns allowed as first argument; `none` when the loop ends without
a Chunk (the `assert(false)`). -/
def FixedAllocator.vicinityLoop (chunks : List Chunk) (chunkLength p : Nat) :
    Nat → Option Nat → Option Nat → Option Nat
  | 0, _, _ => none
  | _ + 1, none, none => none
  | fuel + 1, some l, none =>
      if FixedAllocator.hit chunks chunkLength p l then some l
      else FixedAllocator.vicinityLoop chunks chunkLength p fuel (FixedAllocator.lower l) none
  | fuel + 1, none, some h =>
      if FixedAllocator.hit chunks chunkLength p h then some h
      else FixedAllocator.vicinityLoop chunks chunkLength p fuel none
        (FixedAllocator.upper chunks.length h)
  | fuel + 1, some l, some h =>
      if FixedAllocator.hit chunks chunkLength p l then some l
      else if FixedAllocator.hit chunks chunkLength p h then some h
      else FixedAllocator.vicinityLoop chunks chunkLength p fuel (FixedAllocator.lower l)
        (FixedAllocator.upper chunks.length h)

/-- `FixedAllocator::vicinityFind(p)`: the position of the Chunk found. -/
def FixedAllocator.vicinityFind (fa : FixedAllocator) (p : Nat) : Option Nat :=
  if fa.chunks_.isEmpty then none
  else
    match fa.deallocChunk_ with
    | none => none
    | some d =>
        FixedAllocator.vicinityLoop fa.chunks_ (fa.numBlocks_ * fa.blockSize_) p
          (fa.chunks_.length + 1) (some d)
          (if d + 1 = fa.chunks_.length then none else some (d + 1))

/-- The statement `if (deallocChunk_->nAvailableBlocks_ == numBlocks_) { ... }`
that ends `FixedAllocator::doDeallocate`, with `deallocChunk_` at position `d`:
the release of an empty Chunk. Of `lastChunk.release(); chunks_.pop_back();`
this is the effect on the vector and the caches; `FixedAllocator.reclaimReleasing`
also records the buffer passed to `delete[]`. -/
def FixedAllocator.reclaim (fa : FixedAllocator) (d : Nat) : Option FixedAllocator :=
  match fa.chunks_[d]? with
  | none => none
  | some c1 =>
      let last := fa.chunks_.length - 1
      if c1.nAvailableBlocks_ = fa.numBlocks_ then
        if last = d then
          if 1 < fa.chunks_.length ∧
              (fa.chunks_[d - 1]?).map Chunk.nAvailableBlocks_ = some fa.numBlocks_ then
            some { fa with chunks_ := fa.chunks_.dropLast,
                           allocChunk_ := some 0,
                           deallocChunk_ := some 0 }
          else some fa
        else
          match fa.chunks_[last]? with
          | none => none
          | some lastChunk =>
              if lastChunk.nAvailableBlocks_ = fa.numBlocks_ then
                some { fa with chunks_ := fa.chunks_.dropLast, allocChunk_ := some d }
              else
                some { fa with chunks_ := (fa.chunks_.set d lastChunk).set last c1,
                               allocChunk_ := some last }
      else some fa

/-- `FixedAllocator::doDeallocate(p)`: its two assertions, the call
`deallocChunk_->deallocate(p, blockSize_)`, and the release of an empty Chunk. -/
def FixedAllocator.doDeallocate (fa : FixedAllocator) (mem : Mem) (p : Nat) :
    Option (FixedAllocator × Mem) :=
  match fa.deallocChunk_ with
  | none => none
  | some d =>
      match fa.chunks_[d]? with
      | none => none
      | some c =>
          if ¬ c.pData_ ≤ p then none
          else if ¬ p < c.pData_ + fa.numBlocks_ * fa.blockSize_ then none
          else
            match c.deallocate mem p fa.blockSize_ with
            | none => none
            | some (c1, mem1) =>
                match ({ fa with chunks_ := fa.chunks_.set d c1 }).reclaim d with
                | none => none
                | some fa1 => some (fa1, mem1)

/-- `FixedAllocator::deallocate(p)`. -/
def FixedAllocator.deallocate (fa : FixedAllocator) (mem : Mem) (p : Nat) :
    Option (FixedAllocator × Mem) :=
  if fa.chunks_.isEmpty then none
  else
    match fa.deallocChunk_ with
    | none => none
    | some d =>
        if ¬ d < fa.chunks_.length then none
        else
          match fa.vicinityFind p with
          | none => none
          | some j => ({ fa with deallocChunk_ := some j }).doDeallocate mem p

/-- The Chunks of the vector that are empty: all their blocks are free. -/
def FixedAllocator.emptyChunks (fa : FixedAllocator) : List Chunk :=
  fa.chunks_.filter (fun c => decide (c.nAvailableBlocks_ = fa.numBlocks_))

/-! ## Workloads on one Chunk -/

/-- A Chunk in use: the Chunk, the memory, and the blocks its callers hold. -/
structure ChunkWorld where
  chunk : Chunk
  mem : Mem
  held : List Nat

/-- The calls of a workload on one Chunk; `write` is a caller storing a byte
into a block it holds. -/
inductive ChunkOp where
  | allocate
  | deallocate (p : Nat)
  | write (a v : Nat)

/-- The precondition of a call: a deallocated block is held, a written byte
lies in a held block. -/
def ChunkWorld.Admits (w : ChunkWorld) (blockSize : Nat) : ChunkOp → Prop
  | ChunkOp.allocate => True
  | ChunkOp.deallocate p => p ∈ w.held
  | ChunkOp.write a _ => ∃ p ∈ w.held, p ≤ a ∧ a < p + blockSize

instance (w : ChunkWorld) (blockSize : Nat) (op : ChunkOp) : Decidable (w.Admits blockSize op) := by
  cases op <;> unfold ChunkWorld.Admits <;> infer_instance

/-- One admitted call on a Chunk. -/
def ChunkWorld.step (w : ChunkWorld) (blockSize : Nat) (op : ChunkOp) : Option ChunkWorld :=
  if w.Admits blockSize op then
    match op with
    | ChunkOp.allocate =>
        match w.chunk.allocate w.mem blockSize with
        | (none, c) => some { w with chunk := c }
        | (some p, c) => some { w with chunk := c, held := p :: w.held }
    | ChunkOp.deallocate p =>
        match w.chunk.deallocate w.mem p blockSize with
        | none => none
        | some (c, mem1) => some { chunk := c, mem := mem1, held := w.held.erase p }
    | ChunkOp.write a v => some { w with mem := w.mem.store a v }
  else none

/-- A sequence of admitted calls on a Chunk. -/
def ChunkWorld.run (blockSize : Nat) : ChunkWorld → List ChunkOp → Option ChunkWorld
  | w, [] => some w
  | w, op :: ops =>
      match w.step blockSize op with
      | none => none
      | some w1 => ChunkWorld.run blockSize w1 ops

/-- The Chunk world right after `Chunk::init`. -/
def ChunkWorld.fresh (c : Chunk) (mem : Mem) (newData blockSize numBlocks : Nat) : ChunkWorld :=
  { chunk := (c.init mem newData blockSize numBlocks).2.1,
    mem := (c.init mem newData blockSize numBlocks).2.2,
    held := [] }

/-! ## Workloads on one FixedAllocator -/

/-- A FixedAllocator in use: the allocator, the memory, and the blocks
handed out and not yet deallocated. -/
structure World where
  fa : FixedAllocator
  mem : Mem
  out : List Nat

/-- The calls of a workload on a FixedAllocator; `write` is a caller storing
a byte into a block it holds. -/
inductive Op where
  | allocate (env : AllocEnv)
  | deallocate (p : Nat)
  | write (a v : Nat)

/-- The calls admitted in the workloads of `World.run`. For `allocate`: the
read the scan makes at `end()` sees no free block, so that the read outside the
vector decides nothing, and the buffer obtained for a new Chunk is not null
and overlaps the buffer of no Chunk of the vector. For `deallocate`: the block
is handed out. For `write`: the byte lies in a block handed out. `World.play`
runs calls without this selection. -/
def World.Admits (w : World) : Op → Prop
  | Op.allocate env =>
      env.pastEnd = 0 ∧ env.newData ≠ 0 ∧
      ∀ c ∈ w.fa.chunks_,
        c.pData_ + w.fa.numBlocks_ * w.fa.blockSize_ ≤ env.newData ∨
        env.newData + w.fa.numBlocks_ * w.fa.blockSize_ ≤ c.pData_
  | Op.deallocate p => p ∈ w.out
  | Op.write a _ => ∃ p ∈ w.out, p ≤ a ∧ a < p + w.fa.blockSize_

instance (w : World) (op : Op) : Decidable (w.Admits op) := by
  cases op <;> unfold World.Admits <;> infer_instance

/-- The effect of one call on the world. -/
def World.exec (w : World) : Op → Option World
  | Op.allocate env =>
      match w.fa.allocate w.mem env with
      | none => none
      | some (none, fa1, mem1) => some { fa := fa1, mem := mem1, out := w.out }
      | some (some p, fa1, mem1) => some { fa := fa1, mem := mem1, out := p :: w.out }
  | Op.deallocate p =>
      match w.fa.deallocate w.mem p with
      | none => none
      | some (fa1, mem1) => some { fa := fa1, mem := mem1, out := w.out.erase p }
  | Op.write a v => some { w with mem := w.mem.store a v }

/-- One admitted call. -/
def World.step (w : World) (op : Op) : Option World :=
  if w.Admits op then w.exec op else none

/-- A sequence of admitted calls. -/
def World.run : World → List Op → Option World
  | w, [] => some w
  | w, op :: ops =>
      match w.step op with
      | none => none
      | some w1 => World.run w1 ops

/-- A sequence of admitted calls during which the vector never holds more
than `cap` Chunks; `none` when it does. -/
def World.runWithin (cap : Nat) : World → List Op → Option World
  | w, [] => if w.fa.chunks_.length ≤ cap then some w else none
  | w, op :: ops =>
      if w.fa.chunks_.length ≤ cap then
        match w.step op with
        | none => none
        | some w1 => World.runWithin cap w1 ops
      else none

/-- The world of a freshly constructed FixedAllocator. -/
def World.fresh (fa : FixedAllocator) (mem : Mem) : World := { fa := fa, mem := mem, out := [] }

/-! ## SmallObjAllocator (small_obj_allocator_impl.hpp, small_obj_allocator_impl.cpp) -/

/-- The data members of `SmallObjAllocator::Impl`; a `FixedAllocator*` into
`pool_` is the index of the element it points to. -/
structure SmallObjAllocator where
  pool_ : List FixedAllocator
  pLastAlloc_ : Option Nat
  pLastDealloc_ : Option Nat
  chunkSize_ : Nat
  maxObjectSize_ : Nat

/-- The constructor `Impl(chunkSize, maxObjectSize)`. -/
def SmallObjAllocator.construct (chunkSize maxObjectSize : Nat) : SmallObjAllocator :=
  { pool_ := [], pLastAlloc_ := none, pLastDealloc_ := none,
    chunkSize_ := chunkSize, maxObjectSize_ := maxObjectSize }

/-- The position `std::lower_bound(pool_.begin(), pool_.end(), size, comp)`
returns, with `comp(fa, size) = fa.blockSize() < size`: the furthermost
position `i` such that `comp` holds at every position before `i`. -/
def SmallObjAllocator.lowerBound (pool : List FixedAllocator) (size : Nat) : Nat :=
  (pool.takeWhile (fun fa => decide (fa.blockSize_ < size))).length

/-- Where a request went: to `::operator new` / `::operator delete`, or to the
pool entry at a position. -/
inductive Route where
  | system
  | pool (i : Nat)

/-- What one call of `SmallObjAllocator::allocate` takes from outside: the
address `operator new(size)` returns, and what the FixedAllocator takes. -/
structure SysEnv where
  sysNew : Nat
  chunkEnv : AllocEnv

/-- The call `pool_[i].allocate()`. -/
def SmallObjAllocator.delegateAllocate (s : SmallObjAllocator) (mem : Mem) (env : AllocEnv)
    (i : Nat) : Option (Option Nat × Route × SmallObjAllocator × Mem) :=
  match s.pool_[i]? with
  | none => none
  | some fa =>
      match fa.allocate mem env with
      | none => none
      | some (p, fa1, mem1) => some (p, Route.pool i, { s with pool_ := s.pool_.set i fa1 }, mem1)

/-- The part of `SmallObjAllocator::Impl::allocate` after the test of
`pLastAlloc_`: lower bound, insertion of a new FixedAllocator when no entry
has the size, and the call of the entry. -/
def SmallObjAllocator.searchAllocate (s : SmallObjAllocator) (mem : Mem) (size : Nat)
    (env : AllocEnv) : Option (Option Nat × Route × SmallObjAllocator × Mem) :=
  let i := SmallObjAllocator.lowerBound s.pool_ size
  if i = s.pool_.length ∨ (s.pool_[i]?).map FixedAllocator.blockSize_ ≠ some size then
    match FixedAllocator.construct size with
    | none => none
    | some fa =>
        ({ s with pool_ := s.pool_.take i ++ fa :: s.pool_.drop i,
                  pLastDealloc_ := some 0,
                  pLastAlloc_ := some i }).delegateAllocate mem env i
  else ({ s with pLastAlloc_ := some i }).delegateAllocate mem env i

/-- `SmallObjAllocator::Impl::allocate(size)`: the returned pointer, where the
request went, the allocator and the memory. -/
def SmallObjAllocator.allocate (s : SmallObjAllocator) (mem : Mem) (size : Nat) (env : SysEnv) :
    Option (Option Nat × Route × SmallObjAllocator × Mem) :=
  if s.maxObjectSize_ < size then some (some env.sysNew, Route.system, s, mem)
  else
    match s.pLastAlloc_ with
    | none => s.searchAllocate mem size env.chunkEnv
    | some a =>
        match s.pool_[a]? with
        | none => none
        | some fa =>
            if fa.blockSize_ = size then s.delegateAllocate mem env.chunkEnv a
            else s.searchAllocate mem size env.chunkEnv

/-- The call `pool_[i].deallocate(p)`. -/
def SmallObjAllocator.delegateDeallocate (s : SmallObjAllocator) (mem : Mem) (p i : Nat) :
    Option (Route × SmallObjAllocator × Mem) :=
  match s.pool_[i]? with
  | none => none
  | some fa =>
      match fa.deallocate mem p with
      | none => none
      | some (fa1, mem1) => some (Route.pool i, { s with pool_ := s.pool_.set i fa1 }, mem1)

/-- The part of `SmallObjAllocator::Impl::deallocate` after the test of
`pLastDealloc_`; `none` when one of the two assertions fails. -/
def SmallObjAllocator.searchDeallocate (s : SmallObjAllocator) (mem : Mem) (p size : Nat) :
    Option (Route × SmallObjAllocator × Mem) :=
  let i := SmallObjAllocator.lowerBound s.pool_ size
  match s.pool_[i]? with
  | none => none
  | some fa =>
      if fa.blockSize_ ≠ size then none
      else ({ s with pLastDealloc_ := some i }).delegateDeallocate mem p i

/-- `SmallObjAllocator::Impl::deallocate(p, size)`. -/
def SmallObjAllocator.deallocate (s : SmallObjAllocator) (mem : Mem) (p size : Nat) :
    Option (Route × SmallObjAllocator × Mem) :=
  if s.maxObjectSize_ < size then some (Route.system, s, mem)
  else
    match s.pLastDealloc_ with
    | none => s.searchDeallocate mem p size
    | some d =>
        match s.pool_[d]? with
        | none => none
        | some fa =>
            if fa.blockSize_ = size then s.delegateDeallocate mem p d
            else s.searchDeallocate mem p size

/-- The block sizes of the pool, in pool order. -/
def SmallObjAllocator.sizes (s : SmallObjAllocator) : List Nat :=
  s.pool_.map FixedAllocator.blockSize_

/-- The calls of a workload on a SmallObjAllocator. -/
inductive PoolOp where
  | allocate (size : Nat) (env : SysEnv)
  | deallocate (p size : Nat)

/-- One call on a SmallObjAllocator. -/
def SmallObjAllocator.step (s : SmallObjAllocator) (mem : Mem) :
    PoolOp → Option (SmallObjAllocator × Mem)
  | PoolOp.allocate size env => (s.allocate mem size env).map (fun r => r.2.2)
  | PoolOp.deallocate p size => (s.deallocate mem p size).map (fun r => r.2)

/-- A sequence of calls on a SmallObjAllocator. -/
def SmallObjAllocator.run : SmallObjAllocator → Mem → List PoolOp → Option (SmallObjAllocator × Mem)
  | s, mem, [] => some (s, mem)
  | s, mem, op :: ops =>
      match s.step mem op with
      | none => none
      | some (s1, mem1) => SmallObjAllocator.run s1 mem1 ops

/-- Free-list integrity of a Chunk of `numBlocks` blocks of `blockSize`
bytes, `held` being the blocks handed out: the free list has no repetition,
stays below `numBlocks`, and a block of the Chunk is on it exactly when it is
not handed out. -/
structure Chunk.Sound (c : Chunk) (mem : Mem) (blockSize numBlocks : Nat) (held : List Nat) :
    Prop where
  nodup : (c.freeList mem blockSize).Nodup
  inRange : ∀ i ∈ c.freeList mem blockSize, i < numBlocks
  free_iff : ∀ i, i < numBlocks →
    (i ∈ c.freeList mem blockSize ↔ c.pData_ + i * blockSize ∉ held)

/-- Whether `p` is the start of a block of the Chunk. -/
def Chunk.HasBlock (c : Chunk) (blockSize numBlocks p : Nat) : Prop :=
  ∃ i, i < numBlocks ∧ p = c.pData_ + i * blockSize

/-- The invariant of a workload on one Chunk. -/
structure ChunkWorld.Inv (w : ChunkWorld) (blockSize numBlocks : Nat) : Prop where
  sound : w.chunk.Sound w.mem blockSize numBlocks w.held
  held_nodup : w.held.Nodup
  held_blocks : ∀ p ∈ w.held, w.chunk.HasBlock blockSize numBlocks p

/-- Two buffers of `len` bytes at the addresses `x` and `y` do not overlap. -/
def Disj (len x y : Nat) : Prop := x + len ≤ y ∨ y + len ≤ x

instance (len x y : Nat) : Decidable (Disj len x y) := by
  unfold Disj; infer_instance

/-- The invariant of the Chunks of a FixedAllocator, `out` being the blocks
handed out: the buffers do not overlap, every Chunk is sound, no block is
handed out twice, and every block handed out is a block of a Chunk. -/
structure ChunksInv (chunks : List Chunk) (mem : Mem) (blockSize numBlocks : Nat)
    (out : List Nat) : Prop where
  apart : (chunks.map Chunk.pData_).Pairwise (Disj (numBlocks * blockSize))
  sound : ∀ c ∈ chunks, c.Sound mem blockSize numBlocks out
  out_nodup : out.Nodup
  out_blocks : ∀ q ∈ out, ∃ c ∈ chunks, c.HasBlock blockSize numBlocks q

/-- The invariant of a workload on a FixedAllocator. -/
structure World.Inv (w : World) : Prop where
  blockSize_pos : 1 ≤ w.fa.blockSize_
  numBlocks_pos : 1 ≤ w.fa.numBlocks_
  numBlocks_le : w.fa.numBlocks_ ≤ 255
  chunks : ChunksInv w.fa.chunks_ w.mem w.fa.blockSize_ w.fa.numBlocks_ w.out
  alloc_valid : ∀ a, w.fa.allocChunk_ = some a → a < w.fa.chunks_.length
  dealloc_valid : w.fa.chunks_ ≠ [] → ∃ d, w.fa.deallocChunk_ = some d ∧ d < w.fa.chunks_.length

/-- The number of positions the vicinity search has still to visit. -/
def FixedAllocator.span (size : Nat) : Option Nat → Option Nat → Nat
  | none, none => 0
  | some l, none => l + 1
  | none, some h => size - h
  | some l, some h => l + 1 + (size - h)

/-- At most one Chunk, or a Chunk that is not empty. -/
def FixedAllocator.Settled (fa : FixedAllocator) : Prop :=
  fa.chunks_.length ≤ 1 ∨ ∃ c ∈ fa.chunks_, c.nAvailableBlocks_ ≠ fa.numBlocks_

/-! ## Sample workloads -/

/-- What an `allocate` takes from outside when the read at `end()` sees zero
and a new buffer would be at `newData`. -/
def Demo.env (newData : Nat) : AllocEnv :=
  { pastEnd := 0, newData := newData, uninit := { pData_ := 0, firstAvailableBlock_ := 0,
                                                   nAvailableBlocks_ := 0 } }

/-- A memory of zero bytes. -/
def Demo.mem : Mem := fun _ => 0

/-- The allocator `FixedAllocator(2048)`: two blocks per Chunk. -/
def Demo.pairs : FixedAllocator :=
  { blockSize_ := 2048, numBlocks_ := 2, chunks_ := [], allocChunk_ := none,
    deallocChunk_ := none }

/-- The allocator `FixedAllocator(4096)`: one block per Chunk. -/
def Demo.singles : FixedAllocator :=
  { blockSize_ := 4096, numBlocks_ := 1, chunks_ := [], allocChunk_ := none,
    deallocChunk_ := none }

/-- Three allocations (the third opens a second Chunk), a write into the second
block, the deallocation of the first block. -/
def Demo.mixed : List Op :=
  [Op.allocate (Demo.env 4096), Op.allocate (Demo.env 8192), Op.allocate (Demo.env 12288),
   Op.write 6200 9, Op.deallocate 4096]

/-- Two allocations, each in a Chunk of its own, and their deallocations. -/
def Demo.twoChunks : List Op :=
  [Op.allocate (Demo.env 4096), Op.allocate (Demo.env 8192),
   Op.deallocate 4096, Op.deallocate 8192]

/-- Three allocations in two Chunks and their deallocations in the same order. -/
def Demo.balanced : List Op :=
  [Op.allocate (Demo.env 4096), Op.allocate (Demo.env 8192), Op.allocate (Demo.env 12288),
   Op.deallocate 4096, Op.deallocate 6144, Op.deallocate 12288]

/-- Four allocations, each in a Chunk of its own, then the deallocation of the
fourth, the first and the third block. -/
def Demo.scattered : List Op :=
  [Op.allocate (Demo.env 4096), Op.allocate (Demo.env 8192), Op.allocate (Demo.env 12288),
   Op.allocate (Demo.env 16384),
   Op.deallocate 16384, Op.deallocate 4096, Op.deallocate 12288]

/-- Five allocations, each in a Chunk of its own, then the deallocation of the
fifth, first, fourth, second and third block. -/
def Demo.drained : List Op :=
  [Op.allocate (Demo.env 4096), Op.allocate (Demo.env 8192), Op.allocate (Demo.env 12288),
   Op.allocate (Demo.env 16384), Op.allocate (Demo.env 20480),
   Op.deallocate 20480, Op.deallocate 4096, Op.deallocate 16384,
   Op.deallocate 8192, Op.deallocate 12288]

/-- What an `allocate` of the SmallObjAllocator takes from outside when a new
buffer would be at `newData`. -/
def Demo.sysEnv (newData : Nat) : SysEnv := { sysNew := 7000000, chunkEnv := Demo.env newData }

/-- Allocations of sizes 8, 24, 16 and 1024, the deallocation of the block of
size 24 and of the block of size 1024. -/
def Demo.poolCalls : List PoolOp :=
  [PoolOp.allocate 8 (Demo.sysEnv 4096), PoolOp.allocate 24 (Demo.sysEnv 100000),
   PoolOp.allocate 16 (Demo.sysEnv 200000), PoolOp.allocate 1024 (Demo.sysEnv 300000),
   PoolOp.deallocate 100000 24, PoolOp.deallocate 7000000 1024]

/-- The stores of a caller, in order: each pair is an address and the byte
written there. -/
def Mem.writes (mem : Mem) : List (Nat × Nat) → Mem
  | [] => mem
  | w :: ws => Mem.writes (mem.store w.1 w.2) ws

/-- Three allocations, each in a Chunk of its own, then the deallocation of the
third and of the first block: an empty Chunk followed by a full one. -/
def Demo.emptyThenFull : List Op :=
  [Op.allocate (Demo.env 4096), Op.allocate (Demo.env 8192), Op.allocate (Demo.env 12288),
   Op.deallocate 12288, Op.deallocate 4096]

/-- The buffer address and the count of free blocks of every Chunk of a vector. -/
def FixedAllocator.summary (fa : FixedAllocator) : List (Nat × Nat) :=
  fa.chunks_.map (fun c => (c.pData_, c.nAvailableBlocks_))

/-- An allocator of blocks of 4096 bytes with an empty Chunk at 4096 and a
full Chunk at 8192. -/
def Demo.halfUsed : FixedAllocator :=
  { blockSize_ := 4096, numBlocks_ := 1,
    chunks_ := [{ pData_ := 4096, firstAvailableBlock_ := 0, nAvailableBlocks_ := 1 },
                { pData_ := 8192, firstAvailableBlock_ := 1, nAvailableBlocks_ := 0 }],
    allocChunk_ := some 0, deallocChunk_ := some 0 }

/-- Whether `SmallObjAllocator::Impl::deallocate(p, size)` reaches its two
assertions, `fixedAllocatorItr != pool_.end()` and
`fixedAllocatorItr->blockSize() == size`, and one of them fails. -/
def SmallObjAllocator.exactMatchFails (s : SmallObjAllocator) (size : Nat) : Bool :=
  if s.maxObjectSize_ < size then false
  else
    let search : Bool :=
      match s.pool_[SmallObjAllocator.lowerBound s.pool_ size]? with
      | none => true
      | some fa => decide (fa.blockSize_ ≠ size)
    match s.pLastDealloc_ with
    | none => search
    | some d =>
        match s.pool_[d]? with
        | none => false
        | some fa => if fa.blockSize_ = size then false else search

/-- Both last-used caches are null or point into the pool. -/
def SmallObjAllocator.CachesValid (s : SmallObjAllocator) : Prop :=
  (∀ a, s.pLastAlloc_ = some a → a < s.pool_.length) ∧
  (∀ d, s.pLastDealloc_ = some d → d < s.pool_.length)

/-! ## Pure allocation and drain -/

/-- What a sequence of `allocate` calls may take from outside: every read at
`end()` sees zero, and the buffers the calls would obtain are not null, overlap
no Chunk of the vector and do not overlap each other. -/
def World.Supplies (w : World) (envs : List AllocEnv) : Prop :=
  (∀ e ∈ envs, e.pastEnd = 0 ∧ e.newData ≠ 0 ∧
    ∀ c ∈ w.fa.chunks_, Disj (w.fa.numBlocks_ * w.fa.blockSize_) c.pData_ e.newData) ∧
  (envs.map AllocEnv.newData).Pairwise (Disj (w.fa.numBlocks_ * w.fa.blockSize_))

instance (w : World) (envs : List AllocEnv) : Decidable (w.Supplies envs) := by
  unfold World.Supplies; infer_instance

/-- The shape of the world after `q * numBlocks_ + r` calls of `allocate` and no
`deallocate`: `q` Chunks without a free block, then, when `r` is not zero, a
Chunk whose blocks from `r` on are free and linked in ascending order, which
`allocChunk_` points to; the call number `k` returned block `k mod numBlocks_`
of the Chunk at position `k div numBlocks_`. -/
structure World.Grown (w : World) (q r : Nat) : Prop where
  inv : w.Inv
  r_lt : r < w.fa.numBlocks_
  count : w.out.length = q * w.fa.numBlocks_ + r
  size : w.fa.chunks_.length = q + (if r = 0 then 0 else 1)
  full : ∀ j c, j < q → w.fa.chunks_[j]? = some c → c.nAvailableBlocks_ = 0
  part : r ≠ 0 → ∃ c, w.fa.chunks_[q]? = some c ∧
    c.nAvailableBlocks_ = w.fa.numBlocks_ - r ∧ c.firstAvailableBlock_ = r ∧
    w.fa.allocChunk_ = some q ∧
    ∀ i, r ≤ i → i < w.fa.numBlocks_ → w.mem.load (c.pData_ + i * w.fa.blockSize_) = i + 1
  order : ∀ k, k < w.out.length → ∃ c, w.fa.chunks_[k / w.fa.numBlocks_]? = some c ∧
    w.out.reverse[k]? = some (c.pData_ + (k % w.fa.numBlocks_) * w.fa.blockSize_)

/-- The supplies of three allocations: buffers at 4096, 8192 and 12288. -/
def Demo.threeEnvs : List AllocEnv := [Demo.env 4096, Demo.env 8192, Demo.env 12288]

/-- The shape of the world while the blocks of a pure allocation are given
back, the latest first, with `q * numBlocks_ + t` blocks still handed out:
`q` Chunks without a free block, then a Chunk with `t` blocks handed out,
then at most one more Chunk, which is empty; the oldest block still handed
out is block 0 of the Chunk at position 0, and so on in ascending order. -/
structure World.Draining (w : World) (q t : Nat) : Prop where
  inv : w.Inv
  t_pos : 1 ≤ t
  t_le : t ≤ w.fa.numBlocks_
  count : w.out.length = q * w.fa.numBlocks_ + t
  size : w.fa.chunks_.length = q + 1 ∨
    (w.fa.chunks_.length = q + 2 ∧
      ∃ c, w.fa.chunks_[q + 1]? = some c ∧ c.nAvailableBlocks_ = w.fa.numBlocks_)
  full : ∀ j c, j < q → w.fa.chunks_[j]? = some c → c.nAvailableBlocks_ = 0
  part : ∃ c, w.fa.chunks_[q]? = some c ∧ c.nAvailableBlocks_ = w.fa.numBlocks_ - t
  order : ∀ k, k < w.out.length → ∃ c, w.fa.chunks_[k / w.fa.numBlocks_]? = some c ∧
    w.out.reverse[k]? = some (c.pData_ + (k % w.fa.numBlocks_) * w.fa.blockSize_)

/-! ## Copies of a FixedAllocator (the ring of `next_` and `prev_`) -/

/-- A FixedAllocator object: its data members and the two ring links, which
hold addresses of FixedAllocator objects. -/
structure Node where
  fa : FixedAllocator
  next_ : Nat
  prev_ : Nat

/-- The FixedAllocator objects alive, by address, and the buffers passed to
`delete[]` by `Chunk::release`, in order. -/
structure Heap where
  objs : Nat → Option Node
  released : List Nat

/-- A store to the object at `x`. -/
def Heap.put (h : Heap) (x : Nat) (n : Node) : Heap :=
  { h with objs := fun y => if y = x then some n else h.objs y }

/-- The end of the lifetime of the object at `x`. -/
def Heap.drop (h : Heap) (x : Nat) : Heap :=
  { h with objs := fun y => if y = x then none else h.objs y }

/-- An object constructed by `FixedAllocator(blockSize)`, `prev_ = next_ = this`,
alone on the heap, in the state `fa`. -/
def Heap.single (self : Nat) (fa : FixedAllocator) : Heap :=
  { objs := fun y => if y = self then some { fa := fa, next_ := self, prev_ := self } else none,
    released := [] }

/-- The copy constructor `FixedAllocator(const FixedAllocator& rhs)` for an
object at `self`; `none` when a pointer it follows is not an object alive. The
positions `allocChunk_` and `deallocChunk_` are kept relative to the vector. -/
def Heap.copyConstruct (h : Heap) (self rhs : Nat) : Option Heap :=
  match h.objs rhs with
  | none => none
  | some r =>
      -- member initialisers, `prev_ = &rhs; next_ = rhs.next_;`
      let h1 := h.put self { fa := r.fa, next_ := r.next_, prev_ := rhs }
      -- `rhs.next_->prev_ = this;`
      match h1.objs r.next_ with
      | none => none
      | some n =>
          let h2 := h1.put r.next_ { n with prev_ := self }
          -- `rhs.next_ = this;`
          match h2.objs rhs with
          | none => none
          | some r2 => some (h2.put rhs { r2 with next_ := self })

/-- The loop of the destructor over `chunks_`: `assert(chunk.nAvailableBlocks_ ==
numBlocks_); chunk.release();`. The result is the list of buffers released;
`none` when the assertion fails. -/
def FixedAllocator.releaseAll (numBlocks : Nat) : List Chunk → List Nat → Option (List Nat)
  | [], log => some log
  | c :: rest, log =>
      if c.nAvailableBlocks_ = numBlocks then
        FixedAllocator.releaseAll numBlocks rest (log ++ [c.pData_])
      else none

/-- The destructor `~FixedAllocator()` of the object at `self`; `none` when an
assertion fails or a pointer it follows is not an object alive. -/
def Heap.destroy (h : Heap) (self : Nat) : Option Heap :=
  match h.objs self with
  | none => none
  | some s =>
      if s.prev_ ≠ self then
        -- `prev_->next_ = next_;`
        match h.objs s.prev_ with
        | none => none
        | some p =>
            let h1 := h.put s.prev_ { p with next_ := s.next_ }
            -- `next_->prev_ = prev_;`
            match h1.objs s.next_ with
            | none => none
            | some n => some ((h1.put s.next_ { n with prev_ := s.prev_ }).drop self)
      else if s.prev_ ≠ s.next_ then none
      else
        match FixedAllocator.releaseAll s.fa.numBlocks_ s.fa.chunks_ h.released with
        | none => none
        | some log => some ({ h with released := log }.drop self)

/-- `FixedAllocator::swap(rhs)` on the object at `self`: the five data members
are exchanged, `next_` and `prev_` are not touched. -/
def Heap.swap (h : Heap) (self rhs : Nat) : Option Heap :=
  match h.objs self with
  | none => none
  | some s =>
      match h.objs rhs with
      | none => none
      | some r =>
          let h1 := h.put self { s with fa := r.fa }
          match h1.objs rhs with
          | none => none
          | some r1 => some (h1.put rhs { r1 with fa := s.fa })

/-- `FixedAllocator::operator=(rhs)` on the object at `self`:
`FixedAllocator copy(rhs); copy.swap(*this); return *this;`, the local `copy`
living at `tmp` and being destroyed at the end of the call. -/
def Heap.assign (h : Heap) (self rhs tmp : Nat) : Option Heap :=
  match h.copyConstruct tmp rhs with
  | none => none
  | some h1 =>
      match h1.swap tmp self with
      | none => none
      | some h2 => h2.destroy tmp

/-- The calls of a workload on copies of a FixedAllocator: the copy
construction of a new object at `self` from `rhs`, the destruction of the
object at `self`. -/
inductive RingOp where
  | copy (self rhs : Nat)
  | destroy (self : Nat)

/-- One call on the heap. -/
def Heap.exec (h : Heap) : RingOp → Option Heap
  | RingOp.copy self rhs => h.copyConstruct self rhs
  | RingOp.destroy self => h.destroy self

/-- A sequence of calls on the heap. -/
def Heap.run : Heap → List RingOp → Option Heap
  | h, [] => some h
  | h, op :: ops =>
      match h.exec op with
      | none => none
      | some h1 => Heap.run h1 ops

/-- The objects alive after a call, given the objects alive before it; `none`
when the call is not allowed: a copy is made from an object alive into storage
that holds no object, and only an object alive is destroyed. -/
def RingOp.track (live : List Nat) : RingOp → Option (List Nat)
  | RingOp.copy self rhs => if rhs ∈ live ∧ self ∉ live then some (self :: live) else none
  | RingOp.destroy self => if self ∈ live then some (live.erase self) else none

/-- The objects alive after a sequence of calls. -/
def RingOp.trackAll : List Nat → List RingOp → Option (List Nat)
  | live, [] => some live
  | live, op :: ops =>
      match RingOp.track live op with
      | none => none
      | some live1 => RingOp.trackAll live1 ops

/-- `next_` of the object at `x`. -/
def Heap.next (h : Heap) (x : Nat) : Option Nat := (h.objs x).map Node.next_

/-- `prev_` of the object at `x`. -/
def Heap.prev (h : Heap) (x : Nat) : Option Nat := (h.objs x).map Node.prev_

/-- The object at `y` follows the object at `x` in the ring. -/
def Heap.Link (h : Heap) (x y : Nat) : Prop := h.next x = some y ∧ h.prev y = some x

/-- The links lead from `x` through the objects of the list, in order, to `z`. -/
def Heap.Path (h : Heap) : Nat → List Nat → Nat → Prop
  | x, [], z => h.Link x z
  | x, y :: l, z => h.Link x y ∧ Heap.Path h y l z

/-- The invariant of the copies of a FixedAllocator: the objects alive are the
objects of `cyc`, each in the state `fa`, and the links lead through them in
the order of `cyc` and back to the first. -/
structure Heap.Ring (h : Heap) (fa : FixedAllocator) (cyc : List Nat) : Prop where
  nodup : cyc.Nodup
  alive : ∀ x, h.objs x ≠ none ↔ x ∈ cyc
  same : ∀ x n, h.objs x = some n → n.fa = fa
  path : ∀ a rest, cyc = a :: rest → h.Path a rest a

/-- An allocator of blocks of 2048 bytes with one Chunk, at 4096, which is empty. -/
def Demo.idle : FixedAllocator :=
  { blockSize_ := 2048, numBlocks_ := 2,
    chunks_ := [{ pData_ := 4096, firstAvailableBlock_ := 0, nAvailableBlocks_ := 2 }],
    allocChunk_ := some 0, deallocChunk_ := some 0 }

/-- An allocator of blocks of 2048 bytes with one Chunk, at 8192, which is empty. -/
def Demo.idleToo : FixedAllocator :=
  { blockSize_ := 2048, numBlocks_ := 2,
    chunks_ := [{ pData_ := 8192, firstAvailableBlock_ := 0, nAvailableBlocks_ := 2 }],
    allocChunk_ := some 0, deallocChunk_ := some 0 }

/-- Two copies of the object at 1, one of them a copy of a copy, and the
destruction of the three objects, the original first. -/
def Demo.copies : List RingOp :=
  [RingOp.copy 2 1, RingOp.copy 3 2, RingOp.destroy 1, RingOp.destroy 3, RingOp.destroy 2]

/-- The objects `a` at 1, in the state `Demo.idle`, and `b` at 2, in the state
`Demo.idleToo`, each constructed on its own. -/
def Demo.pair : Heap :=
  (Heap.single 1 Demo.idle).put 2 { fa := Demo.idleToo, next_ := 2, prev_ := 2 }

/-! ## SingletonHolder (singleton.hpp) -/

/-- The exceptions thrown by `singleton.hpp` and `lifetime_tracker.cpp`. -/
inductive Raised where
  | logic_error
  | bad_alloc
  | runtime_error
  deriving DecidableEq

/-- The lifetime policies `lifetime_policy::Default`, `lifetime_policy::Phoenix`
and `lifetime_policy::NoDestroy`. -/
inductive LifetimePolicy where
  | Default
  | Phoenix
  | NoDestroy
  deriving DecidableEq

/-- The calls a SingletonHolder makes to its policies: `CreationPolicy::create()`,
`CreationPolicy::destroy(p)`, `LifetimePolicy::scheduleDestruction(p, &destroySingleton)`
and `LifetimePolicy::onDeadReference()`. -/
inductive PolicyCall where
  | create
  | destroy (p : Nat)
  | scheduleDestruction (p : Nat)
  | onDeadReference
  deriving DecidableEq

/-- The static members of `SingletonHolder`; the pointer 0 is `nullptr`. -/
structure SingletonHolder where
  pInstance_ : Nat
  destroyed_ : Bool
  deriving DecidableEq

/-- A program with one SingletonHolder: the holder, the number of times
`&destroySingleton` was passed to `std::atexit`, and the calls made to the
policies, in order. -/
structure Program where
  holder : SingletonHolder
  registrations : Nat
  calls : List PolicyCall
  deriving DecidableEq

/-- What a call of `instance()` gives its caller: the reference returned, as
the address of the instance, or the exception thrown. -/
inductive Outcome where
  | returned (p : Nat)
  | raised (e : Raised)
  deriving DecidableEq

/-- The program before the first call of `instance()`: `pInstance_ = nullptr`,
`destroyed_ = false`. -/
def Program.start : Program :=
  { holder := { pInstance_ := 0, destroyed_ := false }, registrations := 0, calls := [] }

/-- `LifetimePolicy::onDeadReference()`: the exception it throws, if any
(`ATEXIT_FIXED` is defined, so `Phoenix` keeps no flag). -/
def LifetimePolicy.onDeadReference : LifetimePolicy → Option Raised
  | LifetimePolicy.Default => some Raised.logic_error
  | LifetimePolicy.Phoenix => none
  | LifetimePolicy.NoDestroy => none

/-- `LifetimePolicy::scheduleDestruction(pObj, pFun)` with `pFun = &destroySingleton`:
`Default` and `Phoenix` call `std::atexit(pFun)`, `NoDestroy` does nothing. -/
def LifetimePolicy.scheduleDestruction (policy : LifetimePolicy) (pr : Program) : Program :=
  match policy with
  | LifetimePolicy.Default => { pr with registrations := pr.registrations + 1 }
  | LifetimePolicy.Phoenix => { pr with registrations := pr.registrations + 1 }
  | LifetimePolicy.NoDestroy => pr

/-- The statement `if (destroyed_) { LifetimePolicy::onDeadReference(); destroyed_ = false; }`
of `makeInstance`. -/
def Program.revive (policy : LifetimePolicy) (pr : Program) : Program × Option Raised :=
  if pr.holder.destroyed_ then
    let pr1 := { pr with calls := pr.calls ++ [PolicyCall.onDeadReference] }
    match policy.onDeadReference with
    | some e => (pr1, some e)
    | none => ({ pr1 with holder := { pr1.holder with destroyed_ := false } }, none)
  else (pr, none)

/-- `SingletonHolder::makeInstance()`; `created` is the pointer
`CreationPolicy::create()` returns when it is called. The result is the
program and the exception thrown, if any. -/
def Program.makeInstance (policy : LifetimePolicy) (created : Nat) (pr : Program) :
    Program × Option Raised :=
  if pr.holder.pInstance_ = 0 then
    match pr.revive policy with
    | (pr1, some e) => (pr1, some e)
    | (pr1, none) =>
        -- `if (nullptr == (pInstance_ = CreationPolicy::create())) throw std::bad_alloc();`
        let pr2 := { pr1 with holder := { pr1.holder with pInstance_ := created },
                              calls := pr1.calls ++ [PolicyCall.create] }
        if created = 0 then (pr2, some Raised.bad_alloc)
        else
          let pr3 := policy.scheduleDestruction
            { pr2 with calls := pr2.calls ++ [PolicyCall.scheduleDestruction created] }
          if pr3.holder.destroyed_ then (pr3, some Raised.runtime_error) else (pr3, none)
  else (pr, none)

/-- `SingletonHolder::instance()`. -/
def Program.instanceCall (policy : LifetimePolicy) (created : Nat) (pr : Program) :
    Program × Outcome :=
  if pr.holder.pInstance_ = 0 then
    match pr.makeInstance policy created with
    | (pr1, some e) => (pr1, Outcome.raised e)
    | (pr1, none) => (pr1, Outcome.returned pr1.holder.pInstance_)
  else (pr, Outcome.returned pr.holder.pInstance_)

/-- `SingletonHolder::destroySingleton()`; `none` when `assert(!destroyed_)` fails. -/
def Program.destroySingleton (pr : Program) : Option Program :=
  if pr.holder.destroyed_ then none
  else
    some { pr with holder := { pInstance_ := 0, destroyed_ := true },
                   calls := pr.calls ++ [PolicyCall.destroy pr.holder.pInstance_] }

/-- A sequence of calls of `instance()`, each with the pointer `create()` returns
when the call reaches it; the result lists what the calls gave, in order. -/
def Program.instances (policy : LifetimePolicy) : Program → List Nat → Program × List Outcome
  | pr, [] => (pr, [])
  | pr, created :: rest =>
      let r := pr.instanceCall policy created
      let rs := Program.instances policy r.1 rest
      (rs.1, r.2 :: rs.2)

/-! ## LifetimeTracker (lifetime_tracker.cpp) -/

/-- A pointer to a `LifetimeTracker`, an element of `pTrackerArray`: the
address of the tracker and the `longevity_` of the tracker behind it. -/
structure LifetimeTracker where
  addr : Nat
  longevity_ : Nat
  deriving DecidableEq

/-- `LifetimeTracker::compare(lhs, rhs)`. -/
def LifetimeTracker.compare (lhs rhs : LifetimeTracker) : Bool :=
  decide (lhs.longevity_ < rhs.longevity_)

/-- The position `std::upper_bound(pTrackerArray, pTrackerArray + elements,
newTracker, compare)` returns: the furthermost position `i` such that
`compare(newTracker, e)` is false for every element `e` before `i`. -/
def LifetimeTracker.upperBound (arr : List LifetimeTracker) (newTracker : LifetimeTracker) :
    Nat :=
  (arr.takeWhile (fun e => !(LifetimeTracker.compare newTracker e))).length

/-- `LifetimeTracker::registerTracker(newTracker)` on the array `arr` of
`elements = arr.length` pointers; `reallocOk` tells whether `std::realloc`
succeeds. The result is the array and the exception thrown, if any; `none`
when `elements + 1` wraps around in `unsigned int`. `copy_backward` moves the
elements from the insert position on one place up. -/
def LifetimeTracker.registerTracker (arr : List LifetimeTracker)
    (newTracker : Option LifetimeTracker) (reallocOk : Bool) :
    Option (List LifetimeTracker × Option Raised) :=
  match newTracker with
  | none => some (arr, none)
  | some t =>
      if (arr.length + 1) % 2 ^ 32 ≠ arr.length + 1 then none
      else if !reallocOk then some (arr, some Raised.bad_alloc)
      else
        let i := LifetimeTracker.upperBound arr t
        some (arr.take i ++ t :: arr.drop i, none)

/-- `LifetimeTracker::atexit_fun()`: the array after the call and the tracker
deleted; `none` when the assertion `0 < elements` fails. -/
def LifetimeTracker.atexit_fun (arr : List LifetimeTracker) :
    Option (List LifetimeTracker × LifetimeTracker) :=
  match arr.getLast? with
  | none => none
  | some pTop => some (arr.dropLast, pTop)

/-- A sequence of calls of `registerTracker` with trackers that are not null
and with `std::realloc` succeeding. -/
def LifetimeTracker.registerAll :
    List LifetimeTracker → List LifetimeTracker → Option (List LifetimeTracker)
  | arr, [] => some arr
  | arr, t :: ts =>
      match LifetimeTracker.registerTracker arr (some t) true with
      | some (arr1, none) => LifetimeTracker.registerAll arr1 ts
      | _ => none

/-- The given number of calls of `atexit_fun`: the array left and the trackers
deleted, in order. -/
def LifetimeTracker.exitAll :
    List LifetimeTracker → Nat → Option (List LifetimeTracker × List LifetimeTracker)
  | arr, 0 => some (arr, [])
  | arr, k + 1 =>
      match LifetimeTracker.atexit_fun arr with
      | none => none
      | some (arr1, pTop) =>
          match LifetimeTracker.exitAll arr1 k with
          | none => none
          | some (arr2, deleted) => some (arr2, pTop :: deleted)

/-- The trackers registered in the order of longevity 10, 30, 20. -/
def Demo.trackers : List LifetimeTracker :=
  [{ addr := 100, longevity_ := 10 }, { addr := 200, longevity_ := 30 },
   { addr := 300, longevity_ := 20 }]

/-! ## Observations on the allocators -/

/-- The positions whose `nAvailableBlocks_` the scan loop of
`FixedAllocator::allocate` reads, from position `i` on: each turn reads
`chunkItr->nAvailableBlocks_` before it compares `chunkItr` with `chunks_.end()`. -/
def FixedAllocator.scanReads : List Chunk → Nat → List Nat
  | [], i => [i]
  | c :: rest, i =>
      if 0 < c.nAvailableBlocks_ then [i] else i :: FixedAllocator.scanReads rest (i + 1)

/-- A Chunk with no free block. -/
def Chunk.filled (c : Chunk) : Chunk := { c with nAvailableBlocks_ := 0 }

/-- What a caller of a SmallObjAllocator sees of a sequence of calls: for
each call the pointer returned (for `deallocate`, none) and the pool after it. -/
def SmallObjAllocator.observe :
    SmallObjAllocator → Mem → List PoolOp → Option (List (Option Nat × List FixedAllocator))
  | _, _, [] => some []
  | s, mem, PoolOp.allocate size env :: ops =>
      match s.allocate mem size env with
      | none => none
      | some (p, _, s1, mem1) =>
          (SmallObjAllocator.observe s1 mem1 ops).map (fun l => (p, s1.pool_) :: l)
  | s, mem, PoolOp.deallocate p size :: ops =>
      match s.deallocate mem p size with
      | none => none
      | some (_, s1, mem1) =>
          (SmallObjAllocator.observe s1 mem1 ops).map (fun l => (none, s1.pool_) :: l)

/-- An allocator of blocks of 2048 bytes with one Chunk, at 4096, without a
free block. -/
def Demo.full : FixedAllocator :=
  { blockSize_ := 2048, numBlocks_ := 2,
    chunks_ := [{ pData_ := 4096, firstAvailableBlock_ := 2, nAvailableBlocks_ := 0 }],
    allocChunk_ := some 0, deallocChunk_ := some 0 }

/-- An allocator of blocks of 4096 bytes with a Chunk without a free block at
4096, which `allocChunk_` points to, and an empty Chunk at 8192. -/
def Demo.stale : FixedAllocator :=
  { blockSize_ := 4096, numBlocks_ := 1,
    chunks_ := [{ pData_ := 4096, firstAvailableBlock_ := 1, nAvailableBlocks_ := 0 },
                { pData_ := 8192, firstAvailableBlock_ := 0, nAvailableBlocks_ := 1 }],
    allocChunk_ := some 0, deallocChunk_ := some 0 }

/-! ## CRC (const_crc-no-concept.hpp, crc.cpp) -/

/-- A struct of `crc::params`: the enumerators of one line of `CRC_PARAMS`
(`value_t` is `uint8_t` for the width 8). -/
structure Crc.Params where
  width : Nat
  poly : Nat
  rev_poly : Nat
  init : Nat
  xorout : Nat
  refin : Bool
  refout : Bool
  deriving DecidableEq

def Crc.params.crc8_8h2f : Crc.Params := ⟨8, 0x2F, 0xF4, 0xFF, 0xFF, false, false⟩
def Crc.params.crc8_bluetooth : Crc.Params := ⟨8, 0xA7, 0xE5, 0x00, 0x00, true, true⟩
def Crc.params.crc8_cdma2000 : Crc.Params := ⟨8, 0x9B, 0xD9, 0xFF, 0x00, false, false⟩
def Crc.params.crc8_darc : Crc.Params := ⟨8, 0x39, 0x9C, 0x00, 0x00, true, true⟩
def Crc.params.crc8_dvb_s2 : Crc.Params := ⟨8, 0xD5, 0xAB, 0x00, 0x00, false, false⟩
def Crc.params.crc8_ebu : Crc.Params := ⟨8, 0x1D, 0xB8, 0xFF, 0x00, true, true⟩
def Crc.params.crc8_gsm_a : Crc.Params := ⟨8, 0x1D, 0xB8, 0x00, 0x00, false, false⟩
def Crc.params.crc8_gsm_b : Crc.Params := ⟨8, 0x49, 0x92, 0x00, 0xFF, false, false⟩
def Crc.params.crc8_hitag : Crc.Params := ⟨8, 0x1D, 0xB8, 0xFF, 0x00, false, false⟩
def Crc.params.crc8_icode : Crc.Params := ⟨8, 0x1D, 0xB8, 0xFD, 0x00, false, false⟩
def Crc.params.crc8_itu : Crc.Params := ⟨8, 0x07, 0xE0, 0x00, 0x55, false, false⟩
def Crc.params.crc8_lte : Crc.Params := ⟨8, 0x9B, 0xD9, 0x00, 0x00, false, false⟩
def Crc.params.crc8_maxim : Crc.Params := ⟨8, 0x31, 0x8C, 0x00, 0x00, true, true⟩
def Crc.params.crc8_mifare : Crc.Params := ⟨8, 0x1D, 0xB8, 0xC7, 0x00, false, false⟩
def Crc.params.crc8_nrsc_5 : Crc.Params := ⟨8, 0x31, 0x8C, 0xFF, 0x00, false, false⟩
def Crc.params.crc8_opensafety : Crc.Params := ⟨8, 0x2F, 0xF4, 0x00, 0x00, false, false⟩
def Crc.params.crc8_rohc : Crc.Params := ⟨8, 0x07, 0xE0, 0xFF, 0x00, true, true⟩
def Crc.params.crc8_sae_j1850 : Crc.Params := ⟨8, 0x1D, 0xB8, 0xFF, 0xFF, false, false⟩
def Crc.params.crc8_sae_j1850_0 : Crc.Params := ⟨8, 0x1D, 0xB8, 0x00, 0x00, false, false⟩
def Crc.params.crc8_smbus : Crc.Params := ⟨8, 0x07, 0xE0, 0x00, 0x00, false, false⟩
def Crc.params.crc8_wcdma : Crc.Params := ⟨8, 0x9B, 0xD9, 0x00, 0x00, true, true⟩

/-- The parameter sets declared by `CRC_PARAMS`, in the order of the macro. -/
def Crc.catalogue : List Crc.Params :=
  [Crc.params.crc8_8h2f, Crc.params.crc8_bluetooth, Crc.params.crc8_cdma2000,
   Crc.params.crc8_darc, Crc.params.crc8_dvb_s2, Crc.params.crc8_ebu, Crc.params.crc8_gsm_a,
   Crc.params.crc8_gsm_b, Crc.params.crc8_hitag, Crc.params.crc8_icode, Crc.params.crc8_itu,
   Crc.params.crc8_lte, Crc.params.crc8_maxim, Crc.params.crc8_mifare, Crc.params.crc8_nrsc_5,
   Crc.params.crc8_opensafety, Crc.params.crc8_rohc, Crc.params.crc8_sae_j1850,
   Crc.params.crc8_sae_j1850_0, Crc.params.crc8_smbus, Crc.params.crc8_wcdma]

/-- `crc::reflect_bits<8>(byte)`:
`(byte * 0x0202020202ULL & 0x010884422010ULL) % 0x3ff`, returned as `uint8_t`. -/
def Crc.reflect_bits (byte : Nat) : Nat :=
  ((((byte % 256) * 0x0202020202) % 2 ^ 64 &&& 0x010884422010) % 0x3ff) % 256

/-- One turn of the loop of `dynamic_sum_chunk`:
`val = val & 1 ? Params::rev_poly ^ (val >> 1) : val >> 1`, stored in `value_t`. -/
def Crc.turn (p : Crc.Params) (val : Nat) : Nat :=
  if val &&& 1 ≠ 0 then (p.rev_poly ^^^ (val >>> 1)) % 256 else (val >>> 1) % 256

/-- `crc::algorithm<Params>::dynamic_sum_chunk(val)`. -/
def Crc.dynamic_sum_chunk (p : Crc.Params) (val : Nat) : Nat :=
  let val0 := val % 256
  let val1 := if !p.refin then Crc.reflect_bits val0 else val0
  let val2 := (Crc.turn p)^[p.width] val1
  if !p.refout then Crc.reflect_bits val2 else val2

/-- `crc::algorithm<Params>::lookup_table`: the array of `dynamic_sum_chunk(idx)`
for `idx` from 0 to `(0b1U << Params::width) - 1`. -/
def Crc.lookup_table (p : Crc.Params) : List Nat :=
  (List.range (2 ^ p.width)).map (Crc.dynamic_sum_chunk p)

/-- The loop `while (len--) { crc = lookup_table[(crc ^ *buf)]; ++buf; }` of
`sum_without_final_xor` over the elements of the buffer; `none` when an index
is outside the table. -/
def Crc.feed (p : Crc.Params) : List Nat → Nat → Option Nat
  | [], crc => some crc
  | b :: buf, crc =>
      match (Crc.lookup_table p)[crc ^^^ b]? with
      | none => none
      | some c => Crc.feed p buf c

/-- `crc::algorithm<Params>::sum_without_final_xor(buf, len, crc)` for the
buffer of the `len` elements `buf`, with `crc` of type `value_t`. -/
def Crc.sum_without_final_xor (p : Crc.Params) (buf : List Nat) (crc : Nat) : Option Nat :=
  Crc.feed p buf (if crc % 256 = 0 then (crc % 256 ^^^ p.init) % 256 else crc % 256)

/-- `crc::algorithm<Params>::sum(buf, len, crc)`. -/
def Crc.sum (p : Crc.Params) (buf : List Nat) (crc : Nat) : Option Nat :=
  (Crc.sum_without_final_xor p buf crc).map (fun c => (p.xorout ^^^ c) % 256)

/-- `crc_sum(buf, len)` of crc.cpp: `CrcAlgo::sum(buf, len)` with
`CrcAlgo = crc::algorithm<crc::params::crc8_maxim>`. crc.cpp takes the template
and the parameter set from `crc_template.hpp`: `algorithm_sum` is the `sum` of
that template and `crc8_maxim` that parameter set. -/
def Crc.crc_sum (algorithm_sum : Crc.Params → List Nat → Nat → Option Nat)
    (crc8_maxim : Crc.Params) (buf : List Nat) : Option Nat :=
  algorithm_sum crc8_maxim buf 0

/-- The bit reversal of a byte: bit `i` of the result is bit `7 - i` of `x`. -/
def Spec.reflect8 (x : Nat) : Nat :=
  x % 2 * 128 + x / 2 % 2 * 64 + x / 4 % 2 * 32 + x / 8 % 2 * 16 + x / 16 % 2 * 8
    + x / 32 % 2 * 4 + x / 64 % 2 * 2 + x / 128 % 2

/-- One step of the division by `poly` in a register of 8 bits: shift left,
and subtract `poly` when the bit shifted out is set. -/
def Spec.divide (poly reg : Nat) : Nat :=
  if reg.testBit 7 then ((reg <<< 1) ^^^ poly) % 256 else (reg <<< 1) % 256

/-- The bit-by-bit CRC of width 8 the parameters define: the register starts
at `init`; each input byte, bit-reflected iff `refin`, is added to the register
and divided by `poly` bit by bit; the result is the register, bit-reflected
iff `refout`, xor `xorout`. -/
def Spec.crcBitwise (p : Crc.Params) (buf : List Nat) : Nat :=
  let reg := buf.foldl
    (fun reg b => (Spec.divide p.poly)^[8] (reg ^^^ (if p.refin then Spec.reflect8 b else b)))
    p.init
  (if p.refout then Spec.reflect8 reg else reg) ^^^ p.xorout

/-- The ASCII bytes of "123456789". -/
def Demo.digits : List Nat := [0x31, 0x32, 0x33, 0x34, 0x35, 0x36, 0x37, 0x38, 0x39]

/-- The value a turn of the loop of `dynamic_sum_chunk` started from, read off
its result, for a `rev_poly` whose top bit is set: the top bit of the result
tells whether `rev_poly` was added. -/
def Crc.unturn (p : Crc.Params) (val : Nat) : Nat :=
  if 128 ≤ val then ((val ^^^ p.rev_poly) * 2 + 1) % 256 else val * 2 % 256


/-- An allocator of blocks of 4096 bytes with two Chunks, at 4096 and at 8192,
the one block of each handed out. -/
def Demo.bothFull : FixedAllocator :=
  { blockSize_ := 4096, numBlocks_ := 1,
    chunks_ := [{ pData_ := 4096, firstAvailableBlock_ := 1, nAvailableBlocks_ := 0 },
                { pData_ := 8192, firstAvailableBlock_ := 1, nAvailableBlocks_ := 0 }],
    allocChunk_ := some 1, deallocChunk_ := some 0 }

/-- The variant of `SmallObjAllocator::Impl::allocate(size)` without the test
of `pLastAlloc_`: after the test of `maxObjectSize_` the pool is always
searched by `std::lower_bound`. -/
def Spec.searchOnlyAllocate (s : SmallObjAllocator) (mem : Mem) (size : Nat) (env : SysEnv) :
    Option (Option Nat × Route × SmallObjAllocator × Mem) :=
  if s.maxObjectSize_ < size then some (some env.sysNew, Route.system, s, mem)
  else s.searchAllocate mem size env.chunkEnv

/-- The variant of `SmallObjAllocator::Impl::deallocate(p, size)` without the
test of `pLastDealloc_`: after the test of `maxObjectSize_` the pool is always
searched by `std::lower_bound`. -/
def Spec.searchOnlyDeallocate (s : SmallObjAllocator) (mem : Mem) (p size : Nat) :
    Option (Route × SmallObjAllocator × Mem) :=
  if s.maxObjectSize_ < size then some (Route.system, s, mem)
  else s.searchDeallocate mem p size

/-- The statements `lastChunk.release(); chunks_.pop_back();` of
`FixedAllocator::doDeallocate`: `Chunk::release` passes the buffer of the last
Chunk to `delete[]` and clears the Chunk, `pop_back` removes it from the
vector. `released` lists the buffers passed to `delete[]`, in order. -/
def FixedAllocator.releaseLast (chunks : List Chunk) (released : List Nat) :
    List Chunk × List Nat :=
  match chunks[chunks.length - 1]? with
  | none => (chunks, released)
  | some lastChunk =>
      ((chunks.set (chunks.length - 1) lastChunk.release).dropLast,
       released ++ [lastChunk.pData_])

/-- The statement `if (deallocChunk_->nAvailableBlocks_ == numBlocks_) { ... }`
that ends `FixedAllocator::doDeallocate`, with `deallocChunk_` at position `d`,
together with the buffers it passes to `delete[]`: in the two branches that
discard a Chunk the last Chunk is released and popped, in the others nothing
is released. -/
def FixedAllocator.reclaimReleasing (fa : FixedAllocator) (d : Nat) (released : List Nat) :
    Option (FixedAllocator × List Nat) :=
  match fa.chunks_[d]? with
  | none => none
  | some c1 =>
      let last := fa.chunks_.length - 1
      if c1.nAvailableBlocks_ = fa.numBlocks_ then
        if last = d then
          if 1 < fa.chunks_.length ∧
              (fa.chunks_[d - 1]?).map Chunk.nAvailableBlocks_ = some fa.numBlocks_ then
            let r := FixedAllocator.releaseLast fa.chunks_ released
            some ({ fa with chunks_ := r.1, allocChunk_ := some 0, deallocChunk_ := some 0 }, r.2)
          else some (fa, released)
        else
          match fa.chunks_[last]? with
          | none => none
          | some lastChunk =>
              if lastChunk.nAvailableBlocks_ = fa.numBlocks_ then
                let r := FixedAllocator.releaseLast fa.chunks_ released
                some ({ fa with chunks_ := r.1, allocChunk_ := some d }, r.2)
              else
                some ({ fa with chunks_ := (fa.chunks_.set d lastChunk).set last c1,
                                allocChunk_ := some last }, released)
      else some (fa, released)

/-- `FixedAllocator::doDeallocate(p)` together with the buffers it passes to
`delete[]`. -/
def FixedAllocator.doDeallocateReleasing (fa : FixedAllocator) (mem : Mem) (p : Nat)
    (released : List Nat) : Option (FixedAllocator × Mem × List Nat) :=
  match fa.deallocChunk_ with
  | none => none
  | some d =>
      match fa.chunks_[d]? with
      | none => none
      | some c =>
          if ¬ c.pData_ ≤ p then none
          else if ¬ p < c.pData_ + fa.numBlocks_ * fa.blockSize_ then none
          else
            match c.deallocate mem p fa.blockSize_ with
            | none => none
            | some (c1, mem1) =>
                match ({ fa with chunks_ := fa.chunks_.set d c1 }).reclaimReleasing d released with
                | none => none
                | some (fa1, log) => some (fa1, mem1, log)

/-- `FixedAllocator::deallocate(p)` together with the buffers it passes to
`delete[]`. -/
def FixedAllocator.deallocateReleasing (fa : FixedAllocator) (mem : Mem) (p : Nat)
    (released : List Nat) : Option (FixedAllocator × Mem × List Nat) :=
  if fa.chunks_.isEmpty then none
  else
    match fa.deallocChunk_ with
    | none => none
    | some d =>
        if ¬ d < fa.chunks_.length then none
        else
          match fa.vicinityFind p with
          | none => none
          | some j => ({ fa with deallocChunk_ := some j }).doDeallocateReleasing mem p released

/-- A sequence of calls on a FixedAllocator, each run as the code runs it;
`none` when a call fails an assertion or leaves the vector. -/
def World.play : World → List Op → Option World
  | w, [] => some w
  | w, op :: ops =>
      match w.exec op with
      | none => none
      | some w1 => World.play w1 ops

/-- An allocator of blocks of 2048 bytes, two per Chunk, with Chunks at 4096
and at 8192, all four blocks handed out. -/
def Demo.twoFull : FixedAllocator :=
  { blockSize_ := 2048, numBlocks_ := 2,
    chunks_ := [{ pData_ := 4096, firstAvailableBlock_ := 2, nAvailableBlocks_ := 0 },
                { pData_ := 8192, firstAvailableBlock_ := 2, nAvailableBlocks_ := 0 }],
    allocChunk_ := some 1, deallocChunk_ := some 0 }

/-- What an `allocate` takes from outside when the read at `end()` sees the
value 1 and a new buffer would be at `newData`. -/
def Demo.envOne (newData : Nat) : AllocEnv :=
  { pastEnd := 1, newData := newData, uninit := { pData_ := 0, firstAvailableBlock_ := 0,
                                                   nAvailableBlocks_ := 0 } }

end SmallObj

namespace SmallObj

/-! ## Memory lemmas -/

theorem Mem.load_store_same (mem : Mem) (a v : Nat) : (mem.store a v).load a = v % 256 := by
  simp [Mem.load, Mem.store]

theorem Mem.load_store_other (mem : Mem) (a b v : Nat) (h : b ≠ a) :
    (mem.store a v).load b = mem.load b := by
  simp [Mem.load, Mem.store, h]

theorem Mem.load_lt (mem : Mem) (a : Nat) : mem.load a < 256 := by
  unfold Mem.load; omega

/-! ## Chunk::init -/

/-- The seeding loop leaves every address it does not visit as it was. -/
theorem Chunk.seed_frame (blockSize : Nat) :
    ∀ (k blockIdx pBlock : Nat) (mem : Mem) (a : Nat),
      (∀ i, i < k → a ≠ pBlock + i * blockSize) →
      Chunk.seed blockSize k blockIdx pBlock mem a = mem a := by
  intro k
  induction k with
  | zero => intro blockIdx pBlock mem a _; rfl
  | succ k ih =>
    intro blockIdx pBlock mem a h
    rw [Chunk.seed, ih]
    · have h0 := h 0 (Nat.succ_pos k)
      simp at h0
      simp [Mem.store, h0]
    · intro i hi
      have h1 := h (i + 1) (Nat.succ_lt_succ hi)
      rw [Nat.add_mul] at h1
      omega

/-- The seeding loop stores, in the first byte of the block `i` places after
its start, the start index plus `i + 1`. -/
theorem Chunk.seed_load (blockSize : Nat) (hbs : 1 ≤ blockSize) :
    ∀ (k blockIdx pBlock : Nat) (mem : Mem) (i : Nat), i < k →
      (Chunk.seed blockSize k blockIdx pBlock mem).load (pBlock + i * blockSize)
        = (blockIdx + i + 1) % 256 := by
  intro k
  induction k with
  | zero => intro blockIdx pBlock mem i hi; omega
  | succ k ih =>
    intro blockIdx pBlock mem i hi
    rw [Chunk.seed]
    cases i with
    | zero =>
      unfold Mem.load
      rw [Chunk.seed_frame]
      · simp [Mem.store]
      · intro j _
        have : 0 < (j + 1) * blockSize := Nat.mul_pos (Nat.succ_pos j) hbs
        rw [Nat.add_mul] at this
        omega
    | succ i =>
      have := ih (blockIdx + 1) (pBlock + blockSize) (mem.store pBlock (blockIdx + 1)) i
        (Nat.lt_of_succ_lt_succ hi)
      rw [Nat.add_mul]
      have e1 : pBlock + (i * blockSize + 1 * blockSize) = pBlock + blockSize + i * blockSize := by
        omega
      have e2 : blockIdx + (i + 1) + 1 = blockIdx + 1 + i + 1 := by omega
      rw [e1, e2]
      exact this

/-! ## The free list of a Chunk -/

theorem Chunk.links_length (mem : Mem) (pData blockSize : Nat) :
    ∀ (n first : Nat), (Chunk.links mem pData blockSize first n).length = n := by
  intro n
  induction n with
  | zero => intro first; rfl
  | succ n ih => intro first; simp [Chunk.links, ih]

/-- The walk only depends on the first bytes of the blocks it visits. -/
theorem Chunk.links_congr (mem mem1 : Mem) (pData blockSize : Nat) :
    ∀ (n first : Nat),
      (∀ k ∈ Chunk.links mem pData blockSize first n,
        mem1.load (pData + k * blockSize) = mem.load (pData + k * blockSize)) →
      Chunk.links mem1 pData blockSize first n = Chunk.links mem pData blockSize first n := by
  intro n
  induction n with
  | zero => intro first _; rfl
  | succ n ih =>
    intro first h
    have h0 := h first (by simp [Chunk.links])
    simp only [Chunk.links]
    rw [h0, ih]
    intro k hk
    exact h k (by simp [Chunk.links, hk])

theorem Chunk.freeList_length (c : Chunk) (mem : Mem) (blockSize : Nat) :
    (c.freeList mem blockSize).length = c.nAvailableBlocks_ :=
  Chunk.links_length mem c.pData_ blockSize c.nAvailableBlocks_ c.firstAvailableBlock_

/-- Blocks with different indices start at different addresses. -/
theorem block_addr_inj {pData blockSize i j : Nat} (hbs : 1 ≤ blockSize)
    (h : pData + i * blockSize = pData + j * blockSize) : i = j := by
  have h1 : i * blockSize = j * blockSize := by omega
  exact Nat.eq_of_mul_eq_mul_right hbs h1

/-- A list without repetition of numbers below `n` has at most `n` elements. -/
theorem length_le_of_nodup_lt {l : List Nat} {n : Nat} (hnd : l.Nodup) (hlt : ∀ i ∈ l, i < n) :
    l.length ≤ n := by
  have hsub : l ⊆ List.range n := fun i hi => List.mem_range.mpr (hlt i hi)
  have := (List.subperm_of_subset hnd hsub).length_le
  simpa using this

theorem Chunk.Sound.avail_le {c : Chunk} {mem : Mem} {blockSize numBlocks : Nat}
    {held : List Nat} (h : c.Sound mem blockSize numBlocks held) :
    c.nAvailableBlocks_ ≤ numBlocks := by
  rw [← Chunk.freeList_length c mem blockSize]
  exact length_le_of_nodup_lt h.nodup h.inRange

/-- A list without repetition that holds every number below `n` has at least
`n` elements. -/
theorem le_length_of_all_mem {l : List Nat} {n : Nat} (hall : ∀ i, i < n → i ∈ l) :
    n ≤ l.length := by
  have hsub : List.range n ⊆ l := fun i hi => hall i (List.mem_range.mp hi)
  have := (List.subperm_of_subset (List.nodup_range n) hsub).length_le
  simpa using this

/-- Soundness of a Chunk is kept by a change of memory away from the first
bytes of its free blocks and by a change of the handed-out blocks away from
its own blocks. -/
theorem Chunk.Sound.frame {c : Chunk} {mem mem1 : Mem} {blockSize numBlocks : Nat}
    {held held1 : List Nat} (h : c.Sound mem blockSize numBlocks held)
    (hmem : ∀ k ∈ c.freeList mem blockSize,
      mem1.load (c.pData_ + k * blockSize) = mem.load (c.pData_ + k * blockSize))
    (hheld : ∀ i, i < numBlocks →
      (c.pData_ + i * blockSize ∈ held1 ↔ c.pData_ + i * blockSize ∈ held)) :
    c.Sound mem1 blockSize numBlocks held1 := by
  have e : c.freeList mem1 blockSize = c.freeList mem blockSize :=
    Chunk.links_congr mem mem1 c.pData_ blockSize _ _ hmem
  refine ⟨by rw [e]; exact h.nodup, by rw [e]; exact h.inRange, ?_⟩
  intro i hi
  rw [e, hheld i hi]
  exact h.free_iff i hi

theorem Chunk.freeList_of_avail (c : Chunk) (mem : Mem) (blockSize : Nat)
    (hav : c.nAvailableBlocks_ ≠ 0) :
    c.freeList mem blockSize
      = c.firstAvailableBlock_ :: (c.allocate mem blockSize).2.freeList mem blockSize := by
  obtain ⟨n, hn⟩ := Nat.exists_eq_succ_of_ne_zero hav
  simp [Chunk.freeList, Chunk.allocate, hn, Chunk.links]

/-- `Chunk::allocate` on a sound Chunk with a free block: the block returned
is a block of the Chunk that was not handed out, and the Chunk stays sound. -/
theorem Chunk.allocate_sound {c : Chunk} {mem : Mem} {blockSize numBlocks : Nat}
    {held : List Nat} (hbs : 1 ≤ blockSize) (h : c.Sound mem blockSize numBlocks held)
    (hav : c.nAvailableBlocks_ ≠ 0) :
    (c.allocate mem blockSize).1 = some (c.pData_ + c.firstAvailableBlock_ * blockSize) ∧
    c.firstAvailableBlock_ < numBlocks ∧
    c.pData_ + c.firstAvailableBlock_ * blockSize ∉ held ∧
    (c.allocate mem blockSize).2.pData_ = c.pData_ ∧
    (c.allocate mem blockSize).2.nAvailableBlocks_ = c.nAvailableBlocks_ - 1 ∧
    (c.allocate mem blockSize).2.Sound mem blockSize numBlocks
      ((c.pData_ + c.firstAvailableBlock_ * blockSize) :: held) := by
  have hfl := Chunk.freeList_of_avail c mem blockSize hav
  have hmem : c.firstAvailableBlock_ ∈ c.freeList mem blockSize := by rw [hfl]; simp
  have hlt : c.firstAvailableBlock_ < numBlocks := h.inRange _ hmem
  have hnd := h.nodup
  rw [hfl] at hnd
  have hnd' := List.nodup_cons.mp hnd
  refine ⟨by simp [Chunk.allocate, hav], hlt, (h.free_iff _ hlt).mp hmem,
    by simp [Chunk.allocate, hav], by simp [Chunk.allocate, hav], ?_⟩
  refine ⟨hnd'.2, ?_, ?_⟩
  · intro i hi
    exact h.inRange i (by rw [hfl]; exact List.mem_cons_of_mem _ hi)
  · intro i hi
    have hpd : (c.allocate mem blockSize).2.pData_ = c.pData_ := by simp [Chunk.allocate, hav]
    rw [hpd]
    constructor
    · intro hin
      have h1 : i ∈ c.freeList mem blockSize := by rw [hfl]; exact List.mem_cons_of_mem _ hin
      have h2 := (h.free_iff i hi).mp h1
      have h3 : i ≠ c.firstAvailableBlock_ := by
        intro e; rw [e] at hin; exact hnd'.1 hin
      intro hc
      rcases List.mem_cons.mp hc with hc | hc
      · exact h3 (block_addr_inj hbs hc)
      · exact h2 hc
    · intro hnot
      have h2 : c.pData_ + i * blockSize ∉ held := fun hc => hnot (List.mem_cons_of_mem _ hc)
      have h1 := (h.free_iff i hi).mpr h2
      rw [hfl] at h1
      rcases List.mem_cons.mp h1 with e | hin
      · exact absurd (by rw [e]; exact List.mem_cons_self _ _) hnot
      · exact hin

/-- `Chunk::deallocate` of a handed-out block of a sound Chunk: no assertion
fails, the count of free blocks grows by one, and the Chunk stays sound. -/
theorem Chunk.deallocate_sound {c : Chunk} {mem : Mem} {blockSize numBlocks : Nat}
    {held : List Nat} {i : Nat} (hbs : 1 ≤ blockSize) (hN : numBlocks ≤ 255)
    (h : c.Sound mem blockSize numBlocks held) (hi : i < numBlocks)
    (hheld : c.pData_ + i * blockSize ∈ held) (hnd : held.Nodup) :
    ∃ c1, c.deallocate mem (c.pData_ + i * blockSize) blockSize
        = some (c1, mem.store (c.pData_ + i * blockSize) c.firstAvailableBlock_) ∧
      c1.pData_ = c.pData_ ∧
      c1.nAvailableBlocks_ = c.nAvailableBlocks_ + 1 ∧
      c.nAvailableBlocks_ < numBlocks ∧
      c1.Sound (mem.store (c.pData_ + i * blockSize) c.firstAvailableBlock_) blockSize numBlocks
        (held.erase (c.pData_ + i * blockSize)) := by
  have hnotfree : i ∉ c.freeList mem blockSize := fun hin => (h.free_iff i hi).mp hin hheld
  -- the free list with `i` in front is still without repetition and in range
  have hcons : (i :: c.freeList mem blockSize).Nodup := List.nodup_cons.mpr ⟨hnotfree, h.nodup⟩
  have hlen : (i :: c.freeList mem blockSize).length ≤ numBlocks :=
    length_le_of_nodup_lt hcons (by
      intro k hk
      rcases List.mem_cons.mp hk with e | hk
      · rw [e]; exact hi
      · exact h.inRange k hk)
  rw [List.length_cons, Chunk.freeList_length] at hlen
  have hsub : c.pData_ + i * blockSize - c.pData_ = i * blockSize := by omega
  have hmod : (i * blockSize) % blockSize = 0 := Nat.mul_mod_left i blockSize
  have hdiv : (i * blockSize) / blockSize = i := Nat.mul_div_cancel i hbs
  have himod : i % 256 = i := Nat.mod_eq_of_lt (by omega)
  have hamod : (c.nAvailableBlocks_ + 1) % 256 = c.nAvailableBlocks_ + 1 :=
    Nat.mod_eq_of_lt (by omega)
  refine ⟨{ c with firstAvailableBlock_ := i, nAvailableBlocks_ := c.nAvailableBlocks_ + 1 },
    ?_, rfl, rfl, by omega, ?_⟩
  · simp [Chunk.deallocate, hsub, hmod, hdiv, himod, hamod]
  · -- the new free list is `i` followed by the old one
    have hwalk : Chunk.links (mem.store (c.pData_ + i * blockSize) c.firstAvailableBlock_)
        c.pData_ blockSize c.firstAvailableBlock_ c.nAvailableBlocks_
          = c.freeList mem blockSize := by
      apply Chunk.links_congr
      intro k hk
      apply Mem.load_store_other
      intro e
      exact hnotfree (by rw [← block_addr_inj hbs e]; exact hk)
    have hfirst : c.nAvailableBlocks_ ≠ 0 → c.firstAvailableBlock_ % 256 = c.firstAvailableBlock_ := by
      intro hav
      have : c.firstAvailableBlock_ ∈ c.freeList mem blockSize := by
        rw [Chunk.freeList_of_avail c mem blockSize hav]; simp
      have := h.inRange _ this
      exact Nat.mod_eq_of_lt (by omega)
    have hfl : Chunk.freeList
        { c with firstAvailableBlock_ := i, nAvailableBlocks_ := c.nAvailableBlocks_ + 1 }
        (mem.store (c.pData_ + i * blockSize) c.firstAvailableBlock_) blockSize
          = i :: c.freeList mem blockSize := by
      simp only [Chunk.freeList, Chunk.links, Mem.load_store_same]
      congr 1
      by_cases hav : c.nAvailableBlocks_ = 0
      · simp [hav, Chunk.links]
      · rw [hfirst hav]; exact hwalk
    refine ⟨by rw [hfl]; exact hcons, ?_, ?_⟩
    · intro k hk
      rw [hfl] at hk
      rcases List.mem_cons.mp hk with e | hk
      · rw [e]; exact hi
      · exact h.inRange k hk
    · intro k hk
      rw [hfl]
      show k ∈ i :: c.freeList mem blockSize ↔
        c.pData_ + k * blockSize ∉ held.erase (c.pData_ + i * blockSize)
      rw [hnd.mem_erase_iff]
      constructor
      · intro hin hc
        rcases List.mem_cons.mp hin with e | hin
        · exact hc.1 (by rw [e])
        · exact (h.free_iff k hk).mp hin hc.2
      · intro hnot
        by_cases e : k = i
        · rw [e]; exact List.mem_cons_self _ _
        · apply List.mem_cons_of_mem
          apply (h.free_iff k hk).mpr
          intro hc
          exact hnot ⟨fun e2 => e (block_addr_inj hbs e2), hc⟩

/-- A byte inside the block with index `i` is not the first byte of a block
with another index. -/
theorem block_byte_ne {pData blockSize i k a : Nat}
    (h1 : pData + i * blockSize ≤ a) (h2 : a < pData + i * blockSize + blockSize)
    (hne : k ≠ i) : a ≠ pData + k * blockSize := by
  intro e
  subst e
  have h3 : i * blockSize ≤ k * blockSize := by omega
  have h4 : k * blockSize < (i + 1) * blockSize := by rw [Nat.add_mul]; omega
  have hpos : 0 < blockSize := by
    rcases Nat.eq_zero_or_pos blockSize with h0 | h0
    · subst h0; simp at h4
    · exact h0
  have h5 : i ≤ k := Nat.le_of_mul_le_mul_right h3 hpos
  have h6 : k < i + 1 := Nat.lt_of_mul_lt_mul_right h4
  omega

/-- When every block from `first` on links to its successor, the walk visits
`first, first + 1, ...`. -/
theorem Chunk.links_seeded (mem : Mem) (pData blockSize : Nat) :
    ∀ (n first : Nat),
      (∀ i, i < n → mem.load (pData + (first + i) * blockSize) = first + i + 1) →
      Chunk.links mem pData blockSize first n = List.range' first n := by
  intro n
  induction n with
  | zero => intro first _; rfl
  | succ n ih =>
    intro first h
    have h0 := h 0 (Nat.succ_pos n)
    simp only [Nat.add_zero] at h0
    simp only [Chunk.links, List.range'_succ, h0]
    congr 1
    apply ih
    intro i hi
    have := h (i + 1) (Nat.succ_lt_succ hi)
    have e : first + (i + 1) = first + 1 + i := by omega
    rw [e] at this
    exact this

/-- The free list right after a successful `Chunk::init` is `0, 1, ..., numBlocks - 1`. -/
theorem Chunk.init_freeList (c : Chunk) (mem : Mem) (newData blockSize numBlocks : Nat)
    (hbs : 1 ≤ blockSize) (hN : numBlocks ≤ 255) (hnew : newData ≠ 0) :
    (c.init mem newData blockSize numBlocks).2.1.freeList
        (c.init mem newData blockSize numBlocks).2.2 blockSize
      = List.range' 0 numBlocks := by
  have hmod : numBlocks % 256 = numBlocks := Nat.mod_eq_of_lt (by omega)
  simp only [Chunk.init, hnew, if_false, Chunk.freeList, hmod]
  apply Chunk.links_seeded
  intro i hi
  have h256 : i + 1 < 256 := by omega
  have hs := Chunk.seed_load blockSize hbs numBlocks 0 newData mem i hi
  simp only [Nat.zero_add] at hs ⊢
  rw [hs]
  exact Nat.mod_eq_of_lt h256

theorem Chunk.init_sound (c : Chunk) (mem : Mem) (newData blockSize numBlocks : Nat)
    (hbs : 1 ≤ blockSize) (hN : numBlocks ≤ 255) (hnew : newData ≠ 0)
    (held : List Nat)
    (hheld : ∀ i, i < numBlocks → newData + i * blockSize ∉ held) :
    (c.init mem newData blockSize numBlocks).2.1.Sound
      (c.init mem newData blockSize numBlocks).2.2 blockSize numBlocks held := by
  have hfl := Chunk.init_freeList c mem newData blockSize numBlocks hbs hN hnew
  have hpd : (c.init mem newData blockSize numBlocks).2.1.pData_ = newData := by
    simp [Chunk.init, hnew]
  refine ⟨by rw [hfl]; exact List.nodup_range' 0 numBlocks, ?_, ?_⟩
  · intro i hi
    rw [hfl] at hi
    simpa using hi
  · intro i hi
    rw [hfl, hpd]
    simp [hi, hheld i hi]

theorem ChunkWorld.fresh_sound (c : Chunk) (mem : Mem) (newData blockSize numBlocks : Nat)
    (hbs : 1 ≤ blockSize) (hN : numBlocks ≤ 255) (hnew : newData ≠ 0) :
    (ChunkWorld.fresh c mem newData blockSize numBlocks).Inv blockSize numBlocks := by
  refine ⟨?_, List.nodup_nil, ?_⟩
  · exact Chunk.init_sound c mem newData blockSize numBlocks hbs hN hnew [] (by simp)
  · intro p hp
    simp [ChunkWorld.fresh] at hp

/-- Every admitted call on a sound Chunk world succeeds and keeps it sound. -/
theorem ChunkWorld.step_sound {w : ChunkWorld} {blockSize numBlocks : Nat} (op : ChunkOp)
    (hbs : 1 ≤ blockSize) (hN : numBlocks ≤ 255) (h : w.Inv blockSize numBlocks)
    (hadm : w.Admits blockSize op) :
    ∃ w1, w.step blockSize op = some w1 ∧ w1.Inv blockSize numBlocks := by
  cases op with
  | allocate =>
    by_cases hav : w.chunk.nAvailableBlocks_ = 0
    · refine ⟨w, ?_, h⟩
      have e : w.chunk.allocate w.mem blockSize = (none, w.chunk) := by simp [Chunk.allocate, hav]
      simp [ChunkWorld.step, ChunkWorld.Admits, e]
    · obtain ⟨h1, h2, h3, h4, _, h6⟩ := Chunk.allocate_sound hbs h.sound hav
      refine ⟨{ w with chunk := (w.chunk.allocate w.mem blockSize).2,
                       held := (w.chunk.pData_ + w.chunk.firstAvailableBlock_ * blockSize)
                                 :: w.held }, ?_, ?_⟩
      · have e : w.chunk.allocate w.mem blockSize
            = (some (w.chunk.pData_ + w.chunk.firstAvailableBlock_ * blockSize),
               (w.chunk.allocate w.mem blockSize).2) := by
          rw [← h1]
        simp only [ChunkWorld.step, ChunkWorld.Admits, if_true]
        rw [e]
      · refine ⟨h6, List.nodup_cons.mpr ⟨h3, h.held_nodup⟩, ?_⟩
        intro p hp
        rcases List.mem_cons.mp hp with e | hp
        · exact ⟨_, h2, by rw [e]; show _ = (w.chunk.allocate w.mem blockSize).2.pData_ + _; rw [h4]⟩
        · obtain ⟨i, hi, e⟩ := h.held_blocks p hp
          exact ⟨i, hi, by show _ = (w.chunk.allocate w.mem blockSize).2.pData_ + _; rw [h4]; exact e⟩
  | deallocate p =>
    have hp : p ∈ w.held := hadm
    obtain ⟨i, hi, e⟩ := h.held_blocks p hp
    subst e
    obtain ⟨c1, h1, h2, _, _, h5⟩ := Chunk.deallocate_sound hbs hN h.sound hi hp h.held_nodup
    refine ⟨{ chunk := c1,
              mem := w.mem.store (w.chunk.pData_ + i * blockSize) w.chunk.firstAvailableBlock_,
              held := w.held.erase (w.chunk.pData_ + i * blockSize) }, ?_, ?_⟩
    · simp only [ChunkWorld.step, ChunkWorld.Admits, hp, if_true, h1]
    · refine ⟨h5, h.held_nodup.erase _, ?_⟩
      intro q hq
      obtain ⟨k, hk, e⟩ := h.held_blocks q (List.mem_of_mem_erase hq)
      exact ⟨k, hk, by show _ = c1.pData_ + _; rw [h2]; exact e⟩
  | write a v =>
    obtain ⟨p, hp, hpa, hap⟩ := hadm
    refine ⟨{ w with mem := w.mem.store a v }, ?_, ?_⟩
    · have : w.Admits blockSize (ChunkOp.write a v) := ⟨p, hp, hpa, hap⟩
      simp only [ChunkWorld.step, this, if_true]
    · obtain ⟨i, hi, e⟩ := h.held_blocks p hp
      subst e
      refine ⟨?_, h.held_nodup, h.held_blocks⟩
      apply h.sound.frame
      · intro k hk
        apply Mem.load_store_other
        have hne : k ≠ i := by
          intro e; subst e
          exact (h.sound.free_iff k hi).mp hk hp
        exact (block_byte_ne hpa hap hne).symm
      · intro _ _; rfl

/-- Every sequence of admitted calls that runs from a sound Chunk world ends
in a sound Chunk world. -/
theorem ChunkWorld.run_sound {blockSize numBlocks : Nat} (hbs : 1 ≤ blockSize)
    (hN : numBlocks ≤ 255) :
    ∀ (ops : List ChunkOp) (w w1 : ChunkWorld), w.Inv blockSize numBlocks →
      ChunkWorld.run blockSize w ops = some w1 → w1.Inv blockSize numBlocks := by
  intro ops
  induction ops with
  | nil =>
    intro w w1 h hrun
    simp [ChunkWorld.run] at hrun
    rw [← hrun]; exact h
  | cons op ops ih =>
    intro w w1 h hrun
    simp only [ChunkWorld.run] at hrun
    by_cases hadm : w.Admits blockSize op
    · obtain ⟨w2, h2, hinv⟩ := ChunkWorld.step_sound op hbs hN h hadm
      rw [h2] at hrun
      exact ih w2 w1 hinv hrun
    · simp [ChunkWorld.step, hadm] at hrun

theorem Chunk.init_ok_iff (c : Chunk) (mem : Mem) (newData blockSize numBlocks : Nat) :
    (c.init mem newData blockSize numBlocks).1 = true ↔ newData ≠ 0 := by
  by_cases h : newData = 0 <;> simp [Chunk.init, h]

/-! ## The Chunks of a FixedAllocator -/

theorem Disj.symm {len x y : Nat} (h : Disj len x y) : Disj len y x := Or.symm h

/-- The block with index `i < numBlocks` ends inside the buffer. -/
theorem block_end_le (blockSize : Nat) {numBlocks i : Nat} (hi : i < numBlocks) :
    i * blockSize + blockSize ≤ numBlocks * blockSize := by
  have := Nat.mul_le_mul_right blockSize (Nat.succ_le_of_lt hi)
  rw [Nat.succ_mul] at this
  exact this

/-- A byte of a block of one buffer is not the first byte of a block of a
buffer that does not overlap it. -/
theorem disj_byte_ne {blockSize numBlocks x y i k a : Nat}
    (hd : Disj (numBlocks * blockSize) x y) (hi : i < numBlocks) (hk : k < numBlocks)
    (h1 : x + i * blockSize ≤ a) (h2 : a < x + i * blockSize + blockSize) :
    a ≠ y + k * blockSize := by
  have e1 := block_end_le blockSize hi
  have e2 := block_end_le blockSize hk
  rcases hd with hd | hd <;> omega

/-- Blocks of buffers that do not overlap start at different addresses. -/
theorem disj_block_ne {blockSize numBlocks x y i k : Nat} (hbs : 1 ≤ blockSize)
    (hd : Disj (numBlocks * blockSize) x y) (hi : i < numBlocks) (hk : k < numBlocks) :
    x + i * blockSize ≠ y + k * blockSize :=
  disj_byte_ne hd hi hk (Nat.le_refl _) (by omega)

/-- Chunks at different positions of the vector have buffers that do not overlap. -/
theorem apart_index {chunks : List Chunk} {len i j : Nat} {c d : Chunk}
    (h : (chunks.map Chunk.pData_).Pairwise (Disj len))
    (hi : chunks[i]? = some c) (hj : chunks[j]? = some d) (hij : i ≠ j) :
    Disj len c.pData_ d.pData_ := by
  rw [List.pairwise_map, List.pairwise_iff_getElem] at h
  obtain ⟨hi1, hi2⟩ := List.getElem?_eq_some.mp hi
  obtain ⟨hj1, hj2⟩ := List.getElem?_eq_some.mp hj
  rcases Nat.lt_or_gt_of_ne hij with hlt | hlt
  · have := h i j hi1 hj1 hlt
    rw [hi2, hj2] at this
    exact this
  · have := h j i hj1 hi1 hlt
    rw [hi2, hj2] at this
    exact this.symm

/-- Two Chunks of the vector have the same buffer or buffers that do not overlap. -/
theorem apart_mem {chunks : List Chunk} {len : Nat} {c d : Chunk}
    (h : (chunks.map Chunk.pData_).Pairwise (Disj len))
    (hc : c ∈ chunks) (hd : d ∈ chunks) :
    c.pData_ = d.pData_ ∨ Disj len c.pData_ d.pData_ := by
  by_cases e : c.pData_ = d.pData_
  · exact Or.inl e
  · exact Or.inr (h.forall (fun _ _ hxy => Disj.symm hxy)
      (List.mem_map_of_mem _ hc) (List.mem_map_of_mem _ hd) e)

/-- An element of a vector after the store of `b` at position `n` is `b` or an
element at another position. -/
theorem mem_set_cases {α : Type} {l : List α} {n : Nat} {x b : α} (h : x ∈ l.set n b) :
    x = b ∨ ∃ i, i ≠ n ∧ l[i]? = some x := by
  obtain ⟨i, hi⟩ := List.mem_iff_getElem?.mp h
  rw [List.getElem?_set] at hi
  by_cases e : n = i
  · left
    rw [if_pos e] at hi
    split at hi
    · exact (Option.some.inj hi).symm
    · exact absurd hi (by simp)
  · right
    rw [if_neg e] at hi
    exact ⟨i, fun e2 => e e2.symm, hi⟩

/-- An element of a vector is still there after a store at another position. -/
theorem mem_set_of_ne {α : Type} {l : List α} {n i : Nat} {x b : α} (hne : i ≠ n)
    (hi : l[i]? = some x) : x ∈ l.set n b := by
  apply List.mem_iff_getElem?.mpr
  exact ⟨i, by rw [List.getElem?_set_ne (fun e => hne e.symm)]; exact hi⟩

theorem mem_set_self {α : Type} {l : List α} {n : Nat} {b : α} (hn : n < l.length) :
    b ∈ l.set n b :=
  List.mem_iff_getElem?.mpr ⟨n, List.getElem?_set_self hn⟩

/-- A store that keeps the buffer address of the element keeps the buffer
addresses of the vector. -/
theorem map_pData_set {chunks : List Chunk} {n : Nat} {c c1 : Chunk}
    (hn : chunks[n]? = some c) (he : c1.pData_ = c.pData_) :
    (chunks.set n c1).map Chunk.pData_ = chunks.map Chunk.pData_ := by
  apply List.ext_getElem?
  intro i
  rw [List.getElem?_map, List.getElem?_map, List.getElem?_set]
  by_cases e : n = i
  · subst e
    have hlt : n < chunks.length := (List.getElem?_eq_some.mp hn).1
    simp [hlt, hn, he]
  · simp [e]


/-- The Chunks stay in their invariant when a block is allocated from the
Chunk at position `a`. -/
theorem ChunksInv.allocate {chunks : List Chunk} {mem : Mem} {blockSize numBlocks : Nat}
    {out : List Nat} {a : Nat} {c : Chunk} (hbs : 1 ≤ blockSize)
    (h : ChunksInv chunks mem blockSize numBlocks out)
    (ha : chunks[a]? = some c) (hav : c.nAvailableBlocks_ ≠ 0) :
    ChunksInv (chunks.set a (c.allocate mem blockSize).2) mem blockSize numBlocks
      ((c.pData_ + c.firstAvailableBlock_ * blockSize) :: out) := by
  have hc : c ∈ chunks := List.mem_iff_getElem?.mpr ⟨a, ha⟩
  obtain ⟨_, h2, h3, h4, _, h6⟩ := Chunk.allocate_sound hbs (h.sound c hc) hav
  have halt : a < chunks.length := (List.getElem?_eq_some.mp ha).1
  refine ⟨?_, ?_, List.nodup_cons.mpr ⟨h3, h.out_nodup⟩, ?_⟩
  · rw [map_pData_set ha h4]; exact h.apart
  · intro x hx
    rcases mem_set_cases hx with e | ⟨i, hne, hi⟩
    · rw [e]; exact h6
    · have hxm : x ∈ chunks := List.mem_iff_getElem?.mpr ⟨i, hi⟩
      have hd := apart_index h.apart hi ha hne
      apply (h.sound x hxm).frame (fun _ _ => rfl)
      intro k hk
      constructor
      · intro hin
        rcases List.mem_cons.mp hin with e | hin
        · exact absurd e (disj_block_ne hbs hd hk h2)
        · exact hin
      · intro hin
        exact List.mem_cons_of_mem _ hin
  · intro q hq
    rcases List.mem_cons.mp hq with e | hq
    · exact ⟨_, mem_set_self halt, _, h2, by rw [e, h4]⟩
    · obtain ⟨x, hx, k, hk, e⟩ := h.out_blocks q hq
      obtain ⟨i, hi⟩ := List.mem_iff_getElem?.mp hx
      by_cases hia : i = a
      · subst hia
        rw [ha] at hi
        have e2 : c = x := Option.some.inj hi
        subst e2
        exact ⟨_, mem_set_self halt, k, hk, by rw [h4]; exact e⟩
      · exact ⟨x, mem_set_of_ne hia hi, k, hk, e⟩

/-- The Chunks stay in their invariant when a handed-out block of the Chunk at
position `j` is deallocated. -/
theorem ChunksInv.deallocate {chunks : List Chunk} {mem : Mem} {blockSize numBlocks : Nat}
    {out : List Nat} {j i : Nat} {c c1 : Chunk} (hbs : 1 ≤ blockSize)
    (h : ChunksInv chunks mem blockSize numBlocks out)
    (hj : chunks[j]? = some c) (hi : i < numBlocks)
    (hpd : c1.pData_ = c.pData_)
    (hsound : c1.Sound (mem.store (c.pData_ + i * blockSize) c.firstAvailableBlock_) blockSize
      numBlocks (out.erase (c.pData_ + i * blockSize))) :
    ChunksInv (chunks.set j c1) (mem.store (c.pData_ + i * blockSize) c.firstAvailableBlock_)
      blockSize numBlocks (out.erase (c.pData_ + i * blockSize)) := by
  have hjlt : j < chunks.length := (List.getElem?_eq_some.mp hj).1
  refine ⟨?_, ?_, h.out_nodup.erase _, ?_⟩
  · rw [map_pData_set hj hpd]; exact h.apart
  · intro x hx
    rcases mem_set_cases hx with e | ⟨n, hne, hn⟩
    · rw [e]; exact hsound
    · have hxm : x ∈ chunks := List.mem_iff_getElem?.mpr ⟨n, hn⟩
      have hd := apart_index h.apart hn hj hne
      apply (h.sound x hxm).frame
      · intro k hk
        apply Mem.load_store_other
        exact disj_block_ne hbs hd ((h.sound x hxm).inRange k hk) hi
      · intro k hk
        rw [h.out_nodup.mem_erase_iff]
        constructor
        · intro hin; exact hin.2
        · intro hin; exact ⟨disj_block_ne hbs hd hk hi, hin⟩
  · intro q hq
    have hq2 := (h.out_nodup.mem_erase_iff.mp hq)
    obtain ⟨x, hx, k, hk, e⟩ := h.out_blocks q hq2.2
    obtain ⟨n, hn⟩ := List.mem_iff_getElem?.mp hx
    by_cases hnj : n = j
    · subst hnj
      rw [hj] at hn
      have e2 : c = x := Option.some.inj hn
      subst e2
      exact ⟨_, mem_set_self hjlt, k, hk, by rw [hpd]; exact e⟩
    · exact ⟨x, mem_set_of_ne hnj hn, k, hk, e⟩

/-- The Chunks stay in their invariant when a caller writes into a block it holds. -/
theorem ChunksInv.write {chunks : List Chunk} {mem : Mem} {blockSize numBlocks : Nat}
    {out : List Nat} {q a : Nat} (v : Nat)
    (h : ChunksInv chunks mem blockSize numBlocks out)
    (hq : q ∈ out) (h1 : q ≤ a) (h2 : a < q + blockSize) :
    ChunksInv chunks (mem.store a v) blockSize numBlocks out := by
  refine ⟨h.apart, ?_, h.out_nodup, h.out_blocks⟩
  obtain ⟨c, hc, i, hi, e⟩ := h.out_blocks q hq
  subst e
  intro x hx
  apply (h.sound x hx).frame _ (fun _ _ => Iff.rfl)
  intro k hk
  apply Mem.load_store_other
  have hkN := (h.sound x hx).inRange k hk
  rcases apart_mem h.apart hc hx with e | hd
  · have hne : k ≠ i := by
      intro e2; subst e2
      exact (h.sound x hx).free_iff k hkN |>.mp hk (by rw [← e]; exact hq)
    rw [← e]
    exact (block_byte_ne h1 h2 hne).symm
  · exact (disj_byte_ne hd hi hkN h1 h2).symm

/-- The Chunks stay in their invariant when a freshly initialised Chunk whose
buffer overlaps none of theirs is appended. -/
theorem ChunksInv.append {chunks : List Chunk} {mem : Mem} {blockSize numBlocks : Nat}
    {out : List Nat} (c0 : Chunk) {newData : Nat} (hbs : 1 ≤ blockSize)
    (hN : numBlocks ≤ 255)
    (h : ChunksInv chunks mem blockSize numBlocks out) (hnew : newData ≠ 0)
    (hfar : ∀ c ∈ chunks, Disj (numBlocks * blockSize) c.pData_ newData) :
    ChunksInv (chunks ++ [(c0.init mem newData blockSize numBlocks).2.1])
      (c0.init mem newData blockSize numBlocks).2.2 blockSize numBlocks out := by
  have hpd : (c0.init mem newData blockSize numBlocks).2.1.pData_ = newData := by
    simp [Chunk.init, hnew]
  have hmod : numBlocks % 256 = numBlocks := Nat.mod_eq_of_lt (by omega)
  have hmem : ∀ a, (∀ i, i < numBlocks → a ≠ newData + i * blockSize) →
      (c0.init mem newData blockSize numBlocks).2.2.load a = mem.load a := by
    intro a ha
    simp only [Chunk.init, hnew, if_false, hmod, Mem.load]
    rw [Chunk.seed_frame blockSize numBlocks 0 newData mem a ha]
  refine ⟨?_, ?_, h.out_nodup, ?_⟩
  · rw [List.map_append, List.pairwise_append]
    refine ⟨h.apart, by simp, ?_⟩
    intro x hx y hy
    obtain ⟨c, hc, e⟩ := List.mem_map.mp hx
    simp only [List.map_cons, List.map_nil, List.mem_singleton] at hy
    rw [hy, hpd, ← e]
    exact hfar c hc
  · intro x hx
    rcases List.mem_append.mp hx with hx | hx
    · apply (h.sound x hx).frame _ (fun _ _ => Iff.rfl)
      intro k hk
      apply hmem
      intro i hi
      exact disj_block_ne hbs (hfar x hx) ((h.sound x hx).inRange k hk) hi
    · rw [List.mem_singleton.mp hx]
      apply Chunk.init_sound c0 mem newData blockSize numBlocks hbs hN hnew
      intro i hi hin
      obtain ⟨c, hc, k, hk, e⟩ := h.out_blocks _ hin
      exact disj_block_ne hbs (hfar c hc) hk hi e.symm
  · intro q hq
    obtain ⟨c, hc, hb⟩ := h.out_blocks q hq
    exact ⟨c, List.mem_append_left _ hc, hb⟩

/-- The buffers of a vector are apart exactly when the buffers at any two
different positions are. -/
theorem apart_iff_index {chunks : List Chunk} {len : Nat} :
    (chunks.map Chunk.pData_).Pairwise (Disj len) ↔
      ∀ (i j : Nat) (c d : Chunk), chunks[i]? = some c → chunks[j]? = some d → i ≠ j →
        Disj len c.pData_ d.pData_ := by
  constructor
  · intro h i j c d hi hj hij
    exact apart_index h hi hj hij
  · intro h
    rw [List.pairwise_map, List.pairwise_iff_getElem]
    intro i j hi hj hij
    exact h i j _ _ (List.getElem?_eq_getElem hi) (List.getElem?_eq_getElem hj) (by omega)

/-- In a sound Chunk without a handed-out block counted, every block is free. -/
theorem Chunk.Sound.all_free {c : Chunk} {mem : Mem} {blockSize numBlocks : Nat}
    {held : List Nat} (h : c.Sound mem blockSize numBlocks held)
    (he : c.nAvailableBlocks_ = numBlocks) :
    ∀ i, i < numBlocks → c.pData_ + i * blockSize ∉ held := by
  have hsub : c.freeList mem blockSize ⊆ List.range numBlocks :=
    fun i hi => List.mem_range.mpr (h.inRange i hi)
  have hperm := (List.subperm_of_subset h.nodup hsub).perm_of_length_le
    (by rw [List.length_range, Chunk.freeList_length, he])
  intro i hi
  exact (h.free_iff i hi).mp (hperm.mem_iff.mpr (List.mem_range.mpr hi))

/-- A sound Chunk none of whose blocks is handed out is empty. -/
theorem Chunk.Sound.avail_eq {c : Chunk} {mem : Mem} {blockSize numBlocks : Nat}
    {held : List Nat} (h : c.Sound mem blockSize numBlocks held)
    (hfree : ∀ i, i < numBlocks → c.pData_ + i * blockSize ∉ held) :
    c.nAvailableBlocks_ = numBlocks := by
  have h1 := h.avail_le
  have h2 : numBlocks ≤ (c.freeList mem blockSize).length :=
    le_length_of_all_mem (fun i hi => (h.free_iff i hi).mpr (hfree i hi))
  rw [Chunk.freeList_length] at h2
  omega

/-- The Chunks stay in their invariant when an empty last Chunk is popped. -/
theorem ChunksInv.dropLast {chunks : List Chunk} {mem : Mem} {blockSize numBlocks : Nat}
    {out : List Nat} (h : ChunksInv chunks mem blockSize numBlocks out)
    (hlast : ∀ c, chunks[chunks.length - 1]? = some c → c.nAvailableBlocks_ = numBlocks) :
    ChunksInv chunks.dropLast mem blockSize numBlocks out := by
  refine ⟨?_, ?_, h.out_nodup, ?_⟩
  · exact h.apart.sublist ((List.dropLast_sublist chunks).map _)
  · intro c hc
    exact h.sound c (List.mem_of_mem_dropLast hc)
  · intro q hq
    obtain ⟨c, hc, k, hk, e⟩ := h.out_blocks q hq
    obtain ⟨n, hn⟩ := List.mem_iff_getElem?.mp hc
    have hnlt : n < chunks.length := (List.getElem?_eq_some.mp hn).1
    by_cases hnl : n = chunks.length - 1
    · exfalso
      rw [hnl] at hn
      have := (h.sound c hc).all_free (hlast c hn) k hk
      rw [← e] at this
      exact this hq
    · refine ⟨c, ?_, k, hk, e⟩
      apply List.mem_iff_getElem?.mpr
      refine ⟨n, ?_⟩
      rw [List.getElem?_dropLast, if_pos (by omega)]
      exact hn

/-- The positions of a vector after the exchange of the elements at `d` and `t`. -/
theorem getElem?_swap {α : Type} {l : List α} {d t i : Nat} {x y c : α}
    (hd : l[d]? = some x) (ht : l[t]? = some y)
    (hi : ((l.set d y).set t x)[i]? = some c) :
    l[if i = t then d else if i = d then t else i]? = some c := by
  rw [List.getElem?_set] at hi
  by_cases e1 : t = i
  · subst e1
    rw [if_pos rfl] at hi
    split at hi
    · rw [if_pos rfl, hd]; exact hi
    · exact absurd hi (by simp)
  · rw [if_neg e1, List.getElem?_set] at hi
    rw [if_neg (fun e => e1 e.symm)]
    by_cases e2 : d = i
    · subst e2
      rw [if_pos rfl] at hi
      split at hi
      · rw [if_pos rfl, ht]; exact hi
      · exact absurd hi (by simp)
    · rw [if_neg e2] at hi
      rw [if_neg (fun e => e2 e.symm)]
      exact hi

/-- The Chunks stay in their invariant when two of them exchange their positions. -/
theorem ChunksInv.swap {chunks : List Chunk} {mem : Mem} {blockSize numBlocks : Nat}
    {out : List Nat} {d t : Nat} {x y : Chunk}
    (h : ChunksInv chunks mem blockSize numBlocks out)
    (hd : chunks[d]? = some x) (ht : chunks[t]? = some y) (hdt : d ≠ t) :
    ChunksInv ((chunks.set d y).set t x) mem blockSize numBlocks out := by
  have hdlt : d < chunks.length := (List.getElem?_eq_some.mp hd).1
  have htlt : t < chunks.length := (List.getElem?_eq_some.mp ht).1
  have hx : x ∈ (chunks.set d y).set t x := mem_set_self (by rw [List.length_set]; exact htlt)
  have hy : y ∈ (chunks.set d y).set t x :=
    mem_set_of_ne hdt (List.getElem?_set_self hdlt)
  refine ⟨?_, ?_, h.out_nodup, ?_⟩
  · rw [apart_iff_index]
    intro i j c e hi hj hij
    have hi2 := getElem?_swap hd ht hi
    have hj2 := getElem?_swap hd ht hj
    apply apart_index h.apart hi2 hj2
    split_ifs <;> omega
  · intro c hc
    obtain ⟨i, hi⟩ := List.mem_iff_getElem?.mp hc
    exact h.sound c (List.mem_iff_getElem?.mpr ⟨_, getElem?_swap hd ht hi⟩)
  · intro q hq
    obtain ⟨c, hc, hb⟩ := h.out_blocks q hq
    obtain ⟨n, hn⟩ := List.mem_iff_getElem?.mp hc
    by_cases e1 : n = d
    · subst e1
      rw [hd] at hn
      exact ⟨c, by rw [← Option.some.inj hn]; exact hx, hb⟩
    · by_cases e2 : n = t
      · subst e2
        rw [ht] at hn
        exact ⟨c, by rw [← Option.some.inj hn]; exact hy, hb⟩
      · exact ⟨c, mem_set_of_ne e2 (by rw [List.getElem?_set_ne (fun e => e1 e.symm)]; exact hn), hb⟩

/-! ## The vicinity search -/

/-- A position the vicinity search returns holds a Chunk that covers `p`. -/
theorem FixedAllocator.vicinityLoop_hit (chunks : List Chunk) (len p : Nat) :
    ∀ (fuel : Nat) (lo hi : Option Nat) (j : Nat),
      FixedAllocator.vicinityLoop chunks len p fuel lo hi = some j →
      FixedAllocator.hit chunks len p j = true := by
  intro fuel
  induction fuel with
  | zero => intro lo hi j h; simp [FixedAllocator.vicinityLoop] at h
  | succ fuel ih =>
    intro lo hi j h
    cases lo with
    | none =>
      cases hi with
      | none => simp [FixedAllocator.vicinityLoop] at h
      | some u =>
        simp only [FixedAllocator.vicinityLoop] at h
        split at h
        · rw [← Option.some.inj h]; assumption
        · exact ih _ _ j h
    | some l =>
      cases hi with
      | none =>
        simp only [FixedAllocator.vicinityLoop] at h
        split at h
        · rw [← Option.some.inj h]; assumption
        · exact ih _ _ j h
      | some u =>
        simp only [FixedAllocator.vicinityLoop] at h
        split at h
        · rw [← Option.some.inj h]; assumption
        · split at h
          · rw [← Option.some.inj h]; assumption
          · exact ih _ _ j h

/-- The vicinity search finds a Chunk when one of the positions it has still
to visit holds a Chunk that covers `p`. -/
theorem FixedAllocator.vicinityLoop_complete (chunks : List Chunk) (len p i0 : Nat)
    (hi0 : i0 < chunks.length) (hhit : FixedAllocator.hit chunks len p i0 = true) :
    ∀ (fuel : Nat) (lo hi : Option Nat),
      (∀ u, hi = some u → u < chunks.length) →
      ((∃ l, lo = some l ∧ i0 ≤ l) ∨ (∃ u, hi = some u ∧ u ≤ i0)) →
      FixedAllocator.span chunks.length lo hi < fuel →
      ∃ j, FixedAllocator.vicinityLoop chunks len p fuel lo hi = some j := by
  intro fuel
  induction fuel with
  | zero => intro lo hi _ _ h; omega
  | succ fuel ih =>
    intro lo hi hbound hreg hspan
    cases lo with
    | none =>
      cases hi with
      | none =>
        rcases hreg with ⟨l, h, _⟩ | ⟨u, h, _⟩ <;> simp at h
      | some u =>
        have hu : u ≤ i0 := by
          rcases hreg with ⟨l, h, _⟩ | ⟨u1, h, h2⟩
          · simp at h
          · rw [Option.some.inj h]; exact h2
        simp only [FixedAllocator.vicinityLoop]
        by_cases hh : FixedAllocator.hit chunks len p u = true
        · exact ⟨u, by simp [hh]⟩
        · have hne : u ≠ i0 := fun e => hh (by rw [e]; exact hhit)
          have hup : FixedAllocator.upper chunks.length u = some (u + 1) := by
            simp [FixedAllocator.upper]; omega
          rw [if_neg hh, hup]
          apply ih
          · intro v hv; rw [← Option.some.inj hv]; omega
          · right; exact ⟨u + 1, rfl, by omega⟩
          · simp only [FixedAllocator.span] at hspan ⊢; omega
    | some l =>
      cases hi with
      | none =>
        have hl : i0 ≤ l := by
          rcases hreg with ⟨l1, h, h2⟩ | ⟨u, h, _⟩
          · rw [Option.some.inj h]; exact h2
          · simp at h
        simp only [FixedAllocator.vicinityLoop]
        by_cases hh : FixedAllocator.hit chunks len p l = true
        · exact ⟨l, by simp [hh]⟩
        · have hne : l ≠ i0 := fun e => hh (by rw [e]; exact hhit)
          have hlow : FixedAllocator.lower l = some (l - 1) := by
            simp [FixedAllocator.lower]; omega
          rw [if_neg hh, hlow]
          apply ih
          · intro v hv; simp at hv
          · left; exact ⟨l - 1, rfl, by omega⟩
          · simp only [FixedAllocator.span] at hspan ⊢; omega
      | some u =>
        have hub : u < chunks.length := hbound u rfl
        simp only [FixedAllocator.vicinityLoop]
        by_cases hh : FixedAllocator.hit chunks len p l = true
        · exact ⟨l, by simp [hh]⟩
        · by_cases hh2 : FixedAllocator.hit chunks len p u = true
          · exact ⟨u, by simp [hh, hh2]⟩
          · have hne : l ≠ i0 := fun e => hh (by rw [e]; exact hhit)
            have hne2 : u ≠ i0 := fun e => hh2 (by rw [e]; exact hhit)
            rw [if_neg hh, if_neg hh2]
            apply ih
            · intro v hv
              simp only [FixedAllocator.upper] at hv
              split at hv
              · simp at hv
              · rw [← Option.some.inj hv]; omega
            · rcases hreg with ⟨l1, h, h2⟩ | ⟨u1, h, h2⟩
              · left
                have e := Option.some.inj h
                refine ⟨l - 1, ?_, by omega⟩
                simp [FixedAllocator.lower]; omega
              · right
                have e := Option.some.inj h
                refine ⟨u + 1, ?_, by omega⟩
                simp [FixedAllocator.upper]; omega
            · simp only [FixedAllocator.span, FixedAllocator.lower, FixedAllocator.upper]
                at hspan ⊢
              split_ifs <;> simp only [FixedAllocator.span] <;> omega

/-! ## FixedAllocator::deallocate -/

/-- The release of an empty Chunk at the end of `doDeallocate` never fails,
keeps the invariant of the Chunks and the validity of the two cached
positions, and leaves a settled vector when there were at most two Chunks. -/
theorem FixedAllocator.reclaim_spec (fa : FixedAllocator) (mem : Mem) (out : List Nat)
    (d : Nat) (c1 : Chunk)
    (h : ChunksInv fa.chunks_ mem fa.blockSize_ fa.numBlocks_ out)
    (hd : fa.chunks_[d]? = some c1)
    (halloc : ∀ a, fa.allocChunk_ = some a → a < fa.chunks_.length)
    (hdealloc : fa.deallocChunk_ = some d) :
    ∃ fa1, fa.reclaim d = some fa1 ∧
      fa1.blockSize_ = fa.blockSize_ ∧ fa1.numBlocks_ = fa.numBlocks_ ∧
      ChunksInv fa1.chunks_ mem fa.blockSize_ fa.numBlocks_ out ∧
      (∀ a, fa1.allocChunk_ = some a → a < fa1.chunks_.length) ∧
      (∃ e, fa1.deallocChunk_ = some e ∧ e < fa1.chunks_.length) ∧
      (fa.chunks_.length ≤ 2 → fa1.Settled) := by
  have hdlt : d < fa.chunks_.length := (List.getElem?_eq_some.mp hd).1
  have hc1 : c1 ∈ fa.chunks_ := List.mem_iff_getElem?.mpr ⟨d, hd⟩
  unfold FixedAllocator.reclaim
  rw [hd]
  by_cases he : c1.nAvailableBlocks_ = fa.numBlocks_
  · simp only [he, if_true]
    by_cases hl : fa.chunks_.length - 1 = d
    · simp only [hl, if_true]
      by_cases hp : 1 < fa.chunks_.length ∧
          (fa.chunks_[d - 1]?).map Chunk.nAvailableBlocks_ = some fa.numBlocks_
      · rw [if_pos hp]
        refine ⟨_, rfl, rfl, rfl, ?_, ?_, ?_, ?_⟩
        · apply h.dropLast
          intro c hc
          rw [hl, hd] at hc
          rw [← Option.some.inj hc]; exact he
        · intro a ha
          simp only [Option.some.injEq] at ha
          simp only [List.length_dropLast]
          omega
        · exact ⟨0, rfl, by simp only [List.length_dropLast]; omega⟩
        · intro h2
          left
          simp only [List.length_dropLast]
          omega
      · rw [if_neg hp]
        refine ⟨fa, rfl, rfl, rfl, h, halloc, ⟨d, hdealloc, hdlt⟩, ?_⟩
        intro _
        by_cases h1 : 1 < fa.chunks_.length
        · right
          have hpl : d - 1 < fa.chunks_.length := by omega
          refine ⟨fa.chunks_[d - 1], List.getElem_mem _, ?_⟩
          intro hc
          apply hp
          refine ⟨h1, ?_⟩
          rw [List.getElem?_eq_getElem hpl]
          simp [hc]
        · left; omega
    · simp only [hl, if_false]
      have hlast : fa.chunks_.length - 1 < fa.chunks_.length := by omega
      rw [List.getElem?_eq_getElem hlast]
      simp only []
      by_cases hle : (fa.chunks_[fa.chunks_.length - 1]).nAvailableBlocks_ = fa.numBlocks_
      · rw [if_pos hle]
        refine ⟨_, rfl, rfl, rfl, ?_, ?_, ?_, ?_⟩
        · apply h.dropLast
          intro c hc
          rw [List.getElem?_eq_getElem hlast] at hc
          rw [← Option.some.inj hc]; exact hle
        · intro a ha
          simp only [Option.some.injEq] at ha
          simp only [List.length_dropLast]
          omega
        · exact ⟨d, hdealloc, by simp only [List.length_dropLast]; omega⟩
        · intro h2
          left
          simp only [List.length_dropLast]
          omega
      · rw [if_neg hle]
        refine ⟨_, rfl, rfl, rfl, ?_, ?_, ?_, ?_⟩
        · exact h.swap hd (List.getElem?_eq_getElem hlast) (fun e => hl e.symm)
        · intro a ha
          simp only [Option.some.injEq] at ha
          simp only [List.length_set]
          omega
        · exact ⟨d, hdealloc, by simp only [List.length_set]; exact hdlt⟩
        · intro _
          right
          refine ⟨fa.chunks_[fa.chunks_.length - 1], ?_, hle⟩
          exact mem_set_of_ne (fun e => hl e.symm) (List.getElem?_set_self hdlt)
  · simp only [he, if_false]
    refine ⟨fa, rfl, rfl, rfl, h, halloc, ⟨d, hdealloc, hdlt⟩, ?_⟩
    intro _
    right
    exact ⟨c1, hc1, he⟩

/-- A Chunk covers each of its blocks. -/
theorem Chunk.covers_block (c : Chunk) {blockSize numBlocks i : Nat} (hbs : 1 ≤ blockSize)
    (hi : i < numBlocks) :
    c.covers (numBlocks * blockSize) (c.pData_ + i * blockSize) = true := by
  have := block_end_le blockSize hi
  simp only [Chunk.covers, Bool.and_eq_true, decide_eq_true_eq]
  omega

/-- Buffers that do not overlap do not cover the same address. -/
theorem Disj.not_both {len x y p : Nat} (hd : Disj len x y)
    (hx : x ≤ p ∧ p < x + len) (hy : y ≤ p ∧ p < y + len) : False := by
  rcases hd with hd | hd <;> omega

/-- The vicinity search finds the Chunk that owns a handed-out block. -/
theorem World.vicinityFind_owner {w : World} {n i : Nat} {c : Chunk} (h : w.Inv)
    (hn : w.fa.chunks_[n]? = some c) (hi : i < w.fa.numBlocks_) :
    w.fa.vicinityFind (c.pData_ + i * w.fa.blockSize_) = some n := by
  have hnlt : n < w.fa.chunks_.length := (List.getElem?_eq_some.mp hn).1
  have hne : w.fa.chunks_ ≠ [] := by
    intro e; rw [e] at hnlt; simp at hnlt
  obtain ⟨d0, hd0, hd0lt⟩ := h.dealloc_valid hne
  have hcov := Chunk.covers_block c h.blockSize_pos hi
  have hhit : FixedAllocator.hit w.fa.chunks_ (w.fa.numBlocks_ * w.fa.blockSize_)
      (c.pData_ + i * w.fa.blockSize_) n = true := by
    simp only [FixedAllocator.hit, hn]; exact hcov
  have hemp : w.fa.chunks_.isEmpty = false := by
    cases hcs : w.fa.chunks_ with
    | nil => exact absurd hcs hne
    | cons _ _ => rfl
  unfold FixedAllocator.vicinityFind
  rw [hemp, hd0]
  simp only [Bool.false_eq_true, if_false]
  obtain ⟨j, hj⟩ := FixedAllocator.vicinityLoop_complete w.fa.chunks_
    (w.fa.numBlocks_ * w.fa.blockSize_) (c.pData_ + i * w.fa.blockSize_) n hnlt hhit
    (w.fa.chunks_.length + 1) (some d0)
    (if d0 + 1 = w.fa.chunks_.length then none else some (d0 + 1))
    (by
      intro u hu
      split at hu
      · simp at hu
      · rw [← Option.some.inj hu]; omega)
    (by
      by_cases hle : n ≤ d0
      · left; exact ⟨d0, rfl, hle⟩
      · right
        refine ⟨d0 + 1, ?_, by omega⟩
        rw [if_neg (by omega)])
    (by
      split
      · simp only [FixedAllocator.span]; omega
      · simp only [FixedAllocator.span]; omega)
  rw [hj]
  have hjhit := FixedAllocator.vicinityLoop_hit _ _ _ _ _ _ _ hj
  simp only [FixedAllocator.hit] at hjhit
  cases hcj : w.fa.chunks_[j]? with
  | none => rw [hcj] at hjhit; simp at hjhit
  | some cj =>
    rw [hcj] at hjhit
    by_cases e : j = n
    · rw [e]
    · exfalso
      have hd := apart_index h.chunks.apart hcj hn e
      simp only [Chunk.covers, Bool.and_eq_true, decide_eq_true_eq] at hjhit hcov
      exact hd.not_both hjhit hcov

/-- `FixedAllocator::deallocate` of a handed-out block: no assertion fails and
the invariant of the workload is kept. -/
theorem World.deallocate_step {w : World} {p : Nat} (h : w.Inv) (hp : p ∈ w.out) :
    ∃ fa1 mem1, w.fa.deallocate w.mem p = some (fa1, mem1) ∧
      (World.mk fa1 mem1 (w.out.erase p)).Inv ∧
      fa1.blockSize_ = w.fa.blockSize_ ∧ fa1.numBlocks_ = w.fa.numBlocks_ ∧
      (w.fa.chunks_.length ≤ 2 → fa1.Settled) := by
  obtain ⟨c, hc, i, hi, e⟩ := h.chunks.out_blocks p hp
  subst e
  obtain ⟨n, hn⟩ := List.mem_iff_getElem?.mp hc
  have hnlt : n < w.fa.chunks_.length := (List.getElem?_eq_some.mp hn).1
  have hne : w.fa.chunks_ ≠ [] := by
    intro e; rw [e] at hnlt; simp at hnlt
  obtain ⟨d0, hd0, hd0lt⟩ := h.dealloc_valid hne
  have hemp : w.fa.chunks_.isEmpty = false := by
    cases hcs : w.fa.chunks_ with
    | nil => exact absurd hcs hne
    | cons _ _ => rfl
  have hfind := World.vicinityFind_owner h hn hi
  obtain ⟨c1, hde, hpd, hav, _, hsound⟩ :=
    Chunk.deallocate_sound h.blockSize_pos h.numBlocks_le (h.chunks.sound c hc) hi hp
      h.chunks.out_nodup
  have hinv := ChunksInv.deallocate h.blockSize_pos h.chunks hn hi hpd hsound
  have hend := block_end_le w.fa.blockSize_ hi
  have hbs := h.blockSize_pos
  obtain ⟨fa1, hr, hb1, hb2, hci, hal, hdl, hset⟩ :=
    FixedAllocator.reclaim_spec
      { w.fa with deallocChunk_ := some n, chunks_ := w.fa.chunks_.set n c1 }
      (w.mem.store (c.pData_ + i * w.fa.blockSize_) c.firstAvailableBlock_)
      (w.out.erase (c.pData_ + i * w.fa.blockSize_)) n c1
      hinv (List.getElem?_set_self hnlt)
      (by intro a ha; rw [List.length_set]; exact h.alloc_valid a ha) rfl
  refine ⟨fa1, w.mem.store (c.pData_ + i * w.fa.blockSize_) c.firstAvailableBlock_, ?_,
    ⟨by rw [hb1]; exact hbs, by rw [hb2]; exact h.numBlocks_pos,
    by rw [hb2]; exact h.numBlocks_le, by rw [hb1, hb2]; exact hci, hal, fun _ => hdl⟩,
    hb1, hb2, ?_⟩
  · unfold FixedAllocator.deallocate
    rw [hemp, hd0, hfind]
    simp only [Bool.false_eq_true, if_false, hd0lt, not_true_eq_false]
    unfold FixedAllocator.doDeallocate
    have h1 : c.pData_ ≤ c.pData_ + i * w.fa.blockSize_ := by omega
    have h2 : c.pData_ + i * w.fa.blockSize_ < c.pData_ + w.fa.numBlocks_ * w.fa.blockSize_ := by
      omega
    simp only [hn, hde, hr, h1, h2, not_true_eq_false, if_false]
  · intro h2
    apply hset
    simp only [List.length_set]
    exact h2

/-! ## FixedAllocator::allocate -/

theorem FixedAllocator.scan_ne_beyond :
    ∀ (chunks : List Chunk) (k : Nat), FixedAllocator.scan 0 chunks k ≠ ScanResult.beyond := by
  intro chunks
  induction chunks with
  | nil => intro k; simp [FixedAllocator.scan]
  | cons c rest ih =>
    intro k
    simp only [FixedAllocator.scan]
    split
    · simp
    · exact ih (k + 1)

/-- The position the scan finds holds a Chunk with a free block. -/
theorem FixedAllocator.scan_found (pastEnd : Nat) :
    ∀ (chunks : List Chunk) (k i : Nat),
      FixedAllocator.scan pastEnd chunks k = ScanResult.found i →
      k ≤ i ∧ ∃ c, chunks[i - k]? = some c ∧ 0 < c.nAvailableBlocks_ := by
  intro chunks
  induction chunks with
  | nil =>
    intro k i h
    simp only [FixedAllocator.scan] at h
    split at h <;> simp at h
  | cons c rest ih =>
    intro k i h
    simp only [FixedAllocator.scan] at h
    split at h
    · rename_i hc
      have e : k = i := by injection h
      subst e
      exact ⟨Nat.le_refl _, c, by simp, hc⟩
    · obtain ⟨h1, c1, h2, h3⟩ := ih (k + 1) i h
      refine ⟨by omega, c1, ?_, h3⟩
      have e : i - k = (i - (k + 1)) + 1 := by omega
      rw [e, List.getElem?_cons_succ]
      exact h2

/-- The scan creates a Chunk only when no Chunk has a free block. -/
theorem FixedAllocator.scan_create (pastEnd : Nat) :
    ∀ (chunks : List Chunk) (k : Nat),
      FixedAllocator.scan pastEnd chunks k = ScanResult.create →
      ∀ c ∈ chunks, c.nAvailableBlocks_ = 0 := by
  intro chunks
  induction chunks with
  | nil => intro k _ c hc; simp at hc
  | cons c rest ih =>
    intro k h x hx
    simp only [FixedAllocator.scan] at h
    split at h
    · simp at h
    · rename_i hc
      rcases List.mem_cons.mp hx with e | hx
      · rw [e]; omega
      · exact ih (k + 1) h x hx

/-- The refill of `allocChunk_` in an admitted `allocate`: it does not fail,
and `allocChunk_` is then the position of a Chunk with a free block. -/
theorem World.refill_spec {w : World} {env : AllocEnv} (h : w.Inv)
    (hadm : w.Admits (Op.allocate env)) :
    ∃ fa1 mem1 a c, w.fa.refill w.mem env = some (fa1, mem1) ∧
      fa1.allocChunk_ = some a ∧ fa1.chunks_[a]? = some c ∧ c.nAvailableBlocks_ ≠ 0 ∧
      fa1.blockSize_ = w.fa.blockSize_ ∧ fa1.numBlocks_ = w.fa.numBlocks_ ∧
      ChunksInv fa1.chunks_ mem1 w.fa.blockSize_ w.fa.numBlocks_ w.out ∧
      (∃ e, fa1.deallocChunk_ = some e ∧ e < fa1.chunks_.length) := by
  obtain ⟨hpe, hnew, hfar⟩ := hadm
  have hN := h.numBlocks_le
  have hN1 := h.numBlocks_pos
  unfold FixedAllocator.refill
  rw [hpe]
  cases hs : FixedAllocator.scan 0 w.fa.chunks_ 0 with
  | found i =>
    obtain ⟨_, c, hc, hav⟩ := FixedAllocator.scan_found 0 _ _ _ hs
    simp only [Nat.sub_zero] at hc
    have hne : w.fa.chunks_ ≠ [] := by
      intro e; rw [e] at hc; simp at hc
    exact ⟨_, _, i, c, rfl, rfl, hc, by omega, rfl, rfl, h.chunks, h.dealloc_valid hne⟩
  | beyond => exact absurd hs (FixedAllocator.scan_ne_beyond _ _)
  | create =>
    have hmod : w.fa.numBlocks_ % 256 = w.fa.numBlocks_ := Nat.mod_eq_of_lt (by omega)
    refine ⟨_, _, w.fa.chunks_.length,
      (env.uninit.init w.mem env.newData w.fa.blockSize_ w.fa.numBlocks_).2.1,
      rfl, rfl, ?_, ?_, rfl, rfl, ?_, ?_⟩
    · exact List.getElem?_concat_length _ _
    · simp only [Chunk.init, hnew, if_false, hmod]; omega
    · exact ChunksInv.append env.uninit h.blockSize_pos hN h.chunks hnew hfar
    · exact ⟨0, rfl, by simp⟩

/-- The choice of `allocChunk_` in an admitted `allocate`. -/
theorem World.choose_spec {w : World} {env : AllocEnv} (h : w.Inv)
    (hadm : w.Admits (Op.allocate env)) :
    ∃ fa1 mem1 a c, w.fa.choose w.mem env = some (fa1, mem1) ∧
      fa1.allocChunk_ = some a ∧ fa1.chunks_[a]? = some c ∧ c.nAvailableBlocks_ ≠ 0 ∧
      fa1.blockSize_ = w.fa.blockSize_ ∧ fa1.numBlocks_ = w.fa.numBlocks_ ∧
      ChunksInv fa1.chunks_ mem1 w.fa.blockSize_ w.fa.numBlocks_ w.out ∧
      (∃ e, fa1.deallocChunk_ = some e ∧ e < fa1.chunks_.length) := by
  unfold FixedAllocator.choose
  cases hal : w.fa.allocChunk_ with
  | none => exact World.refill_spec h hadm
  | some a =>
    have halt := h.alloc_valid a hal
    simp only [List.getElem?_eq_getElem halt]
    by_cases hav : (w.fa.chunks_[a]).nAvailableBlocks_ = 0
    · rw [if_pos hav]; exact World.refill_spec h hadm
    · rw [if_neg hav]
      have hne : w.fa.chunks_ ≠ [] := by
        intro e; rw [e] at halt; simp at halt
      exact ⟨_, _, a, _, rfl, hal, List.getElem?_eq_getElem halt, hav, rfl, rfl, h.chunks,
        h.dealloc_valid hne⟩

/-- An admitted `FixedAllocator::allocate`: it returns a block of a Chunk of the
vector that was not handed out, keeps the invariant of the workload, and leaves
a settled vector. -/
theorem World.allocate_step {w : World} {env : AllocEnv} (h : w.Inv)
    (hadm : w.Admits (Op.allocate env)) :
    ∃ p fa2 mem2, w.fa.allocate w.mem env = some (some p, fa2, mem2) ∧
      p ∉ w.out ∧
      (∃ c ∈ fa2.chunks_, c.HasBlock w.fa.blockSize_ w.fa.numBlocks_ p) ∧
      (World.mk fa2 mem2 (p :: w.out)).Inv ∧
      fa2.blockSize_ = w.fa.blockSize_ ∧ fa2.numBlocks_ = w.fa.numBlocks_ ∧
      fa2.Settled := by
  obtain ⟨fa1, mem1, a, c, hch, hal, hc, hav, hb1, hb2, hinv, hdl⟩ := World.choose_spec h hadm
  have hbs := h.blockSize_pos
  have hcm : c ∈ fa1.chunks_ := List.mem_iff_getElem?.mpr ⟨a, hc⟩
  have halt : a < fa1.chunks_.length := (List.getElem?_eq_some.mp hc).1
  obtain ⟨h1, h2, h3, h4, h5, _⟩ := Chunk.allocate_sound hbs (hinv.sound c hcm) hav
  have hinv2 := ChunksInv.allocate hbs hinv hc hav
  have hle := (hinv.sound c hcm).avail_le
  refine ⟨c.pData_ + c.firstAvailableBlock_ * w.fa.blockSize_,
    { fa1 with chunks_ := fa1.chunks_.set a (c.allocate mem1 w.fa.blockSize_).2 }, mem1,
    ?_, h3, ?_, ?_, hb1, hb2, ?_⟩
  · unfold FixedAllocator.allocate
    simp only [hch, hal, hc, hav, if_false, hb1, h1]
  · exact ⟨_, mem_set_self halt, _, h2, by rw [h4]⟩
  · refine ⟨by show 1 ≤ fa1.blockSize_; rw [hb1]; exact hbs,
      by show 1 ≤ fa1.numBlocks_; rw [hb2]; exact h.numBlocks_pos,
      by show fa1.numBlocks_ ≤ 255; rw [hb2]; exact h.numBlocks_le, ?_, ?_, ?_⟩
    · show ChunksInv (fa1.chunks_.set a (c.allocate mem1 w.fa.blockSize_).2) mem1
        fa1.blockSize_ fa1.numBlocks_ _
      rw [hb1, hb2]; exact hinv2
    · intro b hb
      show b < (fa1.chunks_.set a _).length
      rw [List.length_set]
      have : fa1.allocChunk_ = some b := hb
      rw [hal] at this
      rw [← Option.some.inj this]; exact halt
    · intro _
      obtain ⟨e, he, helt⟩ := hdl
      exact ⟨e, he, by show e < (fa1.chunks_.set a _).length; rw [List.length_set]; exact helt⟩
  · right
    refine ⟨_, mem_set_self halt, ?_⟩
    show (c.allocate mem1 w.fa.blockSize_).2.nAvailableBlocks_ ≠ fa1.numBlocks_
    rw [h5, hb2]
    omega

/-! ## Workloads on a FixedAllocator -/

/-- Every admitted call in a world that satisfies the invariant succeeds and
keeps the invariant; it keeps the vector settled when the vector had at most
two Chunks. -/
theorem World.step_inv {w : World} (op : Op) (h : w.Inv) (hadm : w.Admits op) :
    ∃ w1, w.step op = some w1 ∧ w1.Inv ∧
      w1.fa.blockSize_ = w.fa.blockSize_ ∧ w1.fa.numBlocks_ = w.fa.numBlocks_ ∧
      (w.fa.chunks_.length ≤ 2 → w.fa.Settled → w1.fa.Settled) := by
  cases op with
  | allocate env =>
    obtain ⟨p, fa2, mem2, h1, _, _, h4, h5, h6, h7⟩ := World.allocate_step h hadm
    refine ⟨⟨fa2, mem2, p :: w.out⟩, ?_, h4, h5, h6, fun _ _ => h7⟩
    simp only [World.step, hadm, if_true, World.exec, h1]
  | deallocate p =>
    have hp : p ∈ w.out := hadm
    obtain ⟨fa1, mem1, h1, h2, h3, h4, h5⟩ := World.deallocate_step h hp
    refine ⟨⟨fa1, mem1, w.out.erase p⟩, ?_, h2, h3, h4, fun hl _ => h5 hl⟩
    simp only [World.step, hadm, if_true, World.exec, h1]
  | write a v =>
    obtain ⟨q, hq, h1, h2⟩ := hadm
    refine ⟨{ w with mem := w.mem.store a v }, ?_, ?_, rfl, rfl, fun _ hs => hs⟩
    · have : w.Admits (Op.write a v) := ⟨q, hq, h1, h2⟩
      simp only [World.step, this, if_true, World.exec]
    · exact ⟨h.blockSize_pos, h.numBlocks_pos, h.numBlocks_le, h.chunks.write v hq h1 h2,
        h.alloc_valid, h.dealloc_valid⟩

theorem World.step_admits {w w1 : World} {op : Op} (h : w.step op = some w1) : w.Admits op := by
  by_cases hadm : w.Admits op
  · exact hadm
  · simp [World.step, hadm] at h

/-- Every workload that runs from a world satisfying the invariant ends in such
a world, with the same block size and number of blocks per Chunk. -/
theorem World.run_inv :
    ∀ (ops : List Op) (w0 w : World), w0.Inv → World.run w0 ops = some w →
      w.Inv ∧ w.fa.blockSize_ = w0.fa.blockSize_ ∧ w.fa.numBlocks_ = w0.fa.numBlocks_ := by
  intro ops
  induction ops with
  | nil =>
    intro w0 w h hrun
    simp only [World.run, Option.some.injEq] at hrun
    rw [← hrun]; exact ⟨h, rfl, rfl⟩
  | cons op ops ih =>
    intro w0 w h hrun
    simp only [World.run] at hrun
    cases hs : w0.step op with
    | none => rw [hs] at hrun; simp at hrun
    | some w1 =>
      rw [hs] at hrun
      obtain ⟨w2, h2, hinv, hb1, hb2, _⟩ := World.step_inv op h (World.step_admits hs)
      rw [hs] at h2
      have e : w1 = w2 := Option.some.inj h2
      subst e
      obtain ⟨r1, r2, r3⟩ := ih w1 w hinv hrun
      exact ⟨r1, by rw [r2, hb1], by rw [r3, hb2]⟩

/-- A workload that runs within a bound on the number of Chunks runs. -/
theorem World.runWithin_run (cap : Nat) :
    ∀ (ops : List Op) (w0 w : World), World.runWithin cap w0 ops = some w →
      World.run w0 ops = some w ∧ w.fa.chunks_.length ≤ cap := by
  intro ops
  induction ops with
  | nil =>
    intro w0 w h
    simp only [World.runWithin] at h
    split at h
    · rename_i hl
      simp only [Option.some.injEq] at h
      subst h
      exact ⟨rfl, hl⟩
    · simp at h
  | cons op ops ih =>
    intro w0 w h
    simp only [World.runWithin] at h
    split at h
    · cases hst : w0.step op with
      | none => rw [hst] at h; simp at h
      | some w1 =>
        rw [hst] at h
        simp only [World.run, hst]
        exact ih w1 w h
    · simp at h

/-- A workload during which the vector never holds more than two Chunks keeps
the vector settled. -/
theorem World.run_settled :
    ∀ (ops : List Op) (w0 w : World), w0.Inv → w0.fa.Settled →
      World.runWithin 2 w0 ops = some w → w.fa.Settled := by
  intro ops
  induction ops with
  | nil =>
    intro w0 w _ hs hrun
    simp only [World.runWithin] at hrun
    split at hrun
    · simp only [Option.some.injEq] at hrun
      rw [← hrun]; exact hs
    · simp at hrun
  | cons op ops ih =>
    intro w0 w h hs hrun
    simp only [World.runWithin] at hrun
    split at hrun
    · rename_i hlen0
      cases hst : w0.step op with
      | none => rw [hst] at hrun; simp at hrun
      | some w1 =>
        rw [hst] at hrun
        obtain ⟨w2, h2, hinv, _, _, hset⟩ := World.step_inv op h (World.step_admits hst)
        rw [hst] at h2
        have e : w1 = w2 := Option.some.inj h2
        subst e
        exact ih w1 w hinv (hset hlen0 hs) hrun
    · simp at hrun

/-- A settled vector of at most two Chunks has at most one empty Chunk. -/
theorem FixedAllocator.Settled.empty_le_one {fa : FixedAllocator} (h : fa.Settled)
    (hlen : fa.chunks_.length ≤ 2) : fa.emptyChunks.length ≤ 1 := by
  unfold FixedAllocator.emptyChunks
  rcases h with h | ⟨c, hc, hne⟩
  · exact Nat.le_trans (List.length_filter_le _ _) h
  · have : (fa.chunks_.filter (fun c => decide (c.nAvailableBlocks_ = fa.numBlocks_))).length
        < fa.chunks_.length := by
      apply List.length_filter_lt_length_iff_exists.mpr
      exact ⟨c, hc, by simpa using hne⟩
    omega

/-- The constructor succeeds, for a block size whose eightfold does not wrap
around in `size_t`, exactly on the sizes from 1 to `DEFAULT_CHUNK_SIZE`; the
allocator then has no Chunk and between 1 and 255 blocks per Chunk. -/
theorem FixedAllocator.construct_some {blockSize : Nat} {fa : FixedAllocator}
    (h : FixedAllocator.construct blockSize = some fa) (hsz : 8 * blockSize < 2 ^ 64) :
    fa.blockSize_ = blockSize ∧ 1 ≤ blockSize ∧ blockSize ≤ DEFAULT_CHUNK_SIZE ∧
    1 ≤ fa.numBlocks_ ∧ fa.numBlocks_ ≤ 255 ∧
    fa.chunks_ = [] ∧ fa.allocChunk_ = none ∧ fa.deallocChunk_ = none := by
  unfold FixedAllocator.construct at h
  by_cases h0 : blockSize = 0
  · simp [h0] at h
  · rw [if_neg h0] at h
    by_cases hm : FixedAllocator.numBlocksFor blockSize % 256
        = FixedAllocator.numBlocksFor blockSize
    · simp only [hm, ne_eq, not_true_eq_false, if_false, Option.some.injEq] at h
      have hlt : FixedAllocator.numBlocksFor blockSize < 256 := by
        rw [← hm]; exact Nat.mod_lt _ (by decide)
      have hmod : (8 * blockSize) % 2 ^ 64 = 8 * blockSize := Nat.mod_eq_of_lt hsz
      have hnb : FixedAllocator.numBlocksFor blockSize
          = (if 255 < 4096 / blockSize then 255
             else if 4096 / blockSize = 0 then 8 * blockSize else 4096 / blockSize) := by
        simp only [FixedAllocator.numBlocksFor, DEFAULT_CHUNK_SIZE, hmod]
      have hbig : 4096 < blockSize → 4096 / blockSize = 0 := fun hb => Nat.div_eq_of_lt hb
      have hsmall : blockSize ≤ 4096 → 1 ≤ 4096 / blockSize := by
        intro hb
        rw [Nat.le_div_iff_mul_le (by omega)]
        omega
      have hfacts : blockSize ≤ 4096 ∧ 1 ≤ FixedAllocator.numBlocksFor blockSize := by
        rw [hnb] at hlt ⊢
        by_cases hb : blockSize ≤ 4096
        · have := hsmall hb
          refine ⟨hb, ?_⟩
          split_ifs <;> omega
        · exfalso
          have := hbig (by omega)
          rw [this] at hlt
          simp at hlt
          omega
      rw [← h]
      exact ⟨rfl, by omega, hfacts.1, by show 1 ≤ FixedAllocator.numBlocksFor blockSize; exact hfacts.2,
        by show FixedAllocator.numBlocksFor blockSize ≤ 255; omega, rfl, rfl, rfl⟩
    · simp [hm] at h

/-- The world of a freshly constructed FixedAllocator satisfies the invariant. -/
theorem World.fresh_inv {blockSize : Nat} {fa : FixedAllocator} (mem : Mem)
    (h : FixedAllocator.construct blockSize = some fa) (hsz : 8 * blockSize < 2 ^ 64) :
    (World.fresh fa mem).Inv ∧ (World.fresh fa mem).fa.Settled := by
  obtain ⟨h1, h2, _, h4, h5, h6, h7, h8⟩ := FixedAllocator.construct_some h hsz
  refine ⟨⟨by show 1 ≤ fa.blockSize_; rw [h1]; exact h2, h4, h5, ?_, ?_, ?_⟩, ?_⟩
  · show ChunksInv fa.chunks_ mem fa.blockSize_ fa.numBlocks_ []
    rw [h6]
    exact ⟨by simp, by simp, List.nodup_nil, by simp⟩
  · intro a ha
    have : fa.allocChunk_ = some a := ha
    rw [h7] at this; simp at this
  · intro hne
    exact absurd h6 hne
  · left
    show fa.chunks_.length ≤ 1
    rw [h6]; simp

/-! ## Fields a FixedAllocator never changes -/

theorem FixedAllocator.refill_fields {fa fa1 : FixedAllocator} {mem mem1 : Mem} {env : AllocEnv}
    (h : fa.refill mem env = some (fa1, mem1)) :
    fa1.blockSize_ = fa.blockSize_ ∧ fa1.numBlocks_ = fa.numBlocks_ := by
  unfold FixedAllocator.refill at h
  split at h
  · simp only [Option.some.injEq, Prod.mk.injEq] at h
    rw [← h.1]; exact ⟨rfl, rfl⟩
  · simp at h
  · simp only [Option.some.injEq, Prod.mk.injEq] at h
    rw [← h.1]; exact ⟨rfl, rfl⟩

theorem FixedAllocator.choose_fields {fa fa1 : FixedAllocator} {mem mem1 : Mem} {env : AllocEnv}
    (h : fa.choose mem env = some (fa1, mem1)) :
    fa1.blockSize_ = fa.blockSize_ ∧ fa1.numBlocks_ = fa.numBlocks_ := by
  unfold FixedAllocator.choose at h
  split at h
  · exact FixedAllocator.refill_fields h
  · split at h
    · simp at h
    · split at h
      · exact FixedAllocator.refill_fields h
      · simp only [Option.some.injEq, Prod.mk.injEq] at h
        rw [← h.1]; exact ⟨rfl, rfl⟩

/-- `FixedAllocator::allocate` changes neither the block size nor the number
of blocks per Chunk. -/
theorem FixedAllocator.allocate_fields {fa fa1 : FixedAllocator} {mem mem1 : Mem}
    {env : AllocEnv} {p : Option Nat}
    (h : fa.allocate mem env = some (p, fa1, mem1)) :
    fa1.blockSize_ = fa.blockSize_ ∧ fa1.numBlocks_ = fa.numBlocks_ := by
  unfold FixedAllocator.allocate at h
  split at h
  · simp at h
  · rename_i fa2 mem2 hch
    have hf := FixedAllocator.choose_fields hch
    split at h
    · simp at h
    · split at h
      · simp at h
      · split at h
        · simp at h
        · simp only [Option.some.injEq, Prod.mk.injEq] at h
          rw [← h.2.1]; exact hf

theorem FixedAllocator.reclaim_fields {fa fa1 : FixedAllocator} {d : Nat}
    (h : fa.reclaim d = some fa1) :
    fa1.blockSize_ = fa.blockSize_ ∧ fa1.numBlocks_ = fa.numBlocks_ := by
  unfold FixedAllocator.reclaim at h
  split at h
  · simp at h
  · simp only [] at h
    split_ifs at h
    · simp only [Option.some.injEq] at h; rw [← h]; exact ⟨rfl, rfl⟩
    · simp only [Option.some.injEq] at h; rw [← h]; exact ⟨rfl, rfl⟩
    · split at h
      · simp at h
      · split_ifs at h
        · simp only [Option.some.injEq] at h; rw [← h]; exact ⟨rfl, rfl⟩
        · simp only [Option.some.injEq] at h; rw [← h]; exact ⟨rfl, rfl⟩
    · simp only [Option.some.injEq] at h; rw [← h]; exact ⟨rfl, rfl⟩

theorem FixedAllocator.doDeallocate_fields {fa fa1 : FixedAllocator} {mem mem1 : Mem} {p : Nat}
    (h : fa.doDeallocate mem p = some (fa1, mem1)) :
    fa1.blockSize_ = fa.blockSize_ ∧ fa1.numBlocks_ = fa.numBlocks_ := by
  unfold FixedAllocator.doDeallocate at h
  split at h
  · simp at h
  · split at h
    · simp at h
    · split_ifs at h
      split at h
      · simp at h
      · split at h
        · simp at h
        · rename_i hr
          simp only [Option.some.injEq, Prod.mk.injEq] at h
          rw [← h.1]
          exact FixedAllocator.reclaim_fields hr |>.imp id id

/-- `FixedAllocator::deallocate` changes neither the block size nor the number
of blocks per Chunk. -/
theorem FixedAllocator.deallocate_fields {fa fa1 : FixedAllocator} {mem mem1 : Mem} {p : Nat}
    (h : fa.deallocate mem p = some (fa1, mem1)) :
    fa1.blockSize_ = fa.blockSize_ ∧ fa1.numBlocks_ = fa.numBlocks_ := by
  unfold FixedAllocator.deallocate at h
  split_ifs at h
  split at h
  · simp at h
  · split_ifs at h
    split at h
    · simp at h
    · exact FixedAllocator.doDeallocate_fields h |>.imp id id

/-! ## The pool of a SmallObjAllocator -/

/-- A store that keeps the image of the element under `f` keeps the images of
the vector. -/
theorem map_set_same {α β : Type} (f : α → β) {l : List α} {n : Nat} {c c1 : α}
    (hn : l[n]? = some c) (he : f c1 = f c) : (l.set n c1).map f = l.map f := by
  apply List.ext_getElem?
  intro i
  rw [List.getElem?_map, List.getElem?_map, List.getElem?_set]
  by_cases e : n = i
  · subst e
    have hlt : n < l.length := (List.getElem?_eq_some.mp hn).1
    simp [hlt, hn, he]
  · simp [e]

theorem SmallObjAllocator.lowerBound_le (pool : List FixedAllocator) (size : Nat) :
    SmallObjAllocator.lowerBound pool size ≤ pool.length := by
  unfold SmallObjAllocator.lowerBound
  exact (List.takeWhile_sublist _).length_le

/-- Every entry before the lower bound is smaller than the size. -/
theorem SmallObjAllocator.lowerBound_before (size : Nat) :
    ∀ (pool : List FixedAllocator),
      ∀ a ∈ pool.take (SmallObjAllocator.lowerBound pool size), a.blockSize_ < size := by
  intro pool
  induction pool with
  | nil => intro a ha; simp at ha
  | cons c rest ih =>
    intro a ha
    unfold SmallObjAllocator.lowerBound at ha
    by_cases hc : c.blockSize_ < size
    · simp only [List.takeWhile_cons, hc, decide_True, if_true, List.length_cons,
        List.take_succ_cons, List.mem_cons] at ha
      rcases ha with e | ha
      · rw [e]; exact hc
      · exact ih a ha
    · simp [List.takeWhile_cons, hc] at ha

/-- In a pool in ascending order no entry from the lower bound on is smaller
than the size. -/
theorem SmallObjAllocator.lowerBound_after (size : Nat) :
    ∀ (pool : List FixedAllocator),
      pool.Pairwise (fun a b => a.blockSize_ < b.blockSize_) →
      ∀ b ∈ pool.drop (SmallObjAllocator.lowerBound pool size), size ≤ b.blockSize_ := by
  intro pool
  induction pool with
  | nil => intro _ b hb; simp at hb
  | cons c rest ih =>
    intro hs b hb
    have hs2 := List.pairwise_cons.mp hs
    unfold SmallObjAllocator.lowerBound at hb
    by_cases hc : c.blockSize_ < size
    · simp only [List.takeWhile_cons, hc, decide_True, if_true, List.length_cons,
        List.drop_succ_cons] at hb
      exact ih hs2.2 b hb
    · simp only [List.takeWhile_cons, hc, decide_False, Bool.false_eq_true, if_false,
        List.length_nil, List.drop_zero, List.mem_cons] at hb
      rcases hb with e | hb
      · rw [e]; omega
      · have := hs2.1 b hb
        omega

/-- When the test after `lower_bound` finds no entry of the size, every entry
of an ascending pool from the lower bound on is larger than the size. -/
theorem SmallObjAllocator.lowerBound_after_lt {pool : List FixedAllocator} {size : Nat}
    (hs : pool.Pairwise (fun a b => a.blockSize_ < b.blockSize_))
    (hnot : SmallObjAllocator.lowerBound pool size = pool.length ∨
      (pool[SmallObjAllocator.lowerBound pool size]?).map FixedAllocator.blockSize_ ≠ some size) :
    ∀ b ∈ pool.drop (SmallObjAllocator.lowerBound pool size), size < b.blockSize_ := by
  intro b hb
  have hge := SmallObjAllocator.lowerBound_after size pool hs b hb
  rcases hnot with hlen | hne
  · rw [hlen] at hb; simp at hb
  · by_contra hlt
    have heq : b.blockSize_ = size := by omega
    obtain ⟨k, hk⟩ := List.mem_iff_getElem?.mp hb
    rw [List.getElem?_drop] at hk
    cases k with
    | zero =>
      apply hne
      simp only [Nat.add_zero] at hk
      rw [hk]; simp [heq]
    | succ k =>
      -- the entry at the lower bound is smaller than `b` and not smaller than `size`
      have hlb : SmallObjAllocator.lowerBound pool size < pool.length := by
        have := (List.getElem?_eq_some.mp hk).1
        omega
      have h0 : pool[SmallObjAllocator.lowerBound pool size] ∈
          pool.drop (SmallObjAllocator.lowerBound pool size) := by
        apply List.mem_iff_getElem?.mpr
        exact ⟨0, by rw [List.getElem?_drop, Nat.add_zero]; exact List.getElem?_eq_getElem hlb⟩
      have h1 := SmallObjAllocator.lowerBound_after size pool hs _ h0
      have h2 := (List.pairwise_iff_getElem.mp hs)
        (SmallObjAllocator.lowerBound pool size)
        (SmallObjAllocator.lowerBound pool size + (k + 1)) hlb
        (List.getElem?_eq_some.mp hk).1 (by omega)
      rw [(List.getElem?_eq_some.mp hk).2] at h2
      omega

/-- The insertion of an entry of a size the pool does not hold, at the lower
bound of that size, keeps an ascending pool ascending; the size was not in the
pool. -/
theorem SmallObjAllocator.insert_sorted {pool : List FixedAllocator} {size : Nat}
    {fa : FixedAllocator} (hfa : fa.blockSize_ = size)
    (hs : pool.Pairwise (fun a b => a.blockSize_ < b.blockSize_))
    (hnot : SmallObjAllocator.lowerBound pool size = pool.length ∨
      (pool[SmallObjAllocator.lowerBound pool size]?).map FixedAllocator.blockSize_ ≠ some size) :
    (pool.take (SmallObjAllocator.lowerBound pool size)
      ++ fa :: pool.drop (SmallObjAllocator.lowerBound pool size)).Pairwise
        (fun a b => a.blockSize_ < b.blockSize_) ∧
    size ∉ pool.map FixedAllocator.blockSize_ := by
  have hbefore := SmallObjAllocator.lowerBound_before size pool
  have hafter := SmallObjAllocator.lowerBound_after_lt hs hnot
  constructor
  · rw [List.pairwise_append]
    refine ⟨hs.sublist (List.take_sublist _ _), ?_, ?_⟩
    · rw [List.pairwise_cons]
      refine ⟨?_, hs.sublist (List.drop_sublist _ _)⟩
      intro b hb
      rw [hfa]; exact hafter b hb
    · intro a ha b hb
      rcases List.mem_cons.mp hb with e | hb
      · rw [e, hfa]; exact hbefore a ha
      · have := hbefore a ha
        have := hafter b hb
        omega
  · intro hin
    obtain ⟨x, hx, e⟩ := List.mem_map.mp hin
    rw [← List.take_append_drop (SmallObjAllocator.lowerBound pool size) pool] at hx
    rcases List.mem_append.mp hx with hx | hx
    · have := hbefore x hx; omega
    · have := hafter x hx; omega

/-- The call of a pool entry for an allocation: the request goes to that entry,
and the block sizes of the pool stay as they are. -/
theorem SmallObjAllocator.delegateAllocate_spec {s s1 : SmallObjAllocator} {mem mem1 : Mem}
    {env : AllocEnv} {i : Nat} {p : Option Nat} {r : Route}
    (h : s.delegateAllocate mem env i = some (p, r, s1, mem1)) :
    r = Route.pool i ∧ s1.sizes = s.sizes ∧
    (s1.pool_[i]?).map FixedAllocator.blockSize_ = (s.pool_[i]?).map FixedAllocator.blockSize_ ∧
    (∃ fa, s.pool_[i]? = some fa) ∧
    s1.maxObjectSize_ = s.maxObjectSize_ := by
  unfold SmallObjAllocator.delegateAllocate at h
  split at h
  · simp at h
  · rename_i fa hfa
    split at h
    · simp at h
    · rename_i q fa1 mem2 hal
      simp only [Option.some.injEq, Prod.mk.injEq] at h
      obtain ⟨_, hr, hs1, _⟩ := h
      have hb := (FixedAllocator.allocate_fields hal).1
      have hlt : i < s.pool_.length := (List.getElem?_eq_some.mp hfa).1
      rw [← hs1]
      refine ⟨hr.symm, ?_, ?_, ⟨fa, hfa⟩, rfl⟩
      · exact map_set_same FixedAllocator.blockSize_ hfa hb
      · simp only [List.getElem?_set_self hlt, hfa, Option.map_some', hb]

/-- The call of a pool entry for a deallocation: the block sizes of the pool
stay as they are. -/
theorem SmallObjAllocator.delegateDeallocate_spec {s s1 : SmallObjAllocator} {mem mem1 : Mem}
    {i p : Nat} {r : Route}
    (h : s.delegateDeallocate mem p i = some (r, s1, mem1)) :
    r = Route.pool i ∧ s1.sizes = s.sizes ∧
    (∃ fa, s.pool_[i]? = some fa) ∧
    s1.maxObjectSize_ = s.maxObjectSize_ := by
  unfold SmallObjAllocator.delegateDeallocate at h
  split at h
  · simp at h
  · rename_i fa hfa
    split at h
    · simp at h
    · rename_i fa1 mem2 hal
      simp only [Option.some.injEq, Prod.mk.injEq] at h
      obtain ⟨hr, hs1, _⟩ := h
      have hb := (FixedAllocator.deallocate_fields hal).1
      rw [← hs1]
      exact ⟨hr.symm, map_set_same FixedAllocator.blockSize_ hfa hb, ⟨fa, hfa⟩, rfl⟩

theorem SmallObjAllocator.sorted_iff (s : SmallObjAllocator) :
    s.sizes.Pairwise (· < ·) ↔ s.pool_.Pairwise (fun a b => a.blockSize_ < b.blockSize_) := by
  unfold SmallObjAllocator.sizes
  rw [List.pairwise_map]

theorem FixedAllocator.construct_blockSize {size : Nat} {fa : FixedAllocator}
    (h : FixedAllocator.construct size = some fa) : fa.blockSize_ = size ∧ 1 ≤ size := by
  unfold FixedAllocator.construct at h
  by_cases h0 : size = 0
  · simp [h0] at h
  · rw [if_neg h0] at h
    simp only [] at h
    split_ifs at h
    simp only [Option.some.injEq] at h
    rw [← h]
    exact ⟨rfl, by omega⟩

/-- The search path of `allocate`: the request goes to a pool entry of exactly
the requested size; the block sizes of the pool stay as they are or gain the
requested size at its lower bound. -/
theorem SmallObjAllocator.searchAllocate_spec {s s1 : SmallObjAllocator} {mem mem1 : Mem}
    {env : AllocEnv} {size : Nat} {p : Option Nat} {r : Route}
    (h : s.searchAllocate mem size env = some (p, r, s1, mem1)) :
    (∃ i, r = Route.pool i ∧ (s1.pool_[i]?).map FixedAllocator.blockSize_ = some size) ∧
    s1.maxObjectSize_ = s.maxObjectSize_ ∧
    (s1.sizes = s.sizes ∧ size ∈ s.sizes ∨
      (1 ≤ size ∧
       s1.sizes = s.sizes.take (SmallObjAllocator.lowerBound s.pool_ size)
          ++ size :: s.sizes.drop (SmallObjAllocator.lowerBound s.pool_ size) ∧
       (s.sizes.Pairwise (· < ·) → size ∉ s.sizes))) ∧
    (s.sizes.Pairwise (· < ·) → s1.sizes.Pairwise (· < ·)) := by
  unfold SmallObjAllocator.searchAllocate at h
  simp only [] at h
  have hle := SmallObjAllocator.lowerBound_le s.pool_ size
  split_ifs at h with hnot
  · -- no entry of the size: a new FixedAllocator is inserted
    split at h
    · simp at h
    · rename_i fa hfa
      obtain ⟨hbs, h1⟩ := FixedAllocator.construct_blockSize hfa
      obtain ⟨hr, hsz, hent, _, hmax⟩ := SmallObjAllocator.delegateAllocate_spec h
      have hlen : (s.pool_.take (SmallObjAllocator.lowerBound s.pool_ size)).length
          = SmallObjAllocator.lowerBound s.pool_ size := by
        rw [List.length_take]; omega
      have hat : (s.pool_.take (SmallObjAllocator.lowerBound s.pool_ size)
          ++ fa :: s.pool_.drop (SmallObjAllocator.lowerBound s.pool_ size))[
            SmallObjAllocator.lowerBound s.pool_ size]? = some fa := by
        rw [List.getElem?_append_right (by omega), hlen]
        simp
      have hsizes : s1.sizes = s.sizes.take (SmallObjAllocator.lowerBound s.pool_ size)
          ++ size :: s.sizes.drop (SmallObjAllocator.lowerBound s.pool_ size) := by
        rw [hsz]
        simp only [SmallObjAllocator.sizes, List.map_append, List.map_cons, List.map_take,
          List.map_drop, hbs]
      refine ⟨⟨_, hr, ?_⟩, hmax, Or.inr ⟨h1, hsizes, ?_⟩, ?_⟩
      · rw [hent]
        show (((s.pool_.take (SmallObjAllocator.lowerBound s.pool_ size)
          ++ fa :: s.pool_.drop (SmallObjAllocator.lowerBound s.pool_ size))[
            SmallObjAllocator.lowerBound s.pool_ size]?).map FixedAllocator.blockSize_) = some size
        rw [hat]; simp [hbs]
      · intro hs
        exact (SmallObjAllocator.insert_sorted hbs ((SmallObjAllocator.sorted_iff s).mp hs) hnot).2
      · intro hs
        rw [hsz]
        show ((s.pool_.take (SmallObjAllocator.lowerBound s.pool_ size)
          ++ fa :: s.pool_.drop (SmallObjAllocator.lowerBound s.pool_ size)).map
            FixedAllocator.blockSize_).Pairwise (· < ·)
        rw [List.pairwise_map]
        exact (SmallObjAllocator.insert_sorted hbs ((SmallObjAllocator.sorted_iff s).mp hs) hnot).1
  · -- an entry of the size exists at the lower bound
    obtain ⟨hr, hsz, hent, _, hmax⟩ := SmallObjAllocator.delegateAllocate_spec h
    have hfound : (s.pool_[SmallObjAllocator.lowerBound s.pool_ size]?).map
        FixedAllocator.blockSize_ = some size := by
      by_contra hc
      exact hnot (Or.inr hc)
    refine ⟨⟨_, hr, by rw [hent]; exact hfound⟩, hmax, Or.inl ⟨hsz, ?_⟩, ?_⟩
    · cases hget : s.pool_[SmallObjAllocator.lowerBound s.pool_ size]? with
      | none => rw [hget] at hfound; simp at hfound
      | some fa =>
        rw [hget] at hfound
        simp only [Option.map_some', Option.some.injEq] at hfound
        unfold SmallObjAllocator.sizes
        exact List.mem_map.mpr ⟨fa, List.mem_iff_getElem?.mpr ⟨_, hget⟩, hfound⟩
    · intro hs
      rw [hsz]; exact hs

/-- `allocate` of a size above the threshold goes to the system allocator and
leaves the allocator and the memory as they are. -/
theorem SmallObjAllocator.allocate_large (s : SmallObjAllocator) (mem : Mem) (size : Nat)
    (env : SysEnv) (h : s.maxObjectSize_ < size) :
    s.allocate mem size env = some (some env.sysNew, Route.system, s, mem) := by
  simp [SmallObjAllocator.allocate, h]

/-- `allocate` of a size up to the threshold: the request goes to a pool entry
of exactly the requested size; the block sizes of the pool stay as they are or
gain the requested size at its lower bound. -/
theorem SmallObjAllocator.allocate_small {s s1 : SmallObjAllocator} {mem mem1 : Mem}
    {env : SysEnv} {size : Nat} {p : Option Nat} {r : Route}
    (h : s.allocate mem size env = some (p, r, s1, mem1)) (hsize : size ≤ s.maxObjectSize_) :
    (∃ i, r = Route.pool i ∧ (s1.pool_[i]?).map FixedAllocator.blockSize_ = some size) ∧
    s1.maxObjectSize_ = s.maxObjectSize_ ∧
    (s1.sizes = s.sizes ∧ size ∈ s.sizes ∨
      (1 ≤ size ∧
       s1.sizes = s.sizes.take (SmallObjAllocator.lowerBound s.pool_ size)
          ++ size :: s.sizes.drop (SmallObjAllocator.lowerBound s.pool_ size) ∧
       (s.sizes.Pairwise (· < ·) → size ∉ s.sizes))) ∧
    (s.sizes.Pairwise (· < ·) → s1.sizes.Pairwise (· < ·)) := by
  unfold SmallObjAllocator.allocate at h
  rw [if_neg (by omega)] at h
  split at h
  · exact SmallObjAllocator.searchAllocate_spec h
  · rename_i a _
    split at h
    · simp at h
    · rename_i fa hfa
      split_ifs at h with hb
      · obtain ⟨hr, hsz, hent, _, hmax⟩ := SmallObjAllocator.delegateAllocate_spec h
        refine ⟨⟨a, hr, by rw [hent, hfa]; simp [hb]⟩, hmax, Or.inl ⟨hsz, ?_⟩,
          fun hs => by rw [hsz]; exact hs⟩
        unfold SmallObjAllocator.sizes
        exact List.mem_map.mpr ⟨fa, List.mem_iff_getElem?.mpr ⟨_, hfa⟩, hb⟩
      · exact SmallObjAllocator.searchAllocate_spec h

/-- `deallocate` of a size above the threshold goes to the system allocator and
leaves the allocator and the memory as they are. -/
theorem SmallObjAllocator.deallocate_large (s : SmallObjAllocator) (mem : Mem) (p size : Nat)
    (h : s.maxObjectSize_ < size) :
    s.deallocate mem p size = some (Route.system, s, mem) := by
  simp [SmallObjAllocator.deallocate, h]

/-- `deallocate` keeps the block sizes of the pool and the threshold; a size up
to the threshold goes to a pool entry of exactly that size. -/
theorem SmallObjAllocator.deallocate_sizes {s s1 : SmallObjAllocator} {mem mem1 : Mem}
    {p size : Nat} {r : Route}
    (h : s.deallocate mem p size = some (r, s1, mem1)) :
    s1.sizes = s.sizes ∧ s1.maxObjectSize_ = s.maxObjectSize_ ∧
    (size ≤ s.maxObjectSize_ →
      ∃ i, r = Route.pool i ∧ (s.pool_[i]?).map FixedAllocator.blockSize_ = some size) := by
  unfold SmallObjAllocator.deallocate at h
  have hsearch : ∀ {r : Route} {s1 : SmallObjAllocator} {mem1 : Mem},
      s.searchDeallocate mem p size = some (r, s1, mem1) →
      s1.sizes = s.sizes ∧ s1.maxObjectSize_ = s.maxObjectSize_ ∧
      (size ≤ s.maxObjectSize_ →
        ∃ i, r = Route.pool i ∧ (s.pool_[i]?).map FixedAllocator.blockSize_ = some size) := by
    intro r s1 mem1 hs
    unfold SmallObjAllocator.searchDeallocate at hs
    simp only [] at hs
    split at hs
    · simp at hs
    · rename_i fa hfa
      split_ifs at hs with hb
      obtain ⟨hr, hsz, _, hmax⟩ := SmallObjAllocator.delegateDeallocate_spec hs
      refine ⟨hsz, hmax, fun _ => ⟨_, hr, ?_⟩⟩
      rw [hfa]
      have : fa.blockSize_ = size := by
        by_contra hc; exact hb hc
      simp [this]
  split_ifs at h with hlarge
  · simp only [Option.some.injEq, Prod.mk.injEq] at h
    rw [← h.2.1]; exact ⟨rfl, rfl, fun hle => by omega⟩
  · split at h
    · exact hsearch h
    · split at h
      · simp at h
      · rename_i d _ fa hfa
        split_ifs at h with hb
        · obtain ⟨hr, hsz, _, hmax⟩ := SmallObjAllocator.delegateDeallocate_spec h
          exact ⟨hsz, hmax, fun _ => ⟨_, hr, by rw [hfa]; simp [hb]⟩⟩
        · exact hsearch h

/-- Every call keeps the pool in strictly ascending order of block size. -/
theorem SmallObjAllocator.step_sorted {s s1 : SmallObjAllocator} {mem mem1 : Mem} {op : PoolOp}
    (h : s.step mem op = some (s1, mem1)) (hs : s.sizes.Pairwise (· < ·)) :
    s1.sizes.Pairwise (· < ·) := by
  cases op with
  | allocate size env =>
    simp only [SmallObjAllocator.step] at h
    cases ha : s.allocate mem size env with
    | none => rw [ha] at h; simp at h
    | some res =>
      obtain ⟨p, r, s2, mem2⟩ := res
      rw [ha] at h
      simp only [Option.map_some', Option.some.injEq, Prod.mk.injEq] at h
      rw [← h.1]
      by_cases hsize : size ≤ s.maxObjectSize_
      · exact (SmallObjAllocator.allocate_small ha hsize).2.2.2 hs
      · rw [SmallObjAllocator.allocate_large s mem size env (by omega)] at ha
        simp only [Option.some.injEq, Prod.mk.injEq] at ha
        rw [← ha.2.2.1]; exact hs
  | deallocate p size =>
    simp only [SmallObjAllocator.step] at h
    cases hd : s.deallocate mem p size with
    | none => rw [hd] at h; simp at h
    | some res =>
      obtain ⟨r, s2, mem2⟩ := res
      rw [hd] at h
      simp only [Option.map_some', Option.some.injEq, Prod.mk.injEq] at h
      rw [← h.1, (SmallObjAllocator.deallocate_sizes hd).1]
      exact hs

theorem SmallObjAllocator.run_sorted :
    ∀ (ops : List PoolOp) (s s1 : SmallObjAllocator) (mem mem1 : Mem),
      SmallObjAllocator.run s mem ops = some (s1, mem1) → s.sizes.Pairwise (· < ·) →
      s1.sizes.Pairwise (· < ·) := by
  intro ops
  induction ops with
  | nil =>
    intro s s1 mem mem1 h hs
    simp only [SmallObjAllocator.run, Option.some.injEq, Prod.mk.injEq] at h
    rw [← h.1]; exact hs
  | cons op ops ih =>
    intro s s1 mem mem1 h hs
    simp only [SmallObjAllocator.run] at h
    cases hst : s.step mem op with
    | none => rw [hst] at h; simp at h
    | some res =>
      obtain ⟨s2, mem2⟩ := res
      rw [hst] at h
      exact ih s2 s1 mem2 mem1 h (SmallObjAllocator.step_sorted hst hs)

theorem mem_insert_iff {l : List Nat} {i a x : Nat} :
    x ∈ l.take i ++ a :: l.drop i ↔ x = a ∨ x ∈ l := by
  have h : x ∈ l ↔ x ∈ l.take i ∨ x ∈ l.drop i := by
    conv_lhs => rw [← List.take_append_drop i l]
    exact List.mem_append
  rw [List.mem_append, List.mem_cons, h]
  tauto

theorem div_of_split {q N r : Nat} (h : r < N) : (q * N + r) / N = q := by
  rw [Nat.add_comm, Nat.add_mul_div_right _ _ (by omega), Nat.div_eq_of_lt h]; simp

theorem mod_of_split {q N r : Nat} (h : r < N) : (q * N + r) % N = r := by
  rw [Nat.add_comm, Nat.add_mul_mod_self_right, Nat.mod_eq_of_lt h]

/-- The scan of a vector without a free block ends at `end()`. -/
theorem FixedAllocator.scan_full :
    ∀ (chunks : List Chunk) (k : Nat), (∀ c ∈ chunks, c.nAvailableBlocks_ = 0) →
      FixedAllocator.scan 0 chunks k = ScanResult.create := by
  intro chunks
  induction chunks with
  | nil => intro k _; simp [FixedAllocator.scan]
  | cons c rest ih =>
    intro k h
    have hc := h c (List.mem_cons_self _ _)
    simp only [FixedAllocator.scan, hc, Nat.lt_irrefl, if_false]
    exact ih (k + 1) (fun x hx => h x (List.mem_cons_of_mem _ hx))

/-- The choice of `allocChunk_` in a world grown by allocations only: the
Chunk chosen is at position `q`, and its blocks from `r` on are free and linked
in ascending order. -/
theorem World.Grown.choose {w : World} {q r : Nat} {env : AllocEnv} (h : w.Grown q r)
    (hadm : w.Admits (Op.allocate env)) :
    ∃ fa1 mem1 c, w.fa.choose w.mem env = some (fa1, mem1) ∧
      fa1.blockSize_ = w.fa.blockSize_ ∧ fa1.numBlocks_ = w.fa.numBlocks_ ∧
      fa1.allocChunk_ = some q ∧ fa1.chunks_.length = q + 1 ∧
      fa1.chunks_[q]? = some c ∧
      c.nAvailableBlocks_ = w.fa.numBlocks_ - r ∧ c.firstAvailableBlock_ = r ∧
      (∀ i, r ≤ i → i < w.fa.numBlocks_ →
        mem1.load (c.pData_ + i * w.fa.blockSize_) = i + 1) ∧
      (∀ (j : Nat) (c0 : Chunk), w.fa.chunks_[j]? = some c0 → fa1.chunks_[j]? = some c0) ∧
      (∀ c1 ∈ fa1.chunks_, c1.pData_ = env.newData ∨ c1 ∈ w.fa.chunks_) := by
  have hN := h.inv.numBlocks_le
  have hrlt := h.r_lt
  by_cases hr : r = 0
  · -- every Chunk is full: a Chunk is created
    have hsize : w.fa.chunks_.length = q := by
      have := h.size; simp only [hr, if_true] at this; omega
    have hfull : ∀ c ∈ w.fa.chunks_, c.nAvailableBlocks_ = 0 := by
      intro c hc
      obtain ⟨j, hj⟩ := List.mem_iff_getElem?.mp hc
      have hjlt : j < w.fa.chunks_.length := (List.getElem?_eq_some.mp hj).1
      exact h.full j c (by omega) hj
    obtain ⟨hpe, hnew, _⟩ := hadm
    have hmod : w.fa.numBlocks_ % 256 = w.fa.numBlocks_ := Nat.mod_eq_of_lt (by omega)
    have hrefill : w.fa.refill w.mem env
        = some ({ w.fa with chunks_ := w.fa.chunks_ ++
                    [(env.uninit.init w.mem env.newData w.fa.blockSize_ w.fa.numBlocks_).2.1],
                            allocChunk_ := some w.fa.chunks_.length,
                            deallocChunk_ := some 0 },
                (env.uninit.init w.mem env.newData w.fa.blockSize_ w.fa.numBlocks_).2.2) := by
      unfold FixedAllocator.refill
      rw [hpe, FixedAllocator.scan_full _ _ hfull]
    have hchoose : w.fa.choose w.mem env = w.fa.refill w.mem env := by
      unfold FixedAllocator.choose
      cases hal : w.fa.allocChunk_ with
      | none => rfl
      | some a =>
        have halt := h.inv.alloc_valid a hal
        simp only [List.getElem?_eq_getElem halt]
        rw [if_pos (hfull _ (List.getElem_mem _))]
    refine ⟨_, _, (env.uninit.init w.mem env.newData w.fa.blockSize_ w.fa.numBlocks_).2.1,
      hchoose.trans hrefill, rfl, rfl, ?_, ?_, ?_, ?_, ?_, ?_, ?_, ?_⟩
    · show some w.fa.chunks_.length = some q
      rw [hsize]
    · show (w.fa.chunks_ ++ _).length = q + 1
      simp [hsize]
    · show (w.fa.chunks_ ++ _)[q]? = _
      rw [← hsize]
      exact List.getElem?_concat_length _ _
    · simp only [Chunk.init, hnew, if_false, hmod, hr, Nat.sub_zero]
    · simp only [Chunk.init, hnew, if_false, hr]
    · intro i _ hi
      simp only [Chunk.init, hnew, if_false, hmod]
      have hs := Chunk.seed_load w.fa.blockSize_ h.inv.blockSize_pos w.fa.numBlocks_ 0
        env.newData w.mem i hi
      rw [hs]
      have h256 : 0 + i + 1 < 256 := by omega
      rw [Nat.mod_eq_of_lt h256]; omega
    · intro j c0 hj
      show (w.fa.chunks_ ++ _)[j]? = _
      rw [List.getElem?_append_left (List.getElem?_eq_some.mp hj).1]
      exact hj
    · intro c1 hc1
      have hc1 : c1 ∈ w.fa.chunks_ ++
          [(env.uninit.init w.mem env.newData w.fa.blockSize_ w.fa.numBlocks_).2.1] := hc1
      rcases List.mem_append.mp hc1 with hm | hm
      · exact Or.inr hm
      · left
        rw [List.mem_singleton.mp hm]
        simp only [Chunk.init, hnew, if_false]
  · obtain ⟨c, hc, hav, hfirst, hal, hlinks⟩ := h.part hr
    have hsize : w.fa.chunks_.length = q + 1 := by
      have := h.size; simp only [hr, if_false] at this; omega
    have hne : c.nAvailableBlocks_ ≠ 0 := by omega
    refine ⟨w.fa, w.mem, c, ?_, rfl, rfl, hal, hsize, hc, hav, hfirst, hlinks,
      fun _ _ hj => hj, fun c1 hc1 => Or.inr hc1⟩
    unfold FixedAllocator.choose
    simp only [hal, hc, hne, if_false]

/-- One `allocate` in a world grown by allocations only: the call returns block
`r` of the Chunk at position `q`, and the world is grown by one more block. -/
theorem World.Grown.step_grown {w : World} {q r : Nat} {env : AllocEnv} (h : w.Grown q r)
    (hadm : w.Admits (Op.allocate env)) :
    ∃ w1, w.step (Op.allocate env) = some w1 ∧
      w1.fa.blockSize_ = w.fa.blockSize_ ∧ w1.fa.numBlocks_ = w.fa.numBlocks_ ∧
      w1.out.length = w.out.length + 1 ∧
      (∀ c1 ∈ w1.fa.chunks_, c1.pData_ = env.newData ∨
        ∃ c0 ∈ w.fa.chunks_, c0.pData_ = c1.pData_) ∧
      (if r + 1 = w.fa.numBlocks_ then w1.Grown (q + 1) 0 else w1.Grown q (r + 1)) := by
  obtain ⟨fa1, mem1, c, hch, hb1, hb2, hal, hlen, hc, hav, hfirst, hlinks, hext, hfrom⟩ :=
    h.choose hadm
  obtain ⟨w2, hstep2, hinv2, _, _, _⟩ := World.step_inv (Op.allocate env) h.inv hadm
  have hrlt := h.r_lt
  have hne : c.nAvailableBlocks_ ≠ 0 := by omega
  have hload : mem1.load (c.pData_ + r * w.fa.blockSize_) = r + 1 :=
    hlinks r (Nat.le_refl r) hrlt
  have hqlt : q < fa1.chunks_.length := by omega
  have hstep : w.step (Op.allocate env)
      = some (World.mk
          { fa1 with
            chunks_ := fa1.chunks_.set q (Chunk.mk c.pData_ (r + 1) (w.fa.numBlocks_ - r - 1)) }
          mem1 ((c.pData_ + r * w.fa.blockSize_) :: w.out)) := by
    have hne1 : w.fa.numBlocks_ - r ≠ 0 := by omega
    simp only [World.step, hadm, if_true, World.exec, FixedAllocator.allocate, hch, hal, hc,
      if_false, Chunk.allocate, hb1, hfirst, hload, hav, hne1]
  rw [hstep] at hstep2
  have e := Option.some.inj hstep2
  rw [← e] at hinv2
  have hcount := h.count
  -- the Chunks before position `q` are those of `w`, all full
  have hfull : ∀ (j : Nat) (c2 : Chunk), j < q →
      (fa1.chunks_.set q (Chunk.mk c.pData_ (r + 1) (w.fa.numBlocks_ - r - 1)))[j]? = some c2 →
      c2.nAvailableBlocks_ = 0 := by
    intro j c2 hj hc2
    rw [List.getElem?_set_ne (by omega)] at hc2
    have hjw : j < w.fa.chunks_.length := by have := h.size; omega
    have h1 := hext j _ (List.getElem?_eq_getElem hjw)
    rw [hc2] at h1
    rw [Option.some.inj h1]
    exact h.full j _ hj (List.getElem?_eq_getElem hjw)
  have horder : ∀ k, k < ((c.pData_ + r * w.fa.blockSize_) :: w.out).length →
      ∃ c2, (fa1.chunks_.set q (Chunk.mk c.pData_ (r + 1) (w.fa.numBlocks_ - r - 1)))[k / w.fa.numBlocks_]? = some c2 ∧
        ((c.pData_ + r * w.fa.blockSize_) :: w.out).reverse[k]?
          = some (c2.pData_ + (k % w.fa.numBlocks_) * w.fa.blockSize_) := by
    intro k hk
    rw [List.reverse_cons]
    by_cases hkn : k < w.out.length
    · obtain ⟨c0, hc0, hk0⟩ := h.order k hkn
      rw [List.getElem?_append_left (by rw [List.length_reverse]; exact hkn), hk0]
      have h1 := hext _ _ hc0
      by_cases hq : k / w.fa.numBlocks_ = q
      · rw [hq, List.getElem?_set_self hqlt]
        rw [hq, hc] at h1
        rw [← Option.some.inj h1]
        exact ⟨_, rfl, rfl⟩
      · rw [List.getElem?_set_ne (fun e => hq e.symm)]
        exact ⟨c0, h1, rfl⟩
    · have hk1 : k = w.out.length := by simp only [List.length_cons] at hk; omega
      have hdiv : k / w.fa.numBlocks_ = q := by rw [hk1, hcount]; exact div_of_split hrlt
      have hmod : k % w.fa.numBlocks_ = r := by rw [hk1, hcount]; exact mod_of_split hrlt
      rw [hdiv, hmod, List.getElem?_set_self hqlt]
      refine ⟨_, rfl, ?_⟩
      have hl : k = w.out.reverse.length := by rw [List.length_reverse]; exact hk1
      rw [hl]
      exact List.getElem?_concat_length _ _
  refine ⟨_, hstep, hb1, hb2, by simp, ?_, ?_⟩
  · intro c1 hc1
    have hc1 : c1 ∈ fa1.chunks_.set q (Chunk.mk c.pData_ (r + 1) (w.fa.numBlocks_ - r - 1)) := hc1
    have hcm : c ∈ fa1.chunks_ := List.mem_iff_getElem?.mpr ⟨q, hc⟩
    rcases mem_set_cases hc1 with e1 | ⟨i, _, hi⟩
    · rcases hfrom c hcm with h1 | h1
      · left; rw [e1]; exact h1
      · right; exact ⟨c, h1, by rw [e1]⟩
    · rcases hfrom c1 (List.mem_iff_getElem?.mpr ⟨i, hi⟩) with h1 | h1
      · exact Or.inl h1
      · exact Or.inr ⟨c1, h1, rfl⟩
  · by_cases hr1 : r + 1 = w.fa.numBlocks_
    · rw [if_pos hr1]
      refine ⟨hinv2, ?_, ?_, ?_, ?_, ?_, ?_⟩
      · show 0 < fa1.numBlocks_
        rw [hb2]; omega
      · show ((c.pData_ + r * w.fa.blockSize_) :: w.out).length = (q + 1) * fa1.numBlocks_ + 0
        rw [hb2, List.length_cons, hcount, Nat.add_mul]; omega
      · show (fa1.chunks_.set q _).length = q + 1 + (if 0 = 0 then 0 else 1)
        rw [List.length_set, hlen]; simp
      · intro j c2 hj hc2
        have hc2 : (fa1.chunks_.set q (Chunk.mk c.pData_ (r + 1) (w.fa.numBlocks_ - r - 1)))[j]? = some c2 := hc2
        by_cases hjq : j = q
        · rw [hjq, List.getElem?_set_self hqlt] at hc2
          rw [← Option.some.inj hc2]
          show w.fa.numBlocks_ - r - 1 = 0
          omega
        · exact hfull j c2 (by omega) hc2
      · intro h0; exact absurd rfl h0
      · intro k hk
        have := horder k hk
        show ∃ c2, (fa1.chunks_.set q _)[k / fa1.numBlocks_]? = some c2 ∧
          ((c.pData_ + r * w.fa.blockSize_) :: w.out).reverse[k]?
            = some (c2.pData_ + (k % fa1.numBlocks_) * fa1.blockSize_)
        rw [hb1, hb2]; exact this
    · rw [if_neg hr1]
      refine ⟨hinv2, ?_, ?_, ?_, ?_, ?_, ?_⟩
      · show r + 1 < fa1.numBlocks_
        rw [hb2]; omega
      · show ((c.pData_ + r * w.fa.blockSize_) :: w.out).length = q * fa1.numBlocks_ + (r + 1)
        rw [hb2, List.length_cons, hcount]; omega
      · show (fa1.chunks_.set q _).length = q + (if r + 1 = 0 then 0 else 1)
        rw [List.length_set, hlen]; simp
      · intro j c2 hj hc2
        exact hfull j c2 hj hc2
      · intro _
        refine ⟨_, List.getElem?_set_self hqlt, ?_, rfl, hal, ?_⟩
        · show w.fa.numBlocks_ - r - 1 = fa1.numBlocks_ - (r + 1)
          rw [hb2]; omega
        · intro i hi hilt
          show mem1.load (c.pData_ + i * fa1.blockSize_) = i + 1
          rw [hb1]
          exact hlinks i (by omega) (by rw [← hb2]; exact hilt)
      · intro k hk
        have := horder k hk
        show ∃ c2, (fa1.chunks_.set q _)[k / fa1.numBlocks_]? = some c2 ∧
          ((c.pData_ + r * w.fa.blockSize_) :: w.out).reverse[k]?
            = some (c2.pData_ + (k % fa1.numBlocks_) * fa1.blockSize_)
        rw [hb1, hb2]; exact this

/-- The first call of a supplied sequence of allocations is admitted. -/
theorem World.Supplies.head {w : World} {env : AllocEnv} {envs : List AllocEnv}
    (h : w.Supplies (env :: envs)) : w.Admits (Op.allocate env) := by
  obtain ⟨h1, h2, h3⟩ := h.1 env (List.mem_cons_self _ _)
  exact ⟨h1, h2, fun c hc => h3 c hc⟩

/-- After a call that takes its buffer, if any, from the first supply, the
rest of the supplies serve the world reached. -/
theorem World.Supplies.tail {w w1 : World} {env : AllocEnv} {envs : List AllocEnv}
    (h : w.Supplies (env :: envs))
    (hb1 : w1.fa.blockSize_ = w.fa.blockSize_) (hb2 : w1.fa.numBlocks_ = w.fa.numBlocks_)
    (hfrom : ∀ c1 ∈ w1.fa.chunks_, c1.pData_ = env.newData ∨
      ∃ c0 ∈ w.fa.chunks_, c0.pData_ = c1.pData_) :
    w1.Supplies envs := by
  have hpw := h.2
  rw [List.map_cons, List.pairwise_cons] at hpw
  unfold World.Supplies
  rw [hb1, hb2]
  refine ⟨?_, hpw.2⟩
  intro e he
  obtain ⟨h1, h2, h3⟩ := h.1 e (List.mem_cons_of_mem _ he)
  refine ⟨h1, h2, ?_⟩
  intro c1 hc1
  rcases hfrom c1 hc1 with e1 | ⟨c0, hc0, e0⟩
  · rw [e1]
    exact hpw.1 _ (List.mem_map_of_mem _ he)
  · rw [← e0]
    exact h3 c0 hc0

/-- A supplied sequence of allocations runs from a world grown by allocations
only, and ends in such a world. -/
theorem World.Grown.run_grown :
    ∀ (envs : List AllocEnv) (w : World) (q r : Nat), w.Grown q r → w.Supplies envs →
      ∃ w1 q1 r1, World.run w (envs.map Op.allocate) = some w1 ∧ w1.Grown q1 r1 ∧
        w1.out.length = w.out.length + envs.length ∧
        w1.fa.blockSize_ = w.fa.blockSize_ ∧ w1.fa.numBlocks_ = w.fa.numBlocks_ := by
  intro envs
  induction envs with
  | nil => intro w q r h _; exact ⟨w, q, r, rfl, h, rfl, rfl, rfl⟩
  | cons env envs ih =>
    intro w q r h hsup
    obtain ⟨w1, hstep, hb1, hb2, hlen, hfrom, hg⟩ := h.step_grown hsup.head
    have hsup1 := hsup.tail hb1 hb2 hfrom
    have hrest : ∀ q0 r0, w1.Grown q0 r0 →
        ∃ w2 q1 r1, World.run w ((env :: envs).map Op.allocate) = some w2 ∧ w2.Grown q1 r1 ∧
          w2.out.length = w.out.length + (env :: envs).length ∧
          w2.fa.blockSize_ = w.fa.blockSize_ ∧ w2.fa.numBlocks_ = w.fa.numBlocks_ := by
      intro q0 r0 h0
      obtain ⟨w2, q1, r1, hrun, hg2, hl2, hc1, hc2⟩ := ih w1 q0 r0 h0 hsup1
      refine ⟨w2, q1, r1, ?_, hg2, ?_, by rw [hc1, hb1], by rw [hc2, hb2]⟩
      · simp only [List.map_cons, World.run, hstep]
        exact hrun
      · rw [hl2, hlen, List.length_cons]; omega
    by_cases hr1 : r + 1 = w.fa.numBlocks_
    · rw [if_pos hr1] at hg; exact hrest _ _ hg
    · rw [if_neg hr1] at hg; exact hrest _ _ hg

/-- The world of a freshly constructed FixedAllocator is grown by no allocation. -/
theorem World.fresh_grown {blockSize : Nat} {fa : FixedAllocator} (mem : Mem)
    (h : FixedAllocator.construct blockSize = some fa) (hsz : 8 * blockSize < 2 ^ 64) :
    (World.fresh fa mem).Grown 0 0 := by
  obtain ⟨_, _, _, h4, _, h6, _, _⟩ := FixedAllocator.construct_some h hsz
  refine ⟨(World.fresh_inv mem h hsz).1, h4, by simp [World.fresh], ?_, ?_, ?_, ?_⟩
  · show fa.chunks_.length = 0 + (if 0 = 0 then 0 else 1)
    rw [h6]; rfl
  · intro j c hj; omega
  · intro h0; exact absurd rfl h0
  · intro k hk
    simp [World.fresh] at hk

/-- The number of Chunks of a world grown by allocations only is the number of
blocks handed out divided by the number of blocks per Chunk, rounded up. -/
theorem World.Grown.chunks_length {w : World} {q r : Nat} (h : w.Grown q r) :
    w.fa.chunks_.length = (w.out.length + w.fa.numBlocks_ - 1) / w.fa.numBlocks_ := by
  have hr := h.r_lt
  rw [h.size, h.count]
  by_cases h0 : r = 0
  · rw [if_pos h0, h0]
    have e : q * w.fa.numBlocks_ + 0 + w.fa.numBlocks_ - 1
        = q * w.fa.numBlocks_ + (w.fa.numBlocks_ - 1) := by omega
    rw [e, div_of_split (by omega)]
    rfl
  · rw [if_neg h0]
    have e : q * w.fa.numBlocks_ + r + w.fa.numBlocks_ - 1
        = (q + 1) * w.fa.numBlocks_ + (r - 1) := by rw [Nat.add_mul]; omega
    rw [e, div_of_split (by omega)]

/-! ## Drain in the reverse order of allocation -/

/-- `FixedAllocator::deallocate` of a handed-out block, block `i` of the Chunk
at position `n`: the call frees the block in that Chunk and then releases an
empty Chunk, if the release policy says so. -/
theorem World.deallocate_eq {w : World} {n i : Nat} {c : Chunk} (h : w.Inv)
    (hn : w.fa.chunks_[n]? = some c) (hi : i < w.fa.numBlocks_)
    (hp : c.pData_ + i * w.fa.blockSize_ ∈ w.out) :
    ∃ c1, c1.pData_ = c.pData_ ∧ c1.nAvailableBlocks_ = c.nAvailableBlocks_ + 1 ∧
      w.fa.deallocate w.mem (c.pData_ + i * w.fa.blockSize_)
        = (({ w.fa with deallocChunk_ := some n,
                        chunks_ := w.fa.chunks_.set n c1 }).reclaim n).map
            (fun fa1 => (fa1, w.mem.store (c.pData_ + i * w.fa.blockSize_)
              c.firstAvailableBlock_)) := by
  have hc : c ∈ w.fa.chunks_ := List.mem_iff_getElem?.mpr ⟨n, hn⟩
  have hnlt : n < w.fa.chunks_.length := (List.getElem?_eq_some.mp hn).1
  have hne : w.fa.chunks_ ≠ [] := by
    intro e; rw [e] at hnlt; simp at hnlt
  obtain ⟨d0, hd0, hd0lt⟩ := h.dealloc_valid hne
  have hemp : w.fa.chunks_.isEmpty = false := by
    cases hcs : w.fa.chunks_ with
    | nil => exact absurd hcs hne
    | cons _ _ => rfl
  have hfind := World.vicinityFind_owner h hn hi
  obtain ⟨c1, hde, hpd, hav, _, _⟩ :=
    Chunk.deallocate_sound h.blockSize_pos h.numBlocks_le (h.chunks.sound c hc) hi hp
      h.chunks.out_nodup
  have hend := block_end_le w.fa.blockSize_ hi
  have hbs := h.blockSize_pos
  refine ⟨c1, hpd, hav, ?_⟩
  unfold FixedAllocator.deallocate
  rw [hemp, hd0, hfind]
  simp only [Bool.false_eq_true, if_false, hd0lt, not_true_eq_false]
  unfold FixedAllocator.doDeallocate
  have h1 : c.pData_ ≤ c.pData_ + i * w.fa.blockSize_ := by omega
  have h2 : c.pData_ + i * w.fa.blockSize_ < c.pData_ + w.fa.numBlocks_ * w.fa.blockSize_ := by
    omega
  simp only [hn, hde, h1, h2, not_true_eq_false, if_false]
  cases ({ w.fa with deallocChunk_ := some n, chunks_ := w.fa.chunks_.set n c1 }
    : FixedAllocator).reclaim n <;> rfl

/-- The release policy of `doDeallocate` at position `q`, when every Chunk
before `q` is in use and at most one Chunk, an empty one, follows: the Chunks
stay as they are when the Chunk at `q` is not empty, and the Chunks up to
position `q` stay when it is. -/
theorem FixedAllocator.reclaim_drain {fa : FixedAllocator} {q : Nat} {c1 : Chunk}
    (hq : fa.chunks_[q]? = some c1)
    (hsize : fa.chunks_.length = q + 1 ∨
      (fa.chunks_.length = q + 2 ∧
        ∃ c, fa.chunks_[q + 1]? = some c ∧ c.nAvailableBlocks_ = fa.numBlocks_))
    (hprev : ∀ c, 1 ≤ q → fa.chunks_[q - 1]? = some c → c.nAvailableBlocks_ ≠ fa.numBlocks_) :
    ∃ fa1, fa.reclaim q = some fa1 ∧
      fa1.blockSize_ = fa.blockSize_ ∧ fa1.numBlocks_ = fa.numBlocks_ ∧
      (c1.nAvailableBlocks_ ≠ fa.numBlocks_ → fa1.chunks_ = fa.chunks_) ∧
      (c1.nAvailableBlocks_ = fa.numBlocks_ → fa1.chunks_ = fa.chunks_.take (q + 1)) := by
  unfold FixedAllocator.reclaim
  rw [hq]
  by_cases he : c1.nAvailableBlocks_ = fa.numBlocks_
  · simp only [he, if_true]
    rcases hsize with hs | ⟨hs, ce, hce, hceav⟩
    · have hl : fa.chunks_.length - 1 = q := by omega
      have hnot : ¬ (1 < fa.chunks_.length ∧
          (fa.chunks_[q - 1]?).map Chunk.nAvailableBlocks_ = some fa.numBlocks_) := by
        rintro ⟨h1, h2⟩
        have hq1 : q - 1 < fa.chunks_.length := by omega
        rw [List.getElem?_eq_getElem hq1] at h2
        simp only [Option.map_some', Option.some.injEq] at h2
        exact hprev _ (by omega) (List.getElem?_eq_getElem hq1) h2
      simp only [hl, if_true, hnot, if_false]
      refine ⟨fa, rfl, rfl, rfl, fun h => absurd rfl h, fun _ => ?_⟩
      rw [List.take_of_length_le (by omega)]
    · have hl : ¬ fa.chunks_.length - 1 = q := by omega
      have hlast : fa.chunks_.length - 1 = q + 1 := by omega
      have hqq : ¬ q + 1 = q := by omega
      simp only [hlast, hqq, if_false, hce, hceav, if_true]
      refine ⟨_, rfl, rfl, rfl, fun h => absurd rfl h, fun _ => ?_⟩
      show fa.chunks_.dropLast = _
      rw [List.dropLast_eq_take, hlast]
  · simp only [he, if_false]
    exact ⟨fa, rfl, rfl, rfl, fun _ => rfl, fun h => h.elim⟩

/-- One `deallocate` of the latest block while the blocks of a pure allocation
are given back: the call succeeds, and either the last block is back and one
Chunk, an empty one, is left, or the drain goes on. -/
theorem World.Draining.step_drain {w : World} {q t : Nat} (h : w.Draining q t) :
    ∃ p rest w1, w.out = p :: rest ∧ w.step (Op.deallocate p) = some w1 ∧ w1.out = rest ∧
      w1.fa.numBlocks_ = w.fa.numBlocks_ ∧
      ((rest = [] ∧ w1.fa.chunks_.length = 1 ∧
          ∀ c ∈ w1.fa.chunks_, c.nAvailableBlocks_ = w.fa.numBlocks_) ∨
        ∃ q1 t1, w1.Draining q1 t1) := by
  have hN1 := h.inv.numBlocks_pos
  have htp := h.t_pos
  have htl := h.t_le
  have hcount := h.count
  obtain ⟨c, hc, hcav⟩ := h.part
  have hqlt : q < w.fa.chunks_.length := (List.getElem?_eq_some.mp hc).1
  cases hout : w.out with
  | nil => rw [hout] at hcount; simp only [List.length_nil] at hcount; omega
  | cons p rest =>
    rw [hout, List.length_cons] at hcount
    have hrl : rest.length = q * w.fa.numBlocks_ + (t - 1) := by omega
    have hdiv : rest.length / w.fa.numBlocks_ = q := by rw [hrl]; exact div_of_split (by omega)
    have hmod : rest.length % w.fa.numBlocks_ = t - 1 := by
      rw [hrl]; exact mod_of_split (by omega)
    have horder := h.order
    rw [hout] at horder
    obtain ⟨c0, hc0, hk0⟩ := horder rest.length (by simp)
    rw [hdiv, hc] at hc0
    have ec : c = c0 := Option.some.inj hc0
    subst ec
    have hlr : rest.length = rest.reverse.length := by rw [List.length_reverse]
    rw [hmod, List.reverse_cons] at hk0
    nth_rewrite 1 [hlr] at hk0
    rw [List.getElem?_concat_length] at hk0
    have hp : p = c.pData_ + (t - 1) * w.fa.blockSize_ := Option.some.inj hk0
    have hpin : c.pData_ + (t - 1) * w.fa.blockSize_ ∈ w.out := by
      rw [hout, ← hp]; exact List.mem_cons_self _ _
    obtain ⟨c1, hpd, hav1, hde⟩ := World.deallocate_eq h.inv hc (by omega) hpin
    have hadm : w.Admits (Op.deallocate p) := by
      show p ∈ w.out
      rw [hout]; exact List.mem_cons_self _ _
    obtain ⟨w2, hstep2, hinv2, _, _, _⟩ := World.step_inv (Op.deallocate p) h.inv hadm
    -- the release policy
    obtain ⟨fa1, hre, hb1, hb2, hkeep, htake⟩ :=
      @FixedAllocator.reclaim_drain
        { w.fa with deallocChunk_ := some q, chunks_ := w.fa.chunks_.set q c1 } q c1
        (List.getElem?_set_self hqlt)
        (by
          rcases h.size with hs | ⟨hs, ce, hce, hceav⟩
          · left; show (w.fa.chunks_.set q c1).length = q + 1
            rw [List.length_set]; exact hs
          · right
            refine ⟨by show (w.fa.chunks_.set q c1).length = q + 2; rw [List.length_set]; exact hs,
              ce, ?_, hceav⟩
            show (w.fa.chunks_.set q c1)[q + 1]? = some ce
            rw [List.getElem?_set_ne (by omega)]; exact hce)
        (by
          intro c2 hq1 hc2
          have hc2 : (w.fa.chunks_.set q c1)[q - 1]? = some c2 := hc2
          rw [List.getElem?_set_ne (by omega)] at hc2
          have := h.full (q - 1) c2 (by omega) hc2
          show c2.nAvailableBlocks_ ≠ w.fa.numBlocks_
          omega)
    have hstep : w.step (Op.deallocate p) = some (World.mk fa1
        (w.mem.store (c.pData_ + (t - 1) * w.fa.blockSize_) c.firstAvailableBlock_) rest) := by
      simp only [World.step, hadm, if_true, World.exec]
      rw [hp, hde, hre, hout, hp]
      simp
    rw [hstep] at hstep2
    rw [← Option.some.inj hstep2] at hinv2
    have hb1 : fa1.blockSize_ = w.fa.blockSize_ := hb1
    have hb2 : fa1.numBlocks_ = w.fa.numBlocks_ := hb2
    -- the blocks still handed out keep their places
    have hplace : ∀ (chunks1 : List Chunk),
        (∀ (j : Nat) (c2 : Chunk), j < q → w.fa.chunks_[j]? = some c2 →
          chunks1[j]? = some c2) →
        (∀ k, k < rest.length → k / w.fa.numBlocks_ = q →
          ∃ c2, chunks1[q]? = some c2 ∧ c2.pData_ = c.pData_) →
        ∀ k, k < rest.length → ∃ c2, chunks1[k / w.fa.numBlocks_]? = some c2 ∧
          rest.reverse[k]? = some (c2.pData_ + (k % w.fa.numBlocks_) * w.fa.blockSize_) := by
      intro chunks1 hlow hat k hk
      obtain ⟨c3, hc3, hk3⟩ := horder k (by simp only [List.length_cons]; omega)
      rw [List.reverse_cons, List.getElem?_append_left (by rw [List.length_reverse]; exact hk)]
        at hk3
      have hle : k / w.fa.numBlocks_ ≤ q := by
        rw [← hdiv]; exact Nat.div_le_div_right (Nat.le_of_lt hk)
      by_cases hq : k / w.fa.numBlocks_ = q
      · obtain ⟨c2, hc2, hpd2⟩ := hat k hk hq
        rw [hq] at hc3 ⊢
        rw [hc] at hc3
        rw [← Option.some.inj hc3] at hk3
        exact ⟨c2, hc2, by rw [hpd2]; exact hk3⟩
      · exact ⟨c3, hlow _ c3 (by omega) hc3, hk3⟩
    refine ⟨p, rest, _, rfl, hstep, rfl, hb2, ?_⟩
    obtain ⟨bs1, N1, chunks1, a1, d1⟩ := fa1
    simp only at hb1 hb2 hkeep htake
    subst hb1
    subst hb2
    by_cases ht : t = 1
    · -- the Chunk at position `q` is empty now
      have hch := htake (by omega)
      subst hch
      have hlen1 : ((w.fa.chunks_.set q c1).take (q + 1)).length = q + 1 := by
        rw [List.length_take, List.length_set]; omega
      have hget : ∀ j, j < q + 1 →
          ((w.fa.chunks_.set q c1).take (q + 1))[j]? = (w.fa.chunks_.set q c1)[j]? :=
        fun j hj => by rw [List.getElem?_take, if_pos hj]
      cases q with
      | zero =>
        left
        refine ⟨?_, hlen1, ?_⟩
        · apply List.eq_nil_of_length_eq_zero
          omega
        · intro c2 hc2
          obtain ⟨j, hj⟩ := List.mem_iff_getElem?.mp hc2
          have hj0 : j < 1 := by
            have := (List.getElem?_eq_some.mp hj).1
            rw [hlen1] at this; exact this
          have hj1 : j = 0 := by omega
          subst hj1
          have hj : ((w.fa.chunks_.set 0 c1).take (0 + 1))[0]? = some c2 := hj
          rw [hget 0 (by omega), List.getElem?_set_self hqlt] at hj
          rw [← Option.some.inj hj, hav1]
          omega
      | succ q0 =>
        right
        refine ⟨q0, w.fa.numBlocks_, hinv2, hN1, Nat.le_refl _, ?_, ?_, ?_, ?_, ?_⟩
        · show rest.length = q0 * w.fa.numBlocks_ + w.fa.numBlocks_
          rw [hrl, Nat.add_mul]; omega
        · right
          refine ⟨hlen1, c1, ?_, ?_⟩
          · show ((w.fa.chunks_.set (q0 + 1) c1).take (q0 + 1 + 1))[q0 + 1]? = some c1
            rw [hget _ (by omega), List.getElem?_set_self hqlt]
          · show c1.nAvailableBlocks_ = w.fa.numBlocks_
            omega
        · intro j c2 hj hc2
          have hc2 : ((w.fa.chunks_.set (q0 + 1) c1).take (q0 + 1 + 1))[j]? = some c2 := hc2
          rw [hget _ (by omega), List.getElem?_set_ne (by omega)] at hc2
          exact h.full j c2 (by omega) hc2
        · have hq0 : q0 < w.fa.chunks_.length := by omega
          refine ⟨w.fa.chunks_[q0], ?_, ?_⟩
          · show ((w.fa.chunks_.set (q0 + 1) c1).take (q0 + 1 + 1))[q0]? = _
            rw [hget _ (by omega), List.getElem?_set_ne (by omega)]
            exact List.getElem?_eq_getElem hq0
          · show _ = w.fa.numBlocks_ - w.fa.numBlocks_
            rw [h.full q0 _ (by omega) (List.getElem?_eq_getElem hq0)]
            omega
        · apply hplace
          · intro j c2 hj hc2
            rw [hget _ (by omega), List.getElem?_set_ne (by omega)]
            exact hc2
          · intro k hk hkq
            exfalso
            have : k / w.fa.numBlocks_ < q0 + 1 := by
              apply Nat.div_lt_of_lt_mul
              rw [Nat.mul_comm]; omega
            omega
    · -- the Chunk at position `q` still has a block handed out
      have hch := hkeep (by omega)
      subst hch
      right
      refine ⟨q, t - 1, hinv2, by omega, by show t - 1 ≤ w.fa.numBlocks_; omega, hrl, ?_, ?_, ?_, ?_⟩
      · rcases h.size with hs | ⟨hs, ce, hce, hceav⟩
        · left; show (w.fa.chunks_.set q c1).length = q + 1
          rw [List.length_set]; exact hs
        · right
          refine ⟨by show (w.fa.chunks_.set q c1).length = q + 2; rw [List.length_set]; exact hs,
            ce, ?_, hceav⟩
          show (w.fa.chunks_.set q c1)[q + 1]? = some ce
          rw [List.getElem?_set_ne (by omega)]; exact hce
      · intro j c2 hj hc2
        have hc2 : (w.fa.chunks_.set q c1)[j]? = some c2 := hc2
        rw [List.getElem?_set_ne (by omega)] at hc2
        exact h.full j c2 hj hc2
      · refine ⟨c1, List.getElem?_set_self hqlt, ?_⟩
        show c1.nAvailableBlocks_ = w.fa.numBlocks_ - (t - 1)
        omega
      · apply hplace
        · intro j c2 hj hc2
          rw [List.getElem?_set_ne (by omega)]
          exact hc2
        · intro k _ _
          exact ⟨c1, List.getElem?_set_self hqlt, hpd⟩

/-- Giving back, the latest first, all the blocks of a pure allocation
succeeds and leaves one Chunk, which is empty. -/
theorem World.Draining.run_drained :
    ∀ (m : Nat) (w : World) (q t : Nat), w.Draining q t → w.out.length = m →
      ∃ w2, World.run w (w.out.map Op.deallocate) = some w2 ∧ w2.out = [] ∧
        w2.fa.chunks_.length = 1 ∧
        (∀ c ∈ w2.fa.chunks_, c.nAvailableBlocks_ = w.fa.numBlocks_) ∧
        w2.fa.numBlocks_ = w.fa.numBlocks_ := by
  intro m
  induction m with
  | zero =>
    intro w q t h hm
    have := h.count
    have := h.t_pos
    omega
  | succ m ih =>
    intro w q t h hm
    obtain ⟨p, rest, w1, hout, hstep, hout1, hb2, hfin⟩ := h.step_drain
    rw [hout]
    simp only [List.map_cons, World.run, hstep]
    rcases hfin with ⟨hnil, hlen, hall⟩ | ⟨q1, t1, h1⟩
    · rw [hnil]
      exact ⟨w1, rfl, by rw [hout1, hnil], hlen, hall, hb2⟩
    · have hm1 : w1.out.length = m := by
        rw [hout1]; rw [hout, List.length_cons] at hm; omega
      obtain ⟨w2, hrun, h2a, h2b, h2c, h2d⟩ := ih w1 q1 t1 h1 hm1
      rw [hout1] at hrun
      exact ⟨w2, hrun, h2a, h2b, by rw [← hb2]; exact h2c, by rw [h2d, hb2]⟩

/-- A world grown by at least one allocation is ready to be drained. -/
theorem World.Grown.draining {w : World} {q r : Nat} (h : w.Grown q r) (hne : w.out ≠ []) :
    ∃ q1 t1, w.Draining q1 t1 := by
  have hN1 := h.inv.numBlocks_pos
  have hcount := h.count
  have hpos : 1 ≤ w.out.length := List.length_pos.mpr hne
  by_cases hr : r = 0
  · subst hr
    have hsize := h.size
    simp only [if_true, Nat.add_zero] at hsize hcount
    cases q with
    | zero => simp only [Nat.zero_mul] at hcount; omega
    | succ q0 =>
      have hq0 : q0 < w.fa.chunks_.length := by omega
      refine ⟨q0, w.fa.numBlocks_, h.inv, hN1, Nat.le_refl _, ?_, Or.inl hsize, ?_, ?_, h.order⟩
      · rw [hcount, Nat.add_mul]; omega
      · intro j c hj hc
        exact h.full j c (by omega) hc
      · refine ⟨w.fa.chunks_[q0], List.getElem?_eq_getElem hq0, ?_⟩
        rw [h.full q0 _ (by omega) (List.getElem?_eq_getElem hq0)]
        omega
  · have hsize := h.size
    simp only [hr, if_false] at hsize
    obtain ⟨c, hc, hav, _⟩ := h.part hr
    exact ⟨q, r, h.inv, by omega, Nat.le_of_lt h.r_lt, hcount, Or.inl hsize, h.full,
      ⟨c, hc, hav⟩, h.order⟩

/-! ## The ring of copies -/

theorem Heap.Path.split_iff {h : Heap} :
    ∀ (l1 : List Nat) (x y : Nat) (l2 : List Nat) (z : Nat),
      h.Path x (l1 ++ y :: l2) z ↔ h.Path x l1 y ∧ h.Path y l2 z := by
  intro l1
  induction l1 with
  | nil => intro x y l2 z; exact Iff.rfl
  | cons u l1 ih =>
    intro x y l2 z
    show h.Link x u ∧ h.Path u (l1 ++ y :: l2) z ↔ (h.Link x u ∧ h.Path u l1 y) ∧ h.Path y l2 z
    rw [ih u y l2 z, and_assoc]

/-- A path stays a path when the links it uses are kept. -/
theorem Heap.Path.kept {h h1 : Heap} :
    ∀ (l : List Nat) (x z : Nat),
      (∀ u ∈ x :: l, h1.next u = h.next u) → (∀ u ∈ l ++ [z], h1.prev u = h.prev u) →
      h.Path x l z → h1.Path x l z := by
  intro l
  induction l with
  | nil =>
    intro x z hn hp hpath
    exact ⟨by rw [hn x (List.mem_cons_self _ _)]; exact hpath.1,
      by rw [hp z (by simp)]; exact hpath.2⟩
  | cons y l ih =>
    intro x z hn hp hpath
    refine ⟨⟨by rw [hn x (List.mem_cons_self _ _)]; exact hpath.1.1,
      by rw [hp y (by simp)]; exact hpath.1.2⟩, ?_⟩
    exact ih y z (fun u hu => hn u (List.mem_cons_of_mem _ hu))
      (fun u hu => hp u (by rw [List.cons_append]; exact List.mem_cons_of_mem _ hu)) hpath.2

/-- The ring may be read from any of its objects. -/
theorem Heap.Ring.rotate {h : Heap} {fa : FixedAllocator} {l1 l2 : List Nat} {x : Nat}
    (hr : h.Ring fa (l1 ++ x :: l2)) : h.Ring fa (x :: (l2 ++ l1)) := by
  have hperm : (x :: (l2 ++ l1)).Perm (l1 ++ x :: l2) :=
    (List.Perm.cons x List.perm_append_comm).trans List.perm_middle.symm
  refine ⟨hperm.nodup_iff.mpr hr.nodup, ?_, hr.same, ?_⟩
  · intro u
    rw [hr.alive u]
    exact (hperm.mem_iff).symm
  · intro a rest he
    injection he with h1 h2
    subst h1
    subst h2
    cases l1 with
    | nil =>
      rw [List.append_nil]
      exact hr.path x l2 rfl
    | cons b l1 =>
      have := hr.path b (l1 ++ x :: l2) rfl
      rw [Heap.Path.split_iff] at this
      rw [Heap.Path.split_iff]
      exact ⟨this.2, this.1⟩

/-- The loop of the destructor on empty Chunks releases every buffer, in order. -/
theorem FixedAllocator.releaseAll_empty (numBlocks : Nat) :
    ∀ (chunks : List Chunk) (log : List Nat),
      (∀ c ∈ chunks, c.nAvailableBlocks_ = numBlocks) →
      FixedAllocator.releaseAll numBlocks chunks log = some (log ++ chunks.map Chunk.pData_) := by
  intro chunks
  induction chunks with
  | nil => intro log _; simp [FixedAllocator.releaseAll]
  | cons c rest ih =>
    intro log h
    have hc := h c (List.mem_cons_self _ _)
    simp only [FixedAllocator.releaseAll, hc, if_true]
    rw [ih _ (fun x hx => h x (List.mem_cons_of_mem _ hx))]
    simp

/-- The copy constructor, from an object alive whose `next_` is an object alive
into storage that holds no object: the new object is linked in right after
`rhs`, and nothing is released. -/
theorem Heap.copyConstruct_spec {h : Heap} {self rhs : Nat} {r n : Node}
    (hrhs : h.objs rhs = some r) (hnext : h.objs r.next_ = some n)
    (hself : h.objs self = none) :
    ∃ h1, h.copyConstruct self rhs = some h1 ∧ h1.released = h.released ∧
      h1.next rhs = some self ∧ h1.prev self = some rhs ∧
      h1.next self = some r.next_ ∧ h1.prev r.next_ = some self ∧
      (∀ u, u ≠ self → u ≠ rhs → h1.next u = h.next u) ∧
      (∀ u, u ≠ self → u ≠ r.next_ → h1.prev u = h.prev u) ∧
      (∀ u, h1.objs u ≠ none ↔ (u = self ∨ h.objs u ≠ none)) ∧
      (∀ u m, h1.objs u = some m → m.fa = r.fa ∨ ∃ m0, h.objs u = some m0 ∧ m0.fa = m.fa) := by
  have h1 : rhs ≠ self := by
    intro e; rw [e, hself] at hrhs; simp at hrhs
  have h2 : r.next_ ≠ self := by
    intro e; rw [e, hself] at hnext; simp at hnext
  by_cases hy : r.next_ = rhs
  · have en : n = r := by
      rw [hy, hrhs] at hnext; exact (Option.some.inj hnext).symm
    subst en
    have hc : h.copyConstruct self rhs
        = some (((h.put self ⟨n.fa, n.next_, rhs⟩).put n.next_ { n with prev_ := self }).put rhs
            { n with prev_ := self, next_ := self }) := by
      simp [Heap.copyConstruct, hrhs, Heap.put, h1, hy]
    refine ⟨_, hc, rfl, ?_, ?_, ?_, ?_, ?_, ?_, ?_, ?_⟩
    · simp [Heap.next, Heap.put]
    · simp [Heap.prev, Heap.put, h1.symm, h2.symm]
    · simp [Heap.next, Heap.put, h1.symm, h2.symm]
    · simp [Heap.prev, Heap.put, hy]
    · intro u hu1 hu2
      simp [Heap.next, Heap.put, hu1, hu2, hy]
    · intro u hu1 hu2
      rw [hy] at hu2
      simp [Heap.prev, Heap.put, hu1, hu2, hy]
    · intro u
      simp only [Heap.put]
      by_cases e1 : u = rhs
      · simp [e1, hrhs]
      · by_cases e2 : u = self
        · simp [e2, h1.symm, h2.symm]
        · simp [e1, e2, hy]
    · intro u m hm
      simp only [Heap.put] at hm
      by_cases e1 : u = rhs
      · simp only [e1, if_true, Option.some.injEq] at hm
        left; rw [← hm]
      · by_cases e2 : u = self
        · simp only [e2, h1.symm, h2.symm, if_false, if_true, Option.some.injEq] at hm
          left; rw [← hm]
        · simp only [e1, e2, hy, if_false] at hm
          right; exact ⟨m, hm, rfl⟩
  · have hc : h.copyConstruct self rhs
        = some (((h.put self ⟨r.fa, r.next_, rhs⟩).put r.next_ { n with prev_ := self }).put rhs
            { r with next_ := self }) := by
      have hy1 : ¬ rhs = r.next_ := fun e => hy e.symm
      simp [Heap.copyConstruct, hrhs, hnext, Heap.put, h1, h2, hy1]
    refine ⟨_, hc, rfl, ?_, ?_, ?_, ?_, ?_, ?_, ?_, ?_⟩
    · simp [Heap.next, Heap.put]
    · simp [Heap.prev, Heap.put, h1.symm, h2.symm]
    · simp [Heap.next, Heap.put, h1.symm, h2.symm]
    · simp [Heap.prev, Heap.put, hy]
    · intro u hu1 hu2
      by_cases e3 : u = r.next_
      · simp [Heap.next, Heap.put, hu1, hu2, e3, hy, hnext]
      · simp [Heap.next, Heap.put, hu1, hu2, e3]
    · intro u hu1 hu2
      by_cases e3 : u = rhs
      · simp [Heap.prev, Heap.put, e3, hrhs]
      · simp [Heap.prev, Heap.put, hu1, hu2, e3]
    · intro u
      simp only [Heap.put]
      by_cases e1 : u = rhs
      · simp [e1, hrhs]
      · by_cases e3 : u = r.next_
        · simp [e1, e3, hy, hnext]
        · by_cases e2 : u = self
          · simp [e2, h1.symm, h2.symm]
          · simp [e1, e2, e3]
    · intro u m hm
      simp only [Heap.put] at hm
      by_cases e1 : u = rhs
      · simp only [e1, if_true, Option.some.injEq] at hm
        left; rw [← hm]
      · by_cases e3 : u = r.next_
        · simp only [e3, hy, if_false, if_true, Option.some.injEq] at hm
          right; exact ⟨n, by rw [e3]; exact hnext, by rw [← hm]⟩
        · by_cases e2 : u = self
          · simp only [e2, h1.symm, h2.symm, if_false, if_true, Option.some.injEq] at hm
            left; rw [← hm]
          · simp only [e1, e2, e3, if_false] at hm
            right; exact ⟨m, hm, rfl⟩

/-- The destructor of an object that is not alone in its ring: the object is
unlinked, and nothing is released. -/
theorem Heap.destroy_linked {h : Heap} {self : Nat} {s p n : Node}
    (hself : h.objs self = some s) (hprev : h.objs s.prev_ = some p)
    (hnext : h.objs s.next_ = some n) (hp : s.prev_ ≠ self) (hn : s.next_ ≠ self) :
    ∃ h1, h.destroy self = some h1 ∧ h1.released = h.released ∧
      h1.next s.prev_ = some s.next_ ∧ h1.prev s.next_ = some s.prev_ ∧
      (∀ u, u ≠ self → u ≠ s.prev_ → h1.next u = h.next u) ∧
      (∀ u, u ≠ self → u ≠ s.next_ → h1.prev u = h.prev u) ∧
      (∀ u, h1.objs u ≠ none ↔ (u ≠ self ∧ h.objs u ≠ none)) ∧
      (∀ u m, h1.objs u = some m → ∃ m0, h.objs u = some m0 ∧ m0.fa = m.fa) := by
  by_cases hy : s.next_ = s.prev_
  · have en : n = p := by
      rw [hy, hprev] at hnext; exact (Option.some.inj hnext).symm
    subst en
    have hc : h.destroy self
        = some (((h.put s.prev_ { n with next_ := s.next_ }).put s.next_
            { n with next_ := s.next_, prev_ := s.prev_ }).drop self) := by
      simp [Heap.destroy, hself, hprev, Heap.put, hp, hy]
    refine ⟨_, hc, rfl, ?_, ?_, ?_, ?_, ?_, ?_⟩
    · simp [Heap.next, Heap.put, Heap.drop, hp, hy]
    · simp [Heap.prev, Heap.put, Heap.drop, hn]
    · intro u hu1 hu2
      simp [Heap.next, Heap.put, Heap.drop, hu1, hu2, hy]
    · intro u hu1 hu2
      simp [Heap.prev, Heap.put, Heap.drop, hu1, hu2, hy ▸ hu2]
    · intro u
      simp only [Heap.put, Heap.drop]
      by_cases e1 : u = self
      · simp [e1]
      · by_cases e2 : u = s.prev_
        · simp [e1, e2, hp, hy, hprev]
        · simp [e1, e2, hy]
    · intro u m hm
      simp only [Heap.put, Heap.drop] at hm
      by_cases e1 : u = self
      · simp [e1] at hm
      · by_cases e2 : u = s.prev_
        · simp only [e2, hp, hy, if_false, if_true, Option.some.injEq] at hm
          exact ⟨n, by rw [e2]; exact hprev, by rw [← hm]⟩
        · simp only [e1, e2, hy, if_false] at hm
          exact ⟨m, hm, rfl⟩
  · have hy1 : ¬ s.prev_ = s.next_ := fun e => hy e.symm
    have hc : h.destroy self
        = some (((h.put s.prev_ { p with next_ := s.next_ }).put s.next_
            { n with prev_ := s.prev_ }).drop self) := by
      simp [Heap.destroy, hself, hprev, hnext, Heap.put, hp, hy]
    refine ⟨_, hc, rfl, ?_, ?_, ?_, ?_, ?_, ?_⟩
    · simp [Heap.next, Heap.put, Heap.drop, hp, hy1]
    · simp [Heap.prev, Heap.put, Heap.drop, hn]
    · intro u hu1 hu2
      by_cases e3 : u = s.next_
      · simp [Heap.next, Heap.put, Heap.drop, e3, hn, hnext]
      · simp [Heap.next, Heap.put, Heap.drop, hu1, hu2, e3]
    · intro u hu1 hu2
      by_cases e3 : u = s.prev_
      · simp [Heap.prev, Heap.put, Heap.drop, e3, hp, hy1, hprev]
      · simp [Heap.prev, Heap.put, Heap.drop, hu1, hu2, e3]
    · intro u
      simp only [Heap.put, Heap.drop]
      by_cases e1 : u = self
      · simp [e1]
      · by_cases e2 : u = s.prev_
        · simp [e2, hp, hy1, hprev]
        · by_cases e3 : u = s.next_
          · simp [e3, hn, hnext]
          · simp [e1, e2, e3]
    · intro u m hm
      simp only [Heap.put, Heap.drop] at hm
      by_cases e1 : u = self
      · simp [e1] at hm
      · by_cases e3 : u = s.next_
        · simp only [e3, hn, if_false, if_true, Option.some.injEq] at hm
          exact ⟨n, by rw [e3]; exact hnext, by rw [← hm]⟩
        · by_cases e2 : u = s.prev_
          · simp only [e2, hp, hy1, if_false, if_true, Option.some.injEq] at hm
            exact ⟨p, by rw [e2]; exact hprev, by rw [← hm]⟩
          · simp only [e1, e2, e3, if_false] at hm
            exact ⟨m, hm, rfl⟩

/-- The destructor of an object that is alone in its ring and whose Chunks are
all empty: every buffer is released. -/
theorem Heap.destroy_alone {h : Heap} {self : Nat} {s : Node}
    (hself : h.objs self = some s) (hp : s.prev_ = self) (hn : s.next_ = self)
    (hempty : ∀ c ∈ s.fa.chunks_, c.nAvailableBlocks_ = s.fa.numBlocks_) :
    h.destroy self
      = some ({ h with released := h.released ++ s.fa.chunks_.map Chunk.pData_ }.drop self) := by
  simp [Heap.destroy, hself, hp, hn, FixedAllocator.releaseAll_empty _ _ _ hempty]

theorem Heap.Ring.obj {h : Heap} {fa : FixedAllocator} {cyc : List Nat} (hr : h.Ring fa cyc)
    {x : Nat} (hx : x ∈ cyc) : ∃ n, h.objs x = some n :=
  Option.ne_none_iff_exists'.mp ((hr.alive x).mpr hx)

theorem Heap.next_eq {h : Heap} {x y : Nat} {n : Node} (hx : h.objs x = some n)
    (hy : h.next x = some y) : n.next_ = y := by
  simpa [Heap.next, hx] using hy

theorem Heap.prev_eq {h : Heap} {x y : Nat} {n : Node} (hx : h.objs x = some n)
    (hy : h.prev x = some y) : n.prev_ = y := by
  simpa [Heap.prev, hx] using hy

/-- The copy construction from the first object of the ring links the new
object in as the second. -/
theorem Heap.Ring.copy_head {h : Heap} {fa : FixedAllocator} {rhs self : Nat} {rest : List Nat}
    (hr : h.Ring fa (rhs :: rest)) (hself : self ∉ rhs :: rest) :
    ∃ h1, h.copyConstruct self rhs = some h1 ∧ h1.Ring fa (rhs :: self :: rest) ∧
      h1.released = h.released := by
  have hnone : h.objs self = none := by
    by_contra hne
    exact hself ((hr.alive self).mp hne)
  obtain ⟨r, hrhs⟩ := hr.obj (List.mem_cons_self _ _)
  have hpath := hr.path rhs rest rfl
  have hnd := List.nodup_cons.mp hr.nodup
  have hsr : self ≠ rhs := fun e => hself (by rw [e]; exact List.mem_cons_self _ _)
  have hsrest : self ∉ rest := fun e => hself (List.mem_cons_of_mem _ e)
  -- the object after `rhs`
  have hsucc : ∃ n, h.objs r.next_ = some n := by
    cases rest with
    | nil =>
      have := Heap.next_eq hrhs hpath.1
      rw [this]; exact ⟨r, hrhs⟩
    | cons y rest1 =>
      have := Heap.next_eq hrhs hpath.1.1
      rw [this]; exact hr.obj (by simp)
  obtain ⟨n, hnext⟩ := hsucc
  obtain ⟨h1, hc, hrel, g1, g2, g3, g4, g5, g6, g7, g8⟩ :=
    Heap.copyConstruct_spec hrhs hnext hnone
  refine ⟨h1, hc, ⟨?_, ?_, ?_, ?_⟩, hrel⟩
  · refine List.nodup_cons.mpr ⟨?_, List.nodup_cons.mpr ⟨hsrest, hnd.2⟩⟩
    intro hm
    rcases List.mem_cons.mp hm with e | e
    · exact hsr e.symm
    · exact hnd.1 e
  · intro u
    rw [g7 u, hr.alive u]
    simp only [List.mem_cons]
    tauto
  · intro u m hm
    rcases g8 u m hm with e | ⟨m0, hm0, e⟩
    · rw [e]; exact hr.same rhs r hrhs
    · rw [← e]; exact hr.same u m0 hm0
  · intro a rest2 he
    injection he with e1 e2
    subst e1
    subst e2
    refine ⟨⟨g1, g2⟩, ?_⟩
    cases rest with
    | nil =>
      have e := Heap.next_eq hrhs hpath.1
      rw [e] at g3 g4
      exact ⟨g3, g4⟩
    | cons y rest1 =>
      have e := Heap.next_eq hrhs hpath.1.1
      rw [e] at g3 g4 g6
      have hnd2 := List.nodup_cons.mp hnd.2
      refine ⟨⟨g3, g4⟩, ?_⟩
      apply Heap.Path.kept rest1 y rhs _ _ hpath.2
      · intro u hu
        apply g5 u
        · intro e1; exact hsrest (by rw [← e1]; exact hu)
        · intro e1; exact hnd.1 (by rw [← e1]; exact hu)
      · intro u hu
        apply g6 u
        · intro e1
          rcases List.mem_append.mp hu with hm | hm
          · exact hsrest (by rw [← e1]; exact List.mem_cons_of_mem _ hm)
          · exact hsr (by rw [← e1]; exact List.mem_singleton.mp hm)
        · intro e1
          rcases List.mem_append.mp hu with hm | hm
          · exact hnd2.1 (by rw [← e1]; exact hm)
          · exact hnd.1 (by rw [← List.mem_singleton.mp hm, e1]; exact List.mem_cons_self _ _)

/-- The destruction of the first object of the ring: the object is unlinked
and nothing is released when another object is alive, and every buffer is
released when none is. -/
theorem Heap.Ring.destroy_head {h : Heap} {fa : FixedAllocator} {x : Nat} {rest : List Nat}
    (hr : h.Ring fa (x :: rest))
    (hempty : ∀ c ∈ fa.chunks_, c.nAvailableBlocks_ = fa.numBlocks_) :
    ∃ h1, h.destroy x = some h1 ∧ h1.Ring fa rest ∧
      (rest ≠ [] → h1.released = h.released) ∧
      (rest = [] → h1.released = h.released ++ fa.chunks_.map Chunk.pData_) := by
  obtain ⟨s, hs⟩ := hr.obj (List.mem_cons_self _ _)
  have hpath := hr.path x rest rfl
  have hnd := List.nodup_cons.mp hr.nodup
  have hfa := hr.same x s hs
  cases rest with
  | nil =>
    have e1 := Heap.next_eq hs hpath.1
    have e2 := Heap.prev_eq hs hpath.2
    refine ⟨_, Heap.destroy_alone hs e2 e1 (by rw [hfa]; exact hempty), ⟨List.nodup_nil, ?_, ?_, ?_⟩,
      fun hne => absurd rfl hne, fun _ => by rw [hfa]; rfl⟩
    · intro u
      have := hr.alive u
      simp only [Heap.drop, List.mem_singleton] at this ⊢
      by_cases e : u = x
      · simp [e]
      · simp [e]; tauto
    · intro u m hm
      simp only [Heap.drop] at hm
      by_cases e : u = x
      · simp [e] at hm
      · simp only [e, if_false] at hm
        exact hr.same u m hm
    · intro a rest2 he
      exact absurd he (by simp)
  | cons n rest1 =>
    have e1 := Heap.next_eq hs hpath.1.1
    have hnx : n ≠ x := fun e => hnd.1 (by rw [← e]; exact List.mem_cons_self _ _)
    obtain ⟨nn, hnn⟩ := hr.obj (List.mem_cons_of_mem x (List.mem_cons_self n rest1))
    have hnd2 := List.nodup_cons.mp hnd.2
    -- the object before `x` is the last of the ring
    have hlast : rest1 = [] ∨ ∃ mid p, rest1 = mid ++ [p] := by
      rcases List.eq_nil_or_concat rest1 with e | ⟨L, b, e⟩
      · exact Or.inl e
      · exact Or.inr ⟨L, b, by rw [e, List.concat_eq_append]⟩
    have hring : ∀ h1 : Heap,
        (∀ u, h1.objs u ≠ none ↔ (u ≠ x ∧ h.objs u ≠ none)) →
        (∀ u m, h1.objs u = some m → ∃ m0, h.objs u = some m0 ∧ m0.fa = m.fa) →
        h1.Path n rest1 n → h1.Ring fa (n :: rest1) := by
      intro h1 g7 g8 hp1
      refine ⟨hnd.2, ?_, ?_, ?_⟩
      · intro u
        rw [g7 u, hr.alive u]
        constructor
        · rintro ⟨h1, h2⟩
          rcases List.mem_cons.mp h2 with e | e
          · exact absurd e h1
          · exact e
        · intro hu
          exact ⟨fun e => hnd.1 (by rw [← e]; exact hu), List.mem_cons_of_mem _ hu⟩
      · intro u m hm
        obtain ⟨m0, hm0, e⟩ := g8 u m hm
        rw [← e]; exact hr.same u m0 hm0
      · intro a rest2 he
        injection he with e1 e2
        subst e1
        subst e2
        exact hp1
    rcases hlast with hnil | ⟨mid, p, hmid⟩
    · subst hnil
      have e2 := Heap.prev_eq hs hpath.2.2
      obtain ⟨h1, hc, hrel, g1, g2, g5, g6, g7, g8⟩ :=
        @Heap.destroy_linked h x s nn nn hs (by rw [e2]; exact hnn) (by rw [e1]; exact hnn)
          (by rw [e2]; exact hnx) (by rw [e1]; exact hnx)
      rw [e1, e2] at g1 g2
      exact ⟨h1, hc, hring h1 g7 g8 ⟨g1, g2⟩, fun _ => hrel, fun hne => absurd hne (by simp)⟩
    · subst hmid
      have hsplit := (Heap.Path.split_iff mid n p [] x).mp hpath.2
      have e2 := Heap.prev_eq hs hsplit.2.2
      have hpin : p ∈ mid ++ [p] := by simp
      obtain ⟨pp, hpp⟩ := hr.obj
        (List.mem_cons_of_mem x (List.mem_cons_of_mem n hpin))
      have hpx : p ≠ x := fun e =>
        hnd.1 (by rw [← e]; exact List.mem_cons_of_mem _ hpin)
      have hpn : p ≠ n := fun e => hnd2.1 (by rw [← e]; exact hpin)
      have hnd3 : (mid ++ [p]).Nodup := hnd2.2
      have hpmid : p ∉ mid := by
        intro hm
        have := List.nodup_append.mp hnd3
        exact this.2.2 hm (List.mem_singleton_self p)
      obtain ⟨h1, hc, hrel, g1, g2, g5, g6, g7, g8⟩ :=
        @Heap.destroy_linked h x s pp nn hs (by rw [e2]; exact hpp) (by rw [e1]; exact hnn)
          (by rw [e2]; exact hpx) (by rw [e1]; exact hnx)
      simp only [e1, e2] at g1 g2 g5 g6
      refine ⟨h1, hc, hring h1 g7 g8 ?_, fun _ => hrel, fun hne => absurd hne (by simp)⟩
      rw [Heap.Path.split_iff]
      refine ⟨?_, ⟨g1, g2⟩⟩
      apply Heap.Path.kept mid n p _ _ hsplit.1
      · intro u hu
        apply g5 u
        · intro e
          apply hnd.1
          rw [← e]
          rcases List.mem_cons.mp hu with e3 | e3
          · rw [e3]; exact List.mem_cons_self _ _
          · exact List.mem_cons_of_mem _ (List.mem_append_left _ e3)
        · intro e
          rcases List.mem_cons.mp hu with e3 | e3
          · exact hpn (by rw [← e, e3])
          · exact hpmid (by rw [← e]; exact e3)
      · intro u hu
        apply g6 u
        · intro e
          apply hnd.1
          rw [← e]
          exact List.mem_cons_of_mem _ hu
        · intro e
          exact hnd2.1 (by rw [← e]; exact hu)

/-- One allowed call on the ring of copies: it succeeds, keeps the ring, and
releases the buffers exactly when it destroys the last object. -/
theorem Heap.Ring.step_ring {h : Heap} {fa : FixedAllocator} {cyc live live1 : List Nat} {op : RingOp}
    (hr : h.Ring fa cyc) (hperm : cyc.Perm live)
    (hempty : ∀ c ∈ fa.chunks_, c.nAvailableBlocks_ = fa.numBlocks_)
    (ht : RingOp.track live op = some live1) :
    ∃ h1 cyc1, h.exec op = some h1 ∧ h1.Ring fa cyc1 ∧ cyc1.Perm live1 ∧
      (live1 ≠ [] → h1.released = h.released) ∧
      (live1 = [] → h1.released = h.released ++ fa.chunks_.map Chunk.pData_) := by
  cases op with
  | copy self rhs =>
    simp only [RingOp.track] at ht
    split at ht
    · rename_i hcond
      obtain ⟨hrhs, hself⟩ := hcond
      have e := Option.some.inj ht
      subst e
      obtain ⟨l1, l2, hsplit⟩ := List.append_of_mem (hperm.mem_iff.mpr hrhs)
      subst hsplit
      have hrot := hr.rotate
      have hp2 : (rhs :: (l2 ++ l1)).Perm live :=
        ((List.Perm.cons rhs List.perm_append_comm).trans List.perm_middle.symm).trans hperm
      obtain ⟨h1, hc, hring, hrel⟩ :=
        hrot.copy_head (fun hm => hself (hp2.mem_iff.mp hm))
      refine ⟨h1, _, hc, hring, ?_, fun _ => hrel, fun e => absurd e (by simp)⟩
      exact (List.Perm.swap self rhs _).trans (List.Perm.cons self hp2)
    · simp at ht
  | destroy x =>
    simp only [RingOp.track] at ht
    split at ht
    · rename_i hx
      have e := Option.some.inj ht
      subst e
      obtain ⟨l1, l2, hsplit⟩ := List.append_of_mem (hperm.mem_iff.mpr hx)
      subst hsplit
      have hrot := hr.rotate
      have hp2 : (x :: (l2 ++ l1)).Perm live :=
        ((List.Perm.cons x List.perm_append_comm).trans List.perm_middle.symm).trans hperm
      have hp3 : (l2 ++ l1).Perm (live.erase x) := by
        have := hp2.erase x
        rw [List.erase_cons_head] at this
        exact this
      obtain ⟨h1, hc, hring, hrel1, hrel2⟩ := hrot.destroy_head hempty
      refine ⟨h1, _, hc, hring, hp3, ?_, ?_⟩
      · intro hne
        apply hrel1
        intro e
        rw [e] at hp3
        exact hne hp3.nil_eq.symm
      · intro he
        apply hrel2
        rw [he] at hp3
        exact hp3.eq_nil
    · simp at ht

/-- Every allowed sequence of copy constructions and destructions on the ring
of copies runs; the buffers are released once, by the destruction that leaves
no object alive. -/
theorem Heap.Ring.run_ring (fa : FixedAllocator)
    (hempty : ∀ c ∈ fa.chunks_, c.nAvailableBlocks_ = fa.numBlocks_) :
    ∀ (ops : List RingOp) (h : Heap) (cyc live live1 : List Nat),
      h.Ring fa cyc → cyc.Perm live → live ≠ [] → h.released = [] →
      RingOp.trackAll live ops = some live1 →
      ∃ h1 cyc1, Heap.run h ops = some h1 ∧ h1.Ring fa cyc1 ∧ cyc1.Perm live1 ∧
        (live1 ≠ [] → h1.released = []) ∧
        (live1 = [] → h1.released = fa.chunks_.map Chunk.pData_) := by
  intro ops
  induction ops with
  | nil =>
    intro h cyc live live1 hr hperm hne hrel ht
    simp only [RingOp.trackAll, Option.some.injEq] at ht
    subst ht
    exact ⟨h, cyc, rfl, hr, hperm, fun _ => hrel, fun e => absurd e hne⟩
  | cons op ops ih =>
    intro h cyc live live1 hr hperm hne hrel ht
    simp only [RingOp.trackAll] at ht
    cases htr : RingOp.track live op with
    | none => rw [htr] at ht; simp at ht
    | some live2 =>
      rw [htr] at ht
      obtain ⟨h2, cyc2, hex, hr2, hperm2, hrel1, hrel2⟩ := hr.step_ring hperm hempty htr
      simp only [Heap.run, hex]
      by_cases hl2 : live2 = []
      · subst hl2
        cases ops with
        | nil =>
          simp only [RingOp.trackAll, Option.some.injEq] at ht
          subst ht
          refine ⟨h2, cyc2, rfl, hr2, hperm2, fun e => absurd rfl e, fun _ => ?_⟩
          rw [hrel2 rfl, hrel]; rfl
        | cons op2 ops2 =>
          exfalso
          cases op2 <;> simp [RingOp.trackAll, RingOp.track] at ht
      · exact ih h2 cyc2 live2 live1 hr2 hperm2 hl2 (by rw [hrel1 hl2]; exact hrel) ht

/-- A freshly constructed object is a ring of its own. -/
theorem Heap.single_ring (a : Nat) (fa : FixedAllocator) : (Heap.single a fa).Ring fa [a] := by
  refine ⟨List.nodup_singleton a, ?_, ?_, ?_⟩
  · intro u
    simp only [Heap.single, List.mem_singleton]
    by_cases e : u = a <;> simp [e]
  · intro u m hm
    simp only [Heap.single] at hm
    by_cases e : u = a
    · simp only [e, if_true, Option.some.injEq] at hm
      rw [← hm]
    · simp [e] at hm
  · intro x rest he
    injection he with e1 e2
    subst e1
    subst e2
    exact ⟨by simp [Heap.next, Heap.single], by simp [Heap.prev, Heap.single]⟩

/-! ## SingletonHolder -/

/-- After `destroySingleton` the holder is `pInstance_ = nullptr`, `destroyed_ = true`. -/
theorem Program.destroySingleton_holder {pr pr1 : Program} (h : pr.destroySingleton = some pr1) :
    pr1.holder = { pInstance_ := 0, destroyed_ := true } ∧
    pr1.registrations = pr.registrations ∧
    pr1.calls = pr.calls ++ [PolicyCall.destroy pr.holder.pInstance_] := by
  unfold Program.destroySingleton at h
  split at h
  · simp at h
  · simp only [Option.some.injEq] at h
    rw [← h]
    exact ⟨rfl, rfl, rfl⟩

/-- A call of `instance()` on a holder with an instance returns it and changes
nothing. -/
theorem Program.instanceCall_alive (policy : LifetimePolicy) (created : Nat) {pr : Program}
    (h : pr.holder.pInstance_ ≠ 0) :
    pr.instanceCall policy created = (pr, Outcome.returned pr.holder.pInstance_) := by
  simp [Program.instanceCall, h]

/-- Calls of `instance()` on a holder with an instance all return it. -/
theorem Program.instances_alive (policy : LifetimePolicy) :
    ∀ (envs : List Nat) (pr : Program), pr.holder.pInstance_ ≠ 0 →
      Program.instances policy pr envs
        = (pr, List.replicate envs.length (Outcome.returned pr.holder.pInstance_)) := by
  intro envs
  induction envs with
  | nil => intro pr _; rfl
  | cons e rest ih =>
    intro pr h
    simp only [Program.instances, Program.instanceCall_alive policy e h, ih pr h,
      List.length_cons, List.replicate_succ]

/-- The first call of `instance()` on a holder that was never destroyed, when
`create()` does not return null. -/
theorem Program.instanceCall_first (policy : LifetimePolicy) {created : Nat} {pr : Program}
    (h0 : pr.holder = { pInstance_ := 0, destroyed_ := false }) (hc : created ≠ 0) :
    pr.instanceCall policy created
      = (policy.scheduleDestruction
          { holder := { pInstance_ := created, destroyed_ := false },
            registrations := pr.registrations,
            calls := pr.calls ++ [PolicyCall.create, PolicyCall.scheduleDestruction created] },
         Outcome.returned created) := by
  obtain ⟨holder, registrations, calls⟩ := pr
  simp only at h0
  subst h0
  cases policy <;>
    simp [Program.instanceCall, Program.makeInstance, Program.revive,
      LifetimePolicy.scheduleDestruction, hc]

/-- A call of `instance()` with the `Default` policy on a destroyed holder. -/
theorem Program.instanceCall_dead (created : Nat) {pr : Program}
    (h0 : pr.holder = { pInstance_ := 0, destroyed_ := true }) :
    pr.instanceCall LifetimePolicy.Default created
      = ({ pr with calls := pr.calls ++ [PolicyCall.onDeadReference] },
         Outcome.raised Raised.logic_error) := by
  obtain ⟨holder, registrations, calls⟩ := pr
  simp only at h0
  subst h0
  simp [Program.instanceCall, Program.makeInstance, Program.revive,
    LifetimePolicy.onDeadReference]

/-- Calls of `instance()` with the `Default` policy on a destroyed holder. -/
theorem Program.instances_dead :
    ∀ (envs : List Nat) (pr : Program),
      pr.holder = { pInstance_ := 0, destroyed_ := true } →
      Program.instances LifetimePolicy.Default pr envs
        = ({ pr with calls := pr.calls
              ++ List.replicate envs.length PolicyCall.onDeadReference },
           List.replicate envs.length (Outcome.raised Raised.logic_error)) := by
  intro envs
  induction envs with
  | nil => intro pr _; simp [Program.instances]
  | cons e rest ih =>
    intro pr h
    simp only [Program.instances, Program.instanceCall_dead e h]
    rw [ih { pr with calls := pr.calls ++ [PolicyCall.onDeadReference] } h]
    simp [List.replicate_succ]
/-! ## LifetimeTracker -/

/-- On an array in ascending order of longevity, the position `upper_bound`
returns splits the array into the trackers of longevity up to the new one and
the trackers of greater longevity. -/
theorem LifetimeTracker.upperBound_split (t : LifetimeTracker) :
    ∀ (arr : List LifetimeTracker), arr.Pairwise (fun a b => a.longevity_ ≤ b.longevity_) →
      ∃ lo hi, arr = lo ++ hi ∧ lo.length = LifetimeTracker.upperBound arr t ∧
        (∀ e ∈ lo, e.longevity_ ≤ t.longevity_) ∧ (∀ e ∈ hi, t.longevity_ < e.longevity_) := by
  intro arr
  induction arr with
  | nil => intro _; exact ⟨[], [], rfl, rfl, by simp, by simp⟩
  | cons a arr ih =>
    intro hs
    have hs2 := List.pairwise_cons.mp hs
    by_cases ha : a.longevity_ ≤ t.longevity_
    · obtain ⟨lo, hi, e, hl, h1, h2⟩ := ih hs2.2
      refine ⟨a :: lo, hi, by rw [e]; rfl, ?_, ?_, h2⟩
      · have hp : (!(LifetimeTracker.compare t a)) = true := by
          simp [LifetimeTracker.compare, ha]
        simp only [LifetimeTracker.upperBound, List.takeWhile_cons, hp, if_true,
          List.length_cons]
        rw [hl]; rfl
      · intro e he
        rcases List.mem_cons.mp he with e1 | e1
        · rw [e1]; exact ha
        · exact h1 e e1
    · refine ⟨[], a :: arr, rfl, ?_, by simp, ?_⟩
      · have hp : (!(LifetimeTracker.compare t a)) = false := by
          simp [LifetimeTracker.compare]; omega
        simp [LifetimeTracker.upperBound, List.takeWhile_cons, hp]
      · intro e he
        rcases List.mem_cons.mp he with e1 | e1
        · rw [e1]; omega
        · have := hs2.1 e e1
          omega

/-- `registerTracker` on an array in ascending order of longevity puts the
new tracker behind the trackers of longevity up to its own and before the
trackers of greater longevity, and moves no other tracker. -/
theorem LifetimeTracker.registerTracker_spec (t : LifetimeTracker)
    (arr : List LifetimeTracker) (hs : arr.Pairwise (fun a b => a.longevity_ ≤ b.longevity_))
    (hlen : arr.length + 1 < 2 ^ 32) :
    ∃ lo hi, arr = lo ++ hi ∧
      (∀ e ∈ lo, e.longevity_ ≤ t.longevity_) ∧ (∀ e ∈ hi, t.longevity_ < e.longevity_) ∧
      LifetimeTracker.registerTracker arr (some t) true = some (lo ++ t :: hi, none) := by
  obtain ⟨lo, hi, e, hl, h1, h2⟩ := LifetimeTracker.upperBound_split t arr hs
  refine ⟨lo, hi, e, h1, h2, ?_⟩
  have hmod : (arr.length + 1) % 2 ^ 32 = arr.length + 1 := Nat.mod_eq_of_lt hlen
  simp only [LifetimeTracker.registerTracker, hmod, ne_eq, not_true_eq_false, if_false,
    Bool.not_true, Bool.false_eq_true]
  rw [← hl, e, List.take_left, List.drop_left]

/-- The array with the new tracker put in is in ascending order of longevity. -/
theorem LifetimeTracker.sorted_insert {t : LifetimeTracker} {lo hi : List LifetimeTracker}
    (hs : (lo ++ hi).Pairwise (fun a b => a.longevity_ ≤ b.longevity_))
    (h1 : ∀ e ∈ lo, e.longevity_ ≤ t.longevity_) (h2 : ∀ e ∈ hi, t.longevity_ < e.longevity_) :
    (lo ++ t :: hi).Pairwise (fun a b => a.longevity_ ≤ b.longevity_) := by
  rw [List.pairwise_append] at hs ⊢
  refine ⟨hs.1, List.pairwise_cons.mpr ⟨fun e he => Nat.le_of_lt (h2 e he), hs.2.1⟩, ?_⟩
  intro a ha b hb
  rcases List.mem_cons.mp hb with e | e
  · rw [e]; exact h1 a ha
  · exact hs.2.2 a ha b e

/-- Among the trackers of one longevity the new tracker is the last. -/
theorem LifetimeTracker.filter_insert {t : LifetimeTracker} {lo hi : List LifetimeTracker}
    (h2 : ∀ e ∈ hi, t.longevity_ < e.longevity_) (L : Nat) :
    (lo ++ t :: hi).filter (fun e => decide (e.longevity_ = L))
      = (lo ++ hi).filter (fun e => decide (e.longevity_ = L))
        ++ [t].filter (fun e => decide (e.longevity_ = L)) := by
  by_cases ht : t.longevity_ = L
  · have hhi : hi.filter (fun e => decide (e.longevity_ = L)) = [] := by
      apply List.filter_eq_nil_iff.mpr
      intro e he
      have := h2 e he
      simp only [decide_eq_true_eq]
      omega
    simp [List.filter_append, List.filter_cons, ht, hhi]
  · simp [List.filter_append, List.filter_cons, ht]

/-- A sequence of registrations on an array in ascending order of longevity
succeeds; the array stays in ascending order, holds the trackers it held and
the registered ones, and among the trackers of one longevity the registered
ones follow, in the order of registration. -/
theorem LifetimeTracker.registerAll_spec :
    ∀ (ts arr0 : List LifetimeTracker),
      arr0.Pairwise (fun a b => a.longevity_ ≤ b.longevity_) →
      arr0.length + ts.length < 2 ^ 32 →
      ∃ arr, LifetimeTracker.registerAll arr0 ts = some arr ∧
        arr.Pairwise (fun a b => a.longevity_ ≤ b.longevity_) ∧
        arr.Perm (arr0 ++ ts) ∧
        ∀ L, arr.filter (fun e => decide (e.longevity_ = L))
          = arr0.filter (fun e => decide (e.longevity_ = L))
            ++ ts.filter (fun e => decide (e.longevity_ = L)) := by
  intro ts
  induction ts with
  | nil =>
    intro arr0 hs _
    exact ⟨arr0, rfl, hs, by simp, by simp⟩
  | cons t ts ih =>
    intro arr0 hs hlen
    rw [List.length_cons] at hlen
    obtain ⟨lo, hi, e, h1, h2, hreg⟩ :=
      LifetimeTracker.registerTracker_spec t arr0 hs (by omega)
    subst e
    have hs1 := LifetimeTracker.sorted_insert hs h1 h2
    obtain ⟨arr, hrun, hsorted, hperm, hfilter⟩ := ih (lo ++ t :: hi) hs1 (by
      simp only [List.length_append, List.length_cons] at hlen ⊢
      omega)
    refine ⟨arr, ?_, hsorted, ?_, ?_⟩
    · simp only [LifetimeTracker.registerAll, hreg]
      exact hrun
    · refine hperm.trans ?_
      have : (lo ++ t :: hi).Perm ((lo ++ hi) ++ [t]) := by
        refine List.perm_middle.trans ?_
        exact (List.perm_append_singleton t (lo ++ hi)).symm
      refine (List.Perm.append_right ts this).trans ?_
      simp
    · intro L
      rw [hfilter L, LifetimeTracker.filter_insert h2 L]
      simp [List.filter_cons, List.append_assoc]
      split <;> simp

/-- As many calls of `atexit_fun` as the array has trackers delete all of
them, from the last to the first. -/
theorem LifetimeTracker.exitAll_all :
    ∀ (n : Nat) (arr : List LifetimeTracker), arr.length = n →
      LifetimeTracker.exitAll arr n = some ([], arr.reverse) := by
  intro n
  induction n with
  | zero =>
    intro arr h
    rw [List.length_eq_zero.mp h]; rfl
  | succ n ih =>
    intro arr h
    have hne : arr ≠ [] := by
      intro e; rw [e] at h; simp at h
    have hsplit := List.dropLast_append_getLast hne
    have hlast : arr.getLast? = some (arr.getLast hne) := List.getLast?_eq_getLast _ hne
    have hl : arr.dropLast.length = n := by
      rw [List.length_dropLast, h]; rfl
    simp only [LifetimeTracker.exitAll, LifetimeTracker.atexit_fun, hlast, ih _ hl]
    nth_rewrite 3 [← hsplit]
    rw [List.reverse_append]
    rfl
/-! ## The paths of FixedAllocator::allocate -/

/-- The scan stops at the first Chunk with a free block, whatever lies behind
the vector. -/
theorem FixedAllocator.scan_first (pastEnd : Nat) :
    ∀ (chunks : List Chunk) (k i : Nat) (c : Chunk),
      chunks[i]? = some c → 0 < c.nAvailableBlocks_ →
      (∀ (j : Nat) (cj : Chunk), j < i → chunks[j]? = some cj → cj.nAvailableBlocks_ = 0) →
      FixedAllocator.scan pastEnd chunks k = ScanResult.found (k + i) := by
  intro chunks
  induction chunks with
  | nil => intro k i c hc; simp at hc
  | cons a rest ih =>
    intro k i c hc hav hmin
    cases i with
    | zero =>
      simp only [List.getElem?_cons_zero, Option.some.injEq] at hc
      subst hc
      simp [FixedAllocator.scan, hav]
    | succ i =>
      have ha : a.nAvailableBlocks_ = 0 := hmin 0 a (Nat.succ_pos i) (List.getElem?_cons_zero)
      simp only [FixedAllocator.scan, ha, Nat.lt_irrefl, if_false]
      rw [List.getElem?_cons_succ] at hc
      rw [ih (k + 1) i c hc hav (fun j cj hj hcj => hmin (j + 1) cj (by omega) (by
        rw [List.getElem?_cons_succ]; exact hcj))]
      congr 1
      omega

/-- The test that opens `allocate` sends the call to the scan when
`allocChunk_` is null or points to a Chunk without a free block. -/
theorem FixedAllocator.choose_refill {fa : FixedAllocator} (mem : Mem) (env : AllocEnv)
    (hal : fa.allocChunk_ = none ∨
      ∃ a ca, fa.allocChunk_ = some a ∧ fa.chunks_[a]? = some ca ∧ ca.nAvailableBlocks_ = 0) :
    fa.choose mem env = fa.refill mem env := by
  unfold FixedAllocator.choose
  rcases hal with h | ⟨a, ca, h1, h2, h3⟩
  · rw [h]
  · rw [h1]
    simp only [h2, h3, if_true]

/-- The scan reads the element at the end position when no Chunk before it
has a free block. -/
theorem FixedAllocator.scanReads_end :
    ∀ (chunks : List Chunk) (k : Nat), (∀ c ∈ chunks, c.nAvailableBlocks_ = 0) →
      k + chunks.length ∈ FixedAllocator.scanReads chunks k := by
  intro chunks
  induction chunks with
  | nil => intro k _; simp [FixedAllocator.scanReads]
  | cons c rest ih =>
    intro k h
    have hc := h c (List.mem_cons_self _ _)
    simp only [FixedAllocator.scanReads, hc, Nat.lt_irrefl, if_false, List.length_cons]
    apply List.mem_cons_of_mem
    have := ih (k + 1) (fun x hx => h x (List.mem_cons_of_mem _ hx))
    have e : k + 1 + rest.length = k + (rest.length + 1) := by omega
    rw [e] at this
    exact this

/-- The scan of a vector without a free block sets `allocChunk_` to the end
position when the read there is not zero. -/
theorem FixedAllocator.scan_beyond (pastEnd : Nat) (hp : 0 < pastEnd) :
    ∀ (chunks : List Chunk) (k : Nat), (∀ c ∈ chunks, c.nAvailableBlocks_ = 0) →
      FixedAllocator.scan pastEnd chunks k = ScanResult.beyond := by
  intro chunks
  induction chunks with
  | nil => intro k _; simp [FixedAllocator.scan, hp]
  | cons c rest ih =>
    intro k h
    have hc := h c (List.mem_cons_self _ _)
    simp only [FixedAllocator.scan, hc, Nat.lt_irrefl, if_false]
    exact ih (k + 1) (fun x hx => h x (List.mem_cons_of_mem _ hx))
/-! ## The chunk size of a SmallObjAllocator -/

theorem SmallObjAllocator.delegateAllocate_chunkSize (pool : List FixedAllocator)
    (la ld : Option Nat) (cs chunkSize mx : Nat) (mem : Mem) (env : AllocEnv) (i : Nat) :
    (SmallObjAllocator.mk pool la ld chunkSize mx).delegateAllocate mem env i
      = ((SmallObjAllocator.mk pool la ld cs mx).delegateAllocate mem env i).map
          (fun r => (r.1, r.2.1, { r.2.2.1 with chunkSize_ := chunkSize }, r.2.2.2)) := by
  simp only [SmallObjAllocator.delegateAllocate]
  cases pool[i]? with
  | none => rfl
  | some fa =>
    simp only []
    cases fa.allocate mem env with
    | none => rfl
    | some r => rfl

theorem SmallObjAllocator.delegateDeallocate_chunkSize (pool : List FixedAllocator)
    (la ld : Option Nat) (cs chunkSize mx : Nat) (mem : Mem) (p i : Nat) :
    (SmallObjAllocator.mk pool la ld chunkSize mx).delegateDeallocate mem p i
      = ((SmallObjAllocator.mk pool la ld cs mx).delegateDeallocate mem p i).map
          (fun r => (r.1, { r.2.1 with chunkSize_ := chunkSize }, r.2.2)) := by
  simp only [SmallObjAllocator.delegateDeallocate]
  cases pool[i]? with
  | none => rfl
  | some fa =>
    simp only []
    cases fa.deallocate mem p with
    | none => rfl
    | some r => rfl

/-- `allocate` does not read `chunkSize_`. -/
theorem SmallObjAllocator.allocate_chunkSize (s : SmallObjAllocator) (chunkSize : Nat)
    (mem : Mem) (size : Nat) (env : SysEnv) :
    ({ s with chunkSize_ := chunkSize }).allocate mem size env
      = (s.allocate mem size env).map
          (fun r => (r.1, r.2.1, { r.2.2.1 with chunkSize_ := chunkSize }, r.2.2.2)) := by
  obtain ⟨pool, la, ld, cs, mx⟩ := s
  have hsearch : (SmallObjAllocator.mk pool la ld chunkSize mx).searchAllocate mem size
        env.chunkEnv
      = ((SmallObjAllocator.mk pool la ld cs mx).searchAllocate mem size env.chunkEnv).map
          (fun r => (r.1, r.2.1, { r.2.2.1 with chunkSize_ := chunkSize }, r.2.2.2)) := by
    simp only [SmallObjAllocator.searchAllocate]
    split
    · cases FixedAllocator.construct size with
      | none => rfl
      | some fa =>
        simp only []
        exact SmallObjAllocator.delegateAllocate_chunkSize _ _ _ cs chunkSize mx mem _ _
    · exact SmallObjAllocator.delegateAllocate_chunkSize _ _ _ cs chunkSize mx mem _ _
  show (SmallObjAllocator.mk pool la ld chunkSize mx).allocate mem size env = _
  simp only [SmallObjAllocator.allocate]
  split
  · rfl
  · cases la with
    | none => exact hsearch
    | some a =>
      simp only []
      cases pool[a]? with
      | none => rfl
      | some fa =>
        simp only []
        split
        · exact SmallObjAllocator.delegateAllocate_chunkSize _ _ _ cs chunkSize mx mem _ _
        · exact hsearch

/-- `deallocate` does not read `chunkSize_`. -/
theorem SmallObjAllocator.deallocate_chunkSize (s : SmallObjAllocator) (chunkSize : Nat)
    (mem : Mem) (p size : Nat) :
    ({ s with chunkSize_ := chunkSize }).deallocate mem p size
      = (s.deallocate mem p size).map
          (fun r => (r.1, { r.2.1 with chunkSize_ := chunkSize }, r.2.2)) := by
  obtain ⟨pool, la, ld, cs, mx⟩ := s
  have hsearch : (SmallObjAllocator.mk pool la ld chunkSize mx).searchDeallocate mem p size
      = ((SmallObjAllocator.mk pool la ld cs mx).searchDeallocate mem p size).map
          (fun r => (r.1, { r.2.1 with chunkSize_ := chunkSize }, r.2.2)) := by
    simp only [SmallObjAllocator.searchDeallocate]
    cases pool[SmallObjAllocator.lowerBound pool size]? with
    | none => rfl
    | some fa =>
      simp only []
      split
      · rfl
      · exact SmallObjAllocator.delegateDeallocate_chunkSize _ _ _ cs chunkSize mx mem _ _
  show (SmallObjAllocator.mk pool la ld chunkSize mx).deallocate mem p size = _
  simp only [SmallObjAllocator.deallocate]
  split
  · rfl
  · cases ld with
    | none => exact hsearch
    | some d =>
      simp only []
      cases pool[d]? with
      | none => rfl
      | some fa =>
        simp only []
        split
        · exact SmallObjAllocator.delegateDeallocate_chunkSize _ _ _ cs chunkSize mx mem _ _
        · exact hsearch

/-- What a caller sees of a sequence of calls does not depend on `chunkSize_`. -/
theorem SmallObjAllocator.observe_chunkSize (chunkSize : Nat) :
    ∀ (ops : List PoolOp) (s : SmallObjAllocator) (mem : Mem),
      SmallObjAllocator.observe { s with chunkSize_ := chunkSize } mem ops
        = SmallObjAllocator.observe s mem ops := by
  intro ops
  induction ops with
  | nil => intro s mem; rfl
  | cons op ops ih =>
    intro s mem
    cases op with
    | allocate size env =>
      simp only [SmallObjAllocator.observe, SmallObjAllocator.allocate_chunkSize]
      cases s.allocate mem size env with
      | none => rfl
      | some r =>
        obtain ⟨p, route, s1, mem1⟩ := r
        simp only [Option.map_some']
        rw [ih s1 mem1]
    | deallocate p size =>
      simp only [SmallObjAllocator.observe, SmallObjAllocator.deallocate_chunkSize]
      cases s.deallocate mem p size with
      | none => rfl
      | some r =>
        obtain ⟨route, s1, mem1⟩ := r
        simp only [Option.map_some']
        rw [ih s1 mem1]

/-! ## CRC -/

theorem all_range_imp {n : Nat} {f : Nat → Bool} (h : (List.range n).all f = true) :
    ∀ x, x < n → f x = true := by
  intro x hx
  exact List.all_eq_true.mp h x (List.mem_range.mpr hx)

/-- What holds of every line of `CRC_PARAMS`: width 8, values of 8 bits,
`rev_poly` the reversal of `poly`, equal reflection flags, and an initial
value that reads the same reversed when the input is reflected. -/
theorem Crc.catalogue_facts :
    ∀ p ∈ Crc.catalogue, p.width = 8 ∧ p.poly < 256 ∧ p.rev_poly < 256 ∧ p.init < 256 ∧
      p.xorout < 256 ∧ p.rev_poly = Spec.reflect8 p.poly ∧ p.refin = p.refout ∧
      (p.refin = true → Spec.reflect8 p.init = p.init) := by
  decide!

theorem Crc.reflect_bits_eq : ∀ x, x < 256 → Crc.reflect_bits x = Spec.reflect8 x := by
  have h : (List.range 256).all (fun x => Crc.reflect_bits x == Spec.reflect8 x) = true := by
    decide!
  intro x hx
  exact beq_iff_eq.mp (all_range_imp h x hx)

theorem Spec.reflect8_lt (x : Nat) : Spec.reflect8 x < 256 := by
  unfold Spec.reflect8
  omega

theorem Spec.reflect8_reflect8 : ∀ x, x < 256 → Spec.reflect8 (Spec.reflect8 x) = x := by
  have h : (List.range 256).all (fun x => Spec.reflect8 (Spec.reflect8 x) == x) = true := by
    decide!
  intro x hx
  exact beq_iff_eq.mp (all_range_imp h x hx)

/-- Bit `j` of the reversal is bit `7 - j`. -/
theorem Spec.reflect8_testBit :
    ∀ x, x < 256 → ∀ j, j < 8 → (Spec.reflect8 x).testBit j = x.testBit (7 - j) := by
  have h : (List.range 256).all (fun x => (List.range 8).all
      (fun j => (Spec.reflect8 x).testBit j == x.testBit (7 - j))) = true := by
    decide!
  intro x hx j hj
  exact beq_iff_eq.mp (all_range_imp (all_range_imp h x hx) j hj)

/-- The reversal of a sum (xor) of two bytes is the sum of the reversals. -/
theorem Spec.reflect8_xor {x y : Nat} (hx : x < 256) (hy : y < 256) :
    Spec.reflect8 (x ^^^ y) = Spec.reflect8 x ^^^ Spec.reflect8 y := by
  have hxy : x ^^^ y < 2 ^ 8 := Nat.xor_lt_two_pow hx hy
  apply Nat.eq_of_testBit_eq
  intro j
  by_cases hj : j < 8
  · rw [Spec.reflect8_testBit _ hxy j hj, Nat.testBit_xor, Nat.testBit_xor,
      Spec.reflect8_testBit _ hx j hj, Spec.reflect8_testBit _ hy j hj]
  · have hp : 2 ^ 8 ≤ 2 ^ j := Nat.pow_le_pow_right (by decide) (by omega)
    have h1 : Spec.reflect8 (x ^^^ y) < 2 ^ j :=
      Nat.lt_of_lt_of_le (Spec.reflect8_lt _) hp
    have h2 : Spec.reflect8 x ^^^ Spec.reflect8 y < 2 ^ j :=
      Nat.lt_of_lt_of_le (Nat.xor_lt_two_pow (Spec.reflect8_lt x) (Spec.reflect8_lt y)) hp
    rw [Nat.testBit_lt_two_pow h1, Nat.testBit_lt_two_pow h2]

theorem Crc.turn_lt (p : Crc.Params) (val : Nat) : Crc.turn p val < 256 := by
  unfold Crc.turn
  split <;> exact Nat.mod_lt _ (by decide)

theorem Spec.divide_lt (poly reg : Nat) : Spec.divide poly reg < 256 := by
  unfold Spec.divide
  split <;> exact Nat.mod_lt _ (by decide)

theorem Spec.divide_iterate_lt (poly : Nat) :
    ∀ (n x : Nat), x < 256 → (Spec.divide poly)^[n] x < 256 := by
  intro n
  induction n with
  | zero => intro x hx; exact hx
  | succ n ih =>
    intro x hx
    rw [Function.iterate_succ_apply]
    exact ih _ (Spec.divide_lt poly x)

/-- A turn of the loop of `dynamic_sum_chunk` on the reversal of a byte is the
reversal of a division step on the byte. -/
theorem Crc.turn_reflect8 :
    ∀ p ∈ Crc.catalogue, ∀ x, x < 256 →
      Crc.turn p (Spec.reflect8 x) = Spec.reflect8 (Spec.divide p.poly x) := by
  have h : Crc.catalogue.all (fun p => (List.range 256).all
      (fun x => Crc.turn p (Spec.reflect8 x) == Spec.reflect8 (Spec.divide p.poly x)))
      = true := by
    decide!
  intro p hp x hx
  exact beq_iff_eq.mp (all_range_imp (List.all_eq_true.mp h p hp) x hx)

theorem Crc.turn_iterate {p : Crc.Params} (hp : p ∈ Crc.catalogue) :
    ∀ (n x : Nat), x < 256 →
      (Crc.turn p)^[n] (Spec.reflect8 x) = Spec.reflect8 ((Spec.divide p.poly)^[n] x) := by
  intro n
  induction n with
  | zero => intro x _; rfl
  | succ n ih =>
    intro x hx
    rw [Function.iterate_succ_apply, Function.iterate_succ_apply,
      Crc.turn_reflect8 p hp x hx, ih _ (Spec.divide_lt _ _)]

/-- An entry of the lookup table is the byte divided by `poly` eight times,
between two reversals when the algorithm is reflected. -/
theorem Crc.dynamic_sum_chunk_spec {p : Crc.Params} (hp : p ∈ Crc.catalogue) {x : Nat}
    (hx : x < 256) :
    Crc.dynamic_sum_chunk p x
      = if p.refin then Spec.reflect8 ((Spec.divide p.poly)^[8] (Spec.reflect8 x))
        else (Spec.divide p.poly)^[8] x := by
  obtain ⟨hw, _, _, _, _, _, hio, _⟩ := Crc.catalogue_facts p hp
  have hmod : x % 256 = x := Nat.mod_eq_of_lt hx
  unfold Crc.dynamic_sum_chunk
  simp only [hmod, hw, ← hio]
  by_cases hr : p.refin = true
  · simp only [hr, Bool.not_true, Bool.false_eq_true, if_false, if_true]
    have := Crc.turn_iterate hp 8 (Spec.reflect8 x) (Spec.reflect8_lt x)
    rw [Spec.reflect8_reflect8 x hx] at this
    exact this
  · have hr : p.refin = false := by simpa using hr
    simp only [hr, Bool.not_false, if_true, Bool.false_eq_true, if_false]
    rw [Crc.reflect_bits_eq x hx, Crc.turn_iterate hp 8 x hx,
      Crc.reflect_bits_eq _ (Spec.reflect8_lt _),
      Spec.reflect8_reflect8 _ (Spec.divide_iterate_lt _ 8 x hx)]

theorem Crc.lookup {p : Crc.Params} (hp : p ∈ Crc.catalogue) {x : Nat} (hx : x < 256) :
    (Crc.lookup_table p)[x]? = some (Crc.dynamic_sum_chunk p x) := by
  obtain ⟨hw, _⟩ := Crc.catalogue_facts p hp
  unfold Crc.lookup_table
  rw [hw]
  simp [List.getElem?_map, List.getElem?_range, hx]

/-- The exclusive or of two bytes is a byte. -/
theorem Crc.xor_byte {x y : Nat} (hx : x < 256) (hy : y < 256) : x ^^^ y < 256 := by
  have h : x ^^^ y < 2 ^ 8 := Nat.xor_lt_two_pow hx hy
  exact h

/-- The register of the table-driven loop for the register `s` of the
bit-by-bit CRC: `s` itself, reversed when the algorithm is reflected. -/
theorem Crc.feed_spec {p : Crc.Params} (hp : p ∈ Crc.catalogue) :
    ∀ (buf : List Nat), (∀ b ∈ buf, b < 256) → ∀ s, s < 256 →
      Crc.feed p buf (if p.refin then Spec.reflect8 s else s)
        = some (if p.refin then Spec.reflect8 (buf.foldl (fun reg b =>
              (Spec.divide p.poly)^[8]
                (reg ^^^ (if p.refin then Spec.reflect8 b else b))) s)
            else buf.foldl (fun reg b =>
              (Spec.divide p.poly)^[8]
                (reg ^^^ (if p.refin then Spec.reflect8 b else b))) s) := by
  intro buf
  induction buf with
  | nil => intro _ s _; rfl
  | cons b buf ih =>
    intro hb s hs
    have hb0 : b < 256 := hb b (List.mem_cons_self _ _)
    have hrest : ∀ x ∈ buf, x < 256 := fun x hx => hb x (List.mem_cons_of_mem _ hx)
    by_cases hr : p.refin = true
    · simp only [hr, if_true, List.foldl_cons] at ih ⊢
      have hidx : Spec.reflect8 s ^^^ b < 256 := Crc.xor_byte (Spec.reflect8_lt s) hb0
      have hsb : s ^^^ Spec.reflect8 b < 256 := Crc.xor_byte hs (Spec.reflect8_lt b)
      have e : Spec.reflect8 (Spec.reflect8 s ^^^ b) = s ^^^ Spec.reflect8 b := by
        rw [Spec.reflect8_xor (Spec.reflect8_lt s) hb0, Spec.reflect8_reflect8 s hs]
      simp only [Crc.feed, Crc.lookup hp hidx, Crc.dynamic_sum_chunk_spec hp hidx, hr, if_true,
        e]
      exact ih hrest _ (Spec.divide_iterate_lt _ 8 _ hsb)
    · have hr : p.refin = false := by simpa using hr
      simp only [hr, Bool.false_eq_true, if_false, List.foldl_cons] at ih ⊢
      have hidx : s ^^^ b < 256 := Crc.xor_byte hs hb0
      simp only [Crc.feed, Crc.lookup hp hidx, Crc.dynamic_sum_chunk_spec hp hidx, hr,
        Bool.false_eq_true, if_false]
      exact ih hrest _ (Spec.divide_iterate_lt _ 8 _ hidx)

/-- The register of the bit-by-bit CRC stays a byte. -/
theorem Spec.register_lt (p : Crc.Params) :
    ∀ (buf : List Nat) (s : Nat), s < 256 →
      buf.foldl (fun reg b => (Spec.divide p.poly)^[8]
        (reg ^^^ (if p.refin then Spec.reflect8 b else b))) s < 256 := by
  intro buf
  induction buf with
  | nil => intro s hs; exact hs
  | cons b buf ih =>
    intro s _
    rw [List.foldl_cons]
    apply ih
    exact Spec.divide_lt _ _

/-- One turn of the reflected register is undone by `Crc.unturn`. -/
theorem Crc.unturn_turn :
    ∀ p ∈ Crc.catalogue, ∀ v, v < 256 → Crc.unturn p (Crc.turn p v) = v := by
  have h : Crc.catalogue.all (fun p => (List.range 256).all
      (fun v => Crc.unturn p (Crc.turn p v) == v)) = true := by
    decide!
  intro p hp v hv
  exact beq_iff_eq.mp (all_range_imp (List.all_eq_true.mp h p hp) v hv)

theorem Crc.turn_iterate_inj {p : Crc.Params} (hp : p ∈ Crc.catalogue) :
    ∀ (n x y : Nat), x < 256 → y < 256 →
      (Crc.turn p)^[n] x = (Crc.turn p)^[n] y → x = y := by
  intro n
  induction n with
  | zero => intro x y _ _ h; exact h
  | succ n ih =>
    intro x y hx hy h
    rw [Function.iterate_succ_apply, Function.iterate_succ_apply] at h
    have h1 := ih _ _ (Crc.turn_lt p x) (Crc.turn_lt p y) h
    have h2 := congrArg (Crc.unturn p) h1
    rwa [Crc.unturn_turn p hp x hx, Crc.unturn_turn p hp y hy] at h2

theorem Spec.reflect8_inj {x y : Nat} (hx : x < 256) (hy : y < 256)
    (h : Spec.reflect8 x = Spec.reflect8 y) : x = y := by
  have h2 := congrArg Spec.reflect8 h
  rwa [Spec.reflect8_reflect8 x hx, Spec.reflect8_reflect8 y hy] at h2

theorem Spec.divide_iterate_inj {p : Crc.Params} (hp : p ∈ Crc.catalogue) {x y : Nat}
    (hx : x < 256) (hy : y < 256)
    (h : (Spec.divide p.poly)^[8] x = (Spec.divide p.poly)^[8] y) : x = y := by
  have h1 : (Crc.turn p)^[8] (Spec.reflect8 x) = (Crc.turn p)^[8] (Spec.reflect8 y) := by
    rw [Crc.turn_iterate hp 8 x hx, Crc.turn_iterate hp 8 y hy, h]
  exact Spec.reflect8_inj hx hy
    (Crc.turn_iterate_inj hp 8 _ _ (Spec.reflect8_lt x) (Spec.reflect8_lt y) h1)

theorem Crc.dynamic_sum_chunk_lt {p : Crc.Params} (hp : p ∈ Crc.catalogue) {x : Nat}
    (hx : x < 256) : Crc.dynamic_sum_chunk p x < 256 := by
  rw [Crc.dynamic_sum_chunk_spec hp hx]
  split
  · exact Spec.reflect8_lt _
  · exact Spec.divide_iterate_lt _ 8 _ hx

/-- Different indices have different table entries. -/
theorem Crc.dynamic_sum_chunk_inj {p : Crc.Params} (hp : p ∈ Crc.catalogue) {x y : Nat}
    (hx : x < 256) (hy : y < 256)
    (h : Crc.dynamic_sum_chunk p x = Crc.dynamic_sum_chunk p y) : x = y := by
  rw [Crc.dynamic_sum_chunk_spec hp hx, Crc.dynamic_sum_chunk_spec hp hy] at h
  by_cases hr : p.refin = true
  · simp only [hr, if_true] at h
    have h1 := Spec.reflect8_inj
      (Spec.divide_iterate_lt _ 8 _ (Spec.reflect8_lt x))
      (Spec.divide_iterate_lt _ 8 _ (Spec.reflect8_lt y)) h
    exact Spec.reflect8_inj hx hy
      (Spec.divide_iterate_inj hp (Spec.reflect8_lt x) (Spec.reflect8_lt y) h1)
  · have hr : p.refin = false := by simpa using hr
    simp only [hr, Bool.false_eq_true, if_false] at h
    exact Spec.divide_iterate_inj hp hx hy h

/-- The lookup table holds every byte value exactly once. -/
theorem Crc.lookup_table_perm {p : Crc.Params} (hp : p ∈ Crc.catalogue) :
    (Crc.lookup_table p).Perm (List.range 256) := by
  obtain ⟨hw, _⟩ := Crc.catalogue_facts p hp
  have hnd : (Crc.lookup_table p).Nodup := by
    unfold Crc.lookup_table
    rw [hw]
    apply List.Nodup.map_on _ (List.nodup_range 256)
    intro x hx y hy h
    exact Crc.dynamic_sum_chunk_inj hp (List.mem_range.mp hx) (List.mem_range.mp hy) h
  have hsub : Crc.lookup_table p ⊆ List.range 256 := by
    intro v hv
    unfold Crc.lookup_table at hv
    rw [hw] at hv
    obtain ⟨x, hx, rfl⟩ := List.mem_map.mp hv
    exact List.mem_range.mpr (Crc.dynamic_sum_chunk_lt hp (List.mem_range.mp hx))
  have hlen : (List.range 256).length ≤ (Crc.lookup_table p).length := by
    unfold Crc.lookup_table
    rw [hw]
    simp
  exact (List.subperm_of_subset hnd hsub).perm_of_length_le hlen

theorem Crc.feed_append (p : Crc.Params) :
    ∀ (xs ys : List Nat) (c : Nat),
      Crc.feed p (xs ++ ys) c = (Crc.feed p xs c).bind (Crc.feed p ys) := by
  intro xs
  induction xs with
  | nil => intro ys c; rfl
  | cons x xs ih =>
    intro ys c
    simp only [List.cons_append, Crc.feed]
    cases (Crc.lookup_table p)[c ^^^ x]? with
    | none => rfl
    | some v => exact ih ys v

/-- The loop of `sum_without_final_xor` runs to the end on bytes and leaves a
byte in the register. -/
theorem Crc.feed_total {p : Crc.Params} (hp : p ∈ Crc.catalogue) :
    ∀ (buf : List Nat), (∀ b ∈ buf, b < 256) → ∀ c, c < 256 →
      ∃ r, Crc.feed p buf c = some r ∧ r < 256 := by
  intro buf
  induction buf with
  | nil => intro _ c hc; exact ⟨c, rfl, hc⟩
  | cons b buf ih =>
    intro hb c hc
    have hidx := Crc.xor_byte hc (hb b (List.mem_cons_self _ _))
    simp only [Crc.feed, Crc.lookup hp hidx]
    exact ih (fun x hx => hb x (List.mem_cons_of_mem _ hx)) _ (Crc.dynamic_sum_chunk_lt hp hidx)

/-- Different registers stay different over any run of bytes. -/
theorem Crc.feed_inj {p : Crc.Params} (hp : p ∈ Crc.catalogue) :
    ∀ (buf : List Nat), (∀ b ∈ buf, b < 256) → ∀ c d, c < 256 → d < 256 →
      Crc.feed p buf c = Crc.feed p buf d → c = d := by
  intro buf
  induction buf with
  | nil => intro _ c d _ _ h; exact Option.some.inj h
  | cons b buf ih =>
    intro hb c d hc hd h
    have hb0 := hb b (List.mem_cons_self _ _)
    have hc1 := Crc.xor_byte hc hb0
    have hd1 := Crc.xor_byte hd hb0
    simp only [Crc.feed, Crc.lookup hp hc1, Crc.lookup hp hd1] at h
    have h1 := ih (fun x hx => hb x (List.mem_cons_of_mem _ hx)) _ _
      (Crc.dynamic_sum_chunk_lt hp hc1) (Crc.dynamic_sum_chunk_lt hp hd1) h
    have h2 := Crc.dynamic_sum_chunk_inj hp hc1 hd1 h1
    have h3 := congrArg (fun v => v ^^^ b) h2
    simpa [Nat.xor_assoc] using h3

/-- A list with a place `i` is what stands before `i`, the element at `i`, and
what stands after. -/
theorem List.split_at_place (xs : List Nat) (i : Nat) (a : Nat) (h : xs[i]? = some a) :
    xs = xs.take i ++ a :: xs.drop (i + 1) := by
  induction xs generalizing i with
  | nil => simp at h
  | cons x xs ih =>
    cases i with
    | zero => simp at h; simp [h]
    | succ i =>
      simp only [List.getElem?_cons_succ] at h
      simp only [List.take_succ_cons, List.drop_succ_cons, List.cons_append]
      rw [← ih i h]

/-- With no `crc` passed in, the register starts at `init`. -/
theorem Crc.sum_default {p : Crc.Params} (hinit : p.init < 256) (buf : List Nat) :
    Crc.sum p buf 0 = (Crc.feed p buf p.init).map (fun c => (p.xorout ^^^ c) % 256) := by
  have h0 : (0 ^^^ p.init) % 256 = p.init := by
    simp [Nat.mod_eq_of_lt hinit]
  simp only [Crc.sum, Crc.sum_without_final_xor, Nat.zero_mod, if_true, h0]

/-- Continuing from the value `sum_without_final_xor` returned for the bytes
before gives the sum of the whole buffer, unless that value is 0 while `init`
is not. -/
theorem Crc.chaining_holds {p : Crc.Params} (hp : p ∈ Crc.catalogue) (head tail : List Nat)
    (hhead : ∀ b ∈ head, b < 256) (c : Nat)
    (hc : Crc.sum_without_final_xor p head 0 = some c) (hok : c ≠ 0 ∨ p.init = 0) :
    Crc.sum p tail c = Crc.sum p (head ++ tail) 0 := by
  obtain ⟨_, _, _, hinit, _, _, _, _⟩ := Crc.catalogue_facts p hp
  have h0 : (0 ^^^ p.init) % 256 = p.init := by
    simp [Nat.mod_eq_of_lt hinit]
  simp only [Crc.sum_without_final_xor, Nat.zero_mod, if_true, h0] at hc
  obtain ⟨r, hr, hr256⟩ := Crc.feed_total hp head hhead p.init hinit
  have hrc : r = c := Option.some.inj (hr.symm.trans hc)
  subst hrc
  have hstart : (if r % 256 = 0 then (r % 256 ^^^ p.init) % 256 else r % 256) = r := by
    rw [Nat.mod_eq_of_lt hr256]
    rcases hok with h | h
    · rw [if_neg h]
    · split
      · next h1 => rw [h1, h]; rfl
      · rfl
  rw [Crc.sum_default hinit, Crc.feed_append, hr, Option.some_bind]
  simp only [Crc.sum, Crc.sum_without_final_xor, hstart]


/-- The loop of the destructor stops at its assertion when a Chunk of the
vector is not empty. -/
theorem FixedAllocator.releaseAll_busy (numBlocks : Nat) :
    ∀ (chunks : List Chunk) (log : List Nat),
      (∃ c ∈ chunks, c.nAvailableBlocks_ ≠ numBlocks) →
      FixedAllocator.releaseAll numBlocks chunks log = none := by
  intro chunks
  induction chunks with
  | nil => intro log h; obtain ⟨c, hc, _⟩ := h; simp at hc
  | cons c rest ih =>
    intro log h
    by_cases he : c.nAvailableBlocks_ = numBlocks
    · simp only [FixedAllocator.releaseAll, he, if_true]
      apply ih
      obtain ⟨x, hx, hne⟩ := h
      rcases List.mem_cons.mp hx with e | hm
      · rw [e] at hne; exact absurd he hne
      · exact ⟨x, hm, hne⟩
    · simp only [FixedAllocator.releaseAll, he, if_false]

/-- The destructor of an object that was never copied is the loop over its
Chunks. -/
theorem Heap.destroy_single (self : Nat) (fa : FixedAllocator) :
    (Heap.single self fa).destroy self
      = (FixedAllocator.releaseAll fa.numBlocks_ fa.chunks_ []).map
          (fun log => (Heap.mk (Heap.single self fa).objs log).drop self) := by
  simp only [Heap.destroy, Heap.single, if_true, ne_eq, not_true_eq_false, if_false]
  cases FixedAllocator.releaseAll fa.numBlocks_ fa.chunks_ [] <;> rfl

theorem Demo.emptyThenFull_some :
    (World.run (World.fresh Demo.singles Demo.mem) Demo.emptyThenFull).isSome = true := by decide

/-! ## Claims on the Chunk -/

/-- C9: for every blockSize >= 1 and numBlocks <= 255, after a successful
`Chunk::init(blockSize, numBlocks)` the first free block is block 0, the
number of free blocks is numBlocks, and for every i < numBlocks the first byte
of block i (buffer offset i * blockSize) holds i + 1. -/
theorem c9_init_postcondition (c : Chunk) (mem : Mem) (newData blockSize numBlocks : Nat)
    (hbs : 1 ≤ blockSize) (hN : numBlocks ≤ 255)
    (hok : (c.init mem newData blockSize numBlocks).1 = true) :
    (c.init mem newData blockSize numBlocks).2.1.firstAvailableBlock_ = 0 ∧
    (c.init mem newData blockSize numBlocks).2.1.nAvailableBlocks_ = numBlocks ∧
    ∀ i, i < numBlocks →
      (c.init mem newData blockSize numBlocks).2.2.load
        ((c.init mem newData blockSize numBlocks).2.1.pData_ + i * blockSize) = i + 1 := by
  have hnew : newData ≠ 0 := (Chunk.init_ok_iff c mem newData blockSize numBlocks).mp hok
  have hmod : numBlocks % 256 = numBlocks := Nat.mod_eq_of_lt (by omega)
  refine ⟨by simp [Chunk.init, hnew], by simp [Chunk.init, hnew, hmod], ?_⟩
  intro i hi
  have h256 : i + 1 < 256 := by omega
  have hs := Chunk.seed_load blockSize hbs numBlocks 0 newData mem i hi
  simp only [Nat.zero_add] at hs
  simp only [Chunk.init, hnew, if_false, hmod]
  rw [hs]
  exact Nat.mod_eq_of_lt h256

/-- Witness of C9: a Chunk of 3 blocks of 4 bytes at address 1000. -/
theorem c9_init_postcondition_witness :
    ((Chunk.mk 0 0 0).init (fun _ => 0) 1000 4 3).2.1.firstAvailableBlock_ = 0 ∧
    ((Chunk.mk 0 0 0).init (fun _ => 0) 1000 4 3).2.1.nAvailableBlocks_ = 3 ∧
    ∀ i, i < 3 →
      ((Chunk.mk 0 0 0).init (fun _ => 0) 1000 4 3).2.2.load
        (((Chunk.mk 0 0 0).init (fun _ => 0) 1000 4 3).2.1.pData_ + i * 4) = i + 1 :=
  c9_init_postcondition (Chunk.mk 0 0 0) (fun _ => 0) 1000 4 3 (by decide) (by decide) (by decide)

/-- C10: `Chunk::allocate(blockSize)` returns null if and only if there is no
free block, and then leaves the Chunk as it was; otherwise it returns
`pData_ + firstAvailableBlock_ * blockSize`, sets `firstAvailableBlock_` to the
byte stored at that address and lowers `nAvailableBlocks_` by exactly one. The
call has no store: the buffer is the same after it in both cases. -/
theorem c10_chunk_allocate (c : Chunk) (mem : Mem) (blockSize : Nat) :
    ((c.allocate mem blockSize).1 = none ↔ c.nAvailableBlocks_ = 0) ∧
    (c.nAvailableBlocks_ = 0 → (c.allocate mem blockSize).2 = c) ∧
    (c.nAvailableBlocks_ ≠ 0 →
      (c.allocate mem blockSize).1 = some (c.pData_ + c.firstAvailableBlock_ * blockSize) ∧
      (c.allocate mem blockSize).2.firstAvailableBlock_
        = mem.load (c.pData_ + c.firstAvailableBlock_ * blockSize) ∧
      (c.allocate mem blockSize).2.nAvailableBlocks_ + 1 = c.nAvailableBlocks_ ∧
      (c.allocate mem blockSize).2.pData_ = c.pData_) := by
  by_cases h : c.nAvailableBlocks_ = 0
  · simp [Chunk.allocate, h]
  · have h1 : c.nAvailableBlocks_ - 1 + 1 = c.nAvailableBlocks_ := by omega
    simp [Chunk.allocate, h, h1]

/-- Witness of C10: a Chunk with two free blocks, the first free one being block 1. -/
theorem c10_chunk_allocate_witness :
    ((Chunk.mk 1000 1 2).allocate (fun _ => 0) 4).1 = some 1004 ∧
    ((Chunk.mk 1000 1 2).allocate (fun _ => 0) 4).2.nAvailableBlocks_ + 1 = 2 ∧
    ((Chunk.mk 1000 0 0).allocate (fun _ => 0) 4).2.pData_ = 1000 :=
  ⟨((c10_chunk_allocate (Chunk.mk 1000 1 2) (fun _ => 0) 4).2.2 (by decide)).1,
   ((c10_chunk_allocate (Chunk.mk 1000 1 2) (fun _ => 0) 4).2.2 (by decide)).2.2.1,
   congrArg Chunk.pData_ ((c10_chunk_allocate (Chunk.mk 1000 0 0) (fun _ => 0) 4).2.1 rfl)⟩

/-- C2 (free-list integrity): for every Chunk produced by a successful
`Chunk::init(blockSize, numBlocks)` with blockSize >= 1 and numBlocks <= 255,
and every sequence of `allocate`, `deallocate(p)` of blocks then held, and
writes by callers into blocks they hold, the walk from `firstAvailableBlock_`
along the links for `nAvailableBlocks_` steps visits `nAvailableBlocks_`
pairwise distinct block indices, all below numBlocks, none of them the index of
a block currently held; and every further admitted call succeeds. -/
theorem c2_free_list_integrity (c0 : Chunk) (mem0 : Mem) (newData blockSize numBlocks : Nat)
    (ops : List ChunkOp) (w : ChunkWorld)
    (hbs : 1 ≤ blockSize) (hN : numBlocks ≤ 255)
    (hinit : (c0.init mem0 newData blockSize numBlocks).1 = true)
    (hrun : ChunkWorld.run blockSize (ChunkWorld.fresh c0 mem0 newData blockSize numBlocks) ops
      = some w) :
    (w.chunk.freeList w.mem blockSize).length = w.chunk.nAvailableBlocks_ ∧
    (w.chunk.freeList w.mem blockSize).Nodup ∧
    (∀ i ∈ w.chunk.freeList w.mem blockSize, i < numBlocks) ∧
    (∀ i ∈ w.chunk.freeList w.mem blockSize, w.chunk.pData_ + i * blockSize ∉ w.held) ∧
    (∀ op, w.Admits blockSize op → ∃ w1, w.step blockSize op = some w1) := by
  have hnew : newData ≠ 0 := (Chunk.init_ok_iff c0 mem0 newData blockSize numBlocks).mp hinit
  have hinv := ChunkWorld.run_sound hbs hN ops _ w
    (ChunkWorld.fresh_sound c0 mem0 newData blockSize numBlocks hbs hN hnew) hrun
  refine ⟨Chunk.freeList_length _ _ _, hinv.sound.nodup, hinv.sound.inRange, ?_, ?_⟩
  · intro i hi
    exact (hinv.sound.free_iff i (hinv.sound.inRange i hi)).mp hi
  · intro op hadm
    obtain ⟨w1, h1, _⟩ := ChunkWorld.step_sound op hbs hN hinv hadm
    exact ⟨w1, h1⟩

/-- Witness of C2: three blocks of 2 bytes at address 100; two allocations, a
write into the second block, the first block returned and allocated again. -/
theorem c2_free_list_integrity_witness :
    ∃ w, ChunkWorld.run 2 (ChunkWorld.fresh (Chunk.mk 0 0 0) (fun _ => 0) 100 2 3)
        [ChunkOp.allocate, ChunkOp.allocate, ChunkOp.write 103 7, ChunkOp.deallocate 100,
         ChunkOp.allocate] = some w ∧
      (w.chunk.freeList w.mem 2).length = w.chunk.nAvailableBlocks_ ∧
      (w.chunk.freeList w.mem 2).Nodup ∧
      (∀ i ∈ w.chunk.freeList w.mem 2, i < 3) ∧
      (∀ i ∈ w.chunk.freeList w.mem 2, w.chunk.pData_ + i * 2 ∉ w.held) ∧
      (∀ op, w.Admits 2 op → ∃ w1, w.step 2 op = some w1) := by
  have h : (ChunkWorld.run 2 (ChunkWorld.fresh (Chunk.mk 0 0 0) (fun _ => 0) 100 2 3)
        [ChunkOp.allocate, ChunkOp.allocate, ChunkOp.write 103 7, ChunkOp.deallocate 100,
         ChunkOp.allocate]).isSome = true := by decide
  obtain ⟨w, hw⟩ := Option.isSome_iff_exists.mp h
  exact ⟨w, hw, c2_free_list_integrity (Chunk.mk 0 0 0) (fun _ => 0) 100 2 3 _ w
    (by decide) (by decide) (by decide) hw⟩

/-! ## Claims on the FixedAllocator -/

/-- Disjointness where every read at `end()` sees no free block: in the state
after any sequence of admitted
`allocate()`, `deallocate(p)` and caller writes on a freshly constructed
FixedAllocator (Chunks obtaining buffers that overlap no buffer of the vector),
an admitted `allocate()` returns a block, that block starts on a block boundary
inside the buffer of a Chunk of the vector, and it is different from every block
currently handed out; the blocks handed out are pairwise different blocks of
Chunks of the vector. -/
theorem World.admitted_disjoint (blockSize : Nat) (fa : FixedAllocator) (mem0 : Mem) (ops : List Op)
    (w : World) (env : AllocEnv)
    (hfa : FixedAllocator.construct blockSize = some fa) (hsz : 8 * blockSize < 2 ^ 64)
    (hrun : World.run (World.fresh fa mem0) ops = some w)
    (hadm : w.Admits (Op.allocate env)) :
    (∃ p fa1 mem1, w.fa.allocate w.mem env = some (some p, fa1, mem1) ∧
      (∃ c ∈ fa1.chunks_, ∃ i, i < fa1.numBlocks_ ∧ p = c.pData_ + i * fa1.blockSize_) ∧
      p ∉ w.out) ∧
    w.out.Nodup ∧
    (∀ q ∈ w.out, ∃ c ∈ w.fa.chunks_, ∃ i, i < w.fa.numBlocks_ ∧
      q = c.pData_ + i * w.fa.blockSize_) := by
  obtain ⟨hinv0, _⟩ := World.fresh_inv mem0 hfa hsz
  obtain ⟨hinv, _, _⟩ := World.run_inv ops _ w hinv0 hrun
  obtain ⟨p, fa2, mem2, h1, h2, ⟨c, hc, i, hi, e⟩, _, h5, h6, _⟩ := World.allocate_step hinv hadm
  refine ⟨⟨p, fa2, mem2, h1, ⟨c, hc, i, by rw [h6]; exact hi, by rw [h5]; exact e⟩, h2⟩,
    hinv.chunks.out_nodup, ?_⟩
  intro q hq
  obtain ⟨c, hc, i, hi, e⟩ := hinv.chunks.out_blocks q hq
  exact ⟨c, hc, i, hi, e⟩

theorem Demo.mixed_runs :
    (World.run (World.fresh Demo.pairs Demo.mem) Demo.mixed).isSome = true := by decide

/-- An instance of the disjointness of admitted workloads: blocks of 2048 bytes (two per Chunk); three allocations, a
write, one deallocation, then a further allocation. -/
theorem World.admitted_disjoint_witness :
    ∃ w, World.run (World.fresh Demo.pairs Demo.mem) Demo.mixed = some w ∧
      (∃ p fa1 mem1, w.fa.allocate w.mem (Demo.env 20000) = some (some p, fa1, mem1) ∧
        (∃ c ∈ fa1.chunks_, ∃ i, i < fa1.numBlocks_ ∧ p = c.pData_ + i * fa1.blockSize_) ∧
        p ∉ w.out) ∧
      w.out.Nodup ∧
      (∀ q ∈ w.out, ∃ c ∈ w.fa.chunks_, ∃ i, i < w.fa.numBlocks_ ∧
        q = c.pData_ + i * w.fa.blockSize_) :=
  ⟨Option.get _ Demo.mixed_runs, (Option.some_get Demo.mixed_runs).symm,
    World.admitted_disjoint 2048 Demo.pairs Demo.mem Demo.mixed (Option.get _ Demo.mixed_runs)
      (Demo.env 20000) (by decide) (by decide)
      (Option.some_get Demo.mixed_runs).symm (by decide)⟩

/-- C3, what the code does: with blocks of 4096 bytes (one per Chunk), four
allocations followed by the deallocation of the fourth, the first and the third
block leave three Chunks of which two are empty. -/
theorem c3_two_empty_chunks :
    FixedAllocator.construct 4096 = some Demo.singles ∧
    (World.play (World.fresh Demo.singles Demo.mem) Demo.scattered).map
      (fun w => (w.fa.chunks_.length, w.fa.emptyChunks.length, w.fa.summary))
      = some (3, 2, [(4096, 1), (8192, 0), (12288, 1)]) := by
  decide

/-- Hysteresis with at most two Chunks: after any sequence of admitted calls on a
freshly constructed FixedAllocator during which the vector never holds more than
two Chunks, the vector contains at most one empty Chunk. -/
theorem World.admitted_hysteresis (blockSize : Nat) (fa : FixedAllocator) (mem0 : Mem)
    (ops : List Op) (w : World)
    (hfa : FixedAllocator.construct blockSize = some fa) (hsz : 8 * blockSize < 2 ^ 64)
    (hrun : World.runWithin 2 (World.fresh fa mem0) ops = some w) :
    w.fa.emptyChunks.length ≤ 1 := by
  obtain ⟨hinv0, hs0⟩ := World.fresh_inv mem0 hfa hsz
  have hs := World.run_settled ops _ w hinv0 hs0 hrun
  exact hs.empty_le_one (World.runWithin_run 2 ops _ w hrun).2

theorem Demo.twoChunks_runs :
    (World.runWithin 2 (World.fresh Demo.singles Demo.mem) Demo.twoChunks).isSome = true := by
  decide

/-- An instance of the hysteresis with at most two Chunks: one block per Chunk, two Chunks in use, both
drained: one empty Chunk stays. -/
theorem World.admitted_hysteresis_witness :
    ∃ w, World.runWithin 2 (World.fresh Demo.singles Demo.mem) Demo.twoChunks = some w ∧
      w.fa.emptyChunks.length ≤ 1 :=
  ⟨Option.get _ Demo.twoChunks_runs, (Option.some_get Demo.twoChunks_runs).symm,
    World.admitted_hysteresis 4096 Demo.singles Demo.mem Demo.twoChunks _ (by decide) (by decide)
      (Option.some_get Demo.twoChunks_runs).symm⟩

/-- C4, what the code does: with blocks of 4096 bytes (one per Chunk), five
allocations followed by the deallocation of the fifth, first, fourth, second and
third block is a balanced workload that ends with two Chunks in the vector. -/
theorem c4_two_chunks_retained :
    FixedAllocator.construct 4096 = some Demo.singles ∧
    (World.play (World.fresh Demo.singles Demo.mem) Demo.drained).map
      (fun w => (w.out, w.fa.chunks_.length)) = some ([], 2) := by
  decide

/-- Round trip of admitted workloads: after every balanced workload on a freshly
constructed FixedAllocator (no block is handed out at the end) the allocator has
the block size and the number of blocks per Chunk it started with and every
Chunk left in the vector is empty; when the vector never held more than two
Chunks during the workload, at most one Chunk is left. -/
theorem World.admitted_round_trip (blockSize : Nat) (fa : FixedAllocator) (mem0 : Mem)
    (ops : List Op) (w : World)
    (hfa : FixedAllocator.construct blockSize = some fa) (hsz : 8 * blockSize < 2 ^ 64)
    (hrun : World.run (World.fresh fa mem0) ops = some w)
    (hbal : w.out = []) :
    w.fa.blockSize_ = fa.blockSize_ ∧ w.fa.numBlocks_ = fa.numBlocks_ ∧
    (∀ c ∈ w.fa.chunks_, c.nAvailableBlocks_ = w.fa.numBlocks_) ∧
    ((World.runWithin 2 (World.fresh fa mem0) ops).isSome = true →
      w.fa.chunks_.length ≤ 1) := by
  obtain ⟨hinv0, hs0⟩ := World.fresh_inv mem0 hfa hsz
  obtain ⟨hinv, hb1, hb2⟩ := World.run_inv ops _ w hinv0 hrun
  have hall : ∀ c ∈ w.fa.chunks_, c.nAvailableBlocks_ = w.fa.numBlocks_ := by
    intro c hc
    apply (hinv.chunks.sound c hc).avail_eq
    intro i _
    rw [hbal]; simp
  refine ⟨hb1, hb2, hall, ?_⟩
  intro hsome
  obtain ⟨w2, hw2⟩ := Option.isSome_iff_exists.mp hsome
  have hr2 := World.runWithin_run 2 ops _ w2 hw2
  have e : w2 = w := by
    have := hr2.1
    rw [hrun] at this
    exact (Option.some.inj this).symm
  subst e
  rcases World.run_settled ops _ w2 hinv0 hs0 hw2 with hl | ⟨c, hc, hne⟩
  · exact hl
  · exact absurd (hall c hc) hne

theorem Demo.balanced_runs :
    (World.run (World.fresh Demo.pairs Demo.mem) Demo.balanced).isSome = true := by decide

/-- An instance of the round trip of admitted workloads: two blocks per Chunk, three allocations and the
three deallocations in the order of allocation. -/
theorem World.admitted_round_trip_witness :
    ∃ w, World.run (World.fresh Demo.pairs Demo.mem) Demo.balanced = some w ∧
      w.fa.blockSize_ = 2048 ∧ w.fa.numBlocks_ = 2 ∧
      (∀ c ∈ w.fa.chunks_, c.nAvailableBlocks_ = w.fa.numBlocks_) ∧
      w.fa.chunks_.length ≤ 1 :=
  ⟨Option.get _ Demo.balanced_runs, (Option.some_get Demo.balanced_runs).symm,
    (World.admitted_round_trip 2048 Demo.pairs Demo.mem Demo.balanced _ (by decide) (by decide)
      (Option.some_get Demo.balanced_runs).symm (by decide)).1,
    (World.admitted_round_trip 2048 Demo.pairs Demo.mem Demo.balanced _ (by decide) (by decide)
      (Option.some_get Demo.balanced_runs).symm (by decide)).2.1,
    (World.admitted_round_trip 2048 Demo.pairs Demo.mem Demo.balanced _ (by decide) (by decide)
      (Option.some_get Demo.balanced_runs).symm (by decide)).2.2.1,
    (World.admitted_round_trip 2048 Demo.pairs Demo.mem Demo.balanced _ (by decide) (by decide)
      (Option.some_get Demo.balanced_runs).symm (by decide)).2.2.2 (by decide)⟩

/-! ## Claims on the SmallObjAllocator -/

/-- C5 (pool order): after any sequence of `allocate(size)` and
`deallocate(p, size)` calls on a freshly constructed SmallObjAllocator the block
sizes of the pool are in strictly ascending order, so no two entries have the
same block size. -/
theorem c5_pool_order (chunkSize maxObjectSize : Nat) (mem mem1 : Mem) (ops : List PoolOp)
    (s : SmallObjAllocator)
    (h : SmallObjAllocator.run (SmallObjAllocator.construct chunkSize maxObjectSize) mem ops
      = some (s, mem1)) :
    s.sizes.Pairwise (· < ·) ∧ s.sizes.Nodup := by
  have hs := SmallObjAllocator.run_sorted ops _ s mem mem1 h
    (by simp [SmallObjAllocator.construct, SmallObjAllocator.sizes])
  exact ⟨hs, hs.imp (fun hlt => Nat.ne_of_lt hlt)⟩

theorem Demo.poolCalls_run :
    (SmallObjAllocator.run (SmallObjAllocator.construct 4096 64) Demo.mem Demo.poolCalls).isSome
      = true := by decide

/-- Witness of C5: sizes 8, 24, 16 and 1024 are allocated, the blocks of size
24 and 1024 deallocated. -/
theorem c5_pool_order_witness :
    ∃ s mem1, SmallObjAllocator.run (SmallObjAllocator.construct 4096 64) Demo.mem Demo.poolCalls
        = some (s, mem1) ∧
      s.sizes.Pairwise (· < ·) ∧ s.sizes.Nodup :=
  ⟨(Option.get _ Demo.poolCalls_run).1, (Option.get _ Demo.poolCalls_run).2,
    (Option.some_get Demo.poolCalls_run).symm,
    c5_pool_order 4096 64 Demo.mem _ Demo.poolCalls _ (Option.some_get Demo.poolCalls_run).symm⟩

/-- C7 (threshold routing): for every state and every size above
`maxObjectSize`, `allocate(size)` and `deallocate(p, size)` go to the system
allocator and return the allocator (pool, Chunks, both caches) and the memory
as they were; a size equal to `maxObjectSize` does not go to the system
allocator: a call that returns was served by a pool entry of that size. -/
theorem c7_threshold_routing (s : SmallObjAllocator) (mem : Mem) (size p : Nat) (env : SysEnv) :
    (s.maxObjectSize_ < size →
      s.allocate mem size env = some (some env.sysNew, Route.system, s, mem) ∧
      s.deallocate mem p size = some (Route.system, s, mem)) ∧
    (size = s.maxObjectSize_ →
      (∀ q r s1 mem1, s.allocate mem size env = some (q, r, s1, mem1) →
        ∃ i, r = Route.pool i ∧ (s1.pool_[i]?).map FixedAllocator.blockSize_ = some size) ∧
      (∀ r s1 mem1, s.deallocate mem p size = some (r, s1, mem1) →
        ∃ i, r = Route.pool i ∧ (s.pool_[i]?).map FixedAllocator.blockSize_ = some size)) := by
  refine ⟨fun h => ⟨SmallObjAllocator.allocate_large s mem size env h,
    SmallObjAllocator.deallocate_large s mem p size h⟩, fun h => ⟨?_, ?_⟩⟩
  · intro q r s1 mem1 ha
    exact (SmallObjAllocator.allocate_small ha (by omega)).1
  · intro r s1 mem1 hd
    exact (SmallObjAllocator.deallocate_sizes hd).2.2 (by omega)

theorem Demo.threshold_served :
    ((SmallObjAllocator.construct 4096 64).allocate Demo.mem 64 (Demo.sysEnv 4096)).isSome
      = true := by decide

/-- Witness of C7: with the threshold 64 a request of 1024 bytes goes to the
system allocator and a request of 64 bytes to the pool. -/
theorem c7_threshold_routing_witness :
    (SmallObjAllocator.construct 4096 64).allocate Demo.mem 1024 (Demo.sysEnv 4096)
      = some (some 7000000, Route.system, SmallObjAllocator.construct 4096 64, Demo.mem) ∧
    ∃ q r s1 mem1,
      (SmallObjAllocator.construct 4096 64).allocate Demo.mem 64 (Demo.sysEnv 4096)
        = some (q, r, s1, mem1) ∧
      ∃ i, r = Route.pool i ∧ (s1.pool_[i]?).map FixedAllocator.blockSize_ = some 64 :=
  ⟨((c7_threshold_routing (SmallObjAllocator.construct 4096 64) Demo.mem 1024 0
      (Demo.sysEnv 4096)).1 (by decide)).1,
   (Option.get _ Demo.threshold_served).1, (Option.get _ Demo.threshold_served).2.1,
   (Option.get _ Demo.threshold_served).2.2.1, (Option.get _ Demo.threshold_served).2.2.2,
   (Option.some_get Demo.threshold_served).symm,
   ((c7_threshold_routing (SmallObjAllocator.construct 4096 64) Demo.mem 64 0
      (Demo.sysEnv 4096)).2 rfl).1 _ _ _ _ (Option.some_get Demo.threshold_served).symm⟩

/-- C8 (non-release of pool entries): `deallocate` never changes the sequence
of block sizes of the pool; `allocate` either leaves it as it is or inserts the
requested size at its lower bound, a size an ascending pool did not hold; every
block size present before a call is present after it. -/
theorem c8_non_release (s : SmallObjAllocator) (mem : Mem) :
    (∀ p size r s1 mem1, s.deallocate mem p size = some (r, s1, mem1) → s1.sizes = s.sizes) ∧
    (∀ size env q r s1 mem1, s.allocate mem size env = some (q, r, s1, mem1) →
      (s1.sizes = s.sizes ∨
        (s1.sizes = s.sizes.take (SmallObjAllocator.lowerBound s.pool_ size)
            ++ size :: s.sizes.drop (SmallObjAllocator.lowerBound s.pool_ size) ∧
         (s.sizes.Pairwise (· < ·) → size ∉ s.sizes))) ∧
      ∀ x ∈ s.sizes, x ∈ s1.sizes) := by
  refine ⟨fun p size r s1 mem1 h => (SmallObjAllocator.deallocate_sizes h).1, ?_⟩
  intro size env q r s1 mem1 h
  by_cases hsize : size ≤ s.maxObjectSize_
  · obtain ⟨_, _, hcase, _⟩ := SmallObjAllocator.allocate_small h hsize
    rcases hcase with ⟨he, _⟩ | ⟨_, he, hnew⟩
    · exact ⟨Or.inl he, fun x hx => by rw [he]; exact hx⟩
    · refine ⟨Or.inr ⟨he, hnew⟩, fun x hx => ?_⟩
      rw [he, mem_insert_iff]
      exact Or.inr hx
  · rw [SmallObjAllocator.allocate_large s mem size env (by omega)] at h
    simp only [Option.some.injEq, Prod.mk.injEq] at h
    rw [← h.2.2.1]
    exact ⟨Or.inl rfl, fun x hx => hx⟩

theorem Demo.drain_runs :
    (((SmallObjAllocator.construct 4096 64).allocate Demo.mem 8 (Demo.sysEnv 4096)).bind
      (fun x => x.2.2.1.deallocate x.2.2.2 4096 8)).isSome = true := by decide

/-- Witness of C8: the only block of the only Chunk of the entry of size 8 is
deallocated; the pool keeps the entry. -/
theorem c8_non_release_witness :
    ∃ q r s1 mem1 r2 s2 mem2,
      (SmallObjAllocator.construct 4096 64).allocate Demo.mem 8 (Demo.sysEnv 4096)
        = some (q, r, s1, mem1) ∧
      s1.deallocate mem1 4096 8 = some (r2, s2, mem2) ∧ s2.sizes = s1.sizes := by
  obtain ⟨y, hy⟩ := Option.isSome_iff_exists.mp Demo.drain_runs
  obtain ⟨x, hx, hd⟩ := Option.bind_eq_some.mp hy
  obtain ⟨q, r, s1, mem1⟩ := x
  obtain ⟨r2, s2, mem2⟩ := y
  exact ⟨q, r, s1, mem1, r2, s2, mem2, hx, hd, (c8_non_release s1 mem1).1 4096 8 r2 s2 mem2 hd⟩

/-! ## Claims C11 to C20 -/

/-- Stores leave every byte they do not address as it was. -/
theorem Mem.writes_frame :
    ∀ (ws : List (Nat × Nat)) (mem : Mem) (a : Nat), (∀ w ∈ ws, w.1 ≠ a) →
      (mem.writes ws).load a = mem.load a := by
  intro ws
  induction ws with
  | nil => intro mem a _; rfl
  | cons w ws ih =>
    intro mem a h
    simp only [Mem.writes]
    rw [ih _ a (fun x hx => h x (List.mem_cons_of_mem _ hx))]
    exact Mem.load_store_other mem w.1 a w.2 (fun e => h w (List.mem_cons_self _ _) e.symm)

/-- C11 (allocate/deallocate round trip): for every Chunk with a free block
(block size at least 1, fields in the range of `unsigned char`), `allocate`
followed by any stores of the caller into the block and by `deallocate` of the
block fails no assertion and gives back the Chunk as it was; every byte
outside the interior of the block, in particular the first byte of every
block, reads as before the `allocate`. -/
theorem c11_round_trip (c : Chunk) (mem : Mem) (blockSize : Nat) (ws : List (Nat × Nat))
    (hbs : 1 ≤ blockSize) (hav : c.nAvailableBlocks_ ≠ 0)
    (hfirst : c.firstAvailableBlock_ < 256) (hcount : c.nAvailableBlocks_ < 256)
    (hws : ∀ w ∈ ws, c.pData_ + c.firstAvailableBlock_ * blockSize ≤ w.1 ∧
      w.1 < c.pData_ + c.firstAvailableBlock_ * blockSize + blockSize) :
    (c.allocate mem blockSize).1 = some (c.pData_ + c.firstAvailableBlock_ * blockSize) ∧
    ∃ mem2,
      (c.allocate mem blockSize).2.deallocate (mem.writes ws)
          (c.pData_ + c.firstAvailableBlock_ * blockSize) blockSize = some (c, mem2) ∧
      (∀ a, ¬ (c.pData_ + c.firstAvailableBlock_ * blockSize < a ∧
            a < c.pData_ + c.firstAvailableBlock_ * blockSize + blockSize) →
          mem2.load a = mem.load a) ∧
      (∀ k, mem2.load (c.pData_ + k * blockSize) = mem.load (c.pData_ + k * blockSize)) := by
  have hsub : c.pData_ + c.firstAvailableBlock_ * blockSize - c.pData_
      = c.firstAvailableBlock_ * blockSize := by omega
  have hmod : (c.firstAvailableBlock_ * blockSize) % blockSize = 0 := Nat.mul_mod_left _ _
  have hdiv : (c.firstAvailableBlock_ * blockSize) / blockSize = c.firstAvailableBlock_ :=
    Nat.mul_div_cancel _ hbs
  have hf : c.firstAvailableBlock_ % 256 = c.firstAvailableBlock_ := Nat.mod_eq_of_lt hfirst
  have hn : (c.nAvailableBlocks_ - 1 + 1) % 256 = c.nAvailableBlocks_ := by
    have : c.nAvailableBlocks_ - 1 + 1 = c.nAvailableBlocks_ := by omega
    rw [this]; exact Nat.mod_eq_of_lt hcount
  have hframe : ∀ a, ¬ (c.pData_ + c.firstAvailableBlock_ * blockSize < a ∧
        a < c.pData_ + c.firstAvailableBlock_ * blockSize + blockSize) →
      ((mem.writes ws).store (c.pData_ + c.firstAvailableBlock_ * blockSize)
        (mem.load (c.pData_ + c.firstAvailableBlock_ * blockSize))).load a = mem.load a := by
    intro a ha
    by_cases e : a = c.pData_ + c.firstAvailableBlock_ * blockSize
    · rw [e, Mem.load_store_same]
      exact Nat.mod_eq_of_lt (Mem.load_lt _ _)
    · rw [Mem.load_store_other _ _ _ _ e]
      apply Mem.writes_frame
      intro w hw e2
      have := hws w hw
      omega
  refine ⟨by simp [Chunk.allocate, hav], _, ?_, hframe, ?_⟩
  · simp [Chunk.allocate, hav, Chunk.deallocate, hsub, hmod, hdiv, hf, hn]
  · intro k
    apply hframe
    intro hk
    have hne : k ≠ c.firstAvailableBlock_ := by
      intro e; rw [e] at hk; omega
    exact block_byte_ne (Nat.le_of_lt hk.1) hk.2 hne rfl

/-- Witness of C11: a Chunk at 1000 with blocks of 4 bytes whose first free
block is block 1; the caller overwrites the four bytes of the block. -/
theorem c11_round_trip_witness :
    ((Chunk.mk 1000 1 2).allocate Demo.mem 4).1 = some 1004 ∧
    ∃ mem2,
      ((Chunk.mk 1000 1 2).allocate Demo.mem 4).2.deallocate
          (Demo.mem.writes [(1004, 9), (1005, 9), (1006, 9), (1007, 9)]) 1004 4
        = some (Chunk.mk 1000 1 2, mem2) ∧
      (∀ a, ¬ (1004 < a ∧ a < 1008) → mem2.load a = Demo.mem.load a) ∧
      (∀ k, mem2.load (1000 + k * 4) = Demo.mem.load (1000 + k * 4)) :=
  c11_round_trip (Chunk.mk 1000 1 2) Demo.mem 4 [(1004, 9), (1005, 9), (1006, 9), (1007, 9)]
    (by decide) (by decide) (by decide) (by decide) (by decide)

theorem FixedAllocator.numBlocksFor_ordinary {blockSize : Nat} (h1 : 1 ≤ blockSize)
    (h2 : blockSize ≤ DEFAULT_CHUNK_SIZE) :
    FixedAllocator.numBlocksFor blockSize = min (DEFAULT_CHUNK_SIZE / blockSize) 255 ∧
    1 ≤ DEFAULT_CHUNK_SIZE / blockSize := by
  have hpos : 1 ≤ DEFAULT_CHUNK_SIZE / blockSize := by
    rw [Nat.le_div_iff_mul_le (by omega)]
    omega
  refine ⟨?_, hpos⟩
  unfold FixedAllocator.numBlocksFor
  simp only []
  split_ifs with c1 c2
  · omega
  · omega
  · omega

/-- C12 (blocks per Chunk, ordinary sizes): for every block size from 1 to
`DEFAULT_CHUNK_SIZE` the constructor fails no assertion and sets `numBlocks_`
to the minimum of `DEFAULT_CHUNK_SIZE / blockSize` and 255, a value from 1 to
255; the vector is empty and both cached pointers are null. -/
theorem c12_blocks_per_chunk (blockSize : Nat) (h1 : 1 ≤ blockSize)
    (h2 : blockSize ≤ DEFAULT_CHUNK_SIZE) :
    FixedAllocator.construct blockSize
      = some { blockSize_ := blockSize,
               numBlocks_ := min (DEFAULT_CHUNK_SIZE / blockSize) 255,
               chunks_ := [], allocChunk_ := none, deallocChunk_ := none } ∧
    1 ≤ min (DEFAULT_CHUNK_SIZE / blockSize) 255 ∧
    min (DEFAULT_CHUNK_SIZE / blockSize) 255 ≤ 255 := by
  obtain ⟨hnb, hpos⟩ := FixedAllocator.numBlocksFor_ordinary h1 h2
  have hlt : min (DEFAULT_CHUNK_SIZE / blockSize) 255 < 256 := by omega
  refine ⟨?_, by omega, by omega⟩
  unfold FixedAllocator.construct
  rw [if_neg (by omega)]
  simp only [hnb, Nat.mod_eq_of_lt hlt, ne_eq, not_true_eq_false, if_false]

/-- Witness of C12: block size 16 gives 255 blocks per Chunk. -/
theorem c12_blocks_per_chunk_witness :
    FixedAllocator.construct 16
      = some { blockSize_ := 16, numBlocks_ := 255, chunks_ := [], allocChunk_ := none,
               deallocChunk_ := none } :=
  (c12_blocks_per_chunk 16 (by decide) (by decide)).1

/-- C13, what the code does: for every block size above `DEFAULT_CHUNK_SIZE`
(whose eightfold does not wrap around in `size_t`) the local `numBlocks` is
`8 * blockSize`, which is not clamped again, and the constructor fails its own
assertion `numBlocks_ == numBlocks`; narrowed to `unsigned char` the value is 8
for block size 4097 and 0 for block size 4128, not 255. -/
theorem c13_oversized_constructor :
    (∀ blockSize, DEFAULT_CHUNK_SIZE < blockSize → 8 * blockSize < 2 ^ 64 →
      FixedAllocator.numBlocksFor blockSize = 8 * blockSize ∧
      FixedAllocator.construct blockSize = none) ∧
    FixedAllocator.numBlocksFor 4097 % 256 = 8 ∧
    FixedAllocator.numBlocksFor 4128 % 256 = 0 := by
  refine ⟨?_, by decide, by decide⟩
  intro blockSize hb hsz
  have hdiv : DEFAULT_CHUNK_SIZE / blockSize = 0 := Nat.div_eq_of_lt hb
  have hnb : FixedAllocator.numBlocksFor blockSize = 8 * blockSize := by
    unfold FixedAllocator.numBlocksFor
    simp only [hdiv, Nat.mod_eq_of_lt hsz]
    simp
  refine ⟨hnb, ?_⟩
  unfold FixedAllocator.construct
  unfold DEFAULT_CHUNK_SIZE at hb
  have hne : blockSize ≠ 0 := by omega
  have hmod : (8 * blockSize) % 256 ≠ 8 * blockSize := by
    have := Nat.mod_lt (8 * blockSize) (by decide : 0 < 256)
    omega
  simp only [hne, if_false, hnb, hmod, ne_eq, not_false_eq_true, if_true]

/-- The vicinity search returns the position of the Chunk whose buffer covers
`p`, wherever it starts, when the buffers of the vector do not overlap. -/
theorem FixedAllocator.vicinityFind_covers (fa : FixedAllocator) {p j d : Nat} {cj : Chunk}
    (hapart : (fa.chunks_.map Chunk.pData_).Pairwise (Disj (fa.numBlocks_ * fa.blockSize_)))
    (hd : fa.deallocChunk_ = some d) (hdlt : d < fa.chunks_.length)
    (hj : fa.chunks_[j]? = some cj)
    (hcov : cj.covers (fa.numBlocks_ * fa.blockSize_) p = true) :
    fa.vicinityFind p = some j := by
  have hjlt : j < fa.chunks_.length := (List.getElem?_eq_some.mp hj).1
  have hemp : fa.chunks_.isEmpty = false := by
    cases hcs : fa.chunks_ with
    | nil => rw [hcs] at hjlt; simp at hjlt
    | cons _ _ => rfl
  have hhit : FixedAllocator.hit fa.chunks_ (fa.numBlocks_ * fa.blockSize_) p j = true := by
    simp only [FixedAllocator.hit, hj]; exact hcov
  unfold FixedAllocator.vicinityFind
  rw [hemp, hd]
  simp only [Bool.false_eq_true, if_false]
  obtain ⟨k, hk⟩ := FixedAllocator.vicinityLoop_complete fa.chunks_
    (fa.numBlocks_ * fa.blockSize_) p j hjlt hhit
    (fa.chunks_.length + 1) (some d)
    (if d + 1 = fa.chunks_.length then none else some (d + 1))
    (by
      intro u hu
      split at hu
      · simp at hu
      · rw [← Option.some.inj hu]; omega)
    (by
      by_cases hle : j ≤ d
      · left; exact ⟨d, rfl, hle⟩
      · right
        refine ⟨d + 1, ?_, by omega⟩
        rw [if_neg (by omega)])
    (by
      split
      · simp only [FixedAllocator.span]; omega
      · simp only [FixedAllocator.span]; omega)
  rw [hk]
  have hkhit := FixedAllocator.vicinityLoop_hit _ _ _ _ _ _ _ hk
  simp only [FixedAllocator.hit] at hkhit
  cases hck : fa.chunks_[k]? with
  | none => rw [hck] at hkhit; simp at hkhit
  | some ck =>
    rw [hck] at hkhit
    by_cases e : k = j
    · rw [e]
    · exfalso
      have hdis := apart_index hapart hck hj e
      simp only [Chunk.covers, Bool.and_eq_true, decide_eq_true_eq] at hkhit hcov
      exact hdis.not_both hkhit hcov

theorem Demo.emptyThenFull_runs :
    (World.run (World.fresh Demo.singles Demo.mem) Demo.emptyThenFull).map
      (fun w => (w.fa.summary, w.out)) = some ([(4096, 1), (8192, 0)], [8192]) := by decide

/-- `FixedAllocator::deallocate(p)` for the block `i` of the Chunk at position
`n`: the search ends at `n`, the Chunk takes the block back, and the release
of an empty Chunk runs on the vector so changed. -/
theorem FixedAllocator.deallocate_exact (fa : FixedAllocator) (mem : Mem) {p n i d : Nat}
    {c : Chunk}
    (hapart : (fa.chunks_.map Chunk.pData_).Pairwise (Disj (fa.numBlocks_ * fa.blockSize_)))
    (hd : fa.deallocChunk_ = some d) (hdlt : d < fa.chunks_.length)
    (hn : fa.chunks_[n]? = some c) (hp : p = c.pData_ + i * fa.blockSize_)
    (hi : i < fa.numBlocks_) (hN : fa.numBlocks_ ≤ 255) (hbs : 1 ≤ fa.blockSize_)
    (hav : c.nAvailableBlocks_ < 255) :
    fa.deallocate mem p
      = ((FixedAllocator.mk fa.blockSize_ fa.numBlocks_
            (fa.chunks_.set n (Chunk.mk c.pData_ i (c.nAvailableBlocks_ + 1)))
            fa.allocChunk_ (some n)).reclaim n).map
          (fun fa1 => (fa1, mem.store p c.firstAvailableBlock_)) := by
  subst hp
  have hcov := Chunk.covers_block c hbs hi
  have hfind := FixedAllocator.vicinityFind_covers fa hapart hd hdlt hn hcov
  have hemp : fa.chunks_.isEmpty = false := by
    cases hcs : fa.chunks_ with
    | nil => rw [hcs] at hdlt; simp at hdlt
    | cons _ _ => rfl
  have hsub : c.pData_ + i * fa.blockSize_ - c.pData_ = i * fa.blockSize_ := by omega
  have hmod : (i * fa.blockSize_) % fa.blockSize_ = 0 := Nat.mul_mod_left _ _
  have hdiv : (i * fa.blockSize_) / fa.blockSize_ = i := Nat.mul_div_cancel _ hbs
  have himod : i % 256 = i := Nat.mod_eq_of_lt (by omega)
  have hamod : (c.nAvailableBlocks_ + 1) % 256 = c.nAvailableBlocks_ + 1 :=
    Nat.mod_eq_of_lt (by omega)
  have hde : c.deallocate mem (c.pData_ + i * fa.blockSize_) fa.blockSize_
      = some (Chunk.mk c.pData_ i (c.nAvailableBlocks_ + 1),
              mem.store (c.pData_ + i * fa.blockSize_) c.firstAvailableBlock_) := by
    simp [Chunk.deallocate, hsub, hmod, hdiv, himod, hamod]
  simp only [Chunk.covers, Bool.and_eq_true, decide_eq_true_eq] at hcov
  unfold FixedAllocator.deallocate
  simp only [hemp, Bool.false_eq_true, if_false, hd, hdlt, not_true_eq_false, hfind]
  unfold FixedAllocator.doDeallocate
  simp only [hn, hde, hcov.1, hcov.2, not_true_eq_false, if_false]
  cases (FixedAllocator.mk fa.blockSize_ fa.numBlocks_
            (fa.chunks_.set n (Chunk.mk c.pData_ i (c.nAvailableBlocks_ + 1)))
            fa.allocChunk_ (some n)).reclaim n <;> rfl

/-- Counterexample to C16: the vector holds an empty Chunk at 4096 and a full
Chunk at 8192 whose block is handed out. `vicinityFind(8192)` returns the
second Chunk, but after `deallocate(8192)` the vector holds the Chunk at 4096
only, with the count it had: the owning Chunk was released, no Chunk of the
vector has a count raised by 1. And for the address 8193, inside the buffer of
the second Chunk but not the start of a block, `vicinityFind` returns the
second Chunk and `deallocate` stops at the alignment assertion of
`Chunk::deallocate`. -/
theorem c16_owner_released :
    (World.play (World.fresh Demo.singles Demo.mem) Demo.emptyThenFull).map
      (fun w => (w.fa.summary, w.fa.vicinityFind 8192,
        (w.fa.deallocate w.mem 8192).map (fun r => r.1.summary)))
      = some ([(4096, 1), (8192, 0)], some 1, some [(4096, 1)]) ∧
    (World.play (World.fresh Demo.singles Demo.mem) Demo.emptyThenFull).map
      (fun w => (w.fa.vicinityFind 8193, (w.fa.deallocate w.mem 8193).isNone))
      = some (some 1, true) := by decide

/-- C16 as amended (owner discovery): for every chunk vector whose Chunks own
buffers that do not overlap, every address `p` covered by the buffer of the
Chunk at position `j` and every position `d` of `deallocChunk_` inside the
vector, `vicinityFind(p)` terminates and returns `j`, and `deallocate(p)` is
`doDeallocate(p)` with `deallocChunk_` at `j`, whatever `d` was. When `p` is the
start of block `i` of that Chunk and the call does not leave the Chunk empty
(its count of free blocks plus one is below `numBlocks_`), `deallocate(p)`
succeeds and raises the count of exactly that Chunk by one: the vector has the
length it had, position `j` holds the Chunk with the count raised by one and
block `i` as first free block, every other position holds the Chunk it held,
`allocChunk_` is as it was, and the result is the same for every `d`. -/
theorem c16_owner_discovery (fa : FixedAllocator) (mem : Mem) (p j : Nat) (cj : Chunk)
    (hapart : (fa.chunks_.map Chunk.pData_).Pairwise (Disj (fa.numBlocks_ * fa.blockSize_)))
    (hj : fa.chunks_[j]? = some cj)
    (hcov : cj.covers (fa.numBlocks_ * fa.blockSize_) p = true) :
    (∀ d, d < fa.chunks_.length →
      ({ fa with deallocChunk_ := some d }).vicinityFind p = some j ∧
      ({ fa with deallocChunk_ := some d }).deallocate mem p
        = ({ fa with deallocChunk_ := some j }).doDeallocate mem p) ∧
    (∀ i, i < fa.numBlocks_ → p = cj.pData_ + i * fa.blockSize_ → 1 ≤ fa.blockSize_ →
      fa.numBlocks_ ≤ 255 → cj.nAvailableBlocks_ + 1 < fa.numBlocks_ →
      ∃ fa1,
        (∀ d, d < fa.chunks_.length →
          ({ fa with deallocChunk_ := some d }).deallocate mem p
            = some (fa1, mem.store p cj.firstAvailableBlock_)) ∧
        fa1.chunks_ = fa.chunks_.set j (Chunk.mk cj.pData_ i (cj.nAvailableBlocks_ + 1)) ∧
        fa1.chunks_.length = fa.chunks_.length ∧
        (fa1.chunks_[j]?).map Chunk.nAvailableBlocks_ = some (cj.nAvailableBlocks_ + 1) ∧
        (∀ k : Nat, k ≠ j → fa1.chunks_[k]? = fa.chunks_[k]?) ∧
        fa1.allocChunk_ = fa.allocChunk_ ∧ fa1.deallocChunk_ = some j ∧
        fa1.blockSize_ = fa.blockSize_ ∧ fa1.numBlocks_ = fa.numBlocks_) := by
  have hjlt : j < fa.chunks_.length := (List.getElem?_eq_some.mp hj).1
  constructor
  · intro d hd
    have hfind : ({ fa with deallocChunk_ := some d }).vicinityFind p = some j :=
      FixedAllocator.vicinityFind_covers { fa with deallocChunk_ := some d }
        hapart rfl hd hj hcov
    refine ⟨hfind, ?_⟩
    have hemp : fa.chunks_.isEmpty = false := by
      cases hcs : fa.chunks_ with
      | nil => rw [hcs] at hjlt; simp at hjlt
      | cons _ _ => rfl
    unfold FixedAllocator.deallocate
    simp only [hemp, Bool.false_eq_true, if_false, hd, not_true_eq_false, hfind]
  · intro i hi hp hbs hN hkeep
    have hget : (fa.chunks_.set j (Chunk.mk cj.pData_ i (cj.nAvailableBlocks_ + 1)))[j]?
        = some (Chunk.mk cj.pData_ i (cj.nAvailableBlocks_ + 1)) :=
      List.getElem?_set_self hjlt
    have hne : ¬ cj.nAvailableBlocks_ + 1 = fa.numBlocks_ := by omega
    refine ⟨FixedAllocator.mk fa.blockSize_ fa.numBlocks_
        (fa.chunks_.set j (Chunk.mk cj.pData_ i (cj.nAvailableBlocks_ + 1)))
        fa.allocChunk_ (some j), ?_, rfl, ?_, ?_, ?_, rfl, rfl, rfl, rfl⟩
    · intro d hd
      have hex := FixedAllocator.deallocate_exact (FixedAllocator.mk fa.blockSize_ fa.numBlocks_
        fa.chunks_ fa.allocChunk_ (some d)) mem hapart rfl hd hj hp hi hN hbs (by omega)
      rw [hex]
      simp only [FixedAllocator.reclaim, hget, hne, if_false, Option.map_some']
    · show (fa.chunks_.set j _).length = _
      rw [List.length_set]
    · show ((fa.chunks_.set j _)[j]?).map Chunk.nAvailableBlocks_ = _
      rw [hget]; rfl
    · intro k hk
      show (fa.chunks_.set j _)[k]? = _
      rw [List.getElem?_set_ne (fun e => hk e.symm)]

/-- Witness of C16 as amended: two Chunks of two blocks of 2048 bytes, all
handed out; the search for the block at 10240 returns the second Chunk from
either start position and `deallocate(10240)` raises the count of that Chunk
from 0 to 1. -/
theorem c16_owner_discovery_witness :
    ({ Demo.twoFull with deallocChunk_ := some 0 }).vicinityFind 10240 = some 1 ∧
    ({ Demo.twoFull with deallocChunk_ := some 1 }).vicinityFind 10240 = some 1 ∧
    ∃ fa1,
      (∀ d, d < Demo.twoFull.chunks_.length →
        ({ Demo.twoFull with deallocChunk_ := some d }).deallocate Demo.mem 10240
          = some (fa1, Demo.mem.store 10240 (Chunk.mk 8192 2 0).firstAvailableBlock_)) ∧
      fa1.chunks_ = Demo.twoFull.chunks_.set 1
        (Chunk.mk (Chunk.mk 8192 2 0).pData_ 1 ((Chunk.mk 8192 2 0).nAvailableBlocks_ + 1)) ∧
      fa1.chunks_.length = Demo.twoFull.chunks_.length ∧
      (fa1.chunks_[1]?).map Chunk.nAvailableBlocks_
        = some ((Chunk.mk 8192 2 0).nAvailableBlocks_ + 1) ∧
      (∀ k : Nat, k ≠ 1 → fa1.chunks_[k]? = Demo.twoFull.chunks_[k]?) ∧
      fa1.allocChunk_ = Demo.twoFull.allocChunk_ ∧ fa1.deallocChunk_ = some 1 ∧
      fa1.blockSize_ = Demo.twoFull.blockSize_ ∧ fa1.numBlocks_ = Demo.twoFull.numBlocks_ :=
  ⟨((c16_owner_discovery Demo.twoFull Demo.mem 10240 1 (Chunk.mk 8192 2 0)
      (by decide) (by decide) (by decide)).1 0 (by decide)).1,
   ((c16_owner_discovery Demo.twoFull Demo.mem 10240 1 (Chunk.mk 8192 2 0)
      (by decide) (by decide) (by decide)).1 1 (by decide)).1,
   (c16_owner_discovery Demo.twoFull Demo.mem 10240 1 (Chunk.mk 8192 2 0)
      (by decide) (by decide) (by decide)).2 1 (by decide) (by decide) (by decide) (by decide)
      (by decide)⟩

/-! ### The caches of the SmallObjAllocator -/

theorem SmallObjAllocator.delegateAllocate_caches {s s1 : SmallObjAllocator} {mem mem1 : Mem}
    {env : AllocEnv} {i : Nat} {p : Option Nat} {r : Route}
    (h : s.delegateAllocate mem env i = some (p, r, s1, mem1)) (hc : s.CachesValid) :
    s1.CachesValid := by
  unfold SmallObjAllocator.delegateAllocate at h
  split at h
  · simp at h
  · split at h
    · simp at h
    · simp only [Option.some.injEq, Prod.mk.injEq] at h
      rw [← h.2.2.1]
      exact ⟨fun a ha => by simp only [List.length_set]; exact hc.1 a ha,
        fun d hd => by simp only [List.length_set]; exact hc.2 d hd⟩

theorem SmallObjAllocator.delegateDeallocate_caches {s s1 : SmallObjAllocator} {mem mem1 : Mem}
    {i p : Nat} {r : Route}
    (h : s.delegateDeallocate mem p i = some (r, s1, mem1)) (hc : s.CachesValid) :
    s1.CachesValid := by
  unfold SmallObjAllocator.delegateDeallocate at h
  split at h
  · simp at h
  · split at h
    · simp at h
    · simp only [Option.some.injEq, Prod.mk.injEq] at h
      rw [← h.2.1]
      exact ⟨fun a ha => by simp only [List.length_set]; exact hc.1 a ha,
        fun d hd => by simp only [List.length_set]; exact hc.2 d hd⟩

/-- Every call keeps the caches null or inside the pool. -/
theorem SmallObjAllocator.step_caches {s s1 : SmallObjAllocator} {mem mem1 : Mem} {op : PoolOp}
    (h : s.step mem op = some (s1, mem1)) (hc : s.CachesValid) : s1.CachesValid := by
  cases op with
  | allocate size env =>
    simp only [SmallObjAllocator.step] at h
    cases ha : s.allocate mem size env with
    | none => rw [ha] at h; simp at h
    | some res =>
      obtain ⟨p, r, s2, mem2⟩ := res
      rw [ha] at h
      simp only [Option.map_some', Option.some.injEq, Prod.mk.injEq] at h
      rw [← h.1]
      have hsearch : ∀ {p : Option Nat} {r : Route} {s2 : SmallObjAllocator} {mem2 : Mem},
          s.searchAllocate mem size env.chunkEnv = some (p, r, s2, mem2) → s2.CachesValid := by
        intro p r s2 mem2 hs
        unfold SmallObjAllocator.searchAllocate at hs
        simp only [] at hs
        have hle := SmallObjAllocator.lowerBound_le s.pool_ size
        split_ifs at hs with hnot
        · split at hs
          · simp at hs
          · apply SmallObjAllocator.delegateAllocate_caches hs
            constructor
            · intro a ha
              simp only [Option.some.injEq] at ha
              simp only [List.length_append, List.length_take, List.length_cons,
                List.length_drop]
              omega
            · intro d hd
              simp only [Option.some.injEq] at hd
              simp only [List.length_append, List.length_take, List.length_cons,
                List.length_drop]
              omega
        · apply SmallObjAllocator.delegateAllocate_caches hs
          refine ⟨?_, hc.2⟩
          intro a ha
          simp only [Option.some.injEq] at ha
          have : SmallObjAllocator.lowerBound s.pool_ size ≠ s.pool_.length :=
            fun e => hnot (Or.inl e)
          show a < s.pool_.length
          omega
      unfold SmallObjAllocator.allocate at ha
      split_ifs at ha
      · simp only [Option.some.injEq, Prod.mk.injEq] at ha
        rw [← ha.2.2.1]; exact hc
      · split at ha
        · exact hsearch ha
        · split at ha
          · simp at ha
          · split_ifs at ha
            · exact SmallObjAllocator.delegateAllocate_caches ha hc
            · exact hsearch ha
  | deallocate p size =>
    simp only [SmallObjAllocator.step] at h
    cases hd : s.deallocate mem p size with
    | none => rw [hd] at h; simp at h
    | some res =>
      obtain ⟨r, s2, mem2⟩ := res
      rw [hd] at h
      simp only [Option.map_some', Option.some.injEq, Prod.mk.injEq] at h
      rw [← h.1]
      have hsearch : ∀ {r : Route} {s2 : SmallObjAllocator} {mem2 : Mem},
          s.searchDeallocate mem p size = some (r, s2, mem2) → s2.CachesValid := by
        intro r s2 mem2 hs
        unfold SmallObjAllocator.searchDeallocate at hs
        simp only [] at hs
        split at hs
        · simp at hs
        · rename_i fa hfa
          split_ifs at hs
          apply SmallObjAllocator.delegateDeallocate_caches hs
          refine ⟨hc.1, ?_⟩
          intro d hd2
          simp only [Option.some.injEq] at hd2
          rw [← hd2]
          exact (List.getElem?_eq_some.mp hfa).1
      unfold SmallObjAllocator.deallocate at hd
      split_ifs at hd
      · simp only [Option.some.injEq, Prod.mk.injEq] at hd
        rw [← hd.2.1]; exact hc
      · split at hd
        · exact hsearch hd
        · split at hd
          · simp at hd
          · split_ifs at hd
            · exact SmallObjAllocator.delegateDeallocate_caches hd hc
            · exact hsearch hd

theorem SmallObjAllocator.run_caches :
    ∀ (ops : List PoolOp) (s s1 : SmallObjAllocator) (mem mem1 : Mem),
      SmallObjAllocator.run s mem ops = some (s1, mem1) → s.CachesValid → s1.CachesValid := by
  intro ops
  induction ops with
  | nil =>
    intro s s1 mem mem1 h hc
    simp only [SmallObjAllocator.run, Option.some.injEq, Prod.mk.injEq] at h
    rw [← h.1]; exact hc
  | cons op ops ih =>
    intro s s1 mem mem1 h hc
    simp only [SmallObjAllocator.run] at h
    cases hst : s.step mem op with
    | none => rw [hst] at h; simp at h
    | some res =>
      obtain ⟨s2, mem2⟩ := res
      rw [hst] at h
      exact ih s2 s1 mem2 mem1 h (SmallObjAllocator.step_caches hst hc)

/-- In an ascending pool the entry at the lower bound of a size has that size
exactly when the pool holds the size. -/
theorem SmallObjAllocator.lowerBound_found {pool : List FixedAllocator} (size : Nat)
    (hs : pool.Pairwise (fun a b => a.blockSize_ < b.blockSize_)) :
    (pool[SmallObjAllocator.lowerBound pool size]?).map FixedAllocator.blockSize_ = some size ↔
      size ∈ pool.map FixedAllocator.blockSize_ := by
  constructor
  · intro h
    cases hget : pool[SmallObjAllocator.lowerBound pool size]? with
    | none => rw [hget] at h; simp at h
    | some fa =>
      rw [hget] at h
      simp only [Option.map_some', Option.some.injEq] at h
      exact List.mem_map.mpr ⟨fa, List.mem_iff_getElem?.mpr ⟨_, hget⟩, h⟩
  · intro hin
    by_contra hne
    exact (@SmallObjAllocator.insert_sorted pool size ⟨size, 0, [], none, none⟩ rfl hs
      (Or.inr hne)).2 hin

/-- In an ascending pool at most one position holds a given block size. -/
theorem SmallObjAllocator.index_unique {pool : List FixedAllocator} {size i k : Nat}
    (hs : pool.Pairwise (fun a b => a.blockSize_ < b.blockSize_))
    (hi : (pool[i]?).map FixedAllocator.blockSize_ = some size)
    (hk : (pool[k]?).map FixedAllocator.blockSize_ = some size) : k = i := by
  cases hgi : pool[i]? with
  | none => rw [hgi] at hi; simp at hi
  | some a =>
    cases hgk : pool[k]? with
    | none => rw [hgk] at hk; simp at hk
    | some b =>
      rw [hgi] at hi
      rw [hgk] at hk
      simp only [Option.map_some', Option.some.injEq] at hi hk
      obtain ⟨hi1, hi2⟩ := List.getElem?_eq_some.mp hgi
      obtain ⟨hk1, hk2⟩ := List.getElem?_eq_some.mp hgk
      have hp := List.pairwise_iff_getElem.mp hs
      rcases Nat.lt_trichotomy k i with hlt | heq | hgt
      · have := hp k i hk1 hi1 hlt
        rw [hi2, hk2] at this
        omega
      · exact heq
      · have := hp i k hi1 hk1 hgt
        rw [hi2, hk2] at this
        omega

/-- C17: in every state reached from a fresh SmallObjAllocator,
`deallocate(p, size)` with `size <= maxObjectSize` fails its exact-match
assertion if and only if the pool holds no FixedAllocator of block size `size`;
when the pool holds one, it is at exactly one position and the call is the call
of that entry. -/
theorem c17_exact_match (chunkSize maxObjectSize : Nat) (mem mem1 mem2 : Mem)
    (ops : List PoolOp) (s : SmallObjAllocator) (size p : Nat)
    (hrun : SmallObjAllocator.run (SmallObjAllocator.construct chunkSize maxObjectSize) mem ops
      = some (s, mem1))
    (hsize : size ≤ s.maxObjectSize_) :
    (s.exactMatchFails size = true ↔ size ∉ s.sizes) ∧
    (s.exactMatchFails size = true → s.deallocate mem2 p size = none) ∧
    (size ∈ s.sizes →
      ∃ i, (s.pool_[i]?).map FixedAllocator.blockSize_ = some size ∧
        (∀ k, (s.pool_[k]?).map FixedAllocator.blockSize_ = some size → k = i) ∧
        (s.deallocate mem2 p size = s.delegateDeallocate mem2 p i ∨
         s.deallocate mem2 p size
           = ({ s with pLastDealloc_ := some i }).delegateDeallocate mem2 p i)) := by
  have hsorted : s.pool_.Pairwise (fun a b => a.blockSize_ < b.blockSize_) :=
    (SmallObjAllocator.sorted_iff s).mp
      (SmallObjAllocator.run_sorted ops _ s mem mem1 hrun
        (by simp [SmallObjAllocator.construct, SmallObjAllocator.sizes]))
  have hcaches : s.CachesValid :=
    SmallObjAllocator.run_caches ops _ s mem mem1 hrun
      ⟨by simp [SmallObjAllocator.construct], by simp [SmallObjAllocator.construct]⟩
  have hfound := SmallObjAllocator.lowerBound_found size hsorted
  have hnl : ¬ s.maxObjectSize_ < size := by omega
  -- the outcome of the two assertions after the search
  have hsearch : (match s.pool_[SmallObjAllocator.lowerBound s.pool_ size]? with
      | none => true
      | some fa => decide (fa.blockSize_ ≠ size)) = true ↔ size ∉ s.sizes := by
    unfold SmallObjAllocator.sizes
    rw [← hfound]
    cases s.pool_[SmallObjAllocator.lowerBound s.pool_ size]? with
    | none => simp
    | some fa => simp
  have hsearchNone : (match s.pool_[SmallObjAllocator.lowerBound s.pool_ size]? with
      | none => true
      | some fa => decide (fa.blockSize_ ≠ size)) = true →
      s.searchDeallocate mem2 p size = none := by
    intro h
    unfold SmallObjAllocator.searchDeallocate
    simp only []
    cases hg : s.pool_[SmallObjAllocator.lowerBound s.pool_ size]? with
    | none => rfl
    | some fa =>
      rw [hg] at h
      simp only [decide_eq_true_eq] at h
      simp [h]
  have hsearchSome : size ∈ s.sizes →
      s.searchDeallocate mem2 p size
        = ({ s with pLastDealloc_ := some (SmallObjAllocator.lowerBound s.pool_ size) }
            ).delegateDeallocate mem2 p (SmallObjAllocator.lowerBound s.pool_ size) := by
    intro hin
    have h := hfound.mpr hin
    unfold SmallObjAllocator.searchDeallocate
    simp only []
    cases hg : s.pool_[SmallObjAllocator.lowerBound s.pool_ size]? with
    | none => rw [hg] at h; simp at h
    | some fa =>
      rw [hg] at h
      simp only [Option.map_some', Option.some.injEq] at h
      simp [h]
  refine ⟨?_, ?_, ?_⟩
  · unfold SmallObjAllocator.exactMatchFails
    rw [if_neg hnl]
    simp only []
    cases hd : s.pLastDealloc_ with
    | none => exact hsearch
    | some d =>
      have hdlt := hcaches.2 d hd
      simp only [List.getElem?_eq_getElem hdlt]
      by_cases hb : (s.pool_[d]).blockSize_ = size
      · rw [if_pos hb]
        constructor
        · intro h; simp at h
        · intro hnot
          exfalso
          apply hnot
          unfold SmallObjAllocator.sizes
          exact List.mem_map.mpr ⟨_, List.getElem_mem _, hb⟩
      · rw [if_neg hb]; exact hsearch
  · unfold SmallObjAllocator.exactMatchFails SmallObjAllocator.deallocate
    rw [if_neg hnl, if_neg hnl]
    simp only []
    cases hd : s.pLastDealloc_ with
    | none => exact hsearchNone
    | some d =>
      have hdlt := hcaches.2 d hd
      simp only [List.getElem?_eq_getElem hdlt]
      by_cases hb : (s.pool_[d]).blockSize_ = size
      · rw [if_pos hb]; intro h; simp at h
      · rw [if_neg hb, if_neg hb]; exact hsearchNone
  · intro hin
    refine ⟨SmallObjAllocator.lowerBound s.pool_ size, hfound.mpr hin,
      fun k hk => SmallObjAllocator.index_unique hsorted (hfound.mpr hin) hk, ?_⟩
    unfold SmallObjAllocator.deallocate
    rw [if_neg hnl]
    cases hd : s.pLastDealloc_ with
    | none => right; exact hsearchSome hin
    | some d =>
      have hdlt := hcaches.2 d hd
      simp only [List.getElem?_eq_getElem hdlt]
      by_cases hb : (s.pool_[d]).blockSize_ = size
      · rw [if_pos hb]
        left
        have : d = SmallObjAllocator.lowerBound s.pool_ size :=
          SmallObjAllocator.index_unique hsorted (hfound.mpr hin)
            (by rw [List.getElem?_eq_getElem hdlt]; simp [hb])
        rw [this]
      · rw [if_neg hb]
        right
        exact hsearchSome hin

/-- Witness of C17: after requests of sizes 8, 24 and 16 a deallocation of
size 32 fails the assertion. -/
theorem c17_exact_match_witness :
    ∃ s mem1, SmallObjAllocator.run (SmallObjAllocator.construct 4096 64) Demo.mem Demo.poolCalls
        = some (s, mem1) ∧
      (s.exactMatchFails 32 = true ↔ 32 ∉ s.sizes) ∧
      (s.exactMatchFails 32 = true → s.deallocate Demo.mem 0 32 = none) :=
  ⟨(Option.get _ Demo.poolCalls_run).1, (Option.get _ Demo.poolCalls_run).2,
    (Option.some_get Demo.poolCalls_run).symm,
    (c17_exact_match 4096 64 Demo.mem _ Demo.mem Demo.poolCalls _ 32 0
      (Option.some_get Demo.poolCalls_run).symm (by decide)).1,
    (c17_exact_match 4096 64 Demo.mem _ Demo.mem Demo.poolCalls _ 32 0
      (Option.some_get Demo.poolCalls_run).symm (by decide)).2.1⟩

/-- The value `Chunk::init` returns is not looked at. Were `new` to give null
when `FixedAllocator(2048)` creates its first Chunk (`Chunk::init` returns
false), `allocate()` would go on: it pushes the Chunk with
the null buffer and the indeterminate fields of `newChunk` (here first free
block 1, four free blocks) and returns the address `0 + 1 * 2048`, not null;
the Chunk with the missing buffer stays in the vector. The `new` of
`Chunk::init` is the throwing one, which gives no null. -/
theorem FixedAllocator.allocate_ignores_init :
    (FixedAllocator.construct 2048).bind (fun fa =>
      (fa.allocate Demo.mem
        { pastEnd := 0, newData := 0,
          uninit := { pData_ := 77, firstAvailableBlock_ := 1, nAvailableBlocks_ := 4 } }).map
        (fun r => (r.1, r.2.1.summary)))
      = some (some 2048, [(0, 3)]) ∧
    (∀ (c : Chunk) (mem : Mem) (blockSize numBlocks : Nat),
      (c.init mem 0 blockSize numBlocks).1 = false ∧
      (c.init mem 0 blockSize numBlocks).2.1.pData_ = 0) := by
  refine ⟨by decide, ?_⟩
  intro c mem blockSize numBlocks
  simp [Chunk.init]


/-- Growth under pure allocation where every read at `end()` sees no free
block. On a freshly constructed FixedAllocator,
a sequence of `n` calls of `allocate` that is supplied with buffers runs; the
vector then holds `n` divided by `numBlocks_`, rounded up, Chunks; `n` blocks
are handed out, no two of them the same; the call number `k` (from 0) returned
block `k mod numBlocks_` of the Chunk at position `k div numBlocks_`; and for
block size 16 and 300 calls the vector holds two Chunks. `out` lists the
returned blocks, the latest first. -/
theorem World.admitted_growth (blockSize : Nat) (fa : FixedAllocator) (mem : Mem) (envs : List AllocEnv)
    (hfa : FixedAllocator.construct blockSize = some fa) (hsz : 8 * blockSize < 2 ^ 64)
    (hsup : (World.fresh fa mem).Supplies envs) :
    ∃ w, World.run (World.fresh fa mem) (envs.map Op.allocate) = some w ∧
      w.fa.chunks_.length = (envs.length + fa.numBlocks_ - 1) / fa.numBlocks_ ∧
      w.out.length = envs.length ∧ w.out.Nodup ∧
      (∀ k, k < envs.length → ∃ c, w.fa.chunks_[k / fa.numBlocks_]? = some c ∧
        w.out.reverse[k]? = some (c.pData_ + (k % fa.numBlocks_) * blockSize)) ∧
      (blockSize = 16 → envs.length = 300 → w.fa.chunks_.length = 2) := by
  obtain ⟨w, q, r, hrun, hg, hlen, hb1, hb2⟩ :=
    World.Grown.run_grown envs _ 0 0 (World.fresh_grown mem hfa hsz) hsup
  have hbs : fa.blockSize_ = blockSize := (FixedAllocator.construct_some hfa hsz).1
  have hlen1 : w.out.length = envs.length := by rw [hlen]; simp [World.fresh]
  have hb1 : w.fa.blockSize_ = blockSize := by rw [hb1]; exact hbs
  have hb2 : w.fa.numBlocks_ = fa.numBlocks_ := hb2
  have hlength := hg.chunks_length
  rw [hlen1, hb2] at hlength
  refine ⟨w, hrun, hlength, hlen1, hg.inv.chunks.out_nodup, ?_, ?_⟩
  · intro k hk
    have := hg.order k (by rw [hlen1]; exact hk)
    rw [hb1, hb2] at this
    exact this
  · intro h16 h300
    have hN : fa.numBlocks_ = 255 := by
      rw [h16] at hfa
      have e : FixedAllocator.construct 16 = some ⟨16, 255, [], none, none⟩ := by decide
      rw [e] at hfa
      rw [← Option.some.inj hfa]
    rw [hlength, h300, hN]

theorem World.admitted_growth_witness :
    FixedAllocator.construct 2048 = some Demo.pairs ∧
    8 * 2048 < 2 ^ 64 ∧
    (World.fresh Demo.pairs Demo.mem).Supplies Demo.threeEnvs ∧
    ∃ w, World.run (World.fresh Demo.pairs Demo.mem) (Demo.threeEnvs.map Op.allocate) = some w ∧
      w.fa.chunks_.length = (Demo.threeEnvs.length + Demo.pairs.numBlocks_ - 1)
        / Demo.pairs.numBlocks_ ∧
      w.out.length = Demo.threeEnvs.length ∧ w.out.Nodup ∧
      (∀ k, k < Demo.threeEnvs.length →
        ∃ c, w.fa.chunks_[k / Demo.pairs.numBlocks_]? = some c ∧
          w.out.reverse[k]? = some (c.pData_ + (k % Demo.pairs.numBlocks_) * 2048)) ∧
      (2048 = 16 → Demo.threeEnvs.length = 300 → w.fa.chunks_.length = 2) :=
  ⟨by decide, by decide, by decide,
   World.admitted_growth 2048 Demo.pairs Demo.mem Demo.threeEnvs (by decide) (by decide) (by decide)⟩


/-- C14, what the code does: `FixedAllocator(16)` has 255 blocks per Chunk and
an empty vector. When the read its first `allocate()` makes at `end()` gives 1,
the call creates no Chunk and leaves the vector (`allocate` is `none`): after
one call the vector does not hold one Chunk, and no block 0 of a Chunk 0 is
returned. -/
theorem c14_no_first_chunk :
    (FixedAllocator.construct 16).map (fun fa => (fa.numBlocks_, fa.chunks_.length))
      = some (255, 0) ∧
    ((FixedAllocator.construct 16).bind
      (fun fa => fa.allocate Demo.mem (Demo.envOne 4096))).isNone = true ∧
    ((FixedAllocator.construct 16).bind
      (fun fa => World.play (World.fresh fa Demo.mem)
        [Op.allocate (Demo.envOne 4096)])).isNone = true := by
  decide

/-- Drain where every read at `end()` sees no free block. On a freshly
constructed FixedAllocator, a sequence
of at least one call of `allocate` that is supplied with buffers, followed by
the `deallocate` of every returned block, the latest first, runs; at the end no
block is handed out, and the vector holds exactly one Chunk, whose blocks are
all free. -/
theorem World.admitted_drain (blockSize : Nat) (fa : FixedAllocator) (mem : Mem) (envs : List AllocEnv)
    (hfa : FixedAllocator.construct blockSize = some fa) (hsz : 8 * blockSize < 2 ^ 64)
    (hsup : (World.fresh fa mem).Supplies envs) (hne : 1 ≤ envs.length) :
    ∃ w1 w2, World.run (World.fresh fa mem) (envs.map Op.allocate) = some w1 ∧
      w1.out.length = envs.length ∧
      World.run w1 (w1.out.map Op.deallocate) = some w2 ∧
      w2.out = [] ∧ w2.fa.chunks_.length = 1 ∧
      (∀ c ∈ w2.fa.chunks_, c.nAvailableBlocks_ = w2.fa.numBlocks_) ∧
      w2.fa.numBlocks_ = fa.numBlocks_ := by
  obtain ⟨w1, q, r, hrun, hg, hlen, _, hb2⟩ :=
    World.Grown.run_grown envs _ 0 0 (World.fresh_grown mem hfa hsz) hsup
  have hlen1 : w1.out.length = envs.length := by rw [hlen]; simp [World.fresh]
  have hout : w1.out ≠ [] := by
    intro e
    rw [e, List.length_nil] at hlen1
    omega
  obtain ⟨q1, t1, hd⟩ := hg.draining hout
  obtain ⟨w2, hrun2, h1, h2, h3, h4⟩ := World.Draining.run_drained _ w1 q1 t1 hd rfl
  exact ⟨w1, w2, hrun, hlen1, hrun2, h1, h2, by rw [h4]; exact h3, by rw [h4]; exact hb2⟩

theorem World.admitted_drain_witness :
    FixedAllocator.construct 2048 = some Demo.pairs ∧
    8 * 2048 < 2 ^ 64 ∧
    (World.fresh Demo.pairs Demo.mem).Supplies Demo.threeEnvs ∧
    1 ≤ Demo.threeEnvs.length ∧
    ∃ w1 w2, World.run (World.fresh Demo.pairs Demo.mem) (Demo.threeEnvs.map Op.allocate)
        = some w1 ∧
      w1.out.length = Demo.threeEnvs.length ∧
      World.run w1 (w1.out.map Op.deallocate) = some w2 ∧
      w2.out = [] ∧ w2.fa.chunks_.length = 1 ∧
      (∀ c ∈ w2.fa.chunks_, c.nAvailableBlocks_ = w2.fa.numBlocks_) ∧
      w2.fa.numBlocks_ = Demo.pairs.numBlocks_ :=
  ⟨by decide, by decide, by decide, by decide,
   World.admitted_drain 2048 Demo.pairs Demo.mem Demo.threeEnvs (by decide) (by decide) (by decide)
     (by decide)⟩


/-- C15, what the code does: on `FixedAllocator(4096)` the first `allocate()`
whose read at `end()` gives 1 creates no Chunk and leaves the vector
(`allocate` is `none`); on the vector, empty as before, every `deallocate`
stops at its first assertion, `!chunks_.empty()`, so one allocation followed by
its deallocation does not end with one empty Chunk. -/
theorem c15_nothing_to_drain :
    FixedAllocator.construct 4096 = some Demo.singles ∧
    (Demo.singles.allocate Demo.mem (Demo.envOne 4096)).isNone = true ∧
    (∀ (mem : Mem) (p : Nat), Demo.singles.deallocate mem p = none) ∧
    (World.play (World.fresh Demo.singles Demo.mem)
      [Op.allocate (Demo.envOne 4096), Op.deallocate 4096]).isNone = true := by
  refine ⟨by decide, by decide, fun mem p => rfl, by decide⟩

/-- C19: copy construction shares the Chunks. For an original FixedAllocator
at `a` whose Chunks are all empty, every sequence of copy constructions (from
any object alive, into fresh storage) and destructions (of any object alive)
runs; the objects alive form one ring of `next_` and `prev_` links, and each
holds the Chunks of the original; as long as an
object is alive no buffer has been released, so a destruction that leaves
another copy alive releases nothing; and when no object is alive the buffers
of the Chunks have been released, each once. -/
theorem c19_copies_share (fa : FixedAllocator) (a : Nat) (ops : List RingOp) (live : List Nat)
    (hempty : ∀ c ∈ fa.chunks_, c.nAvailableBlocks_ = fa.numBlocks_)
    (hops : RingOp.trackAll [a] ops = some live) :
    ∃ h, Heap.run (Heap.single a fa) ops = some h ∧
      (∃ cyc, cyc.Perm live ∧ h.Ring fa cyc) ∧
      (∀ x, h.objs x ≠ none ↔ x ∈ live) ∧
      (∀ x n, h.objs x = some n → n.fa = fa) ∧
      (live ≠ [] → h.released = []) ∧
      (live = [] → h.released = fa.chunks_.map Chunk.pData_) := by
  obtain ⟨h, cyc, hrun, hr, hperm, h1, h2⟩ :=
    Heap.Ring.run_ring fa hempty ops (Heap.single a fa) [a] [a] live (Heap.single_ring a fa)
      (List.Perm.refl _) (by simp) rfl hops
  refine ⟨h, hrun, ⟨cyc, hperm, hr⟩, ?_, hr.same, h1, h2⟩
  intro x
  rw [hr.alive x]
  exact hperm.mem_iff

theorem c19_copies_share_witness :
    (∀ c ∈ Demo.idle.chunks_, c.nAvailableBlocks_ = Demo.idle.numBlocks_) ∧
    RingOp.trackAll [1] Demo.copies = some [] ∧
    ∃ h, Heap.run (Heap.single 1 Demo.idle) Demo.copies = some h ∧
      (∃ cyc, cyc.Perm ([] : List Nat) ∧ h.Ring Demo.idle cyc) ∧
      (∀ x, h.objs x ≠ none ↔ x ∈ ([] : List Nat)) ∧
      (∀ x n, h.objs x = some n → n.fa = Demo.idle) ∧
      (([] : List Nat) ≠ [] → h.released = []) ∧
      (([] : List Nat) = [] → h.released = Demo.idle.chunks_.map Chunk.pData_) :=
  ⟨by decide, by decide,
   c19_copies_share Demo.idle 1 Demo.copies [] (by decide) (by decide)⟩


/-- C20: copy assignment does not share the Chunks. For the objects `a` at 1,
which holds an empty Chunk at 4096, and `b` at 2, which holds an empty Chunk at
8192, each constructed on its own, `b = a` runs and leaves `b` with the Chunk
at 4096 and with `next_` and `prev_` pointing to itself; the destruction of `a`
then releases the buffer at 4096 while `b` is alive, the destruction of `b`
releases it a second time, and the buffer at 8192 is never released. -/
theorem c20_double_release :
    (∃ h, Heap.assign Demo.pair 2 1 3 = some h ∧
      (h.objs 2).map (fun n => (n.fa.chunks_.map Chunk.pData_, n.next_, n.prev_))
        = some ([4096], 2, 2) ∧
      (h.objs 1).map (fun n => (n.fa.chunks_.map Chunk.pData_, n.next_, n.prev_))
        = some ([4096], 1, 1) ∧
      (h.objs 3).isNone = true ∧ h.released = []) ∧
    ((Heap.assign Demo.pair 2 1 3).bind (fun h => h.destroy 1)).map
        (fun h => (h.released, (h.objs 2).isSome)) = some ([4096], true) ∧
    (((Heap.assign Demo.pair 2 1 3).bind (fun h => h.destroy 1)).bind
        (fun h => h.destroy 2)).map Heap.released = some [4096, 4096] := by
  refine ⟨⟨_, rfl, ?_, ?_, ?_, ?_⟩, ?_, ?_⟩ <;> decide


/-- C21: Phoenix revival. With the `Phoenix` lifetime policy, the call of
`instance()` that follows `destroySingleton`, when `create()` does not return
null, throws nothing and returns the instance `create()` made; it calls
`onDeadReference`, `create` and `scheduleDestruction`, in this order, leaves
`destroyed_` false, and registers `destroySingleton` with `std::atexit` once more. -/
theorem c21_phoenix_revival (pr pr1 : Program) (created : Nat)
    (hd : pr.destroySingleton = some pr1) (hc : created ≠ 0) :
    pr1.instanceCall LifetimePolicy.Phoenix created
      = ({ holder := { pInstance_ := created, destroyed_ := false },
           registrations := pr1.registrations + 1,
           calls := pr1.calls ++ [PolicyCall.onDeadReference, PolicyCall.create,
             PolicyCall.scheduleDestruction created] },
         Outcome.returned created) := by
  obtain ⟨h1, _, _⟩ := Program.destroySingleton_holder hd
  obtain ⟨holder, registrations, calls⟩ := pr1
  simp only at h1
  subst h1
  simp [Program.instanceCall, Program.makeInstance, Program.revive,
    LifetimePolicy.onDeadReference, LifetimePolicy.scheduleDestruction, hc]

theorem c21_phoenix_revival_witness :
    (Program.instanceCall LifetimePolicy.Phoenix 100 Program.start).1.destroySingleton
      = some { holder := { pInstance_ := 0, destroyed_ := true }, registrations := 1,
               calls := [PolicyCall.create, PolicyCall.scheduleDestruction 100,
                 PolicyCall.destroy 100] } ∧
    200 ≠ 0 ∧
    Program.instanceCall LifetimePolicy.Phoenix 200
        { holder := { pInstance_ := 0, destroyed_ := true }, registrations := 1,
          calls := [PolicyCall.create, PolicyCall.scheduleDestruction 100,
            PolicyCall.destroy 100] }
      = ({ holder := { pInstance_ := 200, destroyed_ := false },
           registrations := 1 + 1,
           calls := [PolicyCall.create, PolicyCall.scheduleDestruction 100,
               PolicyCall.destroy 100]
             ++ [PolicyCall.onDeadReference, PolicyCall.create,
               PolicyCall.scheduleDestruction 200] },
         Outcome.returned 200) :=
  ⟨by decide, by decide,
   c21_phoenix_revival (Program.instanceCall LifetimePolicy.Phoenix 100 Program.start).1 _ 200
     (by decide) (by decide)⟩

/-- C22: dead reference. With the `Default` lifetime policy, every call of
`instance()` after `destroySingleton` throws `std::logic_error`; the calls do
not call `create` (each only calls `onDeadReference`), register nothing with
`std::atexit`, and leave the holder at `pInstance_ = nullptr`, `destroyed_ = true`. -/
theorem c22_dead_reference (pr pr1 : Program) (envs : List Nat)
    (hd : pr.destroySingleton = some pr1) :
    pr1.holder = { pInstance_ := 0, destroyed_ := true } ∧
    Program.instances LifetimePolicy.Default pr1 envs
      = ({ holder := { pInstance_ := 0, destroyed_ := true },
           registrations := pr1.registrations,
           calls := pr1.calls ++ List.replicate envs.length PolicyCall.onDeadReference },
         List.replicate envs.length (Outcome.raised Raised.logic_error)) := by
  obtain ⟨h1, _, _⟩ := Program.destroySingleton_holder hd
  refine ⟨h1, ?_⟩
  rw [Program.instances_dead envs pr1 h1, ← h1]

theorem c22_dead_reference_witness :
    (Program.instanceCall LifetimePolicy.Default 100 Program.start).1.destroySingleton
      = some { holder := { pInstance_ := 0, destroyed_ := true }, registrations := 1,
               calls := [PolicyCall.create, PolicyCall.scheduleDestruction 100,
                 PolicyCall.destroy 100] } ∧
    ({ holder := { pInstance_ := 0, destroyed_ := true }, registrations := 1,
       calls := [PolicyCall.create, PolicyCall.scheduleDestruction 100,
         PolicyCall.destroy 100] } : Program).holder
      = { pInstance_ := 0, destroyed_ := true } ∧
    Program.instances LifetimePolicy.Default
        { holder := { pInstance_ := 0, destroyed_ := true }, registrations := 1,
          calls := [PolicyCall.create, PolicyCall.scheduleDestruction 100,
            PolicyCall.destroy 100] } [200, 300]
      = ({ holder := { pInstance_ := 0, destroyed_ := true },
           registrations := 1,
           calls := [PolicyCall.create, PolicyCall.scheduleDestruction 100,
               PolicyCall.destroy 100]
             ++ List.replicate [200, 300].length PolicyCall.onDeadReference },
         List.replicate [200, 300].length (Outcome.raised Raised.logic_error)) :=
  ⟨by decide,
   c22_dead_reference (Program.instanceCall LifetimePolicy.Default 100 Program.start).1 _
     [200, 300] (by decide)⟩

/-- C23: single creation. For each of the lifetime policies, on a holder that
has no instance and was not destroyed, a sequence of calls of `instance()`
whose first `create()` does not return null calls `create` once and
`scheduleDestruction` once, both in the first call, and every call returns
the instance made by that `create()`. -/
theorem c23_single_creation (policy : LifetimePolicy) (pr : Program) (created : Nat)
    (rest : List Nat)
    (h0 : pr.holder = { pInstance_ := 0, destroyed_ := false }) (hc : created ≠ 0) :
    ∃ pr1, Program.instances policy pr (created :: rest)
        = (pr1, List.replicate (rest.length + 1) (Outcome.returned created)) ∧
      pr1 = (pr.instanceCall policy created).1 ∧
      pr1.holder = { pInstance_ := created, destroyed_ := false } ∧
      pr1.calls = pr.calls ++ [PolicyCall.create, PolicyCall.scheduleDestruction created] := by
  have h1 := Program.instanceCall_first policy h0 hc
  have hh : (pr.instanceCall policy created).1.holder
      = { pInstance_ := created, destroyed_ := false } := by
    rw [h1]; cases policy <;> rfl
  have hcalls : (pr.instanceCall policy created).1.calls
      = pr.calls ++ [PolicyCall.create, PolicyCall.scheduleDestruction created] := by
    rw [h1]; cases policy <;> rfl
  have hne : (pr.instanceCall policy created).1.holder.pInstance_ ≠ 0 := by
    rw [hh]; exact hc
  refine ⟨(pr.instanceCall policy created).1, ?_, rfl, hh, hcalls⟩
  simp only [Program.instances, Program.instances_alive policy rest _ hne, hh,
    List.replicate_succ]
  rw [h1]

theorem c23_single_creation_witness :
    Program.start.holder = { pInstance_ := 0, destroyed_ := false } ∧ 100 ≠ 0 ∧
    ∃ pr1, Program.instances LifetimePolicy.NoDestroy Program.start (100 :: [200, 0])
        = (pr1, List.replicate ([200, 0].length + 1) (Outcome.returned 100)) ∧
      pr1 = (Program.start.instanceCall LifetimePolicy.NoDestroy 100).1 ∧
      pr1.holder = { pInstance_ := 100, destroyed_ := false } ∧
      pr1.calls = Program.start.calls
        ++ [PolicyCall.create, PolicyCall.scheduleDestruction 100] :=
  ⟨by decide, by decide,
   c23_single_creation LifetimePolicy.NoDestroy Program.start 100 [200, 0] (by decide)
     (by decide)⟩

/-- C24: longevity order. A sequence of fewer than 2^32 calls of
`registerTracker` with trackers that are not null, on the empty array, succeeds
(when `std::realloc` does); the array is then in ascending order of longevity
and holds exactly the registered trackers; one call of `atexit_fun` per tracker
then deletes all of them, in descending order of longevity; registered with
the longevities 10, 30, 20 they are deleted in the order 30, 20, 10. -/
theorem c24_longevity_order (ts : List LifetimeTracker) (hlen : ts.length < 2 ^ 32) :
    ∃ arr deleted, LifetimeTracker.registerAll [] ts = some arr ∧
      arr.Pairwise (fun a b => a.longevity_ ≤ b.longevity_) ∧ arr.Perm ts ∧
      LifetimeTracker.exitAll arr ts.length = some ([], deleted) ∧
      deleted.Perm ts ∧
      deleted.Pairwise (fun a b => b.longevity_ ≤ a.longevity_) ∧
      (ts.map LifetimeTracker.longevity_ = [10, 30, 20] →
        deleted.map LifetimeTracker.longevity_ = [30, 20, 10]) := by
  obtain ⟨arr, hrun, hsorted, hperm, _⟩ :=
    LifetimeTracker.registerAll_spec ts [] List.Pairwise.nil (by simpa using hlen)
  rw [List.nil_append] at hperm
  have hdesc : arr.reverse.Pairwise (fun a b => b.longevity_ ≤ a.longevity_) :=
    List.pairwise_reverse.mpr hsorted
  have hpermr : arr.reverse.Perm ts := (List.reverse_perm arr).trans hperm
  refine ⟨arr, arr.reverse, hrun, hsorted, hperm,
    LifetimeTracker.exitAll_all ts.length arr hperm.length_eq, hpermr, hdesc, ?_⟩
  intro hts
  have h1 : (arr.reverse.map LifetimeTracker.longevity_).Perm [30, 20, 10] := by
    refine (hpermr.map _).trans ?_
    rw [hts]
    decide
  have h2 : (arr.reverse.map LifetimeTracker.longevity_).Sorted (· ≥ ·) := by
    show (arr.reverse.map LifetimeTracker.longevity_).Pairwise (· ≥ ·)
    rw [List.pairwise_map]
    exact hdesc
  exact List.eq_of_perm_of_sorted h1 h2 (by decide)

theorem c24_longevity_order_witness :
    Demo.trackers.length < 2 ^ 32 ∧
    ∃ arr deleted, LifetimeTracker.registerAll [] Demo.trackers = some arr ∧
      arr.Pairwise (fun a b => a.longevity_ ≤ b.longevity_) ∧ arr.Perm Demo.trackers ∧
      LifetimeTracker.exitAll arr Demo.trackers.length = some ([], deleted) ∧
      deleted.Perm Demo.trackers ∧
      deleted.Pairwise (fun a b => b.longevity_ ≤ a.longevity_) ∧
      (Demo.trackers.map LifetimeTracker.longevity_ = [10, 30, 20] →
        deleted.map LifetimeTracker.longevity_ = [30, 20, 10]) :=
  ⟨by decide, c24_longevity_order Demo.trackers (by decide)⟩

/-- C25: stable longevity queue. On the array reached by fewer than 2^32 - 1
registrations, `registerTracker` puts the new tracker directly behind the
trackers of longevity up to its own and before those of greater longevity,
and keeps the order of the trackers already there; the calls of `atexit_fun`
then delete, among the trackers of one longevity, the one registered last
first. -/
theorem c25_stable_queue (ts : List LifetimeTracker) (t : LifetimeTracker)
    (hlen : ts.length + 1 < 2 ^ 32) :
    ∃ arr lo hi deleted, LifetimeTracker.registerAll [] ts = some arr ∧ arr = lo ++ hi ∧
      (∀ e ∈ lo, e.longevity_ ≤ t.longevity_) ∧ (∀ e ∈ hi, t.longevity_ < e.longevity_) ∧
      LifetimeTracker.registerTracker arr (some t) true = some (lo ++ t :: hi, none) ∧
      LifetimeTracker.exitAll (lo ++ t :: hi) (ts.length + 1) = some ([], deleted) ∧
      deleted = hi.reverse ++ t :: lo.reverse ∧
      ∀ L, deleted.filter (fun e => decide (e.longevity_ = L))
        = ((ts ++ [t]).filter (fun e => decide (e.longevity_ = L))).reverse := by
  obtain ⟨arr, hrun, hsorted, hperm, hfilter⟩ :=
    LifetimeTracker.registerAll_spec ts [] List.Pairwise.nil (by simp; omega)
  rw [List.nil_append] at hperm
  have hal : arr.length = ts.length := hperm.length_eq
  obtain ⟨lo, hi, e, h1, h2, hreg⟩ :=
    LifetimeTracker.registerTracker_spec t arr hsorted (by omega)
  have hlen2 : (lo ++ t :: hi).length = ts.length + 1 := by
    rw [← hal, e]; simp only [List.length_append, List.length_cons]; omega
  have hrev : (lo ++ t :: hi).reverse = hi.reverse ++ t :: lo.reverse := by simp
  refine ⟨arr, lo, hi, hi.reverse ++ t :: lo.reverse, hrun, e, h1, h2, hreg, ?_, rfl, ?_⟩
  · rw [← hrev]
    exact LifetimeTracker.exitAll_all _ _ hlen2
  · intro L
    rw [← hrev, List.filter_reverse, LifetimeTracker.filter_insert h2 L, ← e, hfilter L]
    simp [List.filter_append]

theorem c25_stable_queue_witness :
    Demo.trackers.length + 1 < 2 ^ 32 ∧
    ∃ arr lo hi deleted, LifetimeTracker.registerAll [] Demo.trackers = some arr ∧
      arr = lo ++ hi ∧
      (∀ e ∈ lo, e.longevity_ ≤ (LifetimeTracker.mk 400 20).longevity_) ∧
      (∀ e ∈ hi, (LifetimeTracker.mk 400 20).longevity_ < e.longevity_) ∧
      LifetimeTracker.registerTracker arr (some (LifetimeTracker.mk 400 20)) true
        = some (lo ++ LifetimeTracker.mk 400 20 :: hi, none) ∧
      LifetimeTracker.exitAll (lo ++ LifetimeTracker.mk 400 20 :: hi)
        (Demo.trackers.length + 1) = some ([], deleted) ∧
      deleted = hi.reverse ++ LifetimeTracker.mk 400 20 :: lo.reverse ∧
      ∀ L, deleted.filter (fun e => decide (e.longevity_ = L))
        = ((Demo.trackers ++ [LifetimeTracker.mk 400 20]).filter
            (fun e => decide (e.longevity_ = L))).reverse :=
  ⟨by decide, c25_stable_queue Demo.trackers (LifetimeTracker.mk 400 20) (by decide)⟩

/-- C26: `chunkSize` has no effect. Two SmallObjAllocators constructed with
the same `maxObjectSize` and any two values of `chunkSize`, given the same
sequence of `allocate` and `deallocate` calls and the same answers from the
system, return the same pointers and go through the same pools: the same
FixedAllocators with the same block sizes, numbers of blocks per Chunk and
Chunks after every call (or both fail at the same call). -/
theorem c26_chunk_size_unused (chunkSize1 chunkSize2 maxObjectSize : Nat) (mem : Mem)
    (ops : List PoolOp) :
    SmallObjAllocator.observe (SmallObjAllocator.construct chunkSize1 maxObjectSize) mem ops
      = SmallObjAllocator.observe (SmallObjAllocator.construct chunkSize2 maxObjectSize)
          mem ops := by
  have h := SmallObjAllocator.observe_chunkSize chunkSize1 ops
    (SmallObjAllocator.construct chunkSize2 maxObjectSize) mem
  rw [← h]
  rfl

/-- The slow path where the read at `end()` sees no free block. For a
FixedAllocator with a positive block size
and between 1 and 255 blocks per Chunk, in which no Chunk has a free block and
`allocChunk_` is null or inside the vector, a call of `allocate()` for which the
read at `end()` sees zero and `new` does not fail appends one Chunk, initialised
by `Chunk::init` with `numBlocks_` free blocks (blocks 0, 1, ... in this order),
sets `allocChunk_` to the last and `deallocChunk_` to the first position, takes
block 0 of the new Chunk and returns it; the Chunks that were there stay as they
were. -/
theorem FixedAllocator.slow_path_zero_read (fa : FixedAllocator) (mem : Mem) (env : AllocEnv)
    (hbs : 1 ≤ fa.blockSize_) (hN1 : 1 ≤ fa.numBlocks_) (hN : fa.numBlocks_ ≤ 255)
    (hfull : ∀ c ∈ fa.chunks_, c.nAvailableBlocks_ = 0)
    (hal : ∀ a, fa.allocChunk_ = some a → a < fa.chunks_.length)
    (hpe : env.pastEnd = 0) (hnew : env.newData ≠ 0) :
    ∃ c0 mem1, env.uninit.init mem env.newData fa.blockSize_ fa.numBlocks_ = (true, c0, mem1) ∧
      c0.pData_ = env.newData ∧ c0.nAvailableBlocks_ = fa.numBlocks_ ∧
      c0.freeList mem1 fa.blockSize_ = List.range fa.numBlocks_ ∧
      fa.allocate mem env
        = some (some (c0.pData_ + 0 * fa.blockSize_),
            { fa with chunks_ := fa.chunks_ ++ [(c0.allocate mem1 fa.blockSize_).2],
                      allocChunk_ := some fa.chunks_.length,
                      deallocChunk_ := some 0 }, mem1) ∧
      (c0.allocate mem1 fa.blockSize_).2
        = { pData_ := env.newData, firstAvailableBlock_ := 1,
            nAvailableBlocks_ := fa.numBlocks_ - 1 } := by
  have hmod : fa.numBlocks_ % 256 = fa.numBlocks_ := Nat.mod_eq_of_lt (by omega)
  have hinit : env.uninit.init mem env.newData fa.blockSize_ fa.numBlocks_
      = (true, (Chunk.mk env.newData 0 (fa.numBlocks_)),
         Chunk.seed fa.blockSize_ fa.numBlocks_ 0 env.newData mem) := by
    simp only [Chunk.init, hnew, if_false, hmod]
  have hload : (Chunk.seed fa.blockSize_ fa.numBlocks_ 0 env.newData mem).load env.newData
      = 1 := by
    have := Chunk.seed_load fa.blockSize_ hbs fa.numBlocks_ 0 env.newData mem 0 (by omega)
    simpa using this
  have hfl := Chunk.init_freeList env.uninit mem env.newData fa.blockSize_ fa.numBlocks_ hbs hN
    hnew
  rw [hinit] at hfl
  have hN0 : fa.numBlocks_ ≠ 0 := by omega
  have halloc : (Chunk.allocate (Chunk.mk env.newData 0 (fa.numBlocks_))
        (Chunk.seed fa.blockSize_ fa.numBlocks_ 0 env.newData mem) fa.blockSize_)
      = (some env.newData, (Chunk.mk env.newData 1 (fa.numBlocks_ - 1))) := by
    simp [Chunk.allocate, hN0, hload]
  have hchoose : fa.choose mem env = fa.refill mem env := by
    apply FixedAllocator.choose_refill
    cases h : fa.allocChunk_ with
    | none => exact Or.inl rfl
    | some a =>
      have halt := hal a h
      exact Or.inr ⟨a, fa.chunks_[a], rfl, List.getElem?_eq_getElem halt,
        hfull _ (List.getElem_mem _)⟩
  have hrefill : fa.refill mem env
      = some ({ fa with chunks_ := fa.chunks_ ++ [(Chunk.mk env.newData 0 (fa.numBlocks_))],
                        allocChunk_ := some fa.chunks_.length,
                        deallocChunk_ := some 0 },
              Chunk.seed fa.blockSize_ fa.numBlocks_ 0 env.newData mem) := by
    unfold FixedAllocator.refill
    rw [hpe, FixedAllocator.scan_full _ _ hfull]
    simp only [hinit]
  refine ⟨_, _, hinit, rfl, rfl, by rw [List.range_eq_range']; exact hfl, ?_, ?_⟩
  · unfold FixedAllocator.allocate
    rw [hchoose, hrefill]
    simp only [List.getElem?_concat_length, hN0, if_false, halloc, List.set_append_right,
      Nat.zero_mul, Nat.add_zero]
    simp
  · rw [halloc]

theorem FixedAllocator.slow_path_zero_read_witness :
    1 ≤ Demo.full.blockSize_ ∧ 1 ≤ Demo.full.numBlocks_ ∧ Demo.full.numBlocks_ ≤ 255 ∧
    (∀ c ∈ Demo.full.chunks_, c.nAvailableBlocks_ = 0) ∧
    (∀ a, Demo.full.allocChunk_ = some a → a < Demo.full.chunks_.length) ∧
    (Demo.env 8192).pastEnd = 0 ∧ (Demo.env 8192).newData ≠ 0 ∧
    ∃ c0 mem1, (Demo.env 8192).uninit.init Demo.mem (Demo.env 8192).newData
        Demo.full.blockSize_ Demo.full.numBlocks_ = (true, c0, mem1) ∧
      c0.pData_ = (Demo.env 8192).newData ∧ c0.nAvailableBlocks_ = Demo.full.numBlocks_ ∧
      c0.freeList mem1 Demo.full.blockSize_ = List.range Demo.full.numBlocks_ ∧
      Demo.full.allocate Demo.mem (Demo.env 8192)
        = some (some (c0.pData_ + 0 * Demo.full.blockSize_),
            { Demo.full with
              chunks_ := Demo.full.chunks_ ++ [(c0.allocate mem1 Demo.full.blockSize_).2],
              allocChunk_ := some Demo.full.chunks_.length,
              deallocChunk_ := some 0 }, mem1) ∧
      (c0.allocate mem1 Demo.full.blockSize_).2
        = { pData_ := (Demo.env 8192).newData, firstAvailableBlock_ := 1,
            nAvailableBlocks_ := Demo.full.numBlocks_ - 1 } :=
  ⟨by decide, by decide, by decide, by decide,
   fun a h => by simp [Demo.full] at h; rw [← h]; decide,
   by decide, by decide,
   FixedAllocator.slow_path_zero_read Demo.full Demo.mem (Demo.env 8192) (by decide) (by decide) (by decide)
     (by decide) (fun a h => by simp [Demo.full] at h; rw [← h]; decide) (by decide)
     (by decide)⟩

/-- C27, what the code does: the vector of `Demo.full` holds one Chunk, without
a free block. The scan of `allocate()` reads `nAvailableBlocks_` at position 1,
which is `end()`. When that read gives 0 the call appends a Chunk and returns
its block 0; when it gives 1 the scan stops with `allocChunk_` at `end()`, no
Chunk is appended and the call leaves the vector (`allocate` is `none`). -/
theorem c27_end_read_decides :
    Demo.full.summary = [(4096, 0)] ∧
    1 ∈ FixedAllocator.scanReads Demo.full.chunks_ 0 ∧
    (Demo.full.allocate Demo.mem (Demo.env 8192)).map (fun r => (r.1, r.2.1.summary))
      = some (some 8192, [(4096, 0), (8192, 1)]) ∧
    FixedAllocator.scan (Demo.envOne 8192).pastEnd Demo.full.chunks_ 0 = ScanResult.beyond ∧
    (Demo.full.allocate Demo.mem (Demo.envOne 8192)).isNone = true := by
  refine ⟨by decide, by decide, by decide, rfl, by decide⟩

/-- C28: the scan reads the end position. On a vector in which no Chunk has a
free block (every vector with all Chunks filled, the empty one included), the
scan of `FixedAllocator::allocate` reads `nAvailableBlocks_` at the position
`size()`: its outcome is decided by the value it finds there, zero leading to
a new Chunk and anything else leading `allocChunk_` outside the vector; the
first `allocate()` of `FixedAllocator(2048)` then leaves the vector when that
value is 1. -/
theorem c28_scan_reads_end (chunks : List Chunk) (pastEnd : Nat) :
    (chunks.map Chunk.filled).length
      ∈ FixedAllocator.scanReads (chunks.map Chunk.filled) 0 ∧
    FixedAllocator.scan 0 (chunks.map Chunk.filled) 0 = ScanResult.create ∧
    FixedAllocator.scan (pastEnd + 1) (chunks.map Chunk.filled) 0 = ScanResult.beyond ∧
    (Demo.pairs.allocate Demo.mem (AllocEnv.mk 1 4096 (Chunk.mk 0 0 0))).isNone = true := by
  have hfull : ∀ c ∈ chunks.map Chunk.filled, c.nAvailableBlocks_ = 0 := by
    intro c hc
    obtain ⟨c0, _, e⟩ := List.mem_map.mp hc
    rw [← e]; rfl
  refine ⟨?_, FixedAllocator.scan_full _ 0 hfull,
    FixedAllocator.scan_beyond (pastEnd + 1) (Nat.succ_pos _) _ 0 hfull, by decide⟩
  have := FixedAllocator.scanReads_end _ 0 hfull
  rw [Nat.zero_add] at this
  exact this

/-- C29: the fast path. When `allocChunk_` points to a Chunk with a free block,
`allocate()` returns the first free block of that Chunk, takes it off the free
list of that Chunk, and changes nothing else: the length of the vector, every
other Chunk, `allocChunk_`, `deallocChunk_`, the block size, the number of
blocks per Chunk and the memory stay as they were. -/
theorem c29_fast_path (fa : FixedAllocator) (mem : Mem) (env : AllocEnv) (a : Nat) (c : Chunk)
    (hal : fa.allocChunk_ = some a) (hc : fa.chunks_[a]? = some c)
    (hav : 0 < c.nAvailableBlocks_) :
    ∃ fa1, fa.allocate mem env
        = some (some (c.pData_ + c.firstAvailableBlock_ * fa.blockSize_), fa1, mem) ∧
      fa1.chunks_.length = fa.chunks_.length ∧
      fa1.chunks_[a]? = some { c with
        firstAvailableBlock_ := mem.load (c.pData_ + c.firstAvailableBlock_ * fa.blockSize_),
        nAvailableBlocks_ := c.nAvailableBlocks_ - 1 } ∧
      (∀ j, j ≠ a → fa1.chunks_[j]? = fa.chunks_[j]?) ∧
      fa1.allocChunk_ = fa.allocChunk_ ∧ fa1.deallocChunk_ = fa.deallocChunk_ ∧
      fa1.blockSize_ = fa.blockSize_ ∧ fa1.numBlocks_ = fa.numBlocks_ := by
  have hne : c.nAvailableBlocks_ ≠ 0 := by omega
  have halt : a < fa.chunks_.length := (List.getElem?_eq_some.mp hc).1
  refine ⟨{ fa with chunks_ := fa.chunks_.set a (c.allocate mem fa.blockSize_).2 }, ?_, ?_, ?_,
    ?_, rfl, rfl, rfl, rfl⟩
  · simp [FixedAllocator.allocate, FixedAllocator.choose, hal, hc, hne, Chunk.allocate]
  · simp
  · show (fa.chunks_.set a _)[a]? = _
    rw [List.getElem?_set_self halt]
    simp [Chunk.allocate, hne]
  · intro j hj
    show (fa.chunks_.set a _)[j]? = _
    rw [List.getElem?_set_ne (fun e => hj e.symm)]

theorem c29_fast_path_witness :
    Demo.halfUsed.allocChunk_ = some 0 ∧
    Demo.halfUsed.chunks_[0]? = some (Chunk.mk 4096 0 1) ∧
    0 < (Chunk.mk 4096 0 1).nAvailableBlocks_ ∧
    ∃ fa1, Demo.halfUsed.allocate Demo.mem (Demo.env 12288)
        = some (some ((Chunk.mk 4096 0 1).pData_
            + (Chunk.mk 4096 0 1).firstAvailableBlock_ * Demo.halfUsed.blockSize_),
          fa1, Demo.mem) ∧
      fa1.chunks_.length = Demo.halfUsed.chunks_.length ∧
      fa1.chunks_[0]? = some { Chunk.mk 4096 0 1 with
        firstAvailableBlock_ := Demo.mem.load ((Chunk.mk 4096 0 1).pData_
          + (Chunk.mk 4096 0 1).firstAvailableBlock_ * Demo.halfUsed.blockSize_),
        nAvailableBlocks_ := (Chunk.mk 4096 0 1).nAvailableBlocks_ - 1 } ∧
      (∀ j, j ≠ 0 → fa1.chunks_[j]? = Demo.halfUsed.chunks_[j]?) ∧
      fa1.allocChunk_ = Demo.halfUsed.allocChunk_ ∧
      fa1.deallocChunk_ = Demo.halfUsed.deallocChunk_ ∧
      fa1.blockSize_ = Demo.halfUsed.blockSize_ ∧
      fa1.numBlocks_ = Demo.halfUsed.numBlocks_ :=
  ⟨by decide, by decide, by decide,
   c29_fast_path Demo.halfUsed Demo.mem (Demo.env 12288) 0 (Chunk.mk 4096 0 1) (by decide)
     (by decide) (by decide)⟩

/-- C30: first fit. When `allocChunk_` is null or points to a Chunk without a
free block, and the Chunk at position `i` is the first of the vector with a
free block, `allocate()` creates no Chunk, sets `allocChunk_` to position `i`,
and returns the first free block of that Chunk, whatever lies behind the
vector; the other Chunks, `deallocChunk_` and the memory stay as they were. -/
theorem c30_first_fit (fa : FixedAllocator) (mem : Mem) (env : AllocEnv) (i : Nat) (c : Chunk)
    (hal : fa.allocChunk_ = none ∨
      ∃ a ca, fa.allocChunk_ = some a ∧ fa.chunks_[a]? = some ca ∧ ca.nAvailableBlocks_ = 0)
    (hc : fa.chunks_[i]? = some c) (hav : 0 < c.nAvailableBlocks_)
    (hmin : ∀ (j : Nat) (cj : Chunk), j < i → fa.chunks_[j]? = some cj →
      cj.nAvailableBlocks_ = 0) :
    ∃ fa1, fa.allocate mem env
        = some (some (c.pData_ + c.firstAvailableBlock_ * fa.blockSize_), fa1, mem) ∧
      fa1.chunks_.length = fa.chunks_.length ∧
      fa1.allocChunk_ = some i ∧
      fa1.chunks_[i]? = some { c with
        firstAvailableBlock_ := mem.load (c.pData_ + c.firstAvailableBlock_ * fa.blockSize_),
        nAvailableBlocks_ := c.nAvailableBlocks_ - 1 } ∧
      (∀ j, j ≠ i → fa1.chunks_[j]? = fa.chunks_[j]?) ∧
      fa1.deallocChunk_ = fa.deallocChunk_ ∧
      fa1.blockSize_ = fa.blockSize_ ∧ fa1.numBlocks_ = fa.numBlocks_ := by
  have hne : c.nAvailableBlocks_ ≠ 0 := by omega
  have hilt : i < fa.chunks_.length := (List.getElem?_eq_some.mp hc).1
  have hscan := FixedAllocator.scan_first env.pastEnd fa.chunks_ 0 i c hc hav hmin
  rw [Nat.zero_add] at hscan
  have hrefill : fa.refill mem env = some ({ fa with allocChunk_ := some i }, mem) := by
    unfold FixedAllocator.refill
    rw [hscan]
  refine ⟨{ fa with allocChunk_ := some i,
                    chunks_ := fa.chunks_.set i (c.allocate mem fa.blockSize_).2 }, ?_, ?_, rfl,
    ?_, ?_, rfl, rfl, rfl⟩
  · unfold FixedAllocator.allocate
    rw [FixedAllocator.choose_refill mem env hal, hrefill]
    simp [hc, hne, Chunk.allocate]
  · simp
  · show (fa.chunks_.set i _)[i]? = _
    rw [List.getElem?_set_self hilt]
    simp [Chunk.allocate, hne]
  · intro j hj
    show (fa.chunks_.set i _)[j]? = _
    rw [List.getElem?_set_ne (fun e => hj e.symm)]

theorem c30_first_fit_witness :
    (Demo.stale.allocChunk_ = none ∨
      ∃ a ca, Demo.stale.allocChunk_ = some a ∧ Demo.stale.chunks_[a]? = some ca ∧
        ca.nAvailableBlocks_ = 0) ∧
    Demo.stale.chunks_[1]? = some (Chunk.mk 8192 0 1) ∧
    0 < (Chunk.mk 8192 0 1).nAvailableBlocks_ ∧
    (∀ (j : Nat) (cj : Chunk), j < 1 → Demo.stale.chunks_[j]? = some cj →
      cj.nAvailableBlocks_ = 0) ∧
    ∃ fa1, Demo.stale.allocate Demo.mem (AllocEnv.mk 7 12288 (Chunk.mk 0 0 0))
        = some (some ((Chunk.mk 8192 0 1).pData_
            + (Chunk.mk 8192 0 1).firstAvailableBlock_ * Demo.stale.blockSize_),
          fa1, Demo.mem) ∧
      fa1.chunks_.length = Demo.stale.chunks_.length ∧
      fa1.allocChunk_ = some 1 ∧
      fa1.chunks_[1]? = some { Chunk.mk 8192 0 1 with
        firstAvailableBlock_ := Demo.mem.load ((Chunk.mk 8192 0 1).pData_
          + (Chunk.mk 8192 0 1).firstAvailableBlock_ * Demo.stale.blockSize_),
        nAvailableBlocks_ := (Chunk.mk 8192 0 1).nAvailableBlocks_ - 1 } ∧
      (∀ j, j ≠ 1 → fa1.chunks_[j]? = Demo.stale.chunks_[j]?) ∧
      fa1.deallocChunk_ = Demo.stale.deallocChunk_ ∧
      fa1.blockSize_ = Demo.stale.blockSize_ ∧
      fa1.numBlocks_ = Demo.stale.numBlocks_ :=
  ⟨Or.inr ⟨0, Chunk.mk 4096 1 0, by decide, by decide, by decide⟩, by decide, by decide,
   fun j cj hj h => by
     have e : j = 0 := by omega
     subst e
     simp [Demo.stale] at h
     rw [← h],
   c30_first_fit Demo.stale Demo.mem (AllocEnv.mk 7 12288 (Chunk.mk 0 0 0)) 1
     (Chunk.mk 8192 0 1)
     (Or.inr ⟨0, Chunk.mk 4096 1 0, by decide, by decide, by decide⟩) (by decide) (by decide)
     (fun j cj hj h => by
       have e : j = 0 := by omega
       subst e
       simp [Demo.stale] at h
       rw [← h])⟩


/-! ## Claims on the reclamation of empty Chunks -/

/-- Putting `x` where `b` stood and `b` in front is a rearrangement. -/
theorem perm_cons_set {α : Type} (x b : α) :
    ∀ (xs : List α) (m : Nat), xs[m]? = some b → (b :: xs.set m x).Perm (x :: xs) := by
  intro xs
  induction xs with
  | nil => intro m h; simp at h
  | cons y t ih =>
    intro m h
    cases m with
    | zero =>
      simp only [List.getElem?_cons_zero, Option.some.injEq] at h
      subst h
      exact List.Perm.swap _ _ _
    | succ m =>
      simp only [List.getElem?_cons_succ] at h
      simp only [List.set_cons_succ]
      exact ((List.Perm.swap y b _).trans ((ih m h).cons y)).trans (List.Perm.swap x y t)

/-- Exchanging two elements of a list is a rearrangement. -/
theorem perm_set_set {α : Type} :
    ∀ (l : List α) (n m : Nat) (a b : α), l[n]? = some a → l[m]? = some b → n ≠ m →
      ((l.set n b).set m a).Perm l := by
  intro l
  induction l with
  | nil => intro n m a b h; simp at h
  | cons x xs ih =>
    intro n m a b hn hm hne
    cases n with
    | zero =>
      cases m with
      | zero => exact absurd rfl hne
      | succ m =>
        simp only [List.getElem?_cons_zero, Option.some.injEq] at hn
        simp only [List.getElem?_cons_succ] at hm
        subst hn
        simp only [List.set_cons_zero, List.set_cons_succ]
        exact perm_cons_set x b xs m hm
    | succ n =>
      cases m with
      | zero =>
        simp only [List.getElem?_cons_zero, Option.some.injEq] at hm
        simp only [List.getElem?_cons_succ] at hn
        subst hm
        simp only [List.set_cons_zero, List.set_cons_succ]
        exact perm_cons_set x a xs n hn
      | succ m =>
        simp only [List.getElem?_cons_succ] at hn hm
        simp only [List.set_cons_succ]
        exact (ih n m a b hn hm (fun e => hne (by rw [e]))).cons x

/-- Popping the last element after a store at the last position forgets the
store. -/
theorem dropLast_set_last {α : Type} (l : List α) (n : Nat) (x : α) (h : n + 1 = l.length) :
    (l.set n x).dropLast = l.take n := by
  rw [List.dropLast_eq_take, List.length_set, ← h, Nat.add_sub_cancel]
  apply List.ext_getElem?
  intro j
  by_cases hj : j < n
  · rw [List.getElem?_take, List.getElem?_take, if_pos hj, if_pos hj,
      List.getElem?_set_ne (by omega)]
  · rw [List.getElem?_take, List.getElem?_take, if_neg hj, if_neg hj]

/-- Releasing and popping the last Chunk leaves the Chunks before it and adds
its buffer to the buffers released. -/
theorem FixedAllocator.releaseLast_eq {chunks : List Chunk} {lastChunk : Chunk}
    (h : chunks[chunks.length - 1]? = some lastChunk) (released : List Nat) :
    FixedAllocator.releaseLast chunks released
      = (chunks.dropLast, released ++ [lastChunk.pData_]) := by
  have hlt : chunks.length - 1 < chunks.length := (List.getElem?_eq_some.mp h).1
  unfold FixedAllocator.releaseLast
  rw [h]
  simp only [Prod.mk.injEq, and_true]
  rw [dropLast_set_last chunks (chunks.length - 1) _ (by omega), List.dropLast_eq_take]

/-- Without the record of the buffers released, `reclaimReleasing` is
`reclaim`. -/
theorem FixedAllocator.reclaimReleasing_fst (fa : FixedAllocator) (d : Nat)
    (released : List Nat) :
    (fa.reclaimReleasing d released).map Prod.fst = fa.reclaim d := by
  unfold FixedAllocator.reclaimReleasing FixedAllocator.reclaim
  cases hd : fa.chunks_[d]? with
  | none => rfl
  | some c1 =>
    simp only []
    by_cases he : c1.nAvailableBlocks_ = fa.numBlocks_
    · simp only [he, if_true]
      by_cases hl : fa.chunks_.length - 1 = d
      · simp only [hl, if_true]
        by_cases hp : 1 < fa.chunks_.length ∧
            (fa.chunks_[d - 1]?).map Chunk.nAvailableBlocks_ = some fa.numBlocks_
        · have hlast : fa.chunks_[fa.chunks_.length - 1]? = some c1 := by rw [hl]; exact hd
          simp only [hp, and_self, if_true, Option.map_some',
            FixedAllocator.releaseLast_eq hlast released]
        · simp only [hp, if_false, Option.map_some']
      · simp only [hl, if_false]
        cases hlc : fa.chunks_[fa.chunks_.length - 1]? with
        | none => rfl
        | some lastChunk =>
          simp only []
          by_cases hle : lastChunk.nAvailableBlocks_ = fa.numBlocks_
          · simp only [hle, if_true, Option.map_some',
              FixedAllocator.releaseLast_eq hlc released]
          · simp only [hle, if_false, Option.map_some']
    · simp only [he, if_false, Option.map_some']

/-- Without the record of the buffers released, `doDeallocateReleasing` is
`doDeallocate`. -/
theorem FixedAllocator.doDeallocateReleasing_fst (fa : FixedAllocator) (mem : Mem) (p : Nat)
    (released : List Nat) :
    (fa.doDeallocateReleasing mem p released).map (fun r => (r.1, r.2.1))
      = fa.doDeallocate mem p := by
  unfold FixedAllocator.doDeallocateReleasing FixedAllocator.doDeallocate
  cases fa.deallocChunk_ with
  | none => rfl
  | some d =>
    simp only []
    cases fa.chunks_[d]? with
    | none => rfl
    | some c =>
      simp only []
      by_cases h1 : c.pData_ ≤ p
      · by_cases h2 : p < c.pData_ + fa.numBlocks_ * fa.blockSize_
        · simp only [h1, h2, not_true_eq_false, if_false]
          cases c.deallocate mem p fa.blockSize_ with
          | none => rfl
          | some r =>
            obtain ⟨c1, mem1⟩ := r
            simp only []
            rw [← FixedAllocator.reclaimReleasing_fst _ d released]
            generalize FixedAllocator.reclaimReleasing _ d released = x
            cases x with
            | none => rfl
            | some y => rfl
        · simp only [h1, h2, not_true_eq_false, not_false_eq_true, if_true, if_false,
            Option.map_none']
      · simp only [h1, not_false_eq_true, if_true, Option.map_none']

/-- Without the record of the buffers released, `deallocateReleasing` is
`deallocate`. -/
theorem FixedAllocator.deallocateReleasing_fst (fa : FixedAllocator) (mem : Mem) (p : Nat)
    (released : List Nat) :
    (fa.deallocateReleasing mem p released).map (fun r => (r.1, r.2.1))
      = fa.deallocate mem p := by
  unfold FixedAllocator.deallocateReleasing FixedAllocator.deallocate
  by_cases he : fa.chunks_.isEmpty = true
  · simp only [he, if_true, Option.map_none']
  · simp only [he, Bool.false_eq_true, if_false]
    cases fa.deallocChunk_ with
    | none => rfl
    | some d =>
      simp only []
      by_cases hd : d < fa.chunks_.length
      · simp only [hd, not_true_eq_false, if_false]
        cases fa.vicinityFind p with
        | none => rfl
        | some j => exact FixedAllocator.doDeallocateReleasing_fst _ mem p released
      · simp only [hd, not_false_eq_true, if_true, Option.map_none']

/-- `deallocateReleasing(p)` for the block `i` of the Chunk at position `n`:
the search ends at `n`, the Chunk takes the block back, and the release of an
empty Chunk runs on the vector so changed. -/
theorem FixedAllocator.deallocateReleasing_exact (fa : FixedAllocator) (mem : Mem)
    (released : List Nat) {p n i d : Nat} {c : Chunk}
    (hapart : (fa.chunks_.map Chunk.pData_).Pairwise (Disj (fa.numBlocks_ * fa.blockSize_)))
    (hd : fa.deallocChunk_ = some d) (hdlt : d < fa.chunks_.length)
    (hn : fa.chunks_[n]? = some c) (hp : p = c.pData_ + i * fa.blockSize_)
    (hi : i < fa.numBlocks_) (hN : fa.numBlocks_ ≤ 255) (hbs : 1 ≤ fa.blockSize_)
    (hav : c.nAvailableBlocks_ < 255) :
    fa.deallocateReleasing mem p released
      = ((FixedAllocator.mk fa.blockSize_ fa.numBlocks_
            (fa.chunks_.set n (Chunk.mk c.pData_ i (c.nAvailableBlocks_ + 1)))
            fa.allocChunk_ (some n)).reclaimReleasing n released).map
          (fun r => (r.1, mem.store p c.firstAvailableBlock_, r.2)) := by
  subst hp
  have hcov := Chunk.covers_block c hbs hi
  have hfind := FixedAllocator.vicinityFind_covers fa hapart hd hdlt hn hcov
  have hemp : fa.chunks_.isEmpty = false := by
    cases hcs : fa.chunks_ with
    | nil => rw [hcs] at hdlt; simp at hdlt
    | cons _ _ => rfl
  have hsub : c.pData_ + i * fa.blockSize_ - c.pData_ = i * fa.blockSize_ := by omega
  have hmod : (i * fa.blockSize_) % fa.blockSize_ = 0 := Nat.mul_mod_left _ _
  have hdiv : (i * fa.blockSize_) / fa.blockSize_ = i := Nat.mul_div_cancel _ hbs
  have himod : i % 256 = i := Nat.mod_eq_of_lt (by omega)
  have hamod : (c.nAvailableBlocks_ + 1) % 256 = c.nAvailableBlocks_ + 1 :=
    Nat.mod_eq_of_lt (by omega)
  have hde : c.deallocate mem (c.pData_ + i * fa.blockSize_) fa.blockSize_
      = some (Chunk.mk c.pData_ i (c.nAvailableBlocks_ + 1),
              mem.store (c.pData_ + i * fa.blockSize_) c.firstAvailableBlock_) := by
    simp [Chunk.deallocate, hsub, hmod, hdiv, himod, hamod]
  simp only [Chunk.covers, Bool.and_eq_true, decide_eq_true_eq] at hcov
  unfold FixedAllocator.deallocateReleasing
  simp only [hemp, Bool.false_eq_true, if_false, hd, hdlt, not_true_eq_false, hfind]
  unfold FixedAllocator.doDeallocateReleasing
  simp only [hn, hde, hcov.1, hcov.2, not_true_eq_false, if_false]
  generalize FixedAllocator.reclaimReleasing _ n released = x
  cases x with
  | none => rfl
  | some y => rfl

/-- C31: reclamation when the owning Chunk is the last one. `deallocate(p)`
takes back block `i` of the Chunk at the last position `n` and leaves that
Chunk empty. When the vector has at least two Chunks and the one before the
last is empty, the last Chunk is released and popped: its buffer, the buffer
of the owning Chunk, is the one buffer the call passes to `delete[]`, the
vector is the Chunks before position `n`, one shorter, each where it was, and
`allocChunk_` and `deallocChunk_` are the first Chunk. When the vector has one
Chunk, or the one before the last is not empty, no buffer is released, the
vector is the one `Chunk::deallocate` left (the owning Chunk empty, the others
as they were) and `allocChunk_` is as it was. `released` lists the buffers
passed to `delete[]` before the call. -/
theorem c31_owner_last (fa : FixedAllocator) (mem : Mem) (released : List Nat)
    (p n i d : Nat) (c : Chunk)
    (hapart : (fa.chunks_.map Chunk.pData_).Pairwise (Disj (fa.numBlocks_ * fa.blockSize_)))
    (hd : fa.deallocChunk_ = some d) (hdlt : d < fa.chunks_.length)
    (hn : fa.chunks_[n]? = some c) (hp : p = c.pData_ + i * fa.blockSize_)
    (hi : i < fa.numBlocks_) (hN : fa.numBlocks_ ≤ 255) (hbs : 1 ≤ fa.blockSize_)
    (hempty : c.nAvailableBlocks_ + 1 = fa.numBlocks_)
    (hlast : n + 1 = fa.chunks_.length) :
    ((2 ≤ fa.chunks_.length ∧
        (fa.chunks_[n - 1]?).map Chunk.nAvailableBlocks_ = some fa.numBlocks_) →
      ∃ fa1, fa.deallocate mem p = some (fa1, mem.store p c.firstAvailableBlock_) ∧
        fa.deallocateReleasing mem p released
          = some (fa1, mem.store p c.firstAvailableBlock_, released ++ [c.pData_]) ∧
        fa1.chunks_ = fa.chunks_.take n ∧
        fa1.chunks_.length + 1 = fa.chunks_.length ∧
        (∀ j : Nat, j < n → fa1.chunks_[j]? = fa.chunks_[j]?) ∧
        fa1.allocChunk_ = some 0 ∧ fa1.deallocChunk_ = some 0) ∧
    ((fa.chunks_.length = 1 ∨
        (fa.chunks_[n - 1]?).map Chunk.nAvailableBlocks_ ≠ some fa.numBlocks_) →
      ∃ fa1, fa.deallocate mem p = some (fa1, mem.store p c.firstAvailableBlock_) ∧
        fa.deallocateReleasing mem p released
          = some (fa1, mem.store p c.firstAvailableBlock_, released) ∧
        fa1.chunks_ = fa.chunks_.set n (Chunk.mk c.pData_ i fa.numBlocks_) ∧
        fa1.chunks_.length = fa.chunks_.length ∧
        (∀ j : Nat, j ≠ n → fa1.chunks_[j]? = fa.chunks_[j]?) ∧
        fa1.allocChunk_ = fa.allocChunk_) := by
  have hnlt : n < fa.chunks_.length := (List.getElem?_eq_some.mp hn).1
  have hex := FixedAllocator.deallocateReleasing_exact fa mem released hapart hd hdlt hn hp hi
    hN hbs (by omega)
  rw [hempty] at hex
  have hfst := FixedAllocator.deallocateReleasing_fst fa mem p released
  have hl : fa.chunks_.length - 1 = n := by omega
  have hget : (fa.chunks_.set n (Chunk.mk c.pData_ i fa.numBlocks_))[n]?
      = some (Chunk.mk c.pData_ i fa.numBlocks_) := List.getElem?_set_self hnlt
  have hgetl : (fa.chunks_.set n (Chunk.mk c.pData_ i fa.numBlocks_))[
      (fa.chunks_.set n (Chunk.mk c.pData_ i fa.numBlocks_)).length - 1]?
      = some (Chunk.mk c.pData_ i fa.numBlocks_) := by
    rw [List.length_set, hl]; exact hget
  constructor
  · intro hpred
    obtain ⟨h2, hpe⟩ := hpred
    have hpe1 : ((fa.chunks_.set n (Chunk.mk c.pData_ i fa.numBlocks_))[n - 1]?).map
        Chunk.nAvailableBlocks_ = some fa.numBlocks_ := by
      rw [List.getElem?_set_ne (by omega)]; exact hpe
    have h1 : 1 < fa.chunks_.length := by omega
    have hres : fa.deallocateReleasing mem p released
        = some (FixedAllocator.mk fa.blockSize_ fa.numBlocks_
            (fa.chunks_.set n (Chunk.mk c.pData_ i fa.numBlocks_)).dropLast (some 0) (some 0),
          mem.store p c.firstAvailableBlock_, released ++ [c.pData_]) := by
      rw [hex]
      simp only [FixedAllocator.reclaimReleasing, hget, List.length_set, hl, if_true, h1, hpe1,
        and_self, Option.map_some', FixedAllocator.releaseLast_eq hgetl released]
    have hplain : fa.deallocate mem p
        = some (FixedAllocator.mk fa.blockSize_ fa.numBlocks_
            (fa.chunks_.set n (Chunk.mk c.pData_ i fa.numBlocks_)).dropLast (some 0) (some 0),
          mem.store p c.firstAvailableBlock_) := by
      rw [← hfst, hres]; rfl
    refine ⟨_, hplain, hres, dropLast_set_last fa.chunks_ n _ hlast, ?_, ?_, rfl, rfl⟩
    · show (fa.chunks_.set n (Chunk.mk c.pData_ i fa.numBlocks_)).dropLast.length + 1 = _
      rw [List.length_dropLast, List.length_set]; omega
    · intro j hj
      show (fa.chunks_.set n (Chunk.mk c.pData_ i fa.numBlocks_)).dropLast[j]? = _
      rw [dropLast_set_last fa.chunks_ n _ hlast, List.getElem?_take, if_pos hj]
  · intro hnot
    have hcond : ¬ (1 < fa.chunks_.length ∧
        ((fa.chunks_.set n (Chunk.mk c.pData_ i fa.numBlocks_))[n - 1]?).map
          Chunk.nAvailableBlocks_ = some fa.numBlocks_) := by
      rintro ⟨h1, hpe⟩
      rcases hnot with h | h
      · omega
      · apply h
        rw [List.getElem?_set_ne (by omega)] at hpe
        exact hpe
    have hres : fa.deallocateReleasing mem p released
        = some (FixedAllocator.mk fa.blockSize_ fa.numBlocks_
            (fa.chunks_.set n (Chunk.mk c.pData_ i fa.numBlocks_)) fa.allocChunk_ (some n),
          mem.store p c.firstAvailableBlock_, released) := by
      rw [hex]
      simp only [FixedAllocator.reclaimReleasing, hget, List.length_set, hl, if_true, hcond,
        if_false, Option.map_some']
    have hplain : fa.deallocate mem p
        = some (FixedAllocator.mk fa.blockSize_ fa.numBlocks_
            (fa.chunks_.set n (Chunk.mk c.pData_ i fa.numBlocks_)) fa.allocChunk_ (some n),
          mem.store p c.firstAvailableBlock_) := by
      rw [← hfst, hres]; rfl
    refine ⟨_, hplain, hres, rfl, ?_, ?_, rfl⟩
    · show (fa.chunks_.set n (Chunk.mk c.pData_ i fa.numBlocks_)).length = _
      rw [List.length_set]
    · intro j hj
      show (fa.chunks_.set n (Chunk.mk c.pData_ i fa.numBlocks_))[j]? = _
      rw [List.getElem?_set_ne (fun e => hj e.symm)]

/-- Witness of C31: with an empty Chunk at 4096 before the last Chunk at 8192,
`deallocate(8192)` releases the buffer at 8192 and pops the last Chunk; with a
Chunk in use at 4096 it releases nothing and keeps both. -/
theorem c31_owner_last_witness :
    (∃ fa1, Demo.halfUsed.deallocate Demo.mem 8192 = some (fa1, Demo.mem.store 8192 1) ∧
      Demo.halfUsed.deallocateReleasing Demo.mem 8192 []
        = some (fa1, Demo.mem.store 8192 1, [] ++ [8192]) ∧
      fa1.chunks_ = Demo.halfUsed.chunks_.take 1 ∧
      fa1.chunks_.length + 1 = Demo.halfUsed.chunks_.length ∧
      (∀ j : Nat, j < 1 → fa1.chunks_[j]? = Demo.halfUsed.chunks_[j]?) ∧
      fa1.allocChunk_ = some 0 ∧ fa1.deallocChunk_ = some 0) ∧
    (∃ fa1, Demo.bothFull.deallocate Demo.mem 8192 = some (fa1, Demo.mem.store 8192 1) ∧
      Demo.bothFull.deallocateReleasing Demo.mem 8192 []
        = some (fa1, Demo.mem.store 8192 1, []) ∧
      fa1.chunks_ = Demo.bothFull.chunks_.set 1 (Chunk.mk 8192 0 1) ∧
      fa1.chunks_.length = Demo.bothFull.chunks_.length ∧
      (∀ j : Nat, j ≠ 1 → fa1.chunks_[j]? = Demo.bothFull.chunks_[j]?) ∧
      fa1.allocChunk_ = Demo.bothFull.allocChunk_) :=
  ⟨(c31_owner_last Demo.halfUsed Demo.mem [] 8192 1 0 0 (Chunk.mk 8192 1 0) (by decide) rfl
      (by decide) rfl rfl (by decide) (by decide) (by decide) rfl rfl).1
      ⟨by decide, by decide⟩,
   (c31_owner_last Demo.bothFull Demo.mem [] 8192 1 0 0 (Chunk.mk 8192 1 0) (by decide) rfl
      (by decide) rfl rfl (by decide) (by decide) (by decide) rfl rfl).2
      (Or.inr (by decide))⟩

/-- C32: reclamation when the last Chunk is empty. `deallocate(p)` takes back
block `i` of the Chunk at position `n`, which is not the last one, and leaves
that Chunk empty; the last Chunk is empty. Then the last Chunk is released and
popped: its buffer is the one buffer the call passes to `delete[]`, the vector
is one shorter, every Chunk other than the owning one is where it was, the
owning Chunk, now empty, is at position `n`, and `allocChunk_` is the owning
Chunk. `released` lists the buffers passed to `delete[]` before the call. -/
theorem c32_last_empty (fa : FixedAllocator) (mem : Mem) (released : List Nat)
    (p n i d : Nat) (c cl : Chunk)
    (hapart : (fa.chunks_.map Chunk.pData_).Pairwise (Disj (fa.numBlocks_ * fa.blockSize_)))
    (hd : fa.deallocChunk_ = some d) (hdlt : d < fa.chunks_.length)
    (hn : fa.chunks_[n]? = some c) (hp : p = c.pData_ + i * fa.blockSize_)
    (hi : i < fa.numBlocks_) (hN : fa.numBlocks_ ≤ 255) (hbs : 1 ≤ fa.blockSize_)
    (hempty : c.nAvailableBlocks_ + 1 = fa.numBlocks_)
    (hnot : n + 1 < fa.chunks_.length)
    (hl : fa.chunks_[fa.chunks_.length - 1]? = some cl)
    (hle : cl.nAvailableBlocks_ = fa.numBlocks_) :
    ∃ fa1, fa.deallocate mem p = some (fa1, mem.store p c.firstAvailableBlock_) ∧
      fa.deallocateReleasing mem p released
        = some (fa1, mem.store p c.firstAvailableBlock_, released ++ [cl.pData_]) ∧
      fa1.chunks_ = (fa.chunks_.set n (Chunk.mk c.pData_ i fa.numBlocks_)).dropLast ∧
      fa1.chunks_.length + 1 = fa.chunks_.length ∧
      (∀ j : Nat, j + 1 < fa.chunks_.length → j ≠ n → fa1.chunks_[j]? = fa.chunks_[j]?) ∧
      fa1.chunks_[n]? = some (Chunk.mk c.pData_ i fa.numBlocks_) ∧
      fa1.allocChunk_ = some n ∧ fa1.deallocChunk_ = some n := by
  have hnlt : n < fa.chunks_.length := (List.getElem?_eq_some.mp hn).1
  have hex := FixedAllocator.deallocateReleasing_exact fa mem released hapart hd hdlt hn hp hi
    hN hbs (by omega)
  rw [hempty] at hex
  have hfst := FixedAllocator.deallocateReleasing_fst fa mem p released
  have hne : ¬ fa.chunks_.length - 1 = n := by omega
  have hget : (fa.chunks_.set n (Chunk.mk c.pData_ i fa.numBlocks_))[n]?
      = some (Chunk.mk c.pData_ i fa.numBlocks_) := List.getElem?_set_self hnlt
  have hgl : (fa.chunks_.set n (Chunk.mk c.pData_ i fa.numBlocks_))[fa.chunks_.length - 1]?
      = some cl := by
    rw [List.getElem?_set_ne (by omega)]; exact hl
  have hgl2 : (fa.chunks_.set n (Chunk.mk c.pData_ i fa.numBlocks_))[
      (fa.chunks_.set n (Chunk.mk c.pData_ i fa.numBlocks_)).length - 1]? = some cl := by
    rw [List.length_set]; exact hgl
  have hres : fa.deallocateReleasing mem p released
      = some (FixedAllocator.mk fa.blockSize_ fa.numBlocks_
          (fa.chunks_.set n (Chunk.mk c.pData_ i fa.numBlocks_)).dropLast (some n) (some n),
        mem.store p c.firstAvailableBlock_, released ++ [cl.pData_]) := by
    rw [hex]
    simp only [FixedAllocator.reclaimReleasing, hget, List.length_set, hne, if_true, if_false,
      hgl, hle, Option.map_some', FixedAllocator.releaseLast_eq hgl2 released]
  have hplain : fa.deallocate mem p
      = some (FixedAllocator.mk fa.blockSize_ fa.numBlocks_
          (fa.chunks_.set n (Chunk.mk c.pData_ i fa.numBlocks_)).dropLast (some n) (some n),
        mem.store p c.firstAvailableBlock_) := by
    rw [← hfst, hres]; rfl
  refine ⟨_, hplain, hres, rfl, ?_, ?_, ?_, rfl, rfl⟩
  · show (fa.chunks_.set n (Chunk.mk c.pData_ i fa.numBlocks_)).dropLast.length + 1 = _
    rw [List.length_dropLast, List.length_set]; omega
  · intro j hj hjn
    show (fa.chunks_.set n (Chunk.mk c.pData_ i fa.numBlocks_)).dropLast[j]? = _
    rw [List.getElem?_dropLast, List.length_set, if_pos (by omega),
      List.getElem?_set_ne (fun e => hjn e.symm)]
  · show (fa.chunks_.set n (Chunk.mk c.pData_ i fa.numBlocks_)).dropLast[n]? = _
    rw [List.getElem?_dropLast, List.length_set, if_pos (by omega), hget]

/-- Witness of C32: with a Chunk in use at 4096 and an empty Chunk at 8192,
`deallocate(4096)` releases the buffer at 8192, pops that Chunk, and
`allocChunk_` is the Chunk at 4096. -/
theorem c32_last_empty_witness :
    ∃ fa1, Demo.stale.deallocate Demo.mem 4096 = some (fa1, Demo.mem.store 4096 1) ∧
      Demo.stale.deallocateReleasing Demo.mem 4096 []
        = some (fa1, Demo.mem.store 4096 1, [] ++ [8192]) ∧
      fa1.chunks_ = (Demo.stale.chunks_.set 0 (Chunk.mk 4096 0 1)).dropLast ∧
      fa1.chunks_.length + 1 = Demo.stale.chunks_.length ∧
      (∀ j : Nat, j + 1 < Demo.stale.chunks_.length → j ≠ 0 →
        fa1.chunks_[j]? = Demo.stale.chunks_[j]?) ∧
      fa1.chunks_[0]? = some (Chunk.mk 4096 0 1) ∧
      fa1.allocChunk_ = some 0 ∧ fa1.deallocChunk_ = some 0 :=
  c32_last_empty Demo.stale Demo.mem [] 4096 0 0 0 (Chunk.mk 4096 1 0) (Chunk.mk 8192 0 1)
    (by decide) rfl (by decide) rfl rfl (by decide) (by decide) (by decide) rfl (by decide)
    rfl rfl

/-- C33: reclamation by moving the empty Chunk to the tail. `deallocate(p)`
takes back block `i` of the Chunk at position `n`, which is not the last one,
and leaves that Chunk empty; the last Chunk is not empty. Then the two Chunks
are exchanged: the empty Chunk is at the last position, the former last Chunk
at position `n`, `allocChunk_` is the last position, every other position
holds the Chunk it held, and the vector has the length it had and is a
rearrangement of the vector `Chunk::deallocate` left, so no Chunk is
released. -/
theorem c33_move_to_tail (fa : FixedAllocator) (mem : Mem) (p n i d : Nat) (c cl : Chunk)
    (hapart : (fa.chunks_.map Chunk.pData_).Pairwise (Disj (fa.numBlocks_ * fa.blockSize_)))
    (hd : fa.deallocChunk_ = some d) (hdlt : d < fa.chunks_.length)
    (hn : fa.chunks_[n]? = some c) (hp : p = c.pData_ + i * fa.blockSize_)
    (hi : i < fa.numBlocks_) (hN : fa.numBlocks_ ≤ 255) (hbs : 1 ≤ fa.blockSize_)
    (hempty : c.nAvailableBlocks_ + 1 = fa.numBlocks_)
    (hnot : n + 1 < fa.chunks_.length)
    (hl : fa.chunks_[fa.chunks_.length - 1]? = some cl)
    (hle : cl.nAvailableBlocks_ ≠ fa.numBlocks_) :
    ∃ fa1, fa.deallocate mem p = some (fa1, mem.store p c.firstAvailableBlock_) ∧
      fa1.chunks_[fa.chunks_.length - 1]? = some (Chunk.mk c.pData_ i fa.numBlocks_) ∧
      fa1.chunks_[n]? = some cl ∧
      fa1.allocChunk_ = some (fa.chunks_.length - 1) ∧
      fa1.chunks_.length = fa.chunks_.length ∧
      fa1.chunks_.Perm (fa.chunks_.set n (Chunk.mk c.pData_ i fa.numBlocks_)) ∧
      (∀ j : Nat, j ≠ n → j ≠ fa.chunks_.length - 1 → fa1.chunks_[j]? = fa.chunks_[j]?) := by
  have hnlt : n < fa.chunks_.length := (List.getElem?_eq_some.mp hn).1
  have hex := FixedAllocator.deallocate_exact fa mem hapart hd hdlt hn hp hi hN hbs (by omega)
  rw [hempty] at hex
  have hne : ¬ fa.chunks_.length - 1 = n := by omega
  have hget : (fa.chunks_.set n (Chunk.mk c.pData_ i fa.numBlocks_))[n]?
      = some (Chunk.mk c.pData_ i fa.numBlocks_) := List.getElem?_set_self hnlt
  have hgl : (fa.chunks_.set n (Chunk.mk c.pData_ i fa.numBlocks_))[fa.chunks_.length - 1]?
      = some cl := by
    rw [List.getElem?_set_ne (by omega)]; exact hl
  have hres : fa.deallocate mem p
      = some (FixedAllocator.mk fa.blockSize_ fa.numBlocks_
          (((fa.chunks_.set n (Chunk.mk c.pData_ i fa.numBlocks_)).set n cl).set
            (fa.chunks_.length - 1) (Chunk.mk c.pData_ i fa.numBlocks_))
          (some (fa.chunks_.length - 1)) (some n),
        mem.store p c.firstAvailableBlock_) := by
    rw [hex]
    simp only [FixedAllocator.reclaim, hget, List.length_set, hne, if_true, if_false, hgl, hle,
      Option.map_some']
  refine ⟨_, hres, ?_, ?_, rfl, ?_, ?_, ?_⟩
  · show (((fa.chunks_.set n _).set n cl).set (fa.chunks_.length - 1) _)[_]? = _
    apply List.getElem?_set_self
    rw [List.length_set, List.length_set]; omega
  · show (((fa.chunks_.set n _).set n cl).set (fa.chunks_.length - 1) _)[n]? = _
    rw [List.getElem?_set_ne hne]
    apply List.getElem?_set_self
    rw [List.length_set]; exact hnlt
  · show (((fa.chunks_.set n _).set n cl).set (fa.chunks_.length - 1) _).length = _
    rw [List.length_set, List.length_set, List.length_set]
  · exact perm_set_set _ n (fa.chunks_.length - 1) _ cl hget hgl (fun e => hne e.symm)
  · intro j hjn hjl
    show (((fa.chunks_.set n _).set n cl).set (fa.chunks_.length - 1) _)[j]? = _
    rw [List.getElem?_set_ne (fun e => hjl e.symm), List.getElem?_set_ne (fun e => hjn e.symm),
      List.getElem?_set_ne (fun e => hjn e.symm)]

/-- Witness of C33: with Chunks in use at 4096 and at 8192, `deallocate(4096)`
moves the Chunk at 4096 behind the Chunk at 8192. -/
theorem c33_move_to_tail_witness :
    ∃ fa1, Demo.bothFull.deallocate Demo.mem 4096 = some (fa1, Demo.mem.store 4096 1) ∧
      fa1.chunks_[Demo.bothFull.chunks_.length - 1]? = some (Chunk.mk 4096 0 1) ∧
      fa1.chunks_[0]? = some (Chunk.mk 8192 1 0) ∧
      fa1.allocChunk_ = some (Demo.bothFull.chunks_.length - 1) ∧
      fa1.chunks_.length = Demo.bothFull.chunks_.length ∧
      fa1.chunks_.Perm (Demo.bothFull.chunks_.set 0 (Chunk.mk 4096 0 1)) ∧
      (∀ j : Nat, j ≠ 0 → j ≠ Demo.bothFull.chunks_.length - 1 →
        fa1.chunks_[j]? = Demo.bothFull.chunks_[j]?) :=
  c33_move_to_tail Demo.bothFull Demo.mem 4096 0 0 0 (Chunk.mk 4096 1 0) (Chunk.mk 8192 1 0)
    (by decide) rfl (by decide) rfl rfl (by decide) (by decide) (by decide) rfl (by decide)
    rfl (by decide)

/-- The assertion of the destructor after admitted workloads. After a workload
on a freshly
constructed FixedAllocator: when no block is handed out at the end, every
Chunk of the vector has `nAvailableBlocks_ == numBlocks_`, the loop of the
destructor passes its assertion at each Chunk and releases each buffer, and
the destructor of the object, never copied, succeeds; when a block `p` is
still handed out, the Chunk that owns `p` has `nAvailableBlocks_ != numBlocks_`
and the destructor stops at its assertion. -/
theorem World.admitted_destructor (blockSize : Nat) (fa : FixedAllocator) (mem0 : Mem)
    (ops : List Op) (w : World) (self : Nat)
    (hfa : FixedAllocator.construct blockSize = some fa) (hsz : 8 * blockSize < 2 ^ 64)
    (hrun : World.run (World.fresh fa mem0) ops = some w) :
    (w.out = [] →
      (∀ c ∈ w.fa.chunks_, c.nAvailableBlocks_ = w.fa.numBlocks_) ∧
      FixedAllocator.releaseAll w.fa.numBlocks_ w.fa.chunks_ []
        = some (w.fa.chunks_.map Chunk.pData_) ∧
      ((Heap.single self w.fa).destroy self).isSome = true) ∧
    (∀ p ∈ w.out, ∃ c ∈ w.fa.chunks_, c.HasBlock w.fa.blockSize_ w.fa.numBlocks_ p ∧
      c.nAvailableBlocks_ ≠ w.fa.numBlocks_ ∧
      FixedAllocator.releaseAll w.fa.numBlocks_ w.fa.chunks_ [] = none ∧
      (Heap.single self w.fa).destroy self = none) := by
  obtain ⟨hinv0, _⟩ := World.fresh_inv mem0 hfa hsz
  obtain ⟨hinv, _, _⟩ := World.run_inv ops _ w hinv0 hrun
  constructor
  · intro hbal
    have hall : ∀ c ∈ w.fa.chunks_, c.nAvailableBlocks_ = w.fa.numBlocks_ := by
      intro c hc
      apply (hinv.chunks.sound c hc).avail_eq
      intro i _
      rw [hbal]; simp
    have hrel := FixedAllocator.releaseAll_empty w.fa.numBlocks_ w.fa.chunks_ [] hall
    rw [List.nil_append] at hrel
    refine ⟨hall, hrel, ?_⟩
    rw [Heap.destroy_single, hrel]; rfl
  · intro p hp
    obtain ⟨c, hc, i, hi, e⟩ := hinv.chunks.out_blocks p hp
    have hne : c.nAvailableBlocks_ ≠ w.fa.numBlocks_ := by
      intro he
      apply (hinv.chunks.sound c hc).all_free he i hi
      rw [← e]; exact hp
    have hrel := FixedAllocator.releaseAll_busy w.fa.numBlocks_ w.fa.chunks_ [] ⟨c, hc, hne⟩
    refine ⟨c, hc, ⟨i, hi, e⟩, hne, hrel, ?_⟩
    rw [Heap.destroy_single, hrel]; rfl

/-- An instance of the assertion of the destructor: after three allocations and their three deallocations the
destructor succeeds; with the block at 8192 still handed out it stops at its
assertion. -/
theorem World.admitted_destructor_witness :
    (∃ w, World.run (World.fresh Demo.pairs Demo.mem) Demo.balanced = some w ∧ w.out = [] ∧
      ((Heap.single 1 w.fa).destroy 1).isSome = true) ∧
    (∃ w, World.run (World.fresh Demo.singles Demo.mem) Demo.emptyThenFull = some w ∧
      8192 ∈ w.out ∧ (Heap.single 1 w.fa).destroy 1 = none) :=
  ⟨⟨Option.get _ Demo.balanced_runs, (Option.some_get Demo.balanced_runs).symm, by decide,
     ((World.admitted_destructor 2048 Demo.pairs Demo.mem Demo.balanced _ 1 (by decide)
        (by decide) (Option.some_get Demo.balanced_runs).symm).1 (by decide)).2.2⟩,
   ⟨Option.get _ Demo.emptyThenFull_some, (Option.some_get Demo.emptyThenFull_some).symm,
     by decide,
     by
       obtain ⟨_, _, _, _, _, h⟩ :=
         (World.admitted_destructor 4096 Demo.singles Demo.mem Demo.emptyThenFull _ 1 (by decide)
           (by decide) (Option.some_get Demo.emptyThenFull_some).symm).2 8192 (by decide)
       exact h⟩⟩

/-- C35: the caches are an optimisation only. In every state reached by calls
of `allocate` and `deallocate` on a freshly constructed SmallObjAllocator, for
every size (those up to `maxObjectSize_` among them), every pointer and every
memory, `allocate(size)` and `deallocate(p, size)` have the result of the
variants that ignore `pLastAlloc_` and `pLastDealloc_` and always search the
pool: the same failure, or the same returned block, the same pool entry
called, the same allocator (pool and caches) and the same memory; and a cache
that is not null is the position of an entry of the pool. -/
theorem c35_caches_optimisation (chunkSize maxObjectSize : Nat) (mem mem1 mem2 : Mem)
    (ops : List PoolOp) (s : SmallObjAllocator) (size p : Nat) (env : SysEnv)
    (hrun : SmallObjAllocator.run (SmallObjAllocator.construct chunkSize maxObjectSize) mem ops
      = some (s, mem1)) :
    s.allocate mem2 size env = Spec.searchOnlyAllocate s mem2 size env ∧
    s.deallocate mem2 p size = Spec.searchOnlyDeallocate s mem2 p size ∧
    (∀ a, s.pLastAlloc_ = some a → ∃ fa, s.pool_[a]? = some fa) ∧
    (∀ d, s.pLastDealloc_ = some d → ∃ fa, s.pool_[d]? = some fa) := by
  have hsorted : s.pool_.Pairwise (fun a b => a.blockSize_ < b.blockSize_) :=
    (SmallObjAllocator.sorted_iff s).mp
      (SmallObjAllocator.run_sorted ops _ s mem mem1 hrun
        (by simp [SmallObjAllocator.construct, SmallObjAllocator.sizes]))
  have hcaches : s.CachesValid :=
    SmallObjAllocator.run_caches ops _ s mem mem1 hrun
      ⟨by simp [SmallObjAllocator.construct], by simp [SmallObjAllocator.construct]⟩
  obtain ⟨pool, la, ld, cs, mx⟩ := s
  simp only at hsorted
  have hca : ∀ a, la = some a → a < pool.length := hcaches.1
  have hcd : ∀ d, ld = some d → d < pool.length := hcaches.2
  refine ⟨?_, ?_, ?_, ?_⟩
  · unfold SmallObjAllocator.allocate Spec.searchOnlyAllocate
    by_cases hbig : mx < size
    · simp only [hbig, if_true]
    · simp only [hbig, if_false]
      cases la with
      | none => rfl
      | some a =>
        have halt := hca a rfl
        simp only [List.getElem?_eq_getElem halt]
        by_cases hsz : pool[a].blockSize_ = size
        · simp only [hsz, if_true]
          have hat : (pool[a]?).map FixedAllocator.blockSize_ = some size := by
            rw [List.getElem?_eq_getElem halt]; simp [hsz]
          have hin : size ∈ pool.map FixedAllocator.blockSize_ :=
            List.mem_map.mpr ⟨pool[a], List.getElem_mem _, hsz⟩
          have hlb := (SmallObjAllocator.lowerBound_found size hsorted).mpr hin
          have hi := SmallObjAllocator.index_unique hsorted hat hlb
          unfold SmallObjAllocator.searchAllocate
          simp only [hi, hat, ne_eq, not_true_eq_false, or_false, Nat.ne_of_lt halt, if_false]
        · simp only [hsz, if_false]
  · unfold SmallObjAllocator.deallocate Spec.searchOnlyDeallocate
    by_cases hbig : mx < size
    · simp only [hbig, if_true]
    · simp only [hbig, if_false]
      cases ld with
      | none => rfl
      | some d =>
        have hdlt := hcd d rfl
        simp only [List.getElem?_eq_getElem hdlt]
        by_cases hsz : pool[d].blockSize_ = size
        · simp only [hsz, if_true]
          have hat : (pool[d]?).map FixedAllocator.blockSize_ = some size := by
            rw [List.getElem?_eq_getElem hdlt]; simp [hsz]
          have hin : size ∈ pool.map FixedAllocator.blockSize_ :=
            List.mem_map.mpr ⟨pool[d], List.getElem_mem _, hsz⟩
          have hlb := (SmallObjAllocator.lowerBound_found size hsorted).mpr hin
          have hi := SmallObjAllocator.index_unique hsorted hat hlb
          unfold SmallObjAllocator.searchDeallocate
          simp only [hi, List.getElem?_eq_getElem hdlt, hsz, ne_eq, not_true_eq_false, if_false]
        · simp only [hsz, if_false]
  · intro a ha
    exact ⟨pool.get ⟨a, hca a ha⟩, List.getElem?_eq_getElem (hca a ha)⟩
  · intro d hd
    exact ⟨pool.get ⟨d, hcd d hd⟩, List.getElem?_eq_getElem (hcd d hd)⟩

/-- Witness of C35: after allocations of sizes 8, 24, 16 and 1024 and two
deallocations, an allocation and a deallocation of size 16 are the
calls of the variants without the caches. -/
theorem c35_caches_optimisation_witness :
    ∃ s mem1, SmallObjAllocator.run (SmallObjAllocator.construct 4096 64) Demo.mem Demo.poolCalls
        = some (s, mem1) ∧
      s.allocate mem1 16 (Demo.sysEnv 300000)
        = Spec.searchOnlyAllocate s mem1 16 (Demo.sysEnv 300000) ∧
      s.deallocate mem1 200000 16 = Spec.searchOnlyDeallocate s mem1 200000 16 ∧
      (∀ a, s.pLastAlloc_ = some a → ∃ fa, s.pool_[a]? = some fa) ∧
      (∀ d, s.pLastDealloc_ = some d → ∃ fa, s.pool_[d]? = some fa) :=
  ⟨(Option.get _ Demo.poolCalls_run).1, (Option.get _ Demo.poolCalls_run).2,
    (Option.some_get Demo.poolCalls_run).symm,
    c35_caches_optimisation 4096 64 Demo.mem (Option.get _ Demo.poolCalls_run).2
      (Option.get _ Demo.poolCalls_run).2 Demo.poolCalls (Option.get _ Demo.poolCalls_run).1
      16 200000 (Demo.sysEnv 300000) (Option.some_get Demo.poolCalls_run).symm⟩

/-- C36: the block given back is the next one handed out. For a Chunk of
`numBlocks` blocks of `blockSize` bytes with a block handed out and `p` the
start of its block `i`, `Chunk::deallocate(p, blockSize)` succeeds and the
`Chunk::allocate(blockSize)` that follows returns `p`; the count of free
blocks is then what it was before the two calls, and so is the whole Chunk
when its `firstAvailableBlock_` was a byte. -/
theorem c36_lifo_reuse (c : Chunk) (mem : Mem) (blockSize numBlocks p i : Nat)
    (hbs : 1 ≤ blockSize) (hN : numBlocks ≤ 255) (hi : i < numBlocks)
    (hp : p = c.pData_ + i * blockSize) (hout : c.nAvailableBlocks_ < numBlocks) :
    ∃ c1 mem1, c.deallocate mem p blockSize = some (c1, mem1) ∧
      (c1.allocate mem1 blockSize).1 = some p ∧
      (c1.allocate mem1 blockSize).2.nAvailableBlocks_ = c.nAvailableBlocks_ ∧
      (c.firstAvailableBlock_ < 256 → (c1.allocate mem1 blockSize).2 = c) := by
  subst hp
  have hsub : c.pData_ + i * blockSize - c.pData_ = i * blockSize := by omega
  have hmod : (i * blockSize) % blockSize = 0 := Nat.mul_mod_left _ _
  have hdiv : (i * blockSize) / blockSize = i := Nat.mul_div_cancel _ hbs
  have himod : i % 256 = i := Nat.mod_eq_of_lt (by omega)
  have hamod : (c.nAvailableBlocks_ + 1) % 256 = c.nAvailableBlocks_ + 1 :=
    Nat.mod_eq_of_lt (by omega)
  have hde : c.deallocate mem (c.pData_ + i * blockSize) blockSize
      = some (Chunk.mk c.pData_ i (c.nAvailableBlocks_ + 1),
              mem.store (c.pData_ + i * blockSize) c.firstAvailableBlock_) := by
    simp [Chunk.deallocate, hsub, hmod, hdiv, himod, hamod]
  refine ⟨_, _, hde, ?_, ?_, ?_⟩
  · simp [Chunk.allocate]
  · simp [Chunk.allocate]
  · intro hfirst
    obtain ⟨pd, fst, av⟩ := c
    simp only at hfirst
    simp [Chunk.allocate, Mem.load, Mem.store, Nat.mod_eq_of_lt hfirst]

/-- Witness of C36: a Chunk of two blocks of 2048 bytes at 4096, both handed
out, takes the block at 6144 back and hands it out again. -/
theorem c36_lifo_reuse_witness :
    ∃ c1 mem1, (Chunk.mk 4096 2 0).deallocate Demo.mem 6144 2048 = some (c1, mem1) ∧
      (c1.allocate mem1 2048).1 = some 6144 ∧
      (c1.allocate mem1 2048).2.nAvailableBlocks_ = (Chunk.mk 4096 2 0).nAvailableBlocks_ ∧
      ((Chunk.mk 4096 2 0).firstAvailableBlock_ < 256 →
        (c1.allocate mem1 2048).2 = Chunk.mk 4096 2 0) :=
  c36_lifo_reuse (Chunk.mk 4096 2 0) Demo.mem 2048 2 6144 1 (by decide) (by decide) (by decide)
    rfl (by decide)

/-! ## Claims on the CRC -/

/-- C37: the table-driven CRC is the bit-by-bit CRC. For every parameter set
of the catalogue and every buffer of bytes, `sum(buf, len)` with the default
`crc` returns the CRC the parameters define bit by bit (`Spec.crcBitwise`);
`crc_sum`, taking `crc::algorithm` and `crc::params` as this header declares
them, is `sum` for `crc8_maxim`, whose parameters are poly 0x31, init 0,
reflected in and out, xorout 0, and it maps the bytes of "123456789" to 0xA1. -/
theorem c37_table_is_bitwise (p : Crc.Params) (buf : List Nat) (hp : p ∈ Crc.catalogue)
    (hbuf : ∀ b ∈ buf, b < 256) :
    Crc.sum p buf 0 = some (Spec.crcBitwise p buf) ∧
    Crc.crc_sum Crc.sum Crc.params.crc8_maxim buf
      = some (Spec.crcBitwise Crc.params.crc8_maxim buf) ∧
    Crc.params.crc8_maxim = ⟨8, 0x31, 0x8C, 0x00, 0x00, true, true⟩ ∧
    Crc.crc_sum Crc.sum Crc.params.crc8_maxim Demo.digits = some 0xA1 := by
  have main : ∀ q ∈ Crc.catalogue, Crc.sum q buf 0 = some (Spec.crcBitwise q buf) := by
    intro q hq
    obtain ⟨_, _, _, hinit, hxor, _, hio, hri⟩ := Crc.catalogue_facts q hq
    have hstart : (if q.refin then Spec.reflect8 q.init else q.init) = q.init := by
      by_cases hr : q.refin = true
      · rw [if_pos hr]; exact hri hr
      · rw [if_neg hr]
    have hfeed := Crc.feed_spec hq buf hbuf q.init hinit
    rw [hstart] at hfeed
    have hreg := Spec.register_lt q buf q.init hinit
    have h0 : (0 % 256 ^^^ q.init) % 256 = q.init := by
      simp [Nat.mod_eq_of_lt hinit]
    simp only [Crc.sum, Crc.sum_without_final_xor, Nat.zero_mod, if_true, hfeed,
      Option.map_some', Spec.crcBitwise, ← hio]
    have h0' : (0 ^^^ q.init) % 256 = q.init := by simpa using h0
    rw [h0', hfeed]
    simp only [Option.map_some', Option.some.injEq]
    by_cases hr : q.refin = true
    · simp only [hr, if_true]
      rw [Nat.xor_comm]
      exact Nat.mod_eq_of_lt (Crc.xor_byte (Spec.reflect8_lt _) hxor)
    · have hr : q.refin = false := by simpa using hr
      simp only [hr, Bool.false_eq_true, if_false] at hreg ⊢
      rw [Nat.xor_comm]
      exact Nat.mod_eq_of_lt (Crc.xor_byte hreg hxor)
  exact ⟨main p hp, main _ (by decide), rfl, by decide!⟩

theorem c37_table_is_bitwise_witness :
    Crc.params.crc8_itu ∈ Crc.catalogue ∧ (∀ b ∈ [1, 2, 3], b < 256) ∧
    Crc.sum Crc.params.crc8_itu [1, 2, 3] 0
      = some (Spec.crcBitwise Crc.params.crc8_itu [1, 2, 3]) ∧
    Crc.crc_sum Crc.sum Crc.params.crc8_maxim [1, 2, 3]
      = some (Spec.crcBitwise Crc.params.crc8_maxim [1, 2, 3]) ∧
    Crc.params.crc8_maxim = ⟨8, 0x31, 0x8C, 0x00, 0x00, true, true⟩ ∧
    Crc.crc_sum Crc.sum Crc.params.crc8_maxim Demo.digits = some 0xA1 :=
  ⟨by decide, by decide,
   c37_table_is_bitwise Crc.params.crc8_itu [1, 2, 3] (by decide) (by decide)⟩

/-- C38: the catalogue is consistent. `CRC_PARAMS` declares 21 parameter sets;
in each the Reversed column is the bit reversal of the Polynomial column, which
is also what `reflect_bits<8>` computes from it, and `refin == refout`. -/
theorem c38_catalogue_consistent :
    Crc.catalogue.length = 21 ∧
    ∀ p ∈ Crc.catalogue, p.rev_poly = Spec.reflect8 p.poly ∧
      p.rev_poly = Crc.reflect_bits p.poly ∧ p.refin = p.refout := by
  decide!

theorem c38_catalogue_consistent_witness :
    Crc.params.crc8_maxim ∈ Crc.catalogue ∧
    Crc.params.crc8_maxim.rev_poly = Spec.reflect8 Crc.params.crc8_maxim.poly ∧
    Crc.params.crc8_maxim.rev_poly = Crc.reflect_bits Crc.params.crc8_maxim.poly ∧
    Crc.params.crc8_maxim.refin = Crc.params.crc8_maxim.refout :=
  ⟨by decide, c38_catalogue_consistent.2 Crc.params.crc8_maxim (by decide)⟩

/-- C39: chaining restarts at zero. For `crc8_8h2f` (init 0xFF, xorout 0xFF)
the value `sum_without_final_xor` returns for the byte 0xFF is 0; `sum` of the
byte 0x00 continued from that value is 0xBD, while `sum` of the two bytes
0xFF, 0x00 is 0xFF: a `crc` of 0 passed in is taken for no `crc` at all and
the register starts again from `init`. -/
theorem c39_chaining_restarts :
    Crc.sum_without_final_xor Crc.params.crc8_8h2f [0xFF] 0 = some 0 ∧
    Crc.sum Crc.params.crc8_8h2f [0x00] 0 = some 0xBD ∧
    Crc.sum Crc.params.crc8_8h2f [0xFF, 0x00] 0 = some 0xFF := by
  decide!

/-- C40: a change of one byte changes the sum. For every parameter set of the
catalogue `lookup_table` is a permutation of 0..255; and for two buffers of
bytes of equal length that differ at position `i` and nowhere else, `sum`
returns a value for each of them and the two values differ. -/
theorem c40_single_byte_change (p : Crc.Params) (xs ys : List Nat) (i : Nat)
    (hp : p ∈ Crc.catalogue) (hxs : ∀ b ∈ xs, b < 256) (hys : ∀ b ∈ ys, b < 256)
    (hlen : xs.length = ys.length) (hi : i < xs.length) (hdiff : xs[i]? ≠ ys[i]?)
    (hsame : ∀ j : Nat, j ≠ i → xs[j]? = ys[j]?) :
    (Crc.lookup_table p).Perm (List.range 256) ∧
    ∃ u v, Crc.sum p xs 0 = some u ∧ Crc.sum p ys 0 = some v ∧ u ≠ v := by
  refine ⟨Crc.lookup_table_perm hp, ?_⟩
  obtain ⟨_, _, _, hinit, hxor, _, _, _⟩ := Crc.catalogue_facts p hp
  have hiy : i < ys.length := hlen ▸ hi
  obtain ⟨a, ha⟩ : ∃ a, xs[i]? = some a := ⟨xs[i], List.getElem?_eq_getElem hi⟩
  obtain ⟨b, hb⟩ : ∃ b, ys[i]? = some b := ⟨ys[i], List.getElem?_eq_getElem hiy⟩
  have hab : a ≠ b := by
    intro h
    apply hdiff
    rw [ha, hb, h]
  have hpre : xs.take i = ys.take i := by
    apply List.ext_getElem?
    intro j
    by_cases hj : j < i
    · rw [List.getElem?_take, List.getElem?_take, if_pos hj, if_pos hj]
      exact hsame j (by omega)
    · rw [List.getElem?_take, List.getElem?_take, if_neg hj, if_neg hj]
  have hpost : xs.drop (i + 1) = ys.drop (i + 1) := by
    apply List.ext_getElem?
    intro j
    rw [List.getElem?_drop, List.getElem?_drop]
    exact hsame _ (by omega)
  have ex := List.split_at_place xs i a ha
  have ey := List.split_at_place ys i b hb
  rw [← hpre, ← hpost] at ey
  have hax : a < 256 := hxs a (List.mem_iff_getElem?.mpr ⟨i, ha⟩)
  have hbx : b < 256 := hys b (List.mem_iff_getElem?.mpr ⟨i, hb⟩)
  have hpreb : ∀ x ∈ xs.take i, x < 256 := fun x hx => hxs x (List.mem_of_mem_take hx)
  have hpostb : ∀ x ∈ xs.drop (i + 1), x < 256 := fun x hx => hxs x (List.mem_of_mem_drop hx)
  obtain ⟨s, hs, hs256⟩ := Crc.feed_total hp _ hpreb p.init hinit
  have hsa := Crc.xor_byte hs256 hax
  have hsb := Crc.xor_byte hs256 hbx
  obtain ⟨u, hu, hu256⟩ := Crc.feed_total hp _ hpostb _ (Crc.dynamic_sum_chunk_lt hp hsa)
  obtain ⟨v, hv, hv256⟩ := Crc.feed_total hp _ hpostb _ (Crc.dynamic_sum_chunk_lt hp hsb)
  have hsx : Crc.sum p xs 0 = some ((p.xorout ^^^ u) % 256) := by
    rw [ex]
    simp only [Crc.sum_default hinit, Crc.feed_append, hs, Option.some_bind,
      Crc.feed, Crc.lookup hp hsa, hu, Option.map_some']
  have hsy : Crc.sum p ys 0 = some ((p.xorout ^^^ v) % 256) := by
    rw [ey]
    simp only [Crc.sum_default hinit, Crc.feed_append, hs, Option.some_bind,
      Crc.feed, Crc.lookup hp hsb, hv, Option.map_some']
  refine ⟨_, _, hsx, hsy, ?_⟩
  rw [Nat.mod_eq_of_lt (Crc.xor_byte hxor hu256), Nat.mod_eq_of_lt (Crc.xor_byte hxor hv256)]
  intro h
  have huv : u = v := by
    have h3 := congrArg (fun w => p.xorout ^^^ w) h
    simpa [← Nat.xor_assoc] using h3
  rw [← huv, ← hu] at hv
  have h1 := Crc.feed_inj hp _ hpostb _ _ (Crc.dynamic_sum_chunk_lt hp hsb)
    (Crc.dynamic_sum_chunk_lt hp hsa) hv
  have h2 := Crc.dynamic_sum_chunk_inj hp hsb hsa h1
  apply hab
  have h3 := congrArg (fun w => s ^^^ w) h2
  have h4 : b = a := by simpa [← Nat.xor_assoc] using h3
  exact h4.symm

theorem c40_single_byte_change_witness :
    Crc.params.crc8_maxim ∈ Crc.catalogue ∧
    (Crc.lookup_table Crc.params.crc8_maxim).Perm (List.range 256) ∧
    ∃ u v, Crc.sum Crc.params.crc8_maxim [1, 2, 3] 0 = some u ∧
      Crc.sum Crc.params.crc8_maxim [1, 7, 3] 0 = some v ∧ u ≠ v :=
  ⟨by decide,
   c40_single_byte_change Crc.params.crc8_maxim [1, 2, 3] [1, 7, 3] 1 (by decide) (by decide)
     (by decide) rfl (by decide) (by decide)
     (fun j hj => by
       match j, hj with
       | 0, _ => rfl
       | 1, h => exact absurd rfl h
       | 2, _ => rfl
       | (n + 3), _ => rfl)⟩

end SmallObj
